import Mathlib

/-!
# Fuzzy matcher (`gopls/internal/fuzzy/matcher.go`)

A shallow embedding of the fuzzy matching engine: the pattern compiler
(`NewMatcher`), the subsequence prefilter (`match`), the dynamic-programming
alignment (`computeScore`), the two backtracking walks (`poorMatch`,
`MatchedRanges`) and the public scoring entry points.

Conventions of the embedding:

* a Go `string` / `[]byte` is a `List Nat` of byte values;
* Go `int` is `Int` (all values stay within a few tens of thousands, far inside
  the 64-bit range, so no operation overflows);
* a `float32` value is the rational number it denotes, and a `float32`
  operation is the exact operation followed by the rounding `float32` to the
  nearest value of the format (ties to even);
* the matcher is a value that is passed through every call, so that the
  scratch table and the other mutable fields persist from call to call;
* the three fixed-size scratch buffers (`inputBuf`, `lowerBuf`, `rolesBuf`)
  only provide storage for the slices returned by `fromChunks`, `toLower` and
  `RuneRoles`; the slices themselves are the lists of the embedding;
* the role classifier is a parameter `rr` of every operation; by its contract
  it is pure and length-preserving, which is what makes the reads
  `m.roles[i]` and `m.patternRoles[j-1]` of the source stay in bounds
  (they are embedded as `List.getD`);
* a walk over the table that would index the table with a negative column
  (a run-time panic in Go) returns `none`.
-/

namespace Fuzzy

/-- The role of a byte inside its input (`RuneRole` of the package). -/
inductive RuneRole where
  | RNone
  | RSep
  | RTail
  | RUCTail
  | RHead
  deriving DecidableEq, Repr

open RuneRole

/-- Maximum size of a scored input. -/
def MaxInputSize : Nat := 127

/-- Maximum size of a pattern. -/
def MaxPatternSize : Nat := 63

/-- The large negative value that marks an unreachable cell. -/
def minScore : Int := -10000

/-- A packed table cell: `value << 1 + prevK`. -/
abbrev scoreVal := Int

/-- Decoding of the value, `int(s) >> 1` (arithmetic shift: floor division by two). -/
def scoreVal.val (s : scoreVal) : Int := s / 2

/-- Decoding of the predecessor bit, `int(s) & 1`. -/
def scoreVal.prevK (s : scoreVal) : Nat := (s % 2).toNat

/-- Encoding of a cell, `scoreVal(val<<1 + prevK)`. -/
def score (val : Int) (prevK : Nat) : scoreVal := val * 2 + (prevK : Int)

/-- The scratch table `scores[i][j][k]`. -/
abbrev Table := Nat → Nat → Nat → scoreVal

/-- The assignment `scores[i][j][k] = v`. -/
def Table.set (t : Table) (i j k : Nat) (v : scoreVal) : Table :=
  fun i' j' k' => if i' = i ∧ j' = j ∧ k' = k then v else t i' j' k'

/-- The loop that counts the halvings of `n` down to `1`: with enough fuel the
result is the position of the leading bit of `n`. -/
def log2Loop : Nat → Nat → Nat
  | 0, _ => 0
  | fuel + 1, n => if 2 ≤ n then log2Loop fuel (n / 2) + 1 else 0

/-- The binary exponent of the positive rational `a / b`: the greatest `e` with
`2 ^ e ≤ a / b`. -/
def binaryExponent (a b : Nat) : Int :=
  let s : Int := (log2Loop a a : Int) - (log2Loop b b : Int)
  if b * 2 ^ s.toNat ≤ a * 2 ^ (-s).toNat then s else s - 1

/-- The positive rational `a / b` rounded to 24 significant bits, to the nearest
value and to the even one on a tie. -/
def roundSignificand (a b : Nat) : ℚ :=
  let k : Int := 23 - binaryExponent a b
  let n := a * 2 ^ k.toNat
  let d := b * 2 ^ (-k).toNat
  let f := n / d
  let r := n % d
  let m :=
    if 2 * r < d then f else if d < 2 * r then f + 1 else if f % 2 = 0 then f else f + 1
  ((m * 2 ^ (-k).toNat : Nat) : ℚ) / ((2 ^ k.toNat : Nat) : ℚ)

/-- The Go conversion `float32(x)`, and the rounding of every `float32`
operation: the nearest value with a significand of 24 bits, ties to even. The
exponent range of the format is not modelled: every value that occurs lies
between `2 ^ (-8)` and `2 ^ 8`. -/
def float32 (q : ℚ) : ℚ :=
  if q = 0 then 0
  else if 0 < q then roundSignificand q.num.toNat q.den
  else -roundSignificand (-q).num.toNat q.den

/-- The normalised score of `ScoreChunks`, `min(float32(sc)*m.scoreScale, 1)`,
with the product rounded as the `float32` multiplication rounds it. -/
def normalizedScore (sc : Int) (scoreScale : ℚ) : ℚ :=
  min (float32 (float32 (sc : ℚ) * scoreScale)) 1

/-- The matcher: compiled pattern fields and the mutable scratch state. -/
structure Matcher where
  pattern : List Nat
  patternLower : List Nat
  patternShort : List Nat
  caseSensitive : Bool
  patternRoles : List RuneRole
  roles : List RuneRole
  scores : Table
  scoreScale : ℚ
  lastCandidateLen : Nat
  lastCandidateMatched : Bool

/-- Modelled from the spec: `toLower` (its source file is not among the checked
files) produces the lowercased form of a byte sequence, byte by byte; an ASCII
upper-case letter is mapped to its lower-case letter and every other byte is
kept. -/
def toLower (input : List Nat) : List Nat :=
  input.map (fun r => if 65 ≤ r ∧ r ≤ 90 then r + 32 else r)

/-- Modelled from the spec: `fromChunks` (its source file is not among the
checked files) concatenates the input fragments into the input buffer, stopping
when the buffer of `cap` bytes is full. -/
def fromChunks (chunks : List (List Nat)) (cap : Nat) : List Nat :=
  chunks.flatten.take cap

/-- Modelled from the spec: the character class used by the role classifier
(`0` other, `1` punctuation, `2` lower-case letter or digit, `3` upper-case
letter); bytes outside ASCII count as lower-case. -/
def runeType (b : Nat) : Nat :=
  if 127 < b then 2
  else if b = 46 ∨ b = 47 ∨ b = 58 then 1
  else if (48 ≤ b ∧ b ≤ 57) ∨ (97 ≤ b ∧ b ≤ 122) then 2
  else if 65 ≤ b ∧ b ≤ 90 then 3
  else 0

/-- Modelled from the spec: one step of the role classifier. The accumulator
holds the roles produced so far (most recent first) and the classes of the two
preceding bytes. -/
def runeRolesStep (isLast : Bool) (acc : List RuneRole × Nat × Nat) (b : Nat) :
    List RuneRole × Nat × Nat :=
  let out := acc.1
  let prev := acc.2.1
  let prev2 := acc.2.2
  let curr := runeType b
  let role :=
    if curr = 2 then (if prev = 0 ∨ prev = 1 then RHead else RTail)
    else if curr = 3 then (if prev = 3 ∧ isLast then RUCTail else RHead)
    else if curr = 1 then (if b = 46 ∨ b = 58 then RSep else RNone)
    else RNone
  let out :=
    match out with
    | r1 :: r2 :: rest =>
      if curr ≠ 2 ∧ r1 = RHead ∧ prev2 = 3 ∧ (r2 = RHead ∨ r2 = RUCTail) then
        RUCTail :: r2 :: rest
      else out
    | _ => out
  (role :: out, curr, prev)

/-- Modelled from the spec: the loop of the role classifier over the bytes. -/
def runeRolesLoop : List Nat → List RuneRole × Nat × Nat → List RuneRole
  | [], acc => acc.1.reverse
  | b :: rest, acc => runeRolesLoop rest (runeRolesStep rest.isEmpty acc b)

/-- Modelled from the spec: `RuneRoles` (its source file is not among the
checked files), the role classifier: a pure, length-preserving function from a
byte sequence to roles drawn from separator, word-start, word-continuation,
upper-case continuation and other. A lower-case letter or digit starts a word
after the start of the input or after punctuation and continues it otherwise,
an upper-case letter starts a word unless it continues a run of upper-case
letters, and the bytes `.` and `:` are separators. -/
def RuneRoles (candidate : List Nat) : List RuneRole :=
  runeRolesLoop candidate ([], 0, 0)

/-- The better of the two states of a cell (`Matcher.bestK`). -/
def Matcher.bestK (m : Matcher) (i j : Nat) : Nat :=
  if scoreVal.val (m.scores i j 0) < scoreVal.val (m.scores i j 1) then 1 else 0

/-- Construction of a matcher for a pattern (`NewMatcher`). -/
def NewMatcher (rr : List Nat → List RuneRole) (pattern : List Nat) : Matcher :=
  let pattern := if pattern.length > MaxPatternSize then pattern.take MaxPatternSize else pattern
  let patternLower := toLower pattern
  { pattern := pattern
    patternLower := patternLower
    caseSensitive := (List.zip pattern patternLower).any (fun p => p.1 != p.2)
    patternShort := if pattern.length > 3 then patternLower.take 3 else patternLower
    patternRoles := rr pattern
    roles := []
    scores := fun _ _ _ => 0
    scoreScale :=
      if pattern.length > 0 then float32 (1 / float32 (((4 * pattern.length : Nat) : Int) : ℚ))
      else 0
    lastCandidateLen := 0
    lastCandidateMatched := false }

/-- The cursor loop of the prefilter: the pattern cursor advances on every
candidate byte equal to the current pattern byte; the result is what is left of
the pattern when the loop stops. -/
def matchLoop : List Nat → List Nat → List Nat
  | _, [] => []
  | [], p :: ps => p :: ps
  | c :: cs, p :: ps => if c = p then matchLoop cs ps else matchLoop cs (p :: ps)

/-- The prefilter (`Matcher.match`): a greedy subsequence test; on success the
roles of the candidate are computed and stored. -/
def Matcher.match_ (rr : List Nat → List RuneRole) (m : Matcher)
    (candidate candidateLower : List Nat) : Matcher × Bool :=
  if (matchLoop candidateLower m.patternLower).length ≠ 0 then (m, false)
  else ({ m with roles := rr candidate }, true)

/-- The body of the loop over `k` in `computeScore`: a candidate value for the
match state of cell `(i, j)` coming from state `k` of cell `(i-1, j-1)`. -/
def matchStep (lastSegStart i j : Nat) (role : RuneRole) (charScore : Int)
    (scores : Table) (k : Nat) : Table :=
  let sc := scoreVal.val (scores (i - 1) (j - 1) k) + charScore
  let isConsecutive := k = 1 ∨ i - 1 = 0 ∨ i - 1 = lastSegStart
  let sc := if isConsecutive then sc + 2 else sc
  let sc := if k = 0 then (if role = RTail ∨ role = RUCTail then sc - 3 else sc) else sc
  if sc > scoreVal.val (scores i j 1) then scores.set i j 1 (score sc k) else scores

/-- The body of the loop over `j` in `computeScore`: both states of cell `(i, j)`. -/
def cellStep (m : Matcher) (candidate candidateLower : List Nat) (lastSegStart i : Nat)
    (role : RuneRole) (segmentsLeft : Nat) (skipPenalty : Int) (scores : Table) (j : Nat) :
    Table :=
  let pattLen := m.pattern.length
  let scores := scores.set i j 1 (minScore * 2)
  let k := if scoreVal.val (scores (i - 1) j 0) < scoreVal.val (scores (i - 1) j 1) then 1 else 0
  let skipScore := scoreVal.val (scores (i - 1) j k)
  let skipScore := if j ≠ pattLen then skipScore - skipPenalty else skipScore
  let scores := scores.set i j 0 (score skipScore k)
  if j = 0 ∨ candidateLower.getD (i - 1) 0 ≠ m.patternLower.getD (j - 1) 0 then scores
  else
    let pRole := m.patternRoles.getD (j - 1) RNone
    if role = RTail ∧ pRole = RHead ∧
        (j > 1 ∨ ¬ (m.patternShort.isPrefixOf (candidateLower.drop (i - 1)) = true)) then scores
    else
      let charScore : Int := 0
      let charScore := if segmentsLeft ≤ 1 then charScore + 1 else charScore
      let charScore :=
        if candidate.getD (i - 1) 0 = m.pattern.getD (j - 1) 0 ∨
            (role = RHead ∧ m.caseSensitive = false) then charScore + 1 else charScore
      let charScore := if role = RTail ∧ pRole = RHead then charScore - 1 else charScore
      let charScore := if j = 1 ∧ role = RTail then charScore - 4 else charScore
      (List.range 2).foldl (matchStep lastSegStart i j role charScore) scores

/-- The body of the loop over `i` in `computeScore`: row `i` of the table. The
state is the table, `wordIdx` and `segmentsLeft`. -/
def rowStep (m : Matcher) (candidate candidateLower : List Nat) (lastSegStart : Nat)
    (st : Table × Nat × Nat) (i : Nat) : Table × Nat × Nat :=
  let scores := st.1
  let wordIdx := st.2.1
  let segmentsLeft := st.2.2
  let role := m.roles.getD (i - 1) RNone
  let isHead := role = RHead
  let wordIdx := if isHead then wordIdx + 1 else if role = RSep ∧ segmentsLeft > 1 then 0 else wordIdx
  let segmentsLeft :=
    if isHead then segmentsLeft else if role = RSep ∧ segmentsLeft > 1 then segmentsLeft - 1
    else segmentsLeft
  let skipPenalty : Int := if i = 1 ∨ i - 1 = lastSegStart then 1 else 0
  let scores := (List.range (m.pattern.length + 1)).foldl
    (cellStep m candidate candidateLower lastSegStart i role segmentsLeft skipPenalty) scores
  (scores, wordIdx, segmentsLeft)

/-- The loop of `computeScore` that counts the segments and finds the start of
the last one; the state is `(segmentsLeft, lastSegStart)`. -/
def segStep (roles : List RuneRole) (st : Nat × Nat) (i : Nat) : Nat × Nat :=
  if roles.getD i RNone = RSep then (st.1 + 1, i + 1) else st

/-- Initialisation of row `0` in `computeScore`. -/
def initRow (pattLen : Nat) (scores : Table) : Table :=
  let scores := (List.range (pattLen + 1)).foldl
    (fun t j => (t.set 0 j 0 (minScore * 2)).set 0 j 1 (minScore * 2)) scores
  scores.set 0 0 0 (score 0 0)

/-- The alignment engine (`Matcher.computeScore`): fills the table for the
candidate and returns the value of the better final state. -/
def Matcher.computeScore (m : Matcher) (candidate candidateLower : List Nat) : Matcher × Int :=
  let candLen := candidate.length
  let scores := initRow m.pattern.length m.scores
  let seg := (List.range candLen).foldl (segStep m.roles) (1, 0)
  let segmentsLeft := seg.1
  let lastSegStart := seg.2
  let st := ((List.range candLen).map (· + 1)).foldl
    (rowStep m candidate candidateLower lastSegStart) (scores, 0, segmentsLeft)
  let m := { m with scores := st.1 }
  (m, scoreVal.val (m.scores candidate.length m.pattern.length
    (m.bestK candidate.length m.pattern.length)))

/-- The loop of `poorMatch`, by recursion on the row `i`; `none` is the panic of
an index below zero. -/
def poorMatchLoop (m : Matcher) : Nat → Int → Nat → Nat → Nat → Option Bool
  | 0, _, _, _, _ => some false
  | i + 1, j, k, counter, len =>
    if j < 0 then none
    else
      let take := k = 1
      let k' := scoreVal.prevK (m.scores (i + 1) j.toNat k)
      if take then
        let len := len + 1
        if k' = 0 ∧ len < 3 ∧ m.roles.getD i RNone = RTail then
          let counter := counter + 1
          if counter > 1 then some true
          else poorMatchLoop m i (j - 1) k' counter len
        else poorMatchLoop m i (j - 1) k' counter len
      else poorMatchLoop m i j k' counter 0

/-- The heuristic veto of fragmented matches (`Matcher.poorMatch`). -/
def Matcher.poorMatch (m : Matcher) : Option Bool :=
  if m.pattern.length < 2 then some false
  else
    poorMatchLoop m m.lastCandidateLen (m.pattern.length : Int)
      (m.bestK m.lastCandidateLen m.pattern.length) 0 0

/-- Scoring of a candidate given in chunks (`Matcher.ScoreChunks`); the result
is the matcher after the call and the score, `none` is a panic. -/
def Matcher.ScoreChunks (rr : List Nat → List RuneRole) (m : Matcher)
    (chunks : List (List Nat)) : Option (Matcher × ℚ) :=
  let candidate := fromChunks chunks MaxInputSize
  let candidate := if candidate.length > MaxInputSize then candidate.take MaxInputSize else candidate
  let lower := toLower candidate
  let m := { m with lastCandidateLen := candidate.length }
  if m.pattern.length = 0 then some (m, 1)
  else
    let r := m.match_ rr candidate lower
    if r.2 = true then
      let c := r.1.computeScore candidate lower
      let m := c.1
      let sc := c.2
      if sc > minScore / 2 then
        match m.poorMatch with
        | none => none
        | some true => some ({ m with lastCandidateMatched := false }, 0)
        | some false =>
          let m := { m with lastCandidateMatched := true }
          if m.pattern.length = candidate.length then some (m, 1)
          else
            let sc := if sc < 0 then 0 else sc
            some (m, normalizedScore sc m.scoreScale)
      else some ({ m with lastCandidateMatched := false }, 0)
    else some ({ r.1 with lastCandidateMatched := false }, 0)

/-- Scoring of a single candidate (`Matcher.Score`). -/
def Matcher.Score (rr : List Nat → List RuneRole) (m : Matcher) (candidate : List Nat) :
    Option (Matcher × ℚ) :=
  m.ScoreChunks rr [candidate]

/-- The loop of `MatchedRanges`, by recursion on the row `i`; `ret` is built
back to front; `none` is the panic of an index below zero. -/
def matchedRangesLoop (m : Matcher) : Nat → Int → Nat → List Nat → Option (List Nat)
  | 0, _, _, ret => some ret
  | i + 1, j, k, ret =>
    if j < 0 then none
    else
      let take := k = 1
      let k' := scoreVal.prevK (m.scores (i + 1) j.toNat k)
      if take then
        let ret :=
          if ret.length = 0 ∨ ret.getLast? ≠ some (i + 1) then ret ++ [i + 1, i]
          else ret.dropLast ++ [i]
        matchedRangesLoop m i (j - 1) k' ret
      else matchedRangesLoop m i j k' ret

/-- The range extractor (`Matcher.MatchedRanges`): the matched byte ranges of
the last scored candidate as a flat list of `[begin, end)` pairs. -/
def Matcher.MatchedRanges (m : Matcher) : Option (List Nat) :=
  if m.pattern.length = 0 ∨ m.lastCandidateMatched = false then some []
  else
    let i := m.lastCandidateLen
    let j := m.pattern.length
    if scoreVal.val (m.scores i j 0) < minScore / 2 ∧ scoreVal.val (m.scores i j 1) < minScore / 2
    then some []
    else (matchedRangesLoop m i (j : Int) (m.bestK i j) []).map List.reverse

/-! ## The table as a recurrence -/

/-- The value written to the skip state of cell `(i, j)`, as a function of the
cell `a` above it. -/
def skipCell (pattLen : Nat) (skipPenalty : Int) (j : Nat) (a : Nat → scoreVal) : scoreVal :=
  let k := if scoreVal.val (a 0) < scoreVal.val (a 1) then 1 else 0
  let skipScore := scoreVal.val (a k)
  let skipScore := if j ≠ pattLen then skipScore - skipPenalty else skipScore
  score skipScore k

/-- The condition under which `computeScore` leaves the match state of cell
`(i, j)` at the sentinel. -/
def noMatch (m : Matcher) (candidateLower : List Nat) (i j : Nat) (role : RuneRole) : Prop :=
  (j = 0 ∨ candidateLower.getD (i - 1) 0 ≠ m.patternLower.getD (j - 1) 0) ∨
    (role = RTail ∧ m.patternRoles.getD (j - 1) RNone = RHead ∧
      (j > 1 ∨ ¬ (m.patternShort.isPrefixOf (candidateLower.drop (i - 1)) = true)))

instance (m : Matcher) (candidateLower : List Nat) (i j : Nat) (role : RuneRole) :
    Decidable (noMatch m candidateLower i j role) := by
  unfold noMatch; infer_instance

/-- The character score of `computeScore` for cell `(i, j)`. -/
def charScoreOf (m : Matcher) (candidate : List Nat) (i j : Nat) (role : RuneRole)
    (segmentsLeft : Nat) : Int :=
  let pRole := m.patternRoles.getD (j - 1) RNone
  let charScore : Int := 0
  let charScore := if segmentsLeft ≤ 1 then charScore + 1 else charScore
  let charScore :=
    if candidate.getD (i - 1) 0 = m.pattern.getD (j - 1) 0 ∨
        (role = RHead ∧ m.caseSensitive = false) then charScore + 1 else charScore
  let charScore := if role = RTail ∧ pRole = RHead then charScore - 1 else charScore
  let charScore := if j = 1 ∧ role = RTail then charScore - 4 else charScore
  charScore

/-- The candidate value offered to the match state of cell `(i, j)` by state `k`
of the diagonal cell `b`. -/
def matchCand (lastSegStart i : Nat) (role : RuneRole) (charScore : Int)
    (b : Nat → scoreVal) (k : Nat) : Int :=
  let sc := scoreVal.val (b k) + charScore
  let isConsecutive := k = 1 ∨ i - 1 = 0 ∨ i - 1 = lastSegStart
  let sc := if isConsecutive then sc + 2 else sc
  let sc := if k = 0 then (if role = RTail ∨ role = RUCTail then sc - 3 else sc) else sc
  sc

/-- One round of the loop over `k`, on the current content `cur` of the match state. -/
def matchUpd (lastSegStart i : Nat) (role : RuneRole) (charScore : Int)
    (b : Nat → scoreVal) (cur : scoreVal) (k : Nat) : scoreVal :=
  if matchCand lastSegStart i role charScore b k > scoreVal.val cur then
    score (matchCand lastSegStart i role charScore b k) k
  else cur

/-- The value written to the match state of cell `(i, j)`, as a function of the
diagonal cell `b`. -/
def matchCell (m : Matcher) (candidate candidateLower : List Nat) (lastSegStart i j : Nat)
    (role : RuneRole) (segmentsLeft : Nat) (b : Nat → scoreVal) : scoreVal :=
  if noMatch m candidateLower i j role then minScore * 2
  else
    (List.range 2).foldl
      (matchUpd lastSegStart i role (charScoreOf m candidate i j role segmentsLeft) b)
      (minScore * 2)

/-- The two states of cell `(i, j)` of a row, as a function of the row `prev` above. -/
def rowOf (m : Matcher) (candidate candidateLower : List Nat) (lastSegStart i : Nat)
    (role : RuneRole) (segmentsLeft : Nat) (skipPenalty : Int) (prev : Nat → Nat → scoreVal)
    (j k : Nat) : scoreVal :=
  if k = 0 then skipCell m.pattern.length skipPenalty j (prev j)
  else matchCell m candidate candidateLower lastSegStart i j role segmentsLeft (prev (j - 1))

/-- The update of `wordIdx` and `segmentsLeft` at the head of the loop over `i`. -/
def ctxStep (roles : List RuneRole) (st : Nat × Nat) (i : Nat) : Nat × Nat :=
  let role := roles.getD (i - 1) RNone
  (if role = RHead then st.1 + 1 else if role = RSep ∧ st.2 > 1 then 0 else st.1,
   if role = RHead then st.2 else if role = RSep ∧ st.2 > 1 then st.2 - 1 else st.2)

/-- The pair `(wordIdx, segmentsLeft)` in force in row `i`. -/
def ctxAt (roles : List RuneRole) (segmentsLeft : Nat) (i : Nat) : Nat × Nat :=
  ((List.range i).map (· + 1)).foldl (ctxStep roles) (0, segmentsLeft)

/-- The table that `computeScore` computes, as a recurrence over the rows: it
depends on the compiled pattern, the candidate and its roles only. -/
def dpTable (m : Matcher) (candidate candidateLower : List Nat) : Nat → Nat → Nat → scoreVal
  | 0, j, k => if j = 0 ∧ k = 0 then score 0 0 else minScore * 2
  | i + 1, j, k =>
    let seg := (List.range candidate.length).foldl (segStep m.roles) (1, 0)
    rowOf m candidate candidateLower seg.2 (i + 1) (m.roles.getD i RNone)
      (ctxAt m.roles seg.1 (i + 1)).2 (if i + 1 = 1 ∨ i = seg.2 then 1 else 0)
      (dpTable m candidate candidateLower i) j k

/-! ## Observables and auxiliary predicates -/

/-- A cell holds a value derived from the sentinel. -/
def isSent (T : Nat → Nat → Nat → scoreVal) (i j k : Nat) : Prop :=
  scoreVal.val (T i j k) ≤ minScore + 4 * (j : Int)

/-- A cell holds the value of a real alignment. -/
def isReal (T : Nat → Nat → Nat → scoreVal) (i j k : Nat) : Prop :=
  -(8 * (j : Int) + (i : Int)) ≤ scoreVal.val (T i j k)

/-- The shape of the list that the walk of `MatchedRanges` builds: strictly
decreasing, of even length, between the current row and the candidate length. -/
def rangesInv (n i : Nat) (ret : List Nat) : Prop :=
  ret.Pairwise (· > ·) ∧ ret.length % 2 = 0 ∧ ∀ x ∈ ret, i ≤ x ∧ x ≤ n

/-- The candidate that `ScoreChunks` scores: the concatenated chunks, cut to
`MaxInputSize` bytes. -/
def candidateOf (chunks : List (List Nat)) : List Nat :=
  let candidate := fromChunks chunks MaxInputSize
  if candidate.length > MaxInputSize then candidate.take MaxInputSize else candidate

/-- Two matchers hold the same compiled pattern. -/
def Matcher.compiledAs (m m0 : Matcher) : Prop :=
  m.pattern = m0.pattern ∧ m.patternLower = m0.patternLower ∧
    m.patternShort = m0.patternShort ∧ m.caseSensitive = m0.caseSensitive ∧
    m.patternRoles = m0.patternRoles ∧ m.scoreScale = m0.scoreScale

/-- The state of a matcher after a matched call on `candidate`, with the table of
the recurrence in place of the scratch table. -/
def Matcher.scored (rr : List Nat → List RuneRole) (m0 : Matcher) (candidate : List Nat) :
    Matcher :=
  { m0 with
    roles := rr candidate
    scores := dpTable { m0 with roles := rr candidate } candidate (toLower candidate)
    lastCandidateLen := candidate.length
    lastCandidateMatched := true }

/-- What a caller observes of one scoring call: the score and the ranges that
`MatchedRanges` returns right after it. -/
def Matcher.observe (rr : List Nat → List RuneRole) (m : Matcher) (chunks : List (List Nat)) :
    Option (ℚ × List Nat) :=
  match m.ScoreChunks rr chunks with
  | none => none
  | some r =>
    match r.1.MatchedRanges with
    | none => none
    | some rs => some (r.2, rs)

/-- A sequence of scoring calls on one matcher. -/
def runCalls (rr : List Nat → List RuneRole) (m : Matcher) :
    List (List (List Nat)) → Option Matcher
  | [] => some m
  | chunks :: rest =>
    match m.ScoreChunks rr chunks with
    | none => none
    | some r => runCalls rr r.1 rest

/-- The observable result of a scoring call, computed from the compiled pattern
and the table of the recurrence alone. -/
def Matcher.refObserve (rr : List Nat → List RuneRole) (m0 : Matcher)
    (chunks : List (List Nat)) : Option (ℚ × List Nat) :=
  let candidate := candidateOf chunks
  if m0.pattern.length = 0 then some (1, [])
  else if matchLoop (toLower candidate) m0.patternLower ≠ [] then some (0, [])
  else
    let s := m0.scored rr candidate
    let sc := scoreVal.val (s.scores candidate.length m0.pattern.length
      (s.bestK candidate.length m0.pattern.length))
    if sc ≤ minScore / 2 then some (0, [])
    else
      match s.poorMatch with
      | none => none
      | some true => some (0, [])
      | some false =>
        match s.MatchedRanges with
        | none => none
        | some rs =>
          some (if m0.pattern.length = candidate.length then 1
            else normalizedScore (if sc < 0 then 0 else sc) m0.scoreScale, rs)

/-- The matcher on which `computeScore` runs after the prefilter passed. -/
def Matcher.prepared (rr : List Nat → List RuneRole) (m : Matcher) (candidate : List Nat) :
    Matcher :=
  { m with lastCandidateLen := candidate.length, roles := rr candidate }

/-- The score that `ScoreChunks(chunks)` returns on the matcher built by
`NewMatcher(pattern)` after the earlier calls `hist`; `none` is a panic. -/
def scoreAfter (rr : List Nat → List RuneRole) (pattern : List Nat)
    (hist : List (List (List Nat))) (chunks : List (List Nat)) : Option ℚ :=
  (runCalls rr (NewMatcher rr pattern) hist).bind
    (fun m => (m.ScoreChunks rr chunks).map (fun r => r.2))

/-- The result of `MatchedRanges()` right after the call `ScoreChunks(chunks)` on
the matcher built by `NewMatcher(pattern)` after the earlier calls `hist`. -/
def rangesAfter (rr : List Nat → List RuneRole) (pattern : List Nat)
    (hist : List (List (List Nat))) (chunks : List (List Nat)) : Option (List Nat) :=
  (runCalls rr (NewMatcher rr pattern) hist).bind
    (fun m => (m.ScoreChunks rr chunks).bind (fun r => r.1.MatchedRanges))

/-- The raw alignment value that `computeScore` returns for the candidate, on a
fresh matcher for the pattern. -/
def rawScore (rr : List Nat → List RuneRole) (pattern : List Nat)
    (chunks : List (List Nat)) : Int :=
  (((NewMatcher rr pattern).prepared rr (candidateOf chunks)).computeScore (candidateOf chunks)
    (toLower (candidateOf chunks))).2

/-- The verdict of `poorMatch` after `computeScore` ran for the candidate, on a
fresh matcher for the pattern. -/
def poorFlag (rr : List Nat → List RuneRole) (pattern : List Nat)
    (chunks : List (List Nat)) : Option Bool :=
  (((NewMatcher rr pattern).prepared rr (candidateOf chunks)).computeScore (candidateOf chunks)
    (toLower (candidateOf chunks))).1.poorMatch

/-- The loop of `BestMatch` over the names; the state is the matcher `fuzz`, the
best name so far and its score; `none` is a panic of a scoring call. -/
def bestMatchLoop (rr : List Nat → List RuneRole) (pattern : List Nat) :
    Matcher → List Nat → ℚ → List (List Nat) → Option (List Nat)
  | _, best, _, [] => some best
  | fuzz, best, highScore, name :: rest =>
    match fuzz.Score rr name with
    | none => none
    | some r =>
      if r.2 > highScore then bestMatchLoop rr pattern r.1 name r.2 rest
      else if r.2 = 0 then
        match (NewMatcher rr name).Score rr pattern with
        | none => none
        | some rev =>
          if rev.2 > highScore then bestMatchLoop rr pattern r.1 name rev.2 rest
          else bestMatchLoop rr pattern r.1 best highScore rest
      else bestMatchLoop rr pattern r.1 best highScore rest

/-- The ranker (`BestMatch`): the name most similar to the pattern, or the empty
string. -/
def BestMatch (rr : List Nat → List RuneRole) (pattern : List Nat)
    (names : List (List Nat)) : Option (List Nat) :=
  bestMatchLoop rr pattern (NewMatcher rr pattern) [] 0 names

/-- The score `NewMatcher(pattern).Score(candidate)` of a fresh matcher. -/
def scoreOf (rr : List Nat → List RuneRole) (pattern candidate : List Nat) : ℚ :=
  (scoreAfter rr pattern [] [candidate]).getD 0

/-- The effective score of a name in `BestMatch`: the score of the name against
the pattern when that is positive, and otherwise the score of the pattern against
the name. -/
def effectiveScore (rr : List Nat → List RuneRole) (pattern name : List Nat) : ℚ :=
  if 0 < scoreOf rr pattern name then scoreOf rr pattern name else scoreOf rr name pattern

/-- The offset at which the last segment of the candidate starts, as the first
loop of `computeScore` finds it. -/
def lastSegStartOf (m : Matcher) (candidate : List Nat) : Nat :=
  ((List.range candidate.length).foldl (segStep m.roles) (1, 0)).2

/-- The value of `segmentsLeft` in force in row `i` of `computeScore`. -/
def segmentsLeftAt (m : Matcher) (candidate : List Nat) (i : Nat) : Nat :=
  (ctxAt m.roles ((List.range candidate.length).foldl (segStep m.roles) (1, 0)).1 i).2

/-- The skip penalty of one step: `1` when candidate byte `i` (counted from one)
is the first byte or the first byte of the last segment, unless the whole
pattern is consumed already. -/
def skipCost (m : Matcher) (candidate : List Nat) (i j : Nat) : Int :=
  if j ≠ m.pattern.length ∧ (i = 1 ∨ i - 1 = lastSegStartOf m candidate) then 1 else 0

/-- The gain of one match step into cell `(i, j)` from state `k` of the diagonal
cell: the character score, the consecutive bonus `+2` and the misalignment
penalty `-3`. -/
def takeGain (m : Matcher) (candidate : List Nat) (i j k : Nat) : Int :=
  charScoreOf m candidate i j (m.roles.getD (i - 1) RNone) (segmentsLeftAt m candidate i) +
    (if k = 1 ∨ i - 1 = 0 ∨ i - 1 = lastSegStartOf m candidate then 2 else 0) -
    (if k = 0 ∧ (m.roles.getD (i - 1) RNone = RTail ∨ m.roles.getD (i - 1) RNone = RUCTail)
      then 3 else 0)

/-- One step of an alignment: `true` aligns the next candidate byte to the next
pattern byte, which is admissible only where `computeScore` admits the match;
`false` skips the candidate byte. The state is the cell `(i, j)`, the state `k`
reached in it and the value so far. -/
def alignStep (m : Matcher) (candidate candidateLower : List Nat)
    (st : Option (Nat × Nat × Nat × Int)) (take : Bool) : Option (Nat × Nat × Nat × Int) :=
  match st with
  | none => none
  | some (i, j, k, v) =>
    if take = true then
      if noMatch m candidateLower (i + 1) (j + 1) (m.roles.getD i RNone) then none
      else some (i + 1, j + 1, 1, v + takeGain m candidate (i + 1) (j + 1) k)
    else some (i + 1, j, 0, v - skipCost m candidate (i + 1) j)

/-- The cell, state and value that a list of alignment steps reaches from the
empty alignment; `none` when a step is not admissible. -/
def alignValue (m : Matcher) (candidate candidateLower : List Nat) (steps : List Bool) :
    Option (Nat × Nat × Nat × Int) :=
  steps.foldl (alignStep m candidate candidateLower) (some (0, 0, 0, 0))

/-- An admissible alignment of the first `j` pattern bytes into the first `i`
candidate bytes that ends in state `k` and has value `v` exists. -/
def Admissible (m : Matcher) (candidate candidateLower : List Nat) (i j k : Nat) (v : Int) :
    Prop :=
  ∃ steps : List Bool, alignValue m candidate candidateLower steps = some (i, j, k, v)

/-- The number of rows up to `i` that carry a skip penalty. -/
def penaltyRows (lastSegStart i : Nat) : Int :=
  (if 1 ≤ i then 1 else 0) + (if 1 ≤ lastSegStart ∧ lastSegStart + 1 ≤ i then 1 else 0)

/-- The most that `j` match steps can lose. -/
def alignFloor (j : Nat) : Int := if j = 0 then 0 else 3 * (j : Int) + 5

/-- The value that a Go `int` of 64 bits holds after an operation whose exact
result is `x`: the result wraps around in two's complement. -/
def wrapInt64 (x : Int) : Int := (x + 2 ^ 63) % 2 ^ 64 - 2 ^ 63

/-- The number of separator bytes at the offsets from `i` up to `n - 1`. -/
def sepCount (roles : List RuneRole) (i : Nat) : Nat → Nat
  | 0 => 0
  | n + 1 => sepCount roles i n + (if i ≤ n ∧ roles.getD n RNone = RSep then 1 else 0)

/-- The update of the list `ret` at a matched row `i + 1` of the walk of
`MatchedRanges`, on the list read from its end (the order in which the caller
receives it): the range that begins at `i + 1` is extended by the byte `i`, or
the range `[i, i + 1)` is put in front. -/
def pushRange (i : Nat) : List Nat → List Nat
  | [] => [i, i + 1]
  | b :: rest => if b = i + 1 then i :: rest else i :: (i + 1) :: b :: rest

/-- The walk of `MatchedRanges` with the list kept in the order of the result;
`matchedRangesLoop_reverse` relates it to `matchedRangesLoop`. -/
def rangesWalk (m : Matcher) : Nat → Int → Nat → List Nat → Option (List Nat)
  | 0, _, _, asc => some asc
  | i + 1, j, k, asc =>
    if j < 0 then none
    else if k = 1 then
      rangesWalk m i (j - 1) (scoreVal.prevK (m.scores (i + 1) j.toNat k)) (pushRange i asc)
    else rangesWalk m i j (scoreVal.prevK (m.scores (i + 1) j.toNat k)) asc

/-- The candidate offsets that a flat list of `[begin, end)` pairs covers, in the
order of the list. -/
def coveredOffsets : List Nat → List Nat
  | b :: e :: rest => List.range' b (e - b) ++ coveredOffsets rest
  | _ => []

/-- The number of ranges of a flat list of `[begin, end)` pairs that are shorter
than 3 bytes and begin on a byte of the role `RTail`. -/
def shortTailRuns (roles : List RuneRole) : List Nat → Nat
  | b :: e :: rest =>
    (if e - b < 3 ∧ roles.getD b RNone = RTail then 1 else 0) + shortTailRuns roles rest
  | _ => 0

/-- The shape of the list of ranges while the walk is above row `i`: the first
range, if there is one, is not empty and begins at `i` or later. -/
def rangeShape (i : Nat) : List Nat → Prop
  | [] => True
  | [_] => False
  | b :: e :: _ => i ≤ b ∧ b < e

/-- The ranges that are complete when the walk enters row `i` in state `k`: all
of them, except the first one if the walk is about to extend it. -/
def closedRuns (i k : Nat) (asc : List Nat) : List Nat :=
  if k = 1 ∧ asc.head? = some i then asc.drop 2 else asc

/-- The length of the range that begins at `i`, if the list begins with one. -/
def openLen (i : Nat) : List Nat → Nat
  | b :: e :: _ => if b = i then e - b else 0
  | _ => 0

/-- The ranges that `MatchedRanges` extracts from the table that `computeScore`
leaves for the candidate, on a fresh matcher for the pattern, as they are
returned if the call is accepted. -/
def backtrackedRanges (rr : List Nat → List RuneRole) (pattern : List Nat)
    (chunks : List (List Nat)) : Option (List Nat) :=
  ({ (((NewMatcher rr pattern).prepared rr (candidateOf chunks)).computeScore
      (candidateOf chunks) (toLower (candidateOf chunks))).1 with
    lastCandidateMatched := true } : Matcher).MatchedRanges

/-- The flag `lastCandidateMatched` that the call `ScoreChunks(chunks)` leaves on
the matcher built by `NewMatcher(pattern)` after the earlier calls `hist`. -/
def matchedAfter (rr : List Nat → List RuneRole) (pattern : List Nat)
    (hist : List (List (List Nat))) (chunks : List (List Nat)) : Option Bool :=
  (runCalls rr (NewMatcher rr pattern) hist).bind
    (fun m => (m.ScoreChunks rr chunks).map (fun r => r.1.lastCandidateMatched))

/-- A read of the cell `m.scores[i][j][k]` of the array of `MaxInputSize + 1` by
`MaxPatternSize + 1` by `2` cells; `none` is the panic for an index out of
range. -/
def Table.at? (t : Table) (i j : Int) (k : Nat) : Option scoreVal :=
  if 0 ≤ i ∧ i ≤ (MaxInputSize : Int) ∧ 0 ≤ j ∧ j ≤ (MaxPatternSize : Int) ∧ k < 2 then
    some (t i.toNat j.toNat k)
  else none

/-- A write to the cell `m.scores[i][j][k]`; `none` is the panic for an index out
of range. -/
def Table.put? (t : Table) (i j : Int) (k : Nat) (v : scoreVal) : Option Table :=
  if 0 ≤ i ∧ i ≤ (MaxInputSize : Int) ∧ 0 ≤ j ∧ j ≤ (MaxPatternSize : Int) ∧ k < 2 then
    some (t.set i.toNat j.toNat k v)
  else none

/-- The element `l[i]` of a slice or string; `none` is the panic for an index out
of range. -/
def elemAt? {α : Type} (l : List α) (i : Int) : Option α :=
  if 0 ≤ i ∧ i < (l.length : Int) then l.get? i.toNat else none

/-- The slice expression `l[i:]`; `none` is the panic for a bound out of range. -/
def sliceFrom? {α : Type} (l : List α) (i : Int) : Option (List α) :=
  if 0 ≤ i ∧ i ≤ (l.length : Int) then some (l.drop i.toNat) else none

/-- The body of the loop over `k` in `computeScore`, with every index checked. -/
def matchStepChecked (lastSegStart i j : Nat) (role : RuneRole) (charScore : Int)
    (scores : Table) (k : Nat) : Option Table :=
  (scores.at? ((i : Int) - 1) ((j : Int) - 1) k).bind fun d =>
  (scores.at? (i : Int) (j : Int) 1).bind fun cur =>
  let sc := scoreVal.val d + charScore
  let isConsecutive := k = 1 ∨ i - 1 = 0 ∨ i - 1 = lastSegStart
  let sc := if isConsecutive then sc + 2 else sc
  let sc := if k = 0 then (if role = RTail ∨ role = RUCTail then sc - 3 else sc) else sc
  if sc > scoreVal.val cur then scores.put? (i : Int) (j : Int) 1 (score sc k) else some scores

/-- The test of `computeScore` that rejects a word start of the pattern on a
mid-word byte of the candidate, with every index checked; `some true` is a
rejection. -/
def headOnTailChecked (m : Matcher) (candidateLower : List Nat) (i j : Nat) (role pRole : RuneRole) :
    Option Bool :=
  if role = RTail ∧ pRole = RHead then
    if j > 1 then some true
    else
      (sliceFrom? candidateLower ((i : Int) - 1)).map fun rest =>
        !(m.patternShort.isPrefixOf rest)
  else some false

/-- The body of the loop over `j` in `computeScore`, with every index checked. -/
def cellStepChecked (m : Matcher) (candidate candidateLower : List Nat) (lastSegStart i : Nat)
    (role : RuneRole) (segmentsLeft : Nat) (skipPenalty : Int) (scores : Table) (j : Nat) :
    Option Table :=
  (scores.put? (i : Int) (j : Int) 1 (minScore * 2)).bind fun scores =>
  (scores.at? ((i : Int) - 1) (j : Int) 0).bind fun a0 =>
  (scores.at? ((i : Int) - 1) (j : Int) 1).bind fun a1 =>
  (scores.at? ((i : Int) - 1) (j : Int)
    (if scoreVal.val a0 < scoreVal.val a1 then 1 else 0)).bind fun ak =>
  (scores.put? (i : Int) (j : Int) 0
    (score (if j ≠ m.pattern.length then scoreVal.val ak - skipPenalty else scoreVal.val ak)
      (if scoreVal.val a0 < scoreVal.val a1 then 1 else 0))).bind fun scores =>
  if j = 0 then some scores
  else
    (elemAt? candidateLower ((i : Int) - 1)).bind fun c =>
    (elemAt? m.patternLower ((j : Int) - 1)).bind fun p =>
    if c ≠ p then some scores
    else
      (elemAt? m.patternRoles ((j : Int) - 1)).bind fun pRole =>
      (headOnTailChecked m candidateLower i j role pRole).bind fun rejected =>
      if rejected = true then some scores
      else
        (elemAt? candidate ((i : Int) - 1)).bind fun cb =>
        (elemAt? m.pattern ((j : Int) - 1)).bind fun pb =>
        let charScore : Int := 0
        let charScore := if segmentsLeft ≤ 1 then charScore + 1 else charScore
        let charScore :=
          if cb = pb ∨ (role = RHead ∧ m.caseSensitive = false) then charScore + 1
          else charScore
        let charScore := if role = RTail ∧ pRole = RHead then charScore - 1 else charScore
        let charScore := if j = 1 ∧ role = RTail then charScore - 4 else charScore
        (List.range 2).foldlM (matchStepChecked lastSegStart i j role charScore) scores

/-- The body of the loop over `i` in `computeScore`, with every index checked. -/
def rowStepChecked (m : Matcher) (candidate candidateLower : List Nat) (lastSegStart : Nat)
    (st : Table × Nat × Nat) (i : Nat) : Option (Table × Nat × Nat) :=
  (elemAt? m.roles ((i : Int) - 1)).bind fun role =>
  let wordIdx :=
    if role = RHead then st.2.1 + 1 else if role = RSep ∧ st.2.2 > 1 then 0 else st.2.1
  let segmentsLeft :=
    if role = RHead then st.2.2 else if role = RSep ∧ st.2.2 > 1 then st.2.2 - 1 else st.2.2
  let skipPenalty : Int := if i = 1 ∨ i - 1 = lastSegStart then 1 else 0
  ((List.range (m.pattern.length + 1)).foldlM
    (cellStepChecked m candidate candidateLower lastSegStart i role segmentsLeft skipPenalty)
    st.1).map fun scores => (scores, wordIdx, segmentsLeft)

/-- The body of the loop of `computeScore` that counts the segments, with the
index checked. -/
def segStepChecked (roles : List RuneRole) (st : Nat × Nat) (i : Nat) : Option (Nat × Nat) :=
  (elemAt? roles (i : Int)).map fun role => if role = RSep then (st.1 + 1, i + 1) else st

/-- Initialisation of row `0` in `computeScore`, with every index checked. -/
def initRowChecked (pattLen : Nat) (scores : Table) : Option Table :=
  ((List.range (pattLen + 1)).foldlM
    (fun (t : Table) (j : Nat) => (t.put? 0 (j : Int) 0 (minScore * 2)).bind fun t =>
      t.put? 0 (j : Int) 1 (minScore * 2)) scores).bind fun scores =>
  scores.put? 0 0 0 (score 0 0)

/-- The better of the two states of a cell (`Matcher.bestK`), with the indices
checked. -/
def Matcher.bestKChecked (m : Matcher) (i j : Int) : Option Nat :=
  (m.scores.at? i j 0).bind fun a0 =>
  (m.scores.at? i j 1).map fun a1 => if scoreVal.val a0 < scoreVal.val a1 then 1 else 0

/-- The alignment engine (`Matcher.computeScore`) with every index into the
table, the candidate, the pattern and the roles checked; `none` is a panic. -/
def Matcher.computeScoreChecked (m : Matcher) (candidate candidateLower : List Nat) :
    Option (Matcher × Int) :=
  (initRowChecked m.pattern.length m.scores).bind fun scores =>
  ((List.range candidate.length).foldlM (segStepChecked m.roles) (1, 0)).bind fun seg =>
  (((List.range candidate.length).map (· + 1)).foldlM
    (rowStepChecked m candidate candidateLower seg.2) (scores, 0, seg.1)).bind fun st =>
  (({ m with scores := st.1 } : Matcher).bestKChecked (candidate.length : Int)
    (m.pattern.length : Int)).bind fun k =>
  (st.1.at? (candidate.length : Int) (m.pattern.length : Int) k).map fun r =>
    ({ m with scores := st.1 }, scoreVal.val r)

/-- The loop of `poorMatch` with every index checked; `none` is a panic, and the
result carries the row `i` and the column `j` at which the loop stops. -/
def poorMatchLoopChecked (m : Matcher) : Nat → Int → Nat → Nat → Nat → Option (Bool × Nat × Int)
  | 0, j, _, _, _ => some (false, 0, j)
  | i + 1, j, k, counter, len =>
    (m.scores.at? ((i + 1 : Nat) : Int) j k).bind fun c =>
    if k = 1 then
      (if scoreVal.prevK c = 0 ∧ len + 1 < 3 then
          (elemAt? m.roles (((i + 1 : Nat) : Int) - 1)).map fun r => decide (r = RTail)
        else some false).bind fun short =>
      if short = true then
        if counter + 1 > 1 then some (true, i + 1, j)
        else poorMatchLoopChecked m i (j - 1) (scoreVal.prevK c) (counter + 1) (len + 1)
      else poorMatchLoopChecked m i (j - 1) (scoreVal.prevK c) counter (len + 1)
    else poorMatchLoopChecked m i j (scoreVal.prevK c) counter 0

/-- The heuristic veto of fragmented matches (`Matcher.poorMatch`) with every
index checked. -/
def Matcher.poorMatchChecked (m : Matcher) : Option Bool :=
  if m.pattern.length < 2 then some false
  else
    (m.bestKChecked (m.lastCandidateLen : Int) (m.pattern.length : Int)).bind fun k =>
    (poorMatchLoopChecked m m.lastCandidateLen (m.pattern.length : Int) k 0 0).map fun r => r.1

/-- The loop of `MatchedRanges` with every index into the table checked; the
result carries the column `j` at which the loop stops in row `0`. -/
def matchedRangesLoopChecked (m : Matcher) :
    Nat → Int → Nat → List Nat → Option (List Nat × Int)
  | 0, j, _, ret => some (ret, j)
  | i + 1, j, k, ret =>
    (m.scores.at? ((i + 1 : Nat) : Int) j k).bind fun c =>
    if k = 1 then
      matchedRangesLoopChecked m i (j - 1) (scoreVal.prevK c)
        (if ret.length = 0 ∨ ret.getLast? ≠ some (i + 1) then ret ++ [i + 1, i]
          else ret.dropLast ++ [i])
    else matchedRangesLoopChecked m i j (scoreVal.prevK c) ret

/-- The sentinel guard of `MatchedRanges`, with the indices checked: both states
of the final cell are below `minScore / 2`. -/
def Matcher.sentinelGuardChecked (m : Matcher) : Option Bool :=
  (m.scores.at? (m.lastCandidateLen : Int) (m.pattern.length : Int) 0).bind fun a0 =>
  if scoreVal.val a0 < minScore / 2 then
    (m.scores.at? (m.lastCandidateLen : Int) (m.pattern.length : Int) 1).map fun a1 =>
      decide (scoreVal.val a1 < minScore / 2)
  else some false

/-- The range extractor (`Matcher.MatchedRanges`) with every index into the
table checked; `none` is a panic. -/
def Matcher.MatchedRangesChecked (m : Matcher) : Option (List Nat) :=
  if m.pattern.length = 0 ∨ m.lastCandidateMatched = false then some []
  else
    m.sentinelGuardChecked.bind fun guard =>
    if guard = true then some []
    else
      (m.bestKChecked (m.lastCandidateLen : Int) (m.pattern.length : Int)).bind fun k =>
      (matchedRangesLoopChecked m m.lastCandidateLen (m.pattern.length : Int) k []).map
        fun r => r.1.reverse

/-- Scoring of a candidate given in chunks (`Matcher.ScoreChunks`) on top of the
checked `computeScore` and `poorMatch`; `none` is a panic. -/
def Matcher.ScoreChunksChecked (rr : List Nat → List RuneRole) (m : Matcher)
    (chunks : List (List Nat)) : Option (Matcher × ℚ) :=
  let candidate := fromChunks chunks MaxInputSize
  let candidate := if candidate.length > MaxInputSize then candidate.take MaxInputSize else candidate
  let lower := toLower candidate
  let m := { m with lastCandidateLen := candidate.length }
  if m.pattern.length = 0 then some (m, 1)
  else
    let r := m.match_ rr candidate lower
    if r.2 = true then
      (r.1.computeScoreChecked candidate lower).bind fun c =>
      if c.2 > minScore / 2 then
        c.1.poorMatchChecked.bind fun poor =>
        if poor = true then some ({ c.1 with lastCandidateMatched := false }, 0)
        else if c.1.pattern.length = candidate.length then
          some ({ c.1 with lastCandidateMatched := true }, 1)
        else
          some ({ c.1 with lastCandidateMatched := true },
            normalizedScore (if c.2 < 0 then 0 else c.2) c.1.scoreScale)
      else some ({ c.1 with lastCandidateMatched := false }, 0)
    else some ({ r.1 with lastCandidateMatched := false }, 0)

/-! ## Theorems: the packed cells and the table loops -/

/-! ### Rounding to `float32` -/

theorem log2Loop_spec (fuel n : Nat) (h1 : 1 ≤ n) (hf : n ≤ fuel) :
    2 ^ log2Loop fuel n ≤ n ∧ n < 2 ^ (log2Loop fuel n + 1) := by
  induction fuel generalizing n with
  | zero => omega
  | succ fuel ih =>
    unfold log2Loop
    by_cases h2 : 2 ≤ n
    · rw [if_pos h2]
      obtain ⟨ha, hb⟩ := ih (n / 2) (by omega) (by omega)
      rw [pow_succ, pow_succ]
      constructor
      · omega
      · rw [pow_succ] at hb
        omega
    · rw [if_neg h2]
      have : n = 1 := by omega
      subst this
      simp

theorem binaryExponent_le (a b : Nat) (ha : 0 < a) (hb : 0 < b) :
    b * 2 ^ (binaryExponent a b).toNat ≤ a * 2 ^ (-binaryExponent a b).toNat := by
  obtain ⟨ha1, _⟩ := log2Loop_spec a a ha le_rfl
  obtain ⟨_, hb2⟩ := log2Loop_spec b b hb le_rfl
  unfold binaryExponent
  simp only []
  split_ifs with h
  · exact h
  · by_cases hc : log2Loop b b + 1 ≤ log2Loop a a
    · obtain ⟨t, ht⟩ : ∃ t, log2Loop a a = log2Loop b b + 1 + t :=
        ⟨_, (Nat.add_sub_cancel' hc).symm⟩
      have e1 : ((log2Loop a a : Int) - (log2Loop b b : Int) - 1).toNat = t := by omega
      have e2 : (-((log2Loop a a : Int) - (log2Loop b b : Int) - 1)).toNat = 0 := by omega
      rw [e1, e2, pow_zero, mul_one]
      rw [ht, pow_add] at ha1
      have h3 : b * 2 ^ t ≤ 2 ^ (log2Loop b b + 1) * 2 ^ t :=
        Nat.mul_le_mul_right _ (le_of_lt hb2)
      omega
    · obtain ⟨t, ht⟩ : ∃ t, log2Loop b b = log2Loop a a + t :=
        ⟨_, (Nat.add_sub_cancel' (by omega)).symm⟩
      have e1 : ((log2Loop a a : Int) - (log2Loop b b : Int) - 1).toNat = 0 := by omega
      have e2 : (-((log2Loop a a : Int) - (log2Loop b b : Int) - 1)).toNat = t + 1 := by omega
      rw [e1, e2, pow_zero, mul_one]
      have h3 : 2 ^ log2Loop a a * 2 ^ (t + 1) ≤ a * 2 ^ (t + 1) :=
        Nat.mul_le_mul_right _ ha1
      rw [← pow_add, ← add_assoc, ← ht] at h3
      omega

theorem roundSignificand_pos (a b : Nat) (ha : 0 < a) (hb : 0 < b) :
    0 < roundSignificand a b := by
  have hle := binaryExponent_le a b ha hb
  have hd : b * 2 ^ (-(23 - binaryExponent a b)).toNat ≤
      a * 2 ^ (23 - binaryExponent a b).toNat := by
    by_cases he : 0 ≤ binaryExponent a b
    · obtain ⟨e, he'⟩ : ∃ e : Nat, binaryExponent a b = e := ⟨_, (Int.toNat_of_nonneg he).symm⟩
      rw [he'] at hle ⊢
      have e1 : (-(e : Int)).toNat = 0 := by omega
      rw [Int.toNat_ofNat, e1, pow_zero, mul_one] at hle
      by_cases h23 : e ≤ 23
      · have e2 : (-(23 - (e : Int))).toNat = 0 := by omega
        rw [e2, pow_zero, mul_one]
        have h1 : b ≤ b * 2 ^ e := Nat.le_mul_of_pos_right _ (by positivity)
        have h2 : a ≤ a * 2 ^ (23 - (e : Int)).toNat :=
          Nat.le_mul_of_pos_right _ (by positivity)
        omega
      · have e2 : (-(23 - (e : Int))).toNat = e - 23 := by omega
        have e3 : (23 - (e : Int)).toNat = 0 := by omega
        rw [e2, e3, pow_zero, mul_one]
        have h1 : b * 2 ^ (e - 23) ≤ b * 2 ^ e :=
          Nat.mul_le_mul_left _ (Nat.pow_le_pow_right (by omega) (by omega))
        omega
    · obtain ⟨e, he'⟩ : ∃ e : Nat, binaryExponent a b = -(e : Int) :=
        ⟨(-binaryExponent a b).toNat, by omega⟩
      rw [he'] at hle ⊢
      have e1 : (-(e : Int)).toNat = 0 := by omega
      have e2 : (-(-(e : Int))).toNat = e := by omega
      have e3 : (-(23 - -(e : Int))).toNat = 0 := by omega
      have e4 : (23 - -(e : Int)).toNat = 23 + e := by omega
      rw [e1, e2, pow_zero, mul_one] at hle
      rw [e3, e4, pow_zero, mul_one]
      have h1 : a * 2 ^ e ≤ a * 2 ^ (23 + e) :=
        Nat.mul_le_mul_left _ (Nat.pow_le_pow_right (by omega) (by omega))
      omega
  have hdpos : 0 < b * 2 ^ (-(23 - binaryExponent a b)).toNat := by positivity
  have hf : 1 ≤ a * 2 ^ (23 - binaryExponent a b).toNat /
      (b * 2 ^ (-(23 - binaryExponent a b)).toNat) :=
    (Nat.one_le_div_iff hdpos).2 hd
  unfold roundSignificand
  simp only []
  apply div_pos
  · have : 0 < (if 2 * (a * 2 ^ (23 - binaryExponent a b).toNat %
          (b * 2 ^ (-(23 - binaryExponent a b)).toNat)) <
          b * 2 ^ (-(23 - binaryExponent a b)).toNat then
        a * 2 ^ (23 - binaryExponent a b).toNat / (b * 2 ^ (-(23 - binaryExponent a b)).toNat)
      else if b * 2 ^ (-(23 - binaryExponent a b)).toNat <
          2 * (a * 2 ^ (23 - binaryExponent a b).toNat %
            (b * 2 ^ (-(23 - binaryExponent a b)).toNat)) then
        a * 2 ^ (23 - binaryExponent a b).toNat /
          (b * 2 ^ (-(23 - binaryExponent a b)).toNat) + 1
      else if a * 2 ^ (23 - binaryExponent a b).toNat /
          (b * 2 ^ (-(23 - binaryExponent a b)).toNat) % 2 = 0 then
        a * 2 ^ (23 - binaryExponent a b).toNat / (b * 2 ^ (-(23 - binaryExponent a b)).toNat)
      else a * 2 ^ (23 - binaryExponent a b).toNat /
        (b * 2 ^ (-(23 - binaryExponent a b)).toNat) + 1) := by
      split_ifs <;> omega
    have h2 : 0 < 2 ^ (-(23 - binaryExponent a b)).toNat := by positivity
    exact_mod_cast Nat.mul_pos this h2
  · exact_mod_cast (by positivity : 0 < 2 ^ (23 - binaryExponent a b).toNat)

theorem float32_zero : float32 0 = 0 := by
  unfold float32
  rw [if_pos rfl]

theorem float32_pos (q : ℚ) (h : 0 < q) : 0 < float32 q := by
  unfold float32
  rw [if_neg (ne_of_gt h), if_pos h]
  apply roundSignificand_pos
  · have : 0 < q.num := Rat.num_pos.2 h
    omega
  · exact q.den_pos

theorem float32_nonneg (q : ℚ) (h : 0 ≤ q) : 0 ≤ float32 q := by
  rcases eq_or_lt_of_le h with h0 | h0
  · rw [← h0, float32_zero]
  · exact le_of_lt (float32_pos q h0)

theorem binaryExponent_lt (a b : Nat) (ha : 0 < a) (hb : 0 < b) :
    a * 2 ^ (-(binaryExponent a b + 1)).toNat < b * 2 ^ (binaryExponent a b + 1).toNat := by
  obtain ⟨_, ha2⟩ := log2Loop_spec a a ha le_rfl
  obtain ⟨hb1, _⟩ := log2Loop_spec b b hb le_rfl
  unfold binaryExponent
  simp only []
  split_ifs with h
  · by_cases hc : log2Loop b b ≤ log2Loop a a
    · obtain ⟨t, ht⟩ : ∃ t, log2Loop a a = log2Loop b b + t :=
        ⟨_, (Nat.add_sub_cancel' hc).symm⟩
      have e1 : (-((log2Loop a a : Int) - (log2Loop b b : Int) + 1)).toNat = 0 := by omega
      have e2 : ((log2Loop a a : Int) - (log2Loop b b : Int) + 1).toNat = t + 1 := by omega
      rw [e1, e2, pow_zero, mul_one]
      have h3 : 2 ^ log2Loop b b * 2 ^ (t + 1) ≤ b * 2 ^ (t + 1) := Nat.mul_le_mul_right _ hb1
      rw [← pow_add, ← add_assoc, ← ht] at h3
      omega
    · obtain ⟨t, ht⟩ : ∃ t, log2Loop b b = log2Loop a a + 1 + t :=
        ⟨_, (Nat.add_sub_cancel' (by omega)).symm⟩
      have e1 : (-((log2Loop a a : Int) - (log2Loop b b : Int) + 1)).toNat = t := by omega
      have e2 : ((log2Loop a a : Int) - (log2Loop b b : Int) + 1).toNat = 0 := by omega
      rw [e1, e2, pow_zero, mul_one]
      have h3 : a * 2 ^ t < 2 ^ (log2Loop a a + 1) * 2 ^ t :=
        Nat.mul_lt_mul_of_pos_right ha2 (by positivity)
      rw [← pow_add, ← ht] at h3
      omega
  · have e : (log2Loop a a : Int) - (log2Loop b b : Int) - 1 + 1 =
        (log2Loop a a : Int) - (log2Loop b b : Int) := by omega
    rw [e]
    omega

theorem two_zpow_split (k : Int) :
    ((2 ^ k.toNat : Nat) : ℚ) / ((2 ^ (-k).toNat : Nat) : ℚ) = (2 : ℚ) ^ k := by
  by_cases hk : 0 ≤ k
  · obtain ⟨n, rfl⟩ := Int.eq_ofNat_of_zero_le hk
    have e1 : (-(n : Int)).toNat = 0 := by omega
    rw [Int.toNat_ofNat, e1]
    simp
  · obtain ⟨n, hn⟩ : ∃ n : Nat, k = -(n : Int) := ⟨(-k).toNat, by omega⟩
    subst hn
    have e1 : (-(n : Int)).toNat = 0 := by omega
    have e2 : (-(-(n : Int))).toNat = n := by omega
    rw [e1, e2]
    simp

theorem round_half (n d : Nat) (hd : 0 < d) :
    |(((if 2 * (n % d) < d then n / d else if d < 2 * (n % d) then n / d + 1
        else if n / d % 2 = 0 then n / d else n / d + 1 : Nat)) : ℚ) - (n : ℚ) / (d : ℚ)| ≤
      1 / 2 := by
  have hdq : (0 : ℚ) < (d : ℚ) := by exact_mod_cast hd
  have hnd : (n : ℚ) / (d : ℚ) = ((n / d : Nat) : ℚ) + ((n % d : Nat) : ℚ) / (d : ℚ) := by
    have h := Nat.div_add_mod n d
    have h' : (n : ℚ) = (d : ℚ) * ((n / d : Nat) : ℚ) + ((n % d : Nat) : ℚ) := by
      exact_mod_cast h.symm
    rw [h']
    field_simp
    ring
  have hr : ((n % d : Nat) : ℚ) < (d : ℚ) := by exact_mod_cast Nat.mod_lt n hd
  have hr0 : (0 : ℚ) ≤ ((n % d : Nat) : ℚ) := by positivity
  rw [hnd, abs_le]
  split_ifs with h1 h2 h3
  · have h1' : 2 * ((n % d : Nat) : ℚ) < (d : ℚ) := by exact_mod_cast h1
    have : ((n % d : Nat) : ℚ) / (d : ℚ) < 1 / 2 := by
      rw [div_lt_iff₀ hdq]; linarith
    have : 0 ≤ ((n % d : Nat) : ℚ) / (d : ℚ) := by positivity
    constructor <;> linarith
  · have h2' : (d : ℚ) < 2 * ((n % d : Nat) : ℚ) := by exact_mod_cast h2
    have : 1 / 2 < ((n % d : Nat) : ℚ) / (d : ℚ) := by
      rw [lt_div_iff₀ hdq]; linarith
    have : ((n % d : Nat) : ℚ) / (d : ℚ) < 1 := by
      rw [div_lt_iff₀ hdq]; linarith
    push_cast
    constructor <;> linarith
  · have h3' : 2 * (n % d) = d := by omega
    have : ((n % d : Nat) : ℚ) / (d : ℚ) = 1 / 2 := by
      have h4 : (d : ℚ) = 2 * ((n % d : Nat) : ℚ) := by exact_mod_cast h3'.symm
      rw [div_eq_iff (ne_of_gt hdq)]
      linarith
    constructor <;> linarith
  · have h3' : 2 * (n % d) = d := by omega
    have : ((n % d : Nat) : ℚ) / (d : ℚ) = 1 / 2 := by
      have h4 : (d : ℚ) = 2 * ((n % d : Nat) : ℚ) := by exact_mod_cast h3'.symm
      rw [div_eq_iff (ne_of_gt hdq)]
      linarith
    push_cast
    constructor <;> linarith

/-- The rounding of a positive rational `a / b` with binary exponent `e` is a
multiple of `2 ^ (e - 23)` at most `2 ^ (e - 24)` away from it: a nearest value
with a significand of 24 bits. -/
theorem roundSignificand_nearest (a b : Nat) (ha : 0 < a) (hb : 0 < b) :
    (2 : ℚ) ^ binaryExponent a b ≤ (a : ℚ) / (b : ℚ) ∧
      (a : ℚ) / (b : ℚ) < (2 : ℚ) ^ (binaryExponent a b + 1) ∧
      (∃ m : Nat, roundSignificand a b = (m : ℚ) * (2 : ℚ) ^ (binaryExponent a b - 23)) ∧
      |roundSignificand a b - (a : ℚ) / (b : ℚ)| ≤ (2 : ℚ) ^ (binaryExponent a b - 24) := by
  have hle := binaryExponent_le a b ha hb
  have hlt := binaryExponent_lt a b ha hb
  have haq : (0 : ℚ) < (a : ℚ) := by exact_mod_cast ha
  have hbq : (0 : ℚ) < (b : ℚ) := by exact_mod_cast hb
  have hpow : ∀ n : Nat, (0 : ℚ) < ((2 ^ n : Nat) : ℚ) := fun n => by positivity
  refine ⟨?_, ?_, ?_, ?_⟩
  · rw [← two_zpow_split, div_le_iff₀ (hpow _), div_mul_eq_mul_div, le_div_iff₀ hbq]
    have : ((b * 2 ^ (binaryExponent a b).toNat : Nat) : ℚ) ≤
        ((a * 2 ^ (-binaryExponent a b).toNat : Nat) : ℚ) := by exact_mod_cast hle
    push_cast at this ⊢
    linarith
  · rw [← two_zpow_split, div_lt_iff₀ hbq, div_mul_eq_mul_div, lt_div_iff₀ (hpow _)]
    have : ((a * 2 ^ (-(binaryExponent a b + 1)).toNat : Nat) : ℚ) <
        ((b * 2 ^ (binaryExponent a b + 1).toNat : Nat) : ℚ) := by exact_mod_cast hlt
    push_cast at this ⊢
    linarith
  · have key : ∀ M : Nat, ((M * 2 ^ (-(23 - binaryExponent a b)).toNat : Nat) : ℚ) /
        ((2 ^ (23 - binaryExponent a b).toNat : Nat) : ℚ) =
        (M : ℚ) * (2 : ℚ) ^ (binaryExponent a b - 23) := by
      intro M
      have e := two_zpow_split (-(23 - binaryExponent a b))
      rw [show binaryExponent a b - 23 = -(23 - binaryExponent a b) by ring, ← e, neg_neg]
      push_cast
      rw [mul_div_assoc]
    unfold roundSignificand
    simp only []
    exact ⟨_, key _⟩
  · have hk := two_zpow_split (23 - binaryExponent a b)
    have hD : 0 < b * 2 ^ (-(23 - binaryExponent a b)).toNat := by positivity
    have hh := round_half (a * 2 ^ (23 - binaryExponent a b).toNat)
      (b * 2 ^ (-(23 - binaryExponent a b)).toNat) hD
    have hx : (a : ℚ) / (b : ℚ) =
        ((a * 2 ^ (23 - binaryExponent a b).toNat : Nat) : ℚ) /
          ((b * 2 ^ (-(23 - binaryExponent a b)).toNat : Nat) : ℚ) *
          (((2 ^ (-(23 - binaryExponent a b)).toNat : Nat) : ℚ) /
            ((2 ^ (23 - binaryExponent a b).toNat : Nat) : ℚ)) := by
      have h1 := hpow (23 - binaryExponent a b).toNat
      have h2 := hpow (-(23 - binaryExponent a b)).toNat
      push_cast at h1 h2 ⊢
      field_simp
      ring
    have hy : (2 : ℚ) ^ (binaryExponent a b - 24) =
        1 / 2 * (((2 ^ (-(23 - binaryExponent a b)).toNat : Nat) : ℚ) /
          ((2 ^ (23 - binaryExponent a b).toNat : Nat) : ℚ)) := by
      have e := two_zpow_split (-(23 - binaryExponent a b))
      rw [neg_neg] at e
      rw [e, show binaryExponent a b - 24 = -(23 - binaryExponent a b) + (-1) by ring,
        zpow_add₀ (by norm_num : (2 : ℚ) ≠ 0)]
      norm_num
      ring
    have hs : (0 : ℚ) < ((2 ^ (-(23 - binaryExponent a b)).toNat : Nat) : ℚ) /
        ((2 ^ (23 - binaryExponent a b).toNat : Nat) : ℚ) := div_pos (hpow _) (hpow _)
    unfold roundSignificand
    simp only []
    rw [hy]
    rw [hx]
    have hz : ∀ (m : Nat) (x s : ℚ) (p q : Nat), (q : ℚ) ≠ 0 → s = (p : ℚ) / (q : ℚ) →
        ((m * p : Nat) : ℚ) / (q : ℚ) - x * s = ((m : ℚ) - x) * s := by
      intro m x s p q hq hs'
      rw [hs']
      push_cast
      field_simp
      ring
    rw [hz _ _ _ _ _ (ne_of_gt (hpow _)) rfl, abs_mul, abs_of_pos hs]
    exact mul_le_mul_of_nonneg_right hh (le_of_lt hs)

/-- The rounding `float32` of a positive rational `q` with `2 ^ e ≤ q < 2 ^ (e + 1)`
is a multiple of `2 ^ (e - 23)` at most `2 ^ (e - 24)` away from `q`: a nearest
value with a significand of 24 bits. -/
theorem float32_nearest (q : ℚ) (hq : 0 < q) :
    ∃ (e : Int) (m : Nat), (2 : ℚ) ^ e ≤ q ∧ q < (2 : ℚ) ^ (e + 1) ∧
      float32 q = (m : ℚ) * (2 : ℚ) ^ (e - 23) ∧ |float32 q - q| ≤ (2 : ℚ) ^ (e - 24) := by
  have hnum : 0 < q.num := Rat.num_pos.2 hq
  have ha : 0 < q.num.toNat := by omega
  have hb : 0 < q.den := q.den_pos
  have hqa : (q.num.toNat : ℚ) / (q.den : ℚ) = q := by
    have h1 : ((q.num.toNat : Nat) : ℚ) = (q.num : ℚ) := by
      have : ((q.num.toNat : Nat) : Int) = q.num := Int.toNat_of_nonneg (le_of_lt hnum)
      exact_mod_cast congrArg (fun z : Int => (z : ℚ)) this
    rw [h1]
    exact Rat.num_div_den q
  obtain ⟨h1, h2, ⟨m, h3⟩, h4⟩ := roundSignificand_nearest q.num.toNat q.den ha hb
  rw [hqa] at h1 h2 h4
  have hf : float32 q = roundSignificand q.num.toNat q.den := by
    unfold float32
    rw [if_neg (ne_of_gt hq), if_pos hq]
  exact ⟨_, m, h1, h2, hf.trans h3, by rw [hf]; exact h4⟩

set_option maxRecDepth 1000000 in
/-- Values of the rounding: a third, and two integers half way between two
neighbours of the format, which go to the neighbour with the even significand. -/
theorem float32_examples :
    float32 (1 / 3) = 11184811 / 33554432 ∧ float32 16777217 = 16777216 ∧
      float32 16777219 = 16777220 ∧ float32 (-(1 / 3)) = -(11184811 / 33554432) := by
  decide!

set_option maxRecDepth 1000000 in
/-- The normalised score of the highest alignment value `4 * n`: it is `1` except
for four pattern lengths, where the product is rounded to the `float32` below. -/
theorem normalizedScore_perfect (n : Nat) (h1 : 1 ≤ n) (h63 : n ≤ 63) :
    normalizedScore (4 * (n : Int)) (float32 (1 / float32 ((((4 * n : Nat) : Int)) : ℚ))) =
      if n = 41 ∨ n = 47 ∨ n = 55 ∨ n = 61 then 16777215 / 16777216 else 1 := by
  interval_cases n <;> decide!

/-! ### The packed cells -/

theorem val_score (v : Int) (k : Nat) (hk : k < 2) : scoreVal.val (score v k) = v := by
  unfold scoreVal.val score; omega

theorem prevK_score (v : Int) (k : Nat) (hk : k < 2) : scoreVal.prevK (score v k) = k := by
  unfold scoreVal.prevK score; omega

theorem prevK_lt (s : scoreVal) : scoreVal.prevK s < 2 := by
  unfold scoreVal.prevK; omega

theorem Table.set_same (t : Table) (i j k : Nat) (v : scoreVal) : (t.set i j k v) i j k = v := by
  simp [Table.set]

theorem Table.set_other (t : Table) (i j k i' j' k' : Nat) (v : scoreVal)
    (h : ¬ (i' = i ∧ j' = j ∧ k' = k)) : (t.set i j k v) i' j' k' = t i' j' k' := by
  simp only [Table.set, if_neg h]

theorem Table.set_self (t : Table) (i j k : Nat) : t.set i j k (t i j k) = t := by
  funext i' j' k'
  simp only [Table.set]
  split_ifs with h
  · obtain ⟨rfl, rfl, rfl⟩ := h; rfl
  · rfl

theorem matchStep_eq (lastSegStart i j : Nat) (role : RuneRole) (charScore : Int)
    (scores : Table) (k : Nat) :
    matchStep lastSegStart i j role charScore scores k =
      scores.set i j 1 (matchUpd lastSegStart i role charScore (scores (i - 1) (j - 1))
        (scores i j 1) k) := by
  show (if matchCand lastSegStart i role charScore (scores (i - 1) (j - 1)) k >
      scoreVal.val (scores i j 1) then
      scores.set i j 1 (score (matchCand lastSegStart i role charScore (scores (i - 1) (j - 1)) k) k)
    else scores) = _
  unfold matchUpd
  split_ifs with h
  · rfl
  · exact (Table.set_self scores i j 1).symm

theorem Table.set_set (t : Table) (i j k : Nat) (v w : scoreVal) :
    (t.set i j k v).set i j k w = t.set i j k w := by
  funext i' j' k'
  simp only [Table.set]
  split_ifs <;> rfl

theorem Table.set_comm (t : Table) (i j : Nat) (v w : scoreVal) :
    (t.set i j 1 v).set i j 0 w = (t.set i j 0 w).set i j 1 v := by
  funext i' j' k'
  simp only [Table.set]
  split_ifs with h1 h2 <;> first | rfl | omega

theorem Table.set_row_pred (t : Table) (i a b : Nat) (v : scoreVal) (x y : Nat) (hi : 1 ≤ i) :
    (t.set i a b v) (i - 1) x y = t (i - 1) x y := by
  have hne : i - 1 ≠ i := by omega
  simp [Table.set, hne]

theorem Table.set_row_pred_fun (t : Table) (i a b : Nat) (v : scoreVal) (x : Nat) (hi : 1 ≤ i) :
    (t.set i a b v) (i - 1) x = t (i - 1) x := by
  funext y
  exact Table.set_row_pred t i a b v x y hi

/-- The loop over `j` body, as two writes of cell `(i, j)`. -/
theorem cellStep_eq (m : Matcher) (candidate candidateLower : List Nat) (lastSegStart i : Nat)
    (role : RuneRole) (segmentsLeft : Nat) (skipPenalty : Int) (scores : Table) (j : Nat)
    (hi : 1 ≤ i) :
    cellStep m candidate candidateLower lastSegStart i role segmentsLeft skipPenalty scores j =
      (scores.set i j 0 (skipCell m.pattern.length skipPenalty j (scores (i - 1) j))).set i j 1
        (matchCell m candidate candidateLower lastSegStart i j role segmentsLeft
          (scores (i - 1) (j - 1))) := by
  unfold cellStep
  simp only [Table.set_row_pred _ _ _ _ _ _ _ hi]
  rw [Table.set_comm]
  show (if _ then _ else if _ then _ else _) = _
  unfold matchCell
  by_cases h1 : (j = 0 ∨ candidateLower.getD (i - 1) 0 ≠ m.patternLower.getD (j - 1) 0)
  · rw [if_pos h1, if_pos (show noMatch m candidateLower i j role from Or.inl h1)]; rfl
  · rw [if_neg h1]
    by_cases h2 : (role = RTail ∧ m.patternRoles.getD (j - 1) RNone = RHead ∧
      (j > 1 ∨ ¬ (m.patternShort.isPrefixOf (candidateLower.drop (i - 1)) = true)))
    · rw [if_pos h2, if_pos (show noMatch m candidateLower i j role from Or.inr h2)]; rfl
    · rw [if_neg h2, if_neg (show ¬ noMatch m candidateLower i j role from fun h => h.elim h1 h2)]
      simp only [List.range_succ, List.range_zero, List.nil_append, List.foldl_cons,
        List.foldl_nil, List.cons_append]
      rw [matchStep_eq, matchStep_eq]
      simp only [Table.set_row_pred_fun _ _ _ _ _ _ hi, Table.set_set, Table.set_same]
      rfl

/-- The loop over `j`: row `i` is rewritten from row `i - 1`, the rest is kept. -/
theorem rowFold_eq (m : Matcher) (candidate candidateLower : List Nat) (lastSegStart i : Nat)
    (role : RuneRole) (segmentsLeft : Nat) (skipPenalty : Int) (scores : Table) (hi : 1 ≤ i)
    (J : Nat) (i' j' k' : Nat) :
    ((List.range J).foldl
      (cellStep m candidate candidateLower lastSegStart i role segmentsLeft skipPenalty) scores)
      i' j' k' =
    if i' = i ∧ j' < J ∧ k' < 2 then
      rowOf m candidate candidateLower lastSegStart i role segmentsLeft skipPenalty
        (scores (i - 1)) j' k'
    else scores i' j' k' := by
  induction J generalizing i' j' k' with
  | zero => simp
  | succ J ih =>
    rw [List.range_succ, List.foldl_append, List.foldl_cons, List.foldl_nil, cellStep_eq _ _ _ _ _ _ _ _ _ _ hi]
    have hprev : ∀ x, ((List.range J).foldl
        (cellStep m candidate candidateLower lastSegStart i role segmentsLeft skipPenalty) scores)
        (i - 1) x = scores (i - 1) x := by
      intro x
      funext y
      rw [ih]
      have : ¬ (i - 1 = i ∧ x < J ∧ y < 2) := by omega
      rw [if_neg this]
    rw [hprev, hprev]
    simp only [Table.set]
    by_cases h1 : i' = i ∧ j' = J ∧ k' = 1
    · obtain ⟨rfl, rfl, rfl⟩ := h1
      simp [rowOf]
    · rw [if_neg h1]
      by_cases h0 : i' = i ∧ j' = J ∧ k' = 0
      · obtain ⟨rfl, rfl, rfl⟩ := h0
        simp [rowOf]
      · rw [if_neg h0, ih]
        by_cases h : i' = i ∧ j' < J ∧ k' < 2
        · rw [if_pos h, if_pos (by omega)]
        · rw [if_neg h, if_neg (by omega)]

theorem initRow_eq (pattLen : Nat) (scores : Table) (i' j' k' : Nat) :
    initRow pattLen scores i' j' k' =
      if i' = 0 ∧ j' ≤ pattLen ∧ k' < 2 then
        (if j' = 0 ∧ k' = 0 then score 0 0 else minScore * 2)
      else scores i' j' k' := by
  have key : ∀ J i' j' k', ((List.range J).foldl
      (fun (t : Table) j => (t.set 0 j 0 (minScore * 2)).set 0 j 1 (minScore * 2)) scores) i' j' k' =
      if i' = 0 ∧ j' < J ∧ k' < 2 then minScore * 2 else scores i' j' k' := by
    intro J
    induction J with
    | zero => simp
    | succ J ih =>
      intro i' j' k'
      rw [List.range_succ, List.foldl_append, List.foldl_cons, List.foldl_nil]
      simp only [Table.set]
      rw [ih]
      split_ifs <;> first | rfl | omega
  unfold initRow
  simp only [Table.set]
  rw [key]
  split_ifs <;> first | rfl | omega

theorem skipCell_congr (pattLen : Nat) (skipPenalty : Int) (j : Nat) (a a' : Nat → scoreVal)
    (h0 : a 0 = a' 0) (h1 : a 1 = a' 1) :
    skipCell pattLen skipPenalty j a = skipCell pattLen skipPenalty j a' := by
  unfold skipCell
  simp only [h0, h1]
  split_ifs <;> simp [h0, h1]

theorem matchCell_congr (m : Matcher) (candidate candidateLower : List Nat)
    (lastSegStart i j : Nat) (role : RuneRole) (segmentsLeft : Nat) (b b' : Nat → scoreVal)
    (h0 : b 0 = b' 0) (h1 : b 1 = b' 1) :
    matchCell m candidate candidateLower lastSegStart i j role segmentsLeft b =
      matchCell m candidate candidateLower lastSegStart i j role segmentsLeft b' := by
  unfold matchCell
  simp only [List.range_succ, List.range_zero, List.nil_append, List.foldl_cons,
    List.foldl_nil, List.cons_append, matchUpd, matchCand, h0, h1]

theorem rowOf_congr (m : Matcher) (candidate candidateLower : List Nat) (lastSegStart i : Nat)
    (role : RuneRole) (segmentsLeft : Nat) (skipPenalty : Int) (prev prev' : Nat → Nat → scoreVal)
    (j k : Nat) (h : ∀ x, x ≤ j → ∀ y, y < 2 → prev x y = prev' x y) :
    rowOf m candidate candidateLower lastSegStart i role segmentsLeft skipPenalty prev j k =
      rowOf m candidate candidateLower lastSegStart i role segmentsLeft skipPenalty prev' j k := by
  unfold rowOf
  rw [skipCell_congr _ _ _ (prev j) (prev' j) (h j le_rfl 0 (by omega)) (h j le_rfl 1 (by omega)),
    matchCell_congr _ _ _ _ _ _ _ _ (prev (j - 1)) (prev' (j - 1))
      (h (j - 1) (by omega) 0 (by omega)) (h (j - 1) (by omega) 1 (by omega))]

theorem rowStep_snd (m : Matcher) (candidate candidateLower : List Nat) (lastSegStart : Nat)
    (st : Table × Nat × Nat) (i : Nat) :
    (rowStep m candidate candidateLower lastSegStart st i).2 = ctxStep m.roles st.2 i := rfl

theorem rowStep_fst (m : Matcher) (candidate candidateLower : List Nat) (lastSegStart : Nat)
    (st : Table × Nat × Nat) (i : Nat) :
    (rowStep m candidate candidateLower lastSegStart st i).1 =
      (List.range (m.pattern.length + 1)).foldl
        (cellStep m candidate candidateLower lastSegStart i (m.roles.getD (i - 1) RNone)
          (ctxStep m.roles st.2 i).2 (if i = 1 ∨ i - 1 = lastSegStart then 1 else 0)) st.1 := rfl

/-- The loop over `i`: after `I` rows, the rows `0..I` of the table are those of
the recurrence, whatever the table held before. -/
theorem rowsFold_eq (m : Matcher) (candidate candidateLower : List Nat) (scores : Table) (I : Nat) :
    (((List.range I).map (· + 1)).foldl
        (rowStep m candidate candidateLower
          ((List.range candidate.length).foldl (segStep m.roles) (1, 0)).2)
        (initRow m.pattern.length scores, 0,
          ((List.range candidate.length).foldl (segStep m.roles) (1, 0)).1)).2 =
      ctxAt m.roles ((List.range candidate.length).foldl (segStep m.roles) (1, 0)).1 I ∧
    ∀ i j k, i ≤ I → j ≤ m.pattern.length → k < 2 →
      (((List.range I).map (· + 1)).foldl
        (rowStep m candidate candidateLower
          ((List.range candidate.length).foldl (segStep m.roles) (1, 0)).2)
        (initRow m.pattern.length scores, 0,
          ((List.range candidate.length).foldl (segStep m.roles) (1, 0)).1)).1 i j k =
        dpTable m candidate candidateLower i j k := by
  induction I with
  | zero =>
    refine ⟨rfl, ?_⟩
    intro i j k hi hj hk
    have hi0 : i = 0 := by omega
    subst hi0
    simp only [List.range_zero, List.map_nil, List.foldl_nil]
    rw [initRow_eq, if_pos ⟨rfl, hj, hk⟩]
    rfl
  | succ I ih =>
    obtain ⟨ih1, ih2⟩ := ih
    rw [List.range_succ, List.map_append, List.foldl_append]
    simp only [List.map_cons, List.map_nil, List.foldl_cons, List.foldl_nil]
    constructor
    · rw [rowStep_snd, ih1]
      simp only [ctxAt, List.range_succ, List.map_append, List.foldl_append, List.map_cons,
        List.map_nil, List.foldl_cons, List.foldl_nil]
    · intro i j k hi hj hk
      rw [rowStep_fst, rowFold_eq _ _ _ _ _ _ _ _ _ (by omega)]
      by_cases h : i = I + 1
      · subst h
        rw [if_pos ⟨rfl, by omega, hk⟩, ih1]
        show _ = rowOf _ _ _ _ _ _ _ _ _ _ _
        simp only [Nat.add_sub_cancel]
        have e : (if I + 1 = 1 ∨ I = ((List.range candidate.length).foldl (segStep m.roles) (1, 0)).2 then (1 : Int) else 0) =
            (if I + 1 = 1 ∨ I = ((List.range candidate.length).foldl (segStep m.roles) (1, 0)).2 then 1 else 0) := rfl
        have hctx : ctxStep m.roles (ctxAt m.roles ((List.range candidate.length).foldl (segStep m.roles) (1, 0)).1 I) (I + 1) =
            ctxAt m.roles ((List.range candidate.length).foldl (segStep m.roles) (1, 0)).1 (I + 1) := by
          simp only [ctxAt, List.range_succ, List.map_append, List.foldl_append, List.map_cons,
            List.map_nil, List.foldl_cons, List.foldl_nil]
        rw [hctx]
        apply rowOf_congr
        intro x hx y hy
        exact ih2 I x y le_rfl (by omega) hy
      · rw [if_neg (by omega)]
        exact ih2 i j k (by omega) hj hk

/-- After `computeScore` the rows `0..len(candidate)` of the table are those of
the recurrence, whatever the table held before the call. -/
theorem computeScore_scores (m : Matcher) (candidate candidateLower : List Nat) (i j k : Nat)
    (hi : i ≤ candidate.length) (hj : j ≤ m.pattern.length) (hk : k < 2) :
    (m.computeScore candidate candidateLower).1.scores i j k =
      dpTable m candidate candidateLower i j k :=
  (rowsFold_eq m candidate candidateLower m.scores candidate.length).2 i j k hi hj hk

theorem computeScore_fields (m : Matcher) (candidate candidateLower : List Nat) :
    (m.computeScore candidate candidateLower).1 =
      { m with scores := (m.computeScore candidate candidateLower).1.scores } := rfl

theorem computeScore_snd (m : Matcher) (candidate candidateLower : List Nat) :
    (m.computeScore candidate candidateLower).2 =
      scoreVal.val ((m.computeScore candidate candidateLower).1.scores candidate.length
        m.pattern.length
        ((m.computeScore candidate candidateLower).1.bestK candidate.length m.pattern.length)) :=
  rfl

/-- The recurrence reads the compiled pattern and the roles only. -/
theorem dpTable_congr (m m' : Matcher) (candidate candidateLower : List Nat)
    (h1 : m.pattern = m'.pattern) (h2 : m.patternLower = m'.patternLower)
    (h3 : m.patternShort = m'.patternShort) (h4 : m.caseSensitive = m'.caseSensitive)
    (h5 : m.patternRoles = m'.patternRoles) (h6 : m.roles = m'.roles) (i j k : Nat) :
    dpTable m candidate candidateLower i j k = dpTable m' candidate candidateLower i j k := by
  induction i generalizing j k with
  | zero => rfl
  | succ i ih =>
    have e : dpTable m candidate candidateLower i = dpTable m' candidate candidateLower i := by
      funext x y; exact ih x y
    simp only [dpTable, rowOf, matchCell, noMatch, charScoreOf, h1, h2, h3, h4, h5, h6, e]

/-! ### Bounds on the cells -/

theorem charScoreOf_bounds (m : Matcher) (candidate : List Nat) (i j : Nat) (role : RuneRole)
    (segmentsLeft : Nat) :
    -5 ≤ charScoreOf m candidate i j role segmentsLeft ∧
      charScoreOf m candidate i j role segmentsLeft ≤ 2 := by
  unfold charScoreOf
  simp only []
  split_ifs <;> omega

theorem matchCand_bounds (lastSegStart i : Nat) (role : RuneRole) (charScore : Int)
    (b : Nat → scoreVal) (k : Nat) :
    scoreVal.val (b k) + charScore - 3 ≤ matchCand lastSegStart i role charScore b k ∧
      matchCand lastSegStart i role charScore b k ≤ scoreVal.val (b k) + charScore + 2 := by
  unfold matchCand
  simp only []
  split_ifs <;> omega

/-- The match state of a cell is the sentinel or a candidate value of one of the
two states of the diagonal cell, recorded with that state. -/
theorem matchCell_cases (m : Matcher) (candidate candidateLower : List Nat)
    (lastSegStart i j : Nat) (role : RuneRole) (segmentsLeft : Nat) (b : Nat → scoreVal) :
    matchCell m candidate candidateLower lastSegStart i j role segmentsLeft b = minScore * 2 ∨
      (¬ noMatch m candidateLower i j role ∧ ∃ k, k < 2 ∧
        matchCell m candidate candidateLower lastSegStart i j role segmentsLeft b =
          score (matchCand lastSegStart i role
            (charScoreOf m candidate i j role segmentsLeft) b k) k) := by
  unfold matchCell
  by_cases h : noMatch m candidateLower i j role
  · left; rw [if_pos h]
  · rw [if_neg h]
    simp only [List.range_succ, List.range_zero, List.nil_append, List.foldl_cons,
      List.foldl_nil, List.cons_append, matchUpd]
    split_ifs
    · right; exact ⟨h, 1, by omega, rfl⟩
    · right; exact ⟨h, 0, by omega, rfl⟩
    · right; exact ⟨h, 1, by omega, rfl⟩
    · left; rfl

theorem val_sentinel : scoreVal.val (minScore * 2) = minScore := by
  unfold scoreVal.val minScore; omega

theorem noMatch_zero (m : Matcher) (candidateLower : List Nat) (i : Nat) (role : RuneRole) :
    noMatch m candidateLower i 0 role := Or.inl (Or.inl rfl)

theorem dpTable_succ (m : Matcher) (candidate candidateLower : List Nat) (i j k : Nat) :
    dpTable m candidate candidateLower (i + 1) j k =
      rowOf m candidate candidateLower
        ((List.range candidate.length).foldl (segStep m.roles) (1, 0)).2 (i + 1)
        (m.roles.getD i RNone)
        (ctxAt m.roles ((List.range candidate.length).foldl (segStep m.roles) (1, 0)).1 (i + 1)).2
        (if i + 1 = 1 ∨ i = ((List.range candidate.length).foldl (segStep m.roles) (1, 0)).2
          then 1 else 0)
        (dpTable m candidate candidateLower i) j k := rfl

theorem dpTable_skip (m : Matcher) (candidate candidateLower : List Nat) (i j : Nat) :
    ∃ pen : Int, 0 ≤ pen ∧ pen ≤ 1 ∧
      dpTable m candidate candidateLower (i + 1) j 0 =
        score (scoreVal.val (dpTable m candidate candidateLower i j
          (if scoreVal.val (dpTable m candidate candidateLower i j 0) <
            scoreVal.val (dpTable m candidate candidateLower i j 1) then 1 else 0)) - pen)
          (if scoreVal.val (dpTable m candidate candidateLower i j 0) <
            scoreVal.val (dpTable m candidate candidateLower i j 1) then 1 else 0) := by
  rw [dpTable_succ]
  unfold rowOf skipCell
  simp only [if_true]
  by_cases hj : j ≠ m.pattern.length
  · rw [if_pos hj]
    split_ifs
    · exact ⟨1, by omega, by omega, rfl⟩
    · exact ⟨0, by omega, by omega, rfl⟩
    · exact ⟨1, by omega, by omega, rfl⟩
    · exact ⟨0, by omega, by omega, rfl⟩
  · rw [if_neg hj]
    exact ⟨0, by omega, by omega, by simp⟩

theorem dpTable_match (m : Matcher) (candidate candidateLower : List Nat) (i j : Nat) :
    dpTable m candidate candidateLower (i + 1) j 1 = minScore * 2 ∨
      (1 ≤ j ∧ ∃ k, k < 2 ∧ ∃ d : Int, -8 ≤ d ∧ d ≤ 4 ∧
        dpTable m candidate candidateLower (i + 1) j 1 =
          score (scoreVal.val (dpTable m candidate candidateLower i (j - 1) k) + d) k) := by
  rw [dpTable_succ]
  unfold rowOf
  rw [if_neg (by omega)]
  rcases matchCell_cases m candidate candidateLower
    ((List.range candidate.length).foldl (segStep m.roles) (1, 0)).2 (i + 1) j
    (m.roles.getD i RNone)
    (ctxAt m.roles ((List.range candidate.length).foldl (segStep m.roles) (1, 0)).1 (i + 1)).2
    (dpTable m candidate candidateLower i (j - 1)) with h | ⟨hn, k, hk, h⟩
  · left; exact h
  · right
    refine ⟨?_, k, hk, ?_⟩
    · by_contra hj
      have : j = 0 := by omega
      subst this
      exact hn (noMatch_zero _ _ _ _)
    · have hb := matchCand_bounds ((List.range candidate.length).foldl (segStep m.roles) (1, 0)).2
        (i + 1) (m.roles.getD i RNone)
        (charScoreOf m candidate (i + 1) j (m.roles.getD i RNone)
          (ctxAt m.roles ((List.range candidate.length).foldl (segStep m.roles) (1, 0)).1 (i + 1)).2)
        (dpTable m candidate candidateLower i (j - 1)) k
      have hc := charScoreOf_bounds m candidate (i + 1) j (m.roles.getD i RNone)
          (ctxAt m.roles ((List.range candidate.length).foldl (segStep m.roles) (1, 0)).1 (i + 1)).2
      refine ⟨matchCand ((List.range candidate.length).foldl (segStep m.roles) (1, 0)).2
        (i + 1) (m.roles.getD i RNone)
        (charScoreOf m candidate (i + 1) j (m.roles.getD i RNone)
          (ctxAt m.roles ((List.range candidate.length).foldl (segStep m.roles) (1, 0)).1 (i + 1)).2)
        (dpTable m candidate candidateLower i (j - 1)) k -
          scoreVal.val (dpTable m candidate candidateLower i (j - 1) k), by omega, by omega, ?_⟩
      rw [h]
      congr 1
      omega

/-- Every cell of the recurrence either derives from the sentinel or carries the
value of a real alignment. -/
theorem dpTable_gap (m : Matcher) (candidate candidateLower : List Nat) (i j k : Nat)
    (hk : k < 2) :
    isSent (dpTable m candidate candidateLower) i j k ∨
      isReal (dpTable m candidate candidateLower) i j k := by
  induction i generalizing j k with
  | zero =>
    unfold isSent isReal
    show scoreVal.val (if j = 0 ∧ k = 0 then score 0 0 else minScore * 2) ≤ _ ∨
      _ ≤ scoreVal.val (if j = 0 ∧ k = 0 then score 0 0 else minScore * 2)
    split_ifs with h
    · right; rw [val_score 0 0 (by omega)]; omega
    · left; rw [val_sentinel]; omega
  | succ i ih =>
    have hk' : k = 0 ∨ k = 1 := by omega
    rcases hk' with rfl | rfl
    · obtain ⟨pen, hp0, hp1, e⟩ := dpTable_skip m candidate candidateLower i j
      have hks : (if scoreVal.val (dpTable m candidate candidateLower i j 0) <
            scoreVal.val (dpTable m candidate candidateLower i j 1) then 1 else 0) < 2 := by
        split_ifs <;> omega
      unfold isSent isReal
      rw [e, val_score _ _ hks]
      rcases ih j _ hks with h | h
      · left; unfold isSent at h; omega
      · right; unfold isReal at h; push_cast; omega
    · rcases dpTable_match m candidate candidateLower i j with e | ⟨hj, k, hk, d, hd1, hd2, e⟩
      · left; unfold isSent; rw [e, val_sentinel]; omega
      · unfold isSent isReal
        rw [e, val_score _ _ hk]
        rcases ih (j - 1) k hk with h | h
        · left; unfold isSent at h; omega
        · right; unfold isReal at h; push_cast at h ⊢; omega

/-- The predecessor recorded in a real skip state is a real state of the cell above. -/
theorem isReal_pred_skip (m : Matcher) (candidate candidateLower : List Nat) (i j : Nat)
    (hb : 12 * j + i + 1 < 10000)
    (h : isReal (dpTable m candidate candidateLower) (i + 1) j 0) :
    isReal (dpTable m candidate candidateLower) i j
      (scoreVal.prevK (dpTable m candidate candidateLower (i + 1) j 0)) := by
  obtain ⟨pen, hp0, hp1, e⟩ := dpTable_skip m candidate candidateLower i j
  have hks : (if scoreVal.val (dpTable m candidate candidateLower i j 0) <
        scoreVal.val (dpTable m candidate candidateLower i j 1) then 1 else 0) < 2 := by
    split_ifs <;> omega
  unfold isReal at h
  rw [e, val_score _ _ hks] at h
  rw [e, prevK_score _ _ hks]
  rcases dpTable_gap m candidate candidateLower i j _ hks with g | g
  · unfold isSent minScore at g; omega
  · exact g

/-- The predecessor recorded in a real match state is a real state of the diagonal
cell; in particular the column is positive. -/
theorem isReal_pred_match (m : Matcher) (candidate candidateLower : List Nat) (i j : Nat)
    (hb : 12 * j + i + 1 < 10000)
    (h : isReal (dpTable m candidate candidateLower) (i + 1) j 1) :
    1 ≤ j ∧ isReal (dpTable m candidate candidateLower) i (j - 1)
      (scoreVal.prevK (dpTable m candidate candidateLower (i + 1) j 1)) := by
  unfold isReal at h
  rcases dpTable_match m candidate candidateLower i j with e | ⟨hj, k, hk, d, hd1, hd2, e⟩
  · rw [e, val_sentinel] at h; unfold minScore at h; push_cast at h; omega
  · refine ⟨hj, ?_⟩
    rw [e, val_score _ _ hk] at h
    rw [e, prevK_score _ _ hk]
    rcases dpTable_gap m candidate candidateLower i (j - 1) k hk with g | g
    · unfold isSent minScore at g; push_cast at g h; omega
    · exact g

/-- A value above the failure threshold is the value of a real alignment. -/
theorem isReal_of_gt (m : Matcher) (candidate candidateLower : List Nat) (i j k : Nat)
    (hk : k < 2) (hb : 12 * j + i + 1 < 10000)
    (h : minScore / 2 < scoreVal.val (dpTable m candidate candidateLower i j k)) :
    isReal (dpTable m candidate candidateLower) i j k := by
  rcases dpTable_gap m candidate candidateLower i j k hk with g | g
  · unfold isSent at g; unfold minScore at g h; omega
  · exact g

/-! ### The two walks over the table -/

/-- The walk of `poorMatch` reads the roles and the cells of the rows and columns
it starts from only. -/
theorem poorMatchLoop_congr (m1 m2 : Matcher) (I J : Nat) (hr : m1.roles = m2.roles)
    (hT : ∀ i j k, i ≤ I → j ≤ J → k < 2 → m1.scores i j k = m2.scores i j k) :
    ∀ (i : Nat) (j : Int) (k counter len : Nat), i ≤ I → j ≤ (J : Int) → k < 2 →
      poorMatchLoop m1 i j k counter len = poorMatchLoop m2 i j k counter len := by
  intro i
  induction i with
  | zero => intro j k counter len _ _ _; rfl
  | succ i ih =>
    intro j k counter len hi hj hk
    rw [poorMatchLoop, poorMatchLoop]
    by_cases hneg : j < 0
    · rw [if_pos hneg, if_pos hneg]
    · rw [if_neg hneg, if_neg hneg]
      have hc : m1.scores (i + 1) j.toNat k = m2.scores (i + 1) j.toNat k :=
        hT _ _ _ hi (by omega) hk
      simp only [hc, hr]
      have hp := prevK_lt (m2.scores (i + 1) j.toNat k)
      rw [ih (j - 1) _ counter (len + 1) (by omega) (by omega) hp,
        ih (j - 1) _ (counter + 1) (len + 1) (by omega) (by omega) hp,
        ih j _ counter 0 (by omega) hj hp]

/-- The walk of `MatchedRanges` reads the cells of the rows and columns it starts
from only. -/
theorem matchedRangesLoop_congr (m1 m2 : Matcher) (I J : Nat)
    (hT : ∀ i j k, i ≤ I → j ≤ J → k < 2 → m1.scores i j k = m2.scores i j k) :
    ∀ (i : Nat) (j : Int) (k : Nat) (ret : List Nat), i ≤ I → j ≤ (J : Int) → k < 2 →
      matchedRangesLoop m1 i j k ret = matchedRangesLoop m2 i j k ret := by
  intro i
  induction i with
  | zero => intro j k ret _ _ _; rfl
  | succ i ih =>
    intro j k ret hi hj hk
    rw [matchedRangesLoop, matchedRangesLoop]
    by_cases hneg : j < 0
    · rw [if_pos hneg, if_pos hneg]
    · rw [if_neg hneg, if_neg hneg]
      have hc : m1.scores (i + 1) j.toNat k = m2.scores (i + 1) j.toNat k :=
        hT _ _ _ hi (by omega) hk
      simp only [hc]
      have hp := prevK_lt (m2.scores (i + 1) j.toNat k)
      split_ifs
      · exact ih (j - 1) _ _ (by omega) (by omega) hp
      · exact ih (j - 1) _ _ (by omega) (by omega) hp
      · exact ih j _ _ (by omega) hj hp

/-- Started in a real state, the walk of `poorMatch` never leaves the table. -/
theorem poorMatchLoop_some (m m0 : Matcher) (candidate candidateLower : List Nat) (I J : Nat)
    (hT : ∀ i j k, i ≤ I → j ≤ J → k < 2 →
      m.scores i j k = dpTable m0 candidate candidateLower i j k)
    (hb : 12 * J + I + 1 < 10000) :
    ∀ (i j k counter len : Nat), i ≤ I → j ≤ J → k < 2 →
      isReal (dpTable m0 candidate candidateLower) i j k →
      ∃ b, poorMatchLoop m i (j : Int) k counter len = some b := by
  intro i
  induction i with
  | zero => intro j k counter len _ _ _ _; exact ⟨false, rfl⟩
  | succ i ih =>
    intro j k counter len hi hj hk hreal
    rw [poorMatchLoop, if_neg (by omega)]
    have hc : m.scores (i + 1) (j : Int).toNat k = dpTable m0 candidate candidateLower (i + 1) j k := by
      rw [Int.toNat_ofNat]; exact hT _ _ _ hi hj hk
    simp only [hc]
    have hp := prevK_lt (dpTable m0 candidate candidateLower (i + 1) j k)
    have hk' : k = 0 ∨ k = 1 := by omega
    rcases hk' with rfl | rfl
    · have hr := isReal_pred_skip m0 candidate candidateLower i j (by omega) hreal
      rw [if_neg (by omega)]
      exact ih j _ counter 0 (by omega) hj hp hr
    · obtain ⟨hj1, hr⟩ := isReal_pred_match m0 candidate candidateLower i j (by omega) hreal
      have hcast : (j : Int) - 1 = ((j - 1 : Nat) : Int) := by omega
      rw [if_pos rfl, hcast]
      split_ifs
      · exact ⟨true, rfl⟩
      · exact ih (j - 1) _ _ _ (by omega) (by omega) hp hr
      · exact ih (j - 1) _ _ _ (by omega) (by omega) hp hr

/-- Started in a real state, the walk of `MatchedRanges` never leaves the table. -/
theorem matchedRangesLoop_some (m m0 : Matcher) (candidate candidateLower : List Nat) (I J : Nat)
    (hT : ∀ i j k, i ≤ I → j ≤ J → k < 2 →
      m.scores i j k = dpTable m0 candidate candidateLower i j k)
    (hb : 12 * J + I + 1 < 10000) :
    ∀ (i j k : Nat) (ret : List Nat), i ≤ I → j ≤ J → k < 2 →
      isReal (dpTable m0 candidate candidateLower) i j k →
      ∃ out, matchedRangesLoop m i (j : Int) k ret = some out := by
  intro i
  induction i with
  | zero => intro j k ret _ _ _ _; exact ⟨ret, rfl⟩
  | succ i ih =>
    intro j k ret hi hj hk hreal
    rw [matchedRangesLoop, if_neg (by omega)]
    have hc : m.scores (i + 1) (j : Int).toNat k = dpTable m0 candidate candidateLower (i + 1) j k := by
      rw [Int.toNat_ofNat]; exact hT _ _ _ hi hj hk
    simp only [hc]
    have hp := prevK_lt (dpTable m0 candidate candidateLower (i + 1) j k)
    have hk' : k = 0 ∨ k = 1 := by omega
    rcases hk' with rfl | rfl
    · have hr := isReal_pred_skip m0 candidate candidateLower i j (by omega) hreal
      rw [if_neg (by omega)]
      exact ih j _ _ (by omega) hj hp hr
    · obtain ⟨hj1, hr⟩ := isReal_pred_match m0 candidate candidateLower i j (by omega) hreal
      have hcast : (j : Int) - 1 = ((j - 1 : Nat) : Int) := by omega
      rw [if_pos rfl, hcast]
      exact ih (j - 1) _ _ (by omega) (by omega) hp hr

theorem rangesInv_push (n i : Nat) (ret : List Nat) (hi : i + 1 ≤ n)
    (h : rangesInv n (i + 1) ret) :
    rangesInv n i (if ret.length = 0 ∨ ret.getLast? ≠ some (i + 1) then ret ++ [i + 1, i]
      else ret.dropLast ++ [i]) := by
  obtain ⟨hp, hl, hx⟩ := h
  split_ifs with hc
  · refine ⟨?_, ?_, ?_⟩
    · rw [List.pairwise_append]
      refine ⟨hp, by simp, ?_⟩
      intro a ha b hb
      have ha1 := (hx a ha).1
      have hne : a ≠ i + 1 := by
        rcases hc with hc | hc
        · rw [List.length_eq_zero] at hc; subst hc; simp at ha
        · intro e
          subst e
          apply hc
          -- the last element is the least one
          rcases List.eq_nil_or_concat ret with hnil | ⟨l, z, hz⟩
          · subst hnil; simp at ha
          · subst hz
            rw [List.concat_eq_append] at ha hx hp ⊢
            rw [List.getLast?_concat]
            rw [List.pairwise_append] at hp
            rcases List.mem_append.1 ha with h1 | h1
            · have := hp.2.2 _ h1 z (by simp)
              have := (hx z (by simp)).1
              omega
            · simp at h1; rw [h1]
      simp at hb
      rcases hb with rfl | rfl <;> omega
    · simp; omega
    · intro x hx'
      rcases List.mem_append.1 hx' with h1 | h1
      · have := hx x h1; omega
      · simp at h1; rcases h1 with rfl | rfl <;> omega
  · push_neg at hc
    obtain ⟨hlen, hlast⟩ := hc
    rcases List.eq_nil_or_concat ret with hnil | ⟨l, z, hz⟩
    · subst hnil; simp at hlen
    · subst hz
      rw [List.concat_eq_append] at hp hl hx hlast ⊢
      rw [List.getLast?_concat] at hlast
      have hz : z = i + 1 := by simpa using hlast
      subst hz
      rw [List.dropLast_concat]
      rw [List.pairwise_append] at hp
      refine ⟨List.pairwise_append.2 ⟨hp.1, by simp, ?_⟩, ?_, ?_⟩
      · intro a ha b hb
        have := hp.2.2 a ha (i + 1) (by simp)
        simp at hb
        omega
      · simpa using hl
      · intro x hx'
        rcases List.mem_append.1 hx' with h1 | h1
        · have := hx x (List.mem_append.2 (Or.inl h1)); omega
        · simp at h1; omega

theorem rangesInv_mono (n i : Nat) (ret : List Nat) (h : rangesInv n (i + 1) ret) :
    rangesInv n i ret :=
  ⟨h.1, h.2.1, fun x hx => ⟨by have := (h.2.2 x hx).1; omega, (h.2.2 x hx).2⟩⟩

/-- The walk of `MatchedRanges` keeps the shape of the list. -/
theorem matchedRangesLoop_inv (m : Matcher) (n : Nat) :
    ∀ (i : Nat) (j : Int) (k : Nat) (ret out : List Nat), i ≤ n → rangesInv n i ret →
      matchedRangesLoop m i j k ret = some out → rangesInv n 0 out := by
  intro i
  induction i with
  | zero =>
    intro j k ret out _ hinv h
    rw [matchedRangesLoop] at h
    cases h
    exact hinv
  | succ i ih =>
    intro j k ret out hi hinv h
    rw [matchedRangesLoop] at h
    dsimp only at h
    by_cases h1 : j < 0
    · rw [if_pos h1] at h; cases h
    · rw [if_neg h1] at h
      by_cases h2 : k = 1
      · rw [if_pos h2] at h
        exact ih _ _ _ _ (by omega) (rangesInv_push n i ret hi hinv) h
      · rw [if_neg h2] at h
        exact ih _ _ _ _ (by omega) (rangesInv_mono n i ret hinv) h

/-! ### The prefilter -/

/-- The greedy cursor loop consumes the whole pattern exactly when the pattern is
a subsequence of the candidate. -/
theorem matchLoop_eq_nil_iff (c p : List Nat) : matchLoop c p = [] ↔ p.Sublist c := by
  induction c generalizing p with
  | nil =>
    cases p with
    | nil => simp [matchLoop]
    | cons x xs => simp [matchLoop]
  | cons y ys ih =>
    cases p with
    | nil => simp [matchLoop]
    | cons x xs =>
      rw [matchLoop]
      by_cases h : y = x
      · subst h
        rw [if_pos rfl, ih, List.cons_sublist_cons]
      · rw [if_neg h, ih]
        constructor
        · intro hs; exact List.Sublist.cons y hs
        · intro hs
          cases hs with
          | cons _ h' => exact h'
          | cons₂ _ h' => exact absurd rfl h

theorem toLower_length (bs : List Nat) : (toLower bs).length = bs.length := by
  simp [toLower]

theorem candidateOf_length_le (chunks : List (List Nat)) : (candidateOf chunks).length ≤ 127 := by
  unfold candidateOf fromChunks MaxInputSize
  simp only []
  split_ifs <;> simp [List.length_take]

theorem NewMatcher_pattern_length_le (rr : List Nat → List RuneRole) (P : List Nat) :
    (NewMatcher rr P).pattern.length ≤ 63 := by
  unfold NewMatcher MaxPatternSize
  simp only []
  split_ifs with h
  · simp [List.length_take]
  · omega

theorem compiledAs_refl (m : Matcher) : m.compiledAs m := ⟨rfl, rfl, rfl, rfl, rfl, rfl⟩

/-! ### One scoring call on a matcher with any history -/

theorem scored_scores_eq (rr : List Nat → List RuneRole) (m2 m0 : Matcher)
    (candidate : List Nat) (hm : m2.compiledAs m0) (hr : m2.roles = rr candidate)
    (i j k : Nat) (hi : i ≤ candidate.length) (hj : j ≤ m0.pattern.length) (hk : k < 2) :
    (m2.computeScore candidate (toLower candidate)).1.scores i j k =
      (m0.scored rr candidate).scores i j k := by
  obtain ⟨h1, h2, h3, h4, h5, _⟩ := hm
  rw [computeScore_scores m2 candidate (toLower candidate) i j k hi (by rw [h1]; exact hj) hk]
  exact dpTable_congr m2 { m0 with roles := rr candidate } candidate (toLower candidate)
    h1 h2 h3 h4 h5 hr i j k

theorem bestK_congr (m1 m2 : Matcher) (i j : Nat)
    (h : ∀ k, k < 2 → m1.scores i j k = m2.scores i j k) : m1.bestK i j = m2.bestK i j := by
  unfold Matcher.bestK
  rw [h 0 (by omega), h 1 (by omega)]

theorem bestK_lt (m : Matcher) (i j : Nat) : m.bestK i j < 2 := by
  unfold Matcher.bestK
  split_ifs <;> omega

theorem poorMatch_congr (m1 m2 : Matcher) (hp : m1.pattern = m2.pattern)
    (hr : m1.roles = m2.roles) (hl : m1.lastCandidateLen = m2.lastCandidateLen)
    (hT : ∀ i j k, i ≤ m2.lastCandidateLen → j ≤ m2.pattern.length → k < 2 →
      m1.scores i j k = m2.scores i j k) :
    m1.poorMatch = m2.poorMatch := by
  unfold Matcher.poorMatch
  rw [hp, hl, bestK_congr m1 m2 _ _ (fun k hk => hT _ _ k le_rfl le_rfl hk)]
  split_ifs
  · rfl
  · exact poorMatchLoop_congr m1 m2 _ _ hr hT _ _ _ _ _ le_rfl le_rfl (bestK_lt _ _ _)

theorem MatchedRanges_congr (m1 m2 : Matcher) (hp : m1.pattern = m2.pattern)
    (hb : m1.lastCandidateMatched = m2.lastCandidateMatched)
    (hl : m1.lastCandidateLen = m2.lastCandidateLen)
    (hT : ∀ i j k, i ≤ m2.lastCandidateLen → j ≤ m2.pattern.length → k < 2 →
      m1.scores i j k = m2.scores i j k) :
    m1.MatchedRanges = m2.MatchedRanges := by
  unfold Matcher.MatchedRanges
  dsimp only
  rw [hp, hl, hb, bestK_congr m1 m2 _ _ (fun k hk => hT _ _ k le_rfl le_rfl hk),
    hT _ _ 0 le_rfl le_rfl (by omega), hT _ _ 1 le_rfl le_rfl (by omega),
    matchedRangesLoop_congr m1 m2 _ _ hT _ _ _ _ le_rfl le_rfl (bestK_lt _ _ _)]

theorem MatchedRanges_unmatched (m : Matcher) (h : m.lastCandidateMatched = false) :
    m.MatchedRanges = some [] := by
  unfold Matcher.MatchedRanges
  rw [if_pos (Or.inr h)]

theorem MatchedRanges_empty_pattern (m : Matcher) (h : m.pattern.length = 0) :
    m.MatchedRanges = some [] := by
  unfold Matcher.MatchedRanges
  rw [if_pos (Or.inl h)]

theorem candidateOf_eq (chunks : List (List Nat)) :
    (if (fromChunks chunks MaxInputSize).length > MaxInputSize then
      List.take MaxInputSize (fromChunks chunks MaxInputSize)
    else fromChunks chunks MaxInputSize) = candidateOf chunks := rfl

theorem ScoreChunks_empty (rr : List Nat → List RuneRole) (m : Matcher)
    (chunks : List (List Nat)) (h : m.pattern.length = 0) :
    m.ScoreChunks rr chunks =
      some ({ m with lastCandidateLen := (candidateOf chunks).length }, 1) := by
  unfold Matcher.ScoreChunks
  dsimp only
  rw [if_pos h]
  rfl

theorem ScoreChunks_nomatch (rr : List Nat → List RuneRole) (m : Matcher)
    (chunks : List (List Nat)) (h : m.pattern.length ≠ 0)
    (hm : matchLoop (toLower (candidateOf chunks)) m.patternLower ≠ []) :
    m.ScoreChunks rr chunks =
      some ({ m with lastCandidateLen := (candidateOf chunks).length
                     lastCandidateMatched := false }, 0) := by
  have hl : (matchLoop (toLower (candidateOf chunks)) m.patternLower).length ≠ 0 := by
    rw [Ne, List.length_eq_zero]; exact hm
  unfold Matcher.ScoreChunks Matcher.match_
  dsimp only
  simp only [candidateOf_eq]
  rw [if_neg h]
  simp only [if_pos hl]
  rfl

theorem ScoreChunks_match (rr : List Nat → List RuneRole) (m : Matcher)
    (chunks : List (List Nat)) (h : m.pattern.length ≠ 0)
    (hm : matchLoop (toLower (candidateOf chunks)) m.patternLower = []) :
    m.ScoreChunks rr chunks =
      (if ((m.prepared rr (candidateOf chunks)).computeScore (candidateOf chunks)
          (toLower (candidateOf chunks))).2 > minScore / 2 then
        match ((m.prepared rr (candidateOf chunks)).computeScore (candidateOf chunks)
          (toLower (candidateOf chunks))).1.poorMatch with
        | none => none
        | some true =>
          some ({ ((m.prepared rr (candidateOf chunks)).computeScore (candidateOf chunks)
            (toLower (candidateOf chunks))).1 with lastCandidateMatched := false }, 0)
        | some false =>
          if m.pattern.length = (candidateOf chunks).length then
            some ({ ((m.prepared rr (candidateOf chunks)).computeScore (candidateOf chunks)
              (toLower (candidateOf chunks))).1 with lastCandidateMatched := true }, 1)
          else
            some ({ ((m.prepared rr (candidateOf chunks)).computeScore (candidateOf chunks)
              (toLower (candidateOf chunks))).1 with lastCandidateMatched := true },
              normalizedScore
                (if ((m.prepared rr (candidateOf chunks)).computeScore (candidateOf chunks)
                  (toLower (candidateOf chunks))).2 < 0 then 0
                else ((m.prepared rr (candidateOf chunks)).computeScore (candidateOf chunks)
                  (toLower (candidateOf chunks))).2) m.scoreScale)
      else
        some ({ ((m.prepared rr (candidateOf chunks)).computeScore (candidateOf chunks)
          (toLower (candidateOf chunks))).1 with lastCandidateMatched := false }, 0)) := by
  have hl : ¬ (matchLoop (toLower (candidateOf chunks)) m.patternLower).length ≠ 0 := by
    rw [hm]; simp
  unfold Matcher.ScoreChunks Matcher.match_
  dsimp only
  simp only [candidateOf_eq]
  rw [if_neg h]
  simp only [if_neg hl]
  rfl

theorem prepared_compiledAs (rr : List Nat → List RuneRole) (m m0 : Matcher)
    (candidate : List Nat) (hm : m.compiledAs m0) : (m.prepared rr candidate).compiledAs m0 := hm

/-- The value that `computeScore` returns is read off the table of the recurrence. -/
theorem computeScore_snd_eq (rr : List Nat → List RuneRole) (m m0 : Matcher)
    (candidate : List Nat) (hm : m.compiledAs m0) :
    ((m.prepared rr candidate).computeScore candidate (toLower candidate)).2 =
      scoreVal.val ((m0.scored rr candidate).scores candidate.length m0.pattern.length
        ((m0.scored rr candidate).bestK candidate.length m0.pattern.length)) := by
  have hp : (m.prepared rr candidate).pattern = m0.pattern := hm.1
  rw [computeScore_snd, hp]
  have hT : ∀ k, k < 2 →
      ((m.prepared rr candidate).computeScore candidate (toLower candidate)).1.scores
        candidate.length m0.pattern.length k =
      (m0.scored rr candidate).scores candidate.length m0.pattern.length k := fun k hk =>
    scored_scores_eq rr _ m0 candidate (prepared_compiledAs rr m m0 candidate hm) rfl _ _ _
      le_rfl le_rfl hk
  rw [bestK_congr _ _ _ _ hT, hT _ (bestK_lt _ _ _)]

theorem observe_match_aux (rr : List Nat → List RuneRole) (m m0 : Matcher)
    (candidate : List Nat) (hm : m.compiledAs m0) (b : Bool) :
    (∀ i j k, i ≤ (m0.scored rr candidate).lastCandidateLen →
      j ≤ (m0.scored rr candidate).pattern.length → k < 2 →
      ({ ((m.prepared rr candidate).computeScore candidate (toLower candidate)).1 with
        lastCandidateMatched := b } : Matcher).scores i j k =
        (m0.scored rr candidate).scores i j k) :=
  fun i j k hi hj hk =>
    scored_scores_eq rr _ m0 candidate (prepared_compiledAs rr m m0 candidate hm) rfl i j k hi hj hk

theorem observe_empty (rr : List Nat → List RuneRole) (m : Matcher)
    (chunks : List (List Nat)) (h : m.pattern.length = 0) :
    m.observe rr chunks = some (1, []) := by
  unfold Matcher.observe
  rw [ScoreChunks_empty rr m chunks h]
  dsimp only
  rw [MatchedRanges_empty_pattern { m with lastCandidateLen := (candidateOf chunks).length } h]

theorem observe_nomatch (rr : List Nat → List RuneRole) (m : Matcher)
    (chunks : List (List Nat)) (h : m.pattern.length ≠ 0)
    (hm : matchLoop (toLower (candidateOf chunks)) m.patternLower ≠ []) :
    m.observe rr chunks = some (0, []) := by
  unfold Matcher.observe
  rw [ScoreChunks_nomatch rr m chunks h hm]
  dsimp only
  rw [MatchedRanges_unmatched { m with lastCandidateLen := (candidateOf chunks).length
                                       lastCandidateMatched := false } rfl]

/-- The observation of a call that passes the prefilter, on a matcher with any
history, in terms of the table of the recurrence. -/
theorem observe_match (rr : List Nat → List RuneRole) (m m0 : Matcher)
    (chunks : List (List Nat)) (hm : m.compiledAs m0) (h : m.pattern.length ≠ 0)
    (h1 : matchLoop (toLower (candidateOf chunks)) m.patternLower = []) :
    m.observe rr chunks =
      (if scoreVal.val ((m0.scored rr (candidateOf chunks)).scores
          (candidateOf chunks).length m0.pattern.length
          ((m0.scored rr (candidateOf chunks)).bestK (candidateOf chunks).length
            m0.pattern.length)) ≤ minScore / 2 then some (0, [])
      else
        match (m0.scored rr (candidateOf chunks)).poorMatch with
        | none => none
        | some true => some (0, [])
        | some false =>
          match (m0.scored rr (candidateOf chunks)).MatchedRanges with
          | none => none
          | some rs =>
            some (if m0.pattern.length = (candidateOf chunks).length then 1
              else normalizedScore (if scoreVal.val ((m0.scored rr (candidateOf chunks)).scores
                  (candidateOf chunks).length m0.pattern.length
                  ((m0.scored rr (candidateOf chunks)).bestK (candidateOf chunks).length
                    m0.pattern.length)) < 0 then 0
                else scoreVal.val ((m0.scored rr (candidateOf chunks)).scores
                  (candidateOf chunks).length m0.pattern.length
                  ((m0.scored rr (candidateOf chunks)).bestK (candidateOf chunks).length
                    m0.pattern.length))) m0.scoreScale, rs)) := by
  have hp : m.pattern = m0.pattern := hm.1
  have hsc : m.scoreScale = m0.scoreScale := hm.2.2.2.2.2
  have hpm' : ((m.prepared rr (candidateOf chunks)).computeScore (candidateOf chunks)
      (toLower (candidateOf chunks))).1.poorMatch =
      (m0.scored rr (candidateOf chunks)).poorMatch :=
    poorMatch_congr _ _ hp rfl rfl
      (observe_match_aux rr m m0 (candidateOf chunks) hm
        ((m.prepared rr (candidateOf chunks)).computeScore (candidateOf chunks)
          (toLower (candidateOf chunks))).1.lastCandidateMatched)
  have hmr : ({ ((m.prepared rr (candidateOf chunks)).computeScore (candidateOf chunks)
      (toLower (candidateOf chunks))).1 with lastCandidateMatched := true } : Matcher).MatchedRanges =
      (m0.scored rr (candidateOf chunks)).MatchedRanges :=
    MatchedRanges_congr _ _ hp rfl rfl (observe_match_aux rr m m0 (candidateOf chunks) hm true)
  unfold Matcher.observe
  rw [ScoreChunks_match rr m chunks h h1, computeScore_snd_eq rr m m0 (candidateOf chunks) hm,
    hpm', hp, hsc]
  by_cases h2 : scoreVal.val ((m0.scored rr (candidateOf chunks)).scores
      (candidateOf chunks).length m0.pattern.length
      ((m0.scored rr (candidateOf chunks)).bestK (candidateOf chunks).length
        m0.pattern.length)) > minScore / 2
  · rw [if_pos h2, if_neg (not_le.2 h2)]
    cases hpoor : (m0.scored rr (candidateOf chunks)).poorMatch with
    | none => rfl
    | some b =>
      cases b with
      | true =>
        dsimp only
        rw [MatchedRanges_unmatched _ rfl]
      | false =>
        dsimp only
        by_cases h3 : m0.pattern.length = (candidateOf chunks).length
        · rw [if_pos h3, if_pos h3]
          dsimp only
          rw [hmr]
        · rw [if_neg h3, if_neg h3]
          dsimp only
          rw [hmr]
  · rw [if_neg h2, if_pos (not_lt.1 h2)]
    dsimp only
    rw [MatchedRanges_unmatched _ rfl]

theorem refObserve_empty (rr : List Nat → List RuneRole) (m0 : Matcher)
    (chunks : List (List Nat)) (h : m0.pattern.length = 0) :
    m0.refObserve rr chunks = some (1, []) := by
  unfold Matcher.refObserve
  dsimp only
  rw [if_pos h]

theorem refObserve_nomatch (rr : List Nat → List RuneRole) (m0 : Matcher)
    (chunks : List (List Nat)) (h : m0.pattern.length ≠ 0)
    (hm : matchLoop (toLower (candidateOf chunks)) m0.patternLower ≠ []) :
    m0.refObserve rr chunks = some (0, []) := by
  unfold Matcher.refObserve
  dsimp only
  rw [if_neg h, if_pos hm]

theorem refObserve_match (rr : List Nat → List RuneRole) (m0 : Matcher)
    (chunks : List (List Nat)) (h : m0.pattern.length ≠ 0)
    (hm : matchLoop (toLower (candidateOf chunks)) m0.patternLower = []) :
    m0.refObserve rr chunks =
      (if scoreVal.val ((m0.scored rr (candidateOf chunks)).scores
          (candidateOf chunks).length m0.pattern.length
          ((m0.scored rr (candidateOf chunks)).bestK (candidateOf chunks).length
            m0.pattern.length)) ≤ minScore / 2 then some (0, [])
      else
        match (m0.scored rr (candidateOf chunks)).poorMatch with
        | none => none
        | some true => some (0, [])
        | some false =>
          match (m0.scored rr (candidateOf chunks)).MatchedRanges with
          | none => none
          | some rs =>
            some (if m0.pattern.length = (candidateOf chunks).length then 1
              else normalizedScore (if scoreVal.val ((m0.scored rr (candidateOf chunks)).scores
                  (candidateOf chunks).length m0.pattern.length
                  ((m0.scored rr (candidateOf chunks)).bestK (candidateOf chunks).length
                    m0.pattern.length)) < 0 then 0
                else scoreVal.val ((m0.scored rr (candidateOf chunks)).scores
                  (candidateOf chunks).length m0.pattern.length
                  ((m0.scored rr (candidateOf chunks)).bestK (candidateOf chunks).length
                    m0.pattern.length))) m0.scoreScale, rs)) := by
  unfold Matcher.refObserve
  dsimp only
  rw [if_neg h, if_neg (not_not.2 hm)]

/-- One scoring call on a matcher with any history is observed as on the table of
the recurrence. -/
theorem observe_eq (rr : List Nat → List RuneRole) (m m0 : Matcher)
    (chunks : List (List Nat)) (hm : m.compiledAs m0) :
    m.observe rr chunks = m0.refObserve rr chunks := by
  have hp : m.pattern = m0.pattern := hm.1
  have hpl : m.patternLower = m0.patternLower := hm.2.1
  by_cases h0 : m.pattern.length = 0
  · rw [observe_empty rr m chunks h0, refObserve_empty rr m0 chunks (by rw [← hp]; exact h0)]
  · by_cases h1 : matchLoop (toLower (candidateOf chunks)) m.patternLower = []
    · rw [observe_match rr m m0 chunks hm h0 h1,
        refObserve_match rr m0 chunks (by rw [← hp]; exact h0) (by rw [← hpl]; exact h1)]
    · rw [observe_nomatch rr m chunks h0 h1,
        refObserve_nomatch rr m0 chunks (by rw [← hp]; exact h0) (by rw [← hpl]; exact h1)]

/-! ### The table of the recurrence is safe to walk -/

theorem minScore_half : minScore / 2 = -5000 := by unfold minScore; norm_num

theorem scored_isReal (rr : List Nat → List RuneRole) (m0 : Matcher) (candidate : List Nat)
    (hp : m0.pattern.length ≤ 63) (hc : candidate.length ≤ 127)
    (h : minScore / 2 < scoreVal.val ((m0.scored rr candidate).scores candidate.length
      m0.pattern.length ((m0.scored rr candidate).bestK candidate.length m0.pattern.length))) :
    isReal (dpTable { m0 with roles := rr candidate } candidate (toLower candidate))
      candidate.length m0.pattern.length
      ((m0.scored rr candidate).bestK candidate.length m0.pattern.length) :=
  isReal_of_gt _ candidate (toLower candidate) _ _ _ (bestK_lt _ _ _) (by omega) h

/-- After a call whose alignment value is above the failure threshold, `poorMatch`
returns. -/
theorem scored_poorMatch_some (rr : List Nat → List RuneRole) (m0 : Matcher)
    (candidate : List Nat) (hp : m0.pattern.length ≤ 63) (hc : candidate.length ≤ 127)
    (h : minScore / 2 < scoreVal.val ((m0.scored rr candidate).scores candidate.length
      m0.pattern.length ((m0.scored rr candidate).bestK candidate.length m0.pattern.length))) :
    ∃ b, (m0.scored rr candidate).poorMatch = some b := by
  unfold Matcher.poorMatch
  split_ifs
  · exact ⟨false, rfl⟩
  · exact poorMatchLoop_some (m0.scored rr candidate) { m0 with roles := rr candidate } candidate
      (toLower candidate) candidate.length m0.pattern.length (fun _ _ _ _ _ _ => rfl)
      (by omega) _ _ _ _ _ le_rfl le_rfl (bestK_lt _ _ _) (scored_isReal rr m0 candidate hp hc h)

/-- After a call whose alignment value is above the failure threshold,
`MatchedRanges` returns the reverse of a list of the shape `rangesInv`. -/
theorem scored_MatchedRanges_some (rr : List Nat → List RuneRole) (m0 : Matcher)
    (candidate : List Nat) (hp : m0.pattern.length ≤ 63) (hc : candidate.length ≤ 127)
    (hne : m0.pattern.length ≠ 0)
    (h : minScore / 2 < scoreVal.val ((m0.scored rr candidate).scores candidate.length
      m0.pattern.length ((m0.scored rr candidate).bestK candidate.length m0.pattern.length))) :
    ∃ out, (m0.scored rr candidate).MatchedRanges = some out.reverse ∧
      rangesInv candidate.length 0 out := by
  obtain ⟨out, ho⟩ := matchedRangesLoop_some (m0.scored rr candidate)
    { m0 with roles := rr candidate } candidate
    (toLower candidate) candidate.length m0.pattern.length (fun _ _ _ _ _ _ => rfl)
    (by omega) candidate.length m0.pattern.length
    ((m0.scored rr candidate).bestK candidate.length m0.pattern.length) [] le_rfl le_rfl
    (bestK_lt _ _ _) (scored_isReal rr m0 candidate hp hc h)
  refine ⟨out, ?_, ?_⟩
  · unfold Matcher.MatchedRanges
    have e1 : (m0.scored rr candidate).pattern = m0.pattern := rfl
    have e2 : (m0.scored rr candidate).lastCandidateMatched = true := rfl
    have e3 : (m0.scored rr candidate).lastCandidateLen = candidate.length := rfl
    rw [e1, e2, e3]
    rw [if_neg (by simp [hne])]
    dsimp only
    have hg : ¬ (scoreVal.val ((m0.scored rr candidate).scores candidate.length
        m0.pattern.length 0) < minScore / 2 ∧
        scoreVal.val ((m0.scored rr candidate).scores candidate.length
        m0.pattern.length 1) < minScore / 2) := by
      intro hg
      unfold Matcher.bestK at h
      split_ifs at h <;> omega
    rw [if_neg hg, ho]
    rfl
  · exact matchedRangesLoop_inv (m0.scored rr candidate) candidate.length candidate.length _ _ []
      out le_rfl ⟨List.Pairwise.nil, rfl, by simp⟩ ho

/-- Every scoring call returns, and so does the `MatchedRanges` that follows it. -/
theorem refObserve_some (rr : List Nat → List RuneRole) (m0 : Matcher)
    (chunks : List (List Nat)) (hp : m0.pattern.length ≤ 63) :
    ∃ s rs, m0.refObserve rr chunks = some (s, rs) := by
  by_cases h0 : m0.pattern.length = 0
  · exact ⟨_, _, refObserve_empty rr m0 chunks h0⟩
  · by_cases h1 : matchLoop (toLower (candidateOf chunks)) m0.patternLower = []
    · rw [refObserve_match rr m0 chunks h0 h1]
      by_cases h2 : scoreVal.val ((m0.scored rr (candidateOf chunks)).scores
          (candidateOf chunks).length m0.pattern.length
          ((m0.scored rr (candidateOf chunks)).bestK (candidateOf chunks).length
            m0.pattern.length)) ≤ minScore / 2
      · rw [if_pos h2]; exact ⟨_, _, rfl⟩
      · rw [if_neg h2]
        obtain ⟨b, hb⟩ := scored_poorMatch_some rr m0 (candidateOf chunks) hp
          (candidateOf_length_le chunks) (not_le.1 h2)
        obtain ⟨out, ho, _⟩ := scored_MatchedRanges_some rr m0 (candidateOf chunks) hp
          (candidateOf_length_le chunks) h0 (not_le.1 h2)
        rw [hb, ho]
        cases b
        · exact ⟨_, _, rfl⟩
        · exact ⟨_, _, rfl⟩
    · exact ⟨_, _, refObserve_nomatch rr m0 chunks h0 h1⟩

/-! ### Sequences of calls -/

theorem observe_some (rr : List Nat → List RuneRole) (m : Matcher) (chunks : List (List Nat))
    (s : ℚ) (rs : List Nat) (h : m.observe rr chunks = some (s, rs)) :
    ∃ m', m.ScoreChunks rr chunks = some (m', s) ∧ m'.MatchedRanges = some rs := by
  unfold Matcher.observe at h
  cases hsc : m.ScoreChunks rr chunks with
  | none => rw [hsc] at h; cases h
  | some r =>
    rw [hsc] at h
    dsimp only at h
    cases hmr : r.1.MatchedRanges with
    | none => rw [hmr] at h; cases h
    | some rs' =>
      rw [hmr] at h
      dsimp only at h
      cases h
      exact ⟨r.1, rfl, hmr⟩

theorem observe_of (rr : List Nat → List RuneRole) (m m' : Matcher) (chunks : List (List Nat))
    (s : ℚ) (rs : List Nat) (h1 : m.ScoreChunks rr chunks = some (m', s))
    (h2 : m'.MatchedRanges = some rs) : m.observe rr chunks = some (s, rs) := by
  unfold Matcher.observe
  rw [h1]
  dsimp only
  rw [h2]

/-- A scoring call leaves the compiled pattern alone. -/
theorem ScoreChunks_compiledAs (rr : List Nat → List RuneRole) (m : Matcher)
    (chunks : List (List Nat)) (r : Matcher × ℚ) (h : m.ScoreChunks rr chunks = some r) :
    r.1.compiledAs m := by
  by_cases h0 : m.pattern.length = 0
  · rw [ScoreChunks_empty rr m chunks h0] at h
    cases h
    exact compiledAs_refl m
  · by_cases h1 : matchLoop (toLower (candidateOf chunks)) m.patternLower = []
    · rw [ScoreChunks_match rr m chunks h0 h1] at h
      by_cases hgt : ((m.prepared rr (candidateOf chunks)).computeScore (candidateOf chunks)
          (toLower (candidateOf chunks))).2 > minScore / 2
      · rw [if_pos hgt] at h
        cases hpm : ((m.prepared rr (candidateOf chunks)).computeScore (candidateOf chunks)
          (toLower (candidateOf chunks))).1.poorMatch with
        | none => rw [hpm] at h; cases h
        | some b =>
          rw [hpm] at h
          cases b with
          | true => cases h; exact compiledAs_refl m
          | false =>
            dsimp only at h
            split_ifs at h <;> · cases h; exact compiledAs_refl m
      · rw [if_neg hgt] at h
        cases h; exact compiledAs_refl m
    · rw [ScoreChunks_nomatch rr m chunks h0 h1] at h
      cases h
      exact compiledAs_refl m

theorem compiledAs_trans (a b c : Matcher) (h1 : a.compiledAs b) (h2 : b.compiledAs c) :
    a.compiledAs c :=
  ⟨h1.1.trans h2.1, h1.2.1.trans h2.2.1, h1.2.2.1.trans h2.2.2.1,
    h1.2.2.2.1.trans h2.2.2.2.1, h1.2.2.2.2.1.trans h2.2.2.2.2.1,
    h1.2.2.2.2.2.trans h2.2.2.2.2.2⟩

/-- Any sequence of scoring calls returns and leaves the compiled pattern alone. -/
theorem runCalls_some (rr : List Nat → List RuneRole) (m0 : Matcher)
    (hp : m0.pattern.length ≤ 63) (hist : List (List (List Nat))) :
    ∀ m : Matcher, m.compiledAs m0 → ∃ m', runCalls rr m hist = some m' ∧ m'.compiledAs m0 := by
  induction hist with
  | nil => intro m hm; exact ⟨m, rfl, hm⟩
  | cons chunks rest ih =>
    intro m hm
    obtain ⟨s, rs, hs⟩ := refObserve_some rr m0 chunks hp
    rw [← observe_eq rr m m0 chunks hm] at hs
    obtain ⟨m1, h1, _⟩ := observe_some rr m chunks s rs hs
    have hc := ScoreChunks_compiledAs rr m chunks _ h1
    obtain ⟨m', h', hc'⟩ := ih m1 (compiledAs_trans _ _ _ hc hm)
    refine ⟨m', ?_, hc'⟩
    rw [runCalls, h1]
    exact h'

/-- After any earlier calls, a scoring call and the `MatchedRanges` that follows
return what the table of the recurrence gives. -/
theorem after_eq (rr : List Nat → List RuneRole) (P : List Nat)
    (hist : List (List (List Nat))) (chunks : List (List Nat)) :
    ∃ s rs, (NewMatcher rr P).refObserve rr chunks = some (s, rs) ∧
      scoreAfter rr P hist chunks = some s ∧ rangesAfter rr P hist chunks = some rs := by
  obtain ⟨m, hm, hc⟩ := runCalls_some rr (NewMatcher rr P) (NewMatcher_pattern_length_le rr P) hist
    (NewMatcher rr P) (compiledAs_refl _)
  obtain ⟨s, rs, hs⟩ := refObserve_some rr (NewMatcher rr P) chunks
    (NewMatcher_pattern_length_le rr P)
  refine ⟨s, rs, hs, ?_, ?_⟩
  · rw [← observe_eq rr m _ chunks hc] at hs
    obtain ⟨m', h1, h2⟩ := observe_some rr m chunks s rs hs
    unfold scoreAfter
    rw [hm]
    show Option.map (fun r => r.2) (m.ScoreChunks rr chunks) = some s
    rw [h1]
    rfl
  · rw [← observe_eq rr m _ chunks hc] at hs
    obtain ⟨m', h1, h2⟩ := observe_some rr m chunks s rs hs
    unfold rangesAfter
    rw [hm]
    show (m.ScoreChunks rr chunks).bind (fun r => r.1.MatchedRanges) = some rs
    rw [h1]
    exact h2

theorem NewMatcher_pattern (rr : List Nat → List RuneRole) (P : List Nat) :
    (NewMatcher rr P).pattern = P.take 63 := by
  unfold NewMatcher MaxPatternSize
  dsimp only
  split_ifs with h
  · rfl
  · rw [List.take_of_length_le (by omega)]

theorem NewMatcher_patternLower (rr : List Nat → List RuneRole) (P : List Nat) :
    (NewMatcher rr P).patternLower = toLower (P.take 63) := by
  have h := NewMatcher_pattern rr P
  unfold NewMatcher at h ⊢
  dsimp only at h ⊢
  rw [h]

theorem NewMatcher_take (rr : List Nat → List RuneRole) (P : List Nat) :
    NewMatcher rr (P.take 63) = NewMatcher rr P := by
  have h : (if P.length > MaxPatternSize then P.take MaxPatternSize else P) = P.take 63 :=
    NewMatcher_pattern rr P
  have h' : (if (P.take 63).length > MaxPatternSize then (P.take 63).take MaxPatternSize
      else P.take 63) = P.take 63 := by
    split_ifs with hc
    · unfold MaxPatternSize; rw [List.take_take]; simp
    · rfl
  unfold NewMatcher
  dsimp only
  rw [h, h']

theorem candidateOf_single (C : List Nat) : candidateOf [C] = C.take 127 := by
  unfold candidateOf fromChunks MaxInputSize
  dsimp only
  have e : [C].flatten = C := by simp
  rw [e]
  split_ifs with h
  · rw [List.take_take]; simp
  · rfl

theorem rawScore_eq (rr : List Nat → List RuneRole) (P : List Nat) (chunks : List (List Nat)) :
    rawScore rr P chunks =
      scoreVal.val (((NewMatcher rr P).scored rr (candidateOf chunks)).scores
        (candidateOf chunks).length (NewMatcher rr P).pattern.length
        (((NewMatcher rr P).scored rr (candidateOf chunks)).bestK (candidateOf chunks).length
          (NewMatcher rr P).pattern.length)) :=
  computeScore_snd_eq rr (NewMatcher rr P) (NewMatcher rr P) (candidateOf chunks)
    (compiledAs_refl _)

theorem poorFlag_eq (rr : List Nat → List RuneRole) (P : List Nat) (chunks : List (List Nat)) :
    poorFlag rr P chunks = ((NewMatcher rr P).scored rr (candidateOf chunks)).poorMatch :=
  poorMatch_congr _ _ rfl rfl rfl
    (observe_match_aux rr (NewMatcher rr P) (NewMatcher rr P) (candidateOf chunks)
      (compiledAs_refl _)
      (((NewMatcher rr P).prepared rr (candidateOf chunks)).computeScore (candidateOf chunks)
        (toLower (candidateOf chunks))).1.lastCandidateMatched)

theorem pattern_length_ne_zero (rr : List Nat → List RuneRole) (P : List Nat)
    (h : P.take 63 ≠ []) : (NewMatcher rr P).pattern.length ≠ 0 := by
  rw [NewMatcher_pattern, Ne, List.length_eq_zero]
  exact h

/-- The empty pattern: score `1`, no ranges. -/
theorem after_empty (rr : List Nat → List RuneRole) (P : List Nat)
    (hist : List (List (List Nat))) (chunks : List (List Nat)) (h : P.take 63 = []) :
    scoreAfter rr P hist chunks = some 1 ∧ rangesAfter rr P hist chunks = some [] := by
  obtain ⟨s, rs, h0, h1, h2⟩ := after_eq rr P hist chunks
  rw [refObserve_empty rr _ chunks (by rw [NewMatcher_pattern, h]; rfl)] at h0
  cases h0
  exact ⟨h1, h2⟩

/-- The prefilter fails: score `0`, no ranges. -/
theorem after_nomatch (rr : List Nat → List RuneRole) (P : List Nat)
    (hist : List (List (List Nat))) (chunks : List (List Nat))
    (h : ¬ (toLower (P.take 63)).Sublist (toLower (candidateOf chunks))) :
    scoreAfter rr P hist chunks = some 0 ∧ rangesAfter rr P hist chunks = some [] := by
  have hne : P.take 63 ≠ [] := by
    intro e
    apply h
    rw [e]
    exact List.nil_sublist _
  obtain ⟨s, rs, h0, h1, h2⟩ := after_eq rr P hist chunks
  rw [refObserve_nomatch rr _ chunks (pattern_length_ne_zero rr P hne)
    (by rw [NewMatcher_patternLower, Ne, matchLoop_eq_nil_iff]; exact h)] at h0
  cases h0
  exact ⟨h1, h2⟩

/-- The prefilter passes and the alignment value is at or below the failure
threshold: score `0`, no ranges. -/
theorem after_rejected (rr : List Nat → List RuneRole) (P : List Nat)
    (hist : List (List (List Nat))) (chunks : List (List Nat)) (hne : P.take 63 ≠ [])
    (h : (toLower (P.take 63)).Sublist (toLower (candidateOf chunks)))
    (hr : rawScore rr P chunks ≤ minScore / 2) :
    scoreAfter rr P hist chunks = some 0 ∧ rangesAfter rr P hist chunks = some [] := by
  obtain ⟨s, rs, h0, h1, h2⟩ := after_eq rr P hist chunks
  rw [refObserve_match rr _ chunks (pattern_length_ne_zero rr P hne)
    (by rw [NewMatcher_patternLower, matchLoop_eq_nil_iff]; exact h),
    ← rawScore_eq, if_pos hr] at h0
  cases h0
  exact ⟨h1, h2⟩

/-- The prefilter passes and the alignment value is above the failure threshold:
`poorMatch` returns; when it flags the match the score is `0` with no ranges;
otherwise the call matches, the score is `1` for a candidate as long as the
pattern and the scaled, clamped alignment value otherwise, and the ranges are the
reverse of a list of the shape `rangesInv`. -/
theorem after_accepted (rr : List Nat → List RuneRole) (P : List Nat)
    (hist : List (List (List Nat))) (chunks : List (List Nat)) (hne : P.take 63 ≠ [])
    (h : (toLower (P.take 63)).Sublist (toLower (candidateOf chunks)))
    (hr : minScore / 2 < rawScore rr P chunks) :
    (poorFlag rr P chunks = some true ∧
      scoreAfter rr P hist chunks = some 0 ∧ rangesAfter rr P hist chunks = some []) ∨
    (poorFlag rr P chunks = some false ∧
      scoreAfter rr P hist chunks =
        some (if (P.take 63).length = (candidateOf chunks).length then 1
          else normalizedScore (if rawScore rr P chunks < 0 then 0 else rawScore rr P chunks)
            (NewMatcher rr P).scoreScale) ∧
      ∃ out, rangesAfter rr P hist chunks = some out.reverse ∧
        rangesInv (candidateOf chunks).length 0 out) := by
  obtain ⟨s, rs, h0, h1, h2⟩ := after_eq rr P hist chunks
  have hr' := hr
  rw [rawScore_eq] at hr'
  obtain ⟨out, ho, hinv⟩ := scored_MatchedRanges_some rr (NewMatcher rr P) (candidateOf chunks)
    (NewMatcher_pattern_length_le rr P) (candidateOf_length_le chunks)
    (pattern_length_ne_zero rr P hne) hr'
  rw [refObserve_match rr _ chunks (pattern_length_ne_zero rr P hne)
    (by rw [NewMatcher_patternLower, matchLoop_eq_nil_iff]; exact h),
    ← rawScore_eq, if_neg (not_le.2 hr), ← poorFlag_eq, ho] at h0
  cases hb : poorFlag rr P chunks with
  | none => rw [hb] at h0; cases h0
  | some b =>
    rw [hb] at h0
    cases b with
    | true =>
      left
      cases h0
      exact ⟨rfl, h1, h2⟩
    | false =>
      right
      dsimp only at h0
      cases h0
      rw [NewMatcher_pattern] at h1
      exact ⟨rfl, h1, out, h2, hinv⟩

theorem scoreScale_eq (rr : List Nat → List RuneRole) (P : List Nat) :
    (NewMatcher rr P).scoreScale =
      if (NewMatcher rr P).pattern.length > 0 then
        float32 (1 / float32 ((((4 * (NewMatcher rr P).pattern.length : Nat) : Int)) : ℚ))
      else 0 := rfl

theorem scoreScale_pos (rr : List Nat → List RuneRole) (P : List Nat) (h : P.take 63 ≠ []) :
    0 < (NewMatcher rr P).scoreScale := by
  have hl : 0 < (NewMatcher rr P).pattern.length :=
    Nat.pos_of_ne_zero (pattern_length_ne_zero rr P h)
  rw [scoreScale_eq, if_pos hl]
  apply float32_pos
  apply one_div_pos.2
  apply float32_pos
  have : (0 : ℚ) < ((NewMatcher rr P).pattern.length : ℚ) := by exact_mod_cast hl
  push_cast
  linarith

theorem clamped_score_bounds (raw : Int) (scale : ℚ) (hs : 0 ≤ scale) :
    0 ≤ normalizedScore (if raw < 0 then 0 else raw) scale ∧
      normalizedScore (if raw < 0 then 0 else raw) scale ≤ 1 := by
  unfold normalizedScore
  refine ⟨le_min (float32_nonneg _ (mul_nonneg (float32_nonneg _ ?_) hs)) zero_le_one,
    min_le_right _ _⟩
  split_ifs with h
  · simp
  · exact_mod_cast (not_lt.1 h)

theorem clamped_score_eq_zero (raw : Int) (scale : ℚ) (hs : 0 < scale) :
    normalizedScore (if raw < 0 then 0 else raw) scale = 0 ↔ raw ≤ 0 := by
  unfold normalizedScore
  constructor
  · intro h
    by_contra hc
    have hpos : 0 < raw := not_le.1 hc
    rw [if_neg (by omega)] at h
    have h1 : (0 : ℚ) < float32 (float32 (raw : ℚ) * scale) :=
      float32_pos _ (mul_pos (float32_pos _ (by exact_mod_cast hpos)) hs)
    have h2 : (0 : ℚ) < min (float32 (float32 (raw : ℚ) * scale)) 1 := lt_min h1 zero_lt_one
    linarith
  · intro h
    have e : (if raw < 0 then 0 else raw : Int) = 0 := by
      split_ifs <;> omega
    rw [e, Int.cast_zero, float32_zero, zero_mul, float32_zero]
    simp

/-! ### A candidate as long as the pattern: the diagonal of the table -/

theorem matchUpd_val (lastSegStart i : Nat) (role : RuneRole) (charScore : Int)
    (b : Nat → scoreVal) (cur : scoreVal) (k : Nat) (hk : k < 2) :
    scoreVal.val cur ≤ scoreVal.val (matchUpd lastSegStart i role charScore b cur k) ∧
      matchCand lastSegStart i role charScore b k ≤
        scoreVal.val (matchUpd lastSegStart i role charScore b cur k) := by
  unfold matchUpd
  split_ifs with h
  · rw [val_score _ _ hk]; omega
  · omega

/-- An admitted match state is at least every candidate value offered to it. -/
theorem matchCell_ge (m : Matcher) (candidate candidateLower : List Nat)
    (lastSegStart i j : Nat) (role : RuneRole) (segmentsLeft : Nat) (b : Nat → scoreVal)
    (hn : ¬ noMatch m candidateLower i j role) (k : Nat) (hk : k < 2) :
    matchCand lastSegStart i role (charScoreOf m candidate i j role segmentsLeft) b k ≤
      scoreVal.val (matchCell m candidate candidateLower lastSegStart i j role segmentsLeft b) := by
  unfold matchCell
  rw [if_neg hn]
  simp only [List.range_succ, List.range_zero, List.nil_append, List.foldl_cons,
    List.foldl_nil, List.cons_append]
  have h0 := matchUpd_val lastSegStart i role (charScoreOf m candidate i j role segmentsLeft) b
    (minScore * 2) 0 (by omega)
  have h1 := matchUpd_val lastSegStart i role (charScoreOf m candidate i j role segmentsLeft) b
    (matchUpd lastSegStart i role (charScoreOf m candidate i j role segmentsLeft) b
      (minScore * 2) 0) 1 (by omega)
  have hk' : k = 0 ∨ k = 1 := by omega
  rcases hk' with rfl | rfl
  · omega
  · omega

/-- Cells above the diagonal derive from the sentinel. -/
theorem dpTable_above_diag (m : Matcher) (candidate candidateLower : List Nat) (i j k : Nat)
    (hij : i < j) (hk : k < 2) : isSent (dpTable m candidate candidateLower) i j k := by
  induction i generalizing j k with
  | zero =>
    unfold isSent
    show scoreVal.val (if j = 0 ∧ k = 0 then score 0 0 else minScore * 2) ≤ _
    rw [if_neg (by omega), val_sentinel]
    omega
  | succ i ih =>
    have hk' : k = 0 ∨ k = 1 := by omega
    rcases hk' with rfl | rfl
    · obtain ⟨pen, hp0, hp1, e⟩ := dpTable_skip m candidate candidateLower i j
      have hks : (if scoreVal.val (dpTable m candidate candidateLower i j 0) <
            scoreVal.val (dpTable m candidate candidateLower i j 1) then 1 else 0) < 2 := by
        split_ifs <;> omega
      have h := ih j _ (by omega) hks
      unfold isSent at h ⊢
      rw [e, val_score _ _ hks]
      omega
    · rcases dpTable_match m candidate candidateLower i j with e | ⟨hj, k, hk, d, hd1, hd2, e⟩
      · unfold isSent; rw [e, val_sentinel]; omega
      · have h := ih (j - 1) k (by omega) hk
        unfold isSent at h ⊢
        rw [e, val_score _ _ hk]
        omega

/-- The skip state of a diagonal cell derives from the sentinel. -/
theorem dpTable_diag_skip (m : Matcher) (candidate candidateLower : List Nat) (i : Nat) :
    isSent (dpTable m candidate candidateLower) (i + 1) (i + 1) 0 := by
  obtain ⟨pen, hp0, hp1, e⟩ := dpTable_skip m candidate candidateLower i (i + 1)
  have hks : (if scoreVal.val (dpTable m candidate candidateLower i (i + 1) 0) <
        scoreVal.val (dpTable m candidate candidateLower i (i + 1) 1) then 1 else 0) < 2 := by
    split_ifs <;> omega
  have h := dpTable_above_diag m candidate candidateLower i (i + 1) _ (by omega) hks
  unfold isSent at h ⊢
  rw [e, val_score _ _ hks]
  omega

theorem not_isReal_of_isSent (T : Nat → Nat → Nat → scoreVal) (i j k : Nat)
    (hb : 12 * j + i < 10000) (h : isSent T i j k) : ¬ isReal T i j k := by
  unfold isSent minScore at h
  unfold isReal
  omega

/-- The match states on the diagonal are real as long as every diagonal match is
admitted. -/
theorem dpTable_diag_real (m : Matcher) (candidate candidateLower : List Nat) (n : Nat)
    (hadm : ∀ i, i < n → ¬ noMatch m candidateLower (i + 1) (i + 1) (m.roles.getD i RNone)) :
    ∀ i, i ≤ n → isReal (dpTable m candidate candidateLower) i i (if i = 0 then 0 else 1) := by
  intro i
  induction i with
  | zero =>
    intro _
    unfold isReal
    show _ ≤ scoreVal.val (if 0 = 0 ∧ 0 = 0 then score 0 0 else minScore * 2)
    rw [if_pos ⟨rfl, rfl⟩, val_score 0 0 (by omega)]
    simp
  | succ i ih =>
    intro hi
    have hprev := ih (by omega)
    rw [if_neg (by omega)]
    unfold isReal at hprev ⊢
    rw [dpTable_succ]
    unfold rowOf
    rw [if_neg (by omega)]
    have hk : (if i = 0 then 0 else 1) < 2 := by split_ifs <;> omega
    have hge := matchCell_ge m candidate candidateLower
      ((List.range candidate.length).foldl (segStep m.roles) (1, 0)).2 (i + 1) (i + 1)
      (m.roles.getD i RNone)
      (ctxAt m.roles ((List.range candidate.length).foldl (segStep m.roles) (1, 0)).1 (i + 1)).2
      (dpTable m candidate candidateLower i (i + 1 - 1)) (hadm i (by omega)) _ hk
    have hb := matchCand_bounds ((List.range candidate.length).foldl (segStep m.roles) (1, 0)).2
      (i + 1) (m.roles.getD i RNone)
      (charScoreOf m candidate (i + 1) (i + 1) (m.roles.getD i RNone)
        (ctxAt m.roles ((List.range candidate.length).foldl (segStep m.roles) (1, 0)).1 (i + 1)).2)
      (dpTable m candidate candidateLower i (i + 1 - 1)) (if i = 0 then 0 else 1)
    have hc := charScoreOf_bounds m candidate (i + 1) (i + 1) (m.roles.getD i RNone)
      (ctxAt m.roles ((List.range candidate.length).foldl (segStep m.roles) (1, 0)).1 (i + 1)).2
    simp only [Nat.add_sub_cancel] at hge hb ⊢
    push_cast
    omega

/-- On the diagonal the recorded predecessor of a real match state is the match
state, except in row 1 where it is the start state. -/
theorem dpTable_diag_prevK (m : Matcher) (candidate candidateLower : List Nat) (i : Nat)
    (hb : i ≤ 127)
    (h : isReal (dpTable m candidate candidateLower) (i + 1) (i + 1) 1) :
    scoreVal.prevK (dpTable m candidate candidateLower (i + 1) (i + 1) 1) =
      if i = 0 then 0 else 1 := by
  obtain ⟨_, hr⟩ := isReal_pred_match m candidate candidateLower i (i + 1) (by omega) h
  have hlt := prevK_lt (dpTable m candidate candidateLower (i + 1) (i + 1) 1)
  simp only [Nat.add_sub_cancel] at hr
  by_cases hi : i = 0
  · subst hi
    rw [if_pos rfl]
    by_contra hne
    have h1 : scoreVal.prevK (dpTable m candidate candidateLower (0 + 1) (0 + 1) 1) = 1 := by omega
    rw [h1] at hr
    unfold isReal at hr
    have e : dpTable m candidate candidateLower 0 0 1 = minScore * 2 := rfl
    rw [e, val_sentinel] at hr
    unfold minScore at hr
    simp at hr
  · rw [if_neg hi]
    by_contra hne
    have h0 : scoreVal.prevK (dpTable m candidate candidateLower (i + 1) (i + 1) 1) = 0 := by omega
    rw [h0] at hr
    obtain ⟨i', rfl⟩ : ∃ i', i = i' + 1 := ⟨i - 1, by omega⟩
    exact not_isReal_of_isSent _ _ _ _ (by omega)
      (dpTable_diag_skip m candidate candidateLower i') hr

/-- The walk of `poorMatch` down a real diagonal reports no poor match. -/
theorem poorMatchLoop_diag (rr : List Nat → List RuneRole) (m0 : Matcher) (candidate : List Nat)
    (n : Nat) (hn : n ≤ 127)
    (hreal : ∀ i, i ≤ n → isReal
      (dpTable { m0 with roles := rr candidate } candidate (toLower candidate)) i i
      (if i = 0 then 0 else 1)) :
    ∀ i, i ≤ n → ∀ len, poorMatchLoop (m0.scored rr candidate) i (i : Int) 1 0 len = some false := by
  intro i
  induction i with
  | zero => intro _ len; rfl
  | succ i ih =>
    intro hi len
    have hr := hreal (i + 1) hi
    rw [if_neg (by omega)] at hr
    have hp := dpTable_diag_prevK _ candidate (toLower candidate) i (by omega) hr
    rw [poorMatchLoop, if_neg (by omega)]
    have hc : (m0.scored rr candidate).scores (i + 1) ((i + 1 : Nat) : Int).toNat 1 =
        dpTable { m0 with roles := rr candidate } candidate (toLower candidate) (i + 1) (i + 1) 1 := by
      rw [Int.toNat_ofNat]; rfl
    simp only [hc, hp]
    have hcast : ((i + 1 : Nat) : Int) - 1 = (i : Int) := by omega
    rw [if_pos trivial, hcast]
    by_cases h0 : i = 0
    · subst h0
      simp only [if_true]
      split_ifs <;> first | rfl | omega
    · rw [if_neg h0, if_neg (by omega)]
      exact ih (by omega) _

theorem NewMatcher_patternRoles (rr : List Nat → List RuneRole) (P : List Nat) :
    (NewMatcher rr P).patternRoles = rr (P.take 63) := by
  have h : (if P.length > MaxPatternSize then P.take MaxPatternSize else P) = P.take 63 :=
    NewMatcher_pattern rr P
  unfold NewMatcher
  dsimp only
  rw [h]

theorem NewMatcher_patternShort (rr : List Nat → List RuneRole) (P : List Nat) :
    (NewMatcher rr P).patternShort <+: (NewMatcher rr P).patternLower := by
  unfold NewMatcher
  dsimp only
  split_ifs
  · exact List.take_prefix _ _
  · exact List.prefix_refl _
  · exact List.take_prefix _ _
  · exact List.prefix_refl _

/-- For a candidate equal to the pattern up to case, every diagonal match is
admitted unless, after the first byte, a word-start pattern byte meets a tail
candidate byte. -/
theorem diag_admitted (rr : List Nat → List RuneRole) (P C : List Nat) (hlen : P.length ≤ 63)
    (hlow : toLower P = toLower C)
    (hroles : ∀ t, 1 ≤ t → t < P.length →
      ¬ ((rr C).getD t RNone = RTail ∧ (rr P).getD t RNone = RHead)) :
    ∀ i, i < P.length →
      ¬ noMatch { NewMatcher rr P with roles := rr C } (toLower C) (i + 1) (i + 1)
        ((rr C).getD i RNone) := by
  intro i hi
  have hP : P.take 63 = P := List.take_of_length_le hlen
  have e1 : ({ NewMatcher rr P with roles := rr C } : Matcher).patternLower = toLower C := by
    show (NewMatcher rr P).patternLower = _
    rw [NewMatcher_patternLower, hP, hlow]
  have e2 : ({ NewMatcher rr P with roles := rr C } : Matcher).patternRoles = rr P := by
    show (NewMatcher rr P).patternRoles = _
    rw [NewMatcher_patternRoles, hP]
  have e3 : ({ NewMatcher rr P with roles := rr C } : Matcher).patternShort <+: toLower C := by
    show (NewMatcher rr P).patternShort <+: _
    have := NewMatcher_patternShort rr P
    rw [NewMatcher_patternLower, hP, hlow] at this
    exact this
  unfold noMatch
  rw [e1, e2]
  simp only [Nat.add_sub_cancel]
  rintro ((h | h) | ⟨h1, h2, h3⟩)
  · omega
  · exact h rfl
  · rcases h3 with h3 | h3
    · exact hroles i (by omega) hi ⟨h1, h2⟩
    · apply h3
      have hi0 : i = 0 := by
        by_contra hne
        exact hroles i (by omega) hi ⟨h1, h2⟩
      subst hi0
      rw [List.drop_zero, List.isPrefixOf_iff_prefix]
      exact e3

theorem take_ne_nil (P : List Nat) (h : P ≠ []) : P.take 63 ≠ [] := by
  cases P with
  | nil => exact (h rfl).elim
  | cons x xs => simp

/-- A candidate equal to the pattern up to case, with every diagonal match
admitted, is scored `1`. -/
theorem exact_length_aux (rr : List Nat → List RuneRole) (P C : List Nat)
    (hist : List (List (List Nat))) (hP : P ≠ []) (hlen : P.length ≤ 63)
    (heq : P.length = C.length) (hsub : (toLower P).Sublist (toLower C))
    (hroles : ∀ t, 1 ≤ t → t < P.length →
      ¬ ((rr C).getD t RNone = RTail ∧ (rr P).getD t RNone = RHead)) :
    scoreAfter rr P hist [C] = some 1 := by
  have hPt : P.take 63 = P := List.take_of_length_le hlen
  have hC : candidateOf [C] = C := by
    rw [candidateOf_single, List.take_of_length_le (by omega)]
  have hlow : toLower P = toLower C :=
    hsub.eq_of_length (by rw [toLower_length, toLower_length]; exact heq)
  have hpl : (NewMatcher rr P).pattern.length = C.length := by
    rw [NewMatcher_pattern, hPt, heq]
  have hn1 : 1 ≤ C.length := by
    rw [← heq]
    exact Nat.pos_of_ne_zero (fun h => hP (List.length_eq_zero.1 h))
  have hreal := dpTable_diag_real { NewMatcher rr P with roles := rr C } C (toLower C) C.length
    (fun i hi => diag_admitted rr P C hlen hlow hroles i (by omega))
  have hrn := hreal C.length le_rfl
  rw [if_neg (by omega)] at hrn
  have hsk : isSent (dpTable { NewMatcher rr P with roles := rr C } C (toLower C))
      C.length C.length 0 := by
    obtain ⟨n', hn'⟩ : ∃ n', C.length = n' + 1 := ⟨C.length - 1, by omega⟩
    rw [hn']
    exact dpTable_diag_skip _ C (toLower C) n'
  have hbest : ((NewMatcher rr P).scored rr C).bestK C.length C.length = 1 := by
    unfold Matcher.bestK
    have h0 : scoreVal.val (((NewMatcher rr P).scored rr C).scores C.length C.length 0) ≤
        minScore + 4 * (C.length : Int) := hsk
    have h1 : -(8 * (C.length : Int) + (C.length : Int)) ≤
        scoreVal.val (((NewMatcher rr P).scored rr C).scores C.length C.length 1) := hrn
    rw [if_pos (by unfold minScore at h0; omega)]
  have hraw : minScore / 2 < rawScore rr P [C] := by
    rw [rawScore_eq, hC, hpl, hbest, minScore_half]
    have h1 : -(8 * (C.length : Int) + (C.length : Int)) ≤
        scoreVal.val (((NewMatcher rr P).scored rr C).scores C.length C.length 1) := hrn
    omega
  have hpoor : poorFlag rr P [C] = some false := by
    rw [poorFlag_eq, hC]
    unfold Matcher.poorMatch
    split_ifs
    · rfl
    · have e1 : ((NewMatcher rr P).scored rr C).lastCandidateLen = C.length := rfl
      have e2 : ((NewMatcher rr P).scored rr C).pattern.length = C.length := hpl
      rw [e1, e2, hbest]
      exact poorMatchLoop_diag rr (NewMatcher rr P) C C.length (by omega) hreal C.length le_rfl 0
  rcases after_accepted rr P hist [C] (take_ne_nil P hP)
    (by rw [hPt, hC]; exact hsub) hraw with ⟨h, _, _⟩ | ⟨_, h, _⟩
  · rw [hpoor] at h; cases h
  · rw [h, hPt, hC, if_pos heq]

/-- Below a rejected diagonal match, the match states on the diagonal derive from
the sentinel. -/
theorem dpTable_diag_sent (m : Matcher) (candidate candidateLower : List Nat) (t : Nat)
    (hrej : noMatch m candidateLower (t + 1) (t + 1) (m.roles.getD t RNone)) :
    ∀ i, t + 1 ≤ i → isSent (dpTable m candidate candidateLower) i i 1 := by
  intro i
  induction i with
  | zero => intro h; omega
  | succ i ih =>
    intro hi
    by_cases hit : i = t
    · subst hit
      unfold isSent
      rw [dpTable_succ]
      unfold rowOf matchCell
      rw [if_neg (by omega), if_pos hrej, val_sentinel]
      omega
    · have hprev := ih (by omega)
      rcases dpTable_match m candidate candidateLower i (i + 1) with e | ⟨_, k, hk, d, hd1, hd2, e⟩
      · unfold isSent; rw [e, val_sentinel]; omega
      · have hs : isSent (dpTable m candidate candidateLower) i i k := by
          have hk' : k = 0 ∨ k = 1 := by omega
          rcases hk' with rfl | rfl
          · obtain ⟨i', rfl⟩ : ∃ i', i = i' + 1 := ⟨i - 1, by omega⟩
            exact dpTable_diag_skip m candidate candidateLower i'
          · exact hprev
        unfold isSent at hs ⊢
        rw [e, val_score _ _ hk]
        simp only [Nat.add_sub_cancel]
        push_cast
        omega

/-- A candidate equal to the pattern up to case in which, after the first byte, a
word-start pattern byte meets a tail candidate byte is scored `0`. -/
theorem exact_length_rejected (rr : List Nat → List RuneRole) (P C : List Nat)
    (hist : List (List (List Nat))) (hP : P ≠ []) (hlen : P.length ≤ 63)
    (heq : P.length = C.length) (hsub : (toLower P).Sublist (toLower C))
    (hroles : ∃ t, 1 ≤ t ∧ t < P.length ∧
      (rr C).getD t RNone = RTail ∧ (rr P).getD t RNone = RHead) :
    scoreAfter rr P hist [C] = some 0 := by
  obtain ⟨t, ht1, ht2, hc, hp⟩ := hroles
  have hPt : P.take 63 = P := List.take_of_length_le hlen
  have hC : candidateOf [C] = C := by
    rw [candidateOf_single, List.take_of_length_le (by omega)]
  have hpl : (NewMatcher rr P).pattern.length = C.length := by
    rw [NewMatcher_pattern, hPt, heq]
  have hrej : noMatch { NewMatcher rr P with roles := rr C } (toLower C) (t + 1) (t + 1)
      ((rr C).getD t RNone) := by
    refine Or.inr ⟨hc, ?_, Or.inl (by omega)⟩
    show (NewMatcher rr P).patternRoles.getD (t + 1 - 1) RNone = RHead
    rw [NewMatcher_patternRoles, hPt, Nat.add_sub_cancel]
    exact hp
  have h1 : isSent (dpTable { NewMatcher rr P with roles := rr C } C (toLower C))
      C.length C.length 1 :=
    dpTable_diag_sent _ C (toLower C) t hrej C.length (by omega)
  have h0 : isSent (dpTable { NewMatcher rr P with roles := rr C } C (toLower C))
      C.length C.length 0 := by
    obtain ⟨n', hn'⟩ : ∃ n', C.length = n' + 1 := ⟨C.length - 1, by omega⟩
    rw [hn']
    exact dpTable_diag_skip _ C (toLower C) n'
  have hraw : rawScore rr P [C] ≤ minScore / 2 := by
    rw [rawScore_eq, hC, hpl, minScore_half]
    have hk := bestK_lt ((NewMatcher rr P).scored rr C) C.length C.length
    have hk' : ((NewMatcher rr P).scored rr C).bestK C.length C.length = 0 ∨
        ((NewMatcher rr P).scored rr C).bestK C.length C.length = 1 := by omega
    unfold isSent minScore at h0 h1
    rcases hk' with e | e
    · rw [e]
      have : scoreVal.val (((NewMatcher rr P).scored rr C).scores C.length C.length 0) ≤
          -10000 + 4 * (C.length : Int) := h0
      omega
    · rw [e]
      have : scoreVal.val (((NewMatcher rr P).scored rr C).scores C.length C.length 1) ≤
          -10000 + 4 * (C.length : Int) := h1
      omega
  exact (after_rejected rr P hist [C] (take_ne_nil P hP) (by rw [hPt, hC]; exact hsub) hraw).1

/-! ### The ranker -/

theorem scoreAfter_eq_scoreOf (rr : List Nat → List RuneRole) (P C : List Nat)
    (hist : List (List (List Nat))) : scoreAfter rr P hist [C] = some (scoreOf rr P C) := by
  obtain ⟨s, rs, h0, h1, _⟩ := after_eq rr P hist [C]
  obtain ⟨s', rs', h0', h1', _⟩ := after_eq rr P [] [C]
  rw [h0] at h0'
  cases h0'
  unfold scoreOf
  rw [h1', h1]
  rfl

theorem scoreOf_bounds (rr : List Nat → List RuneRole) (P C : List Nat) :
    0 ≤ scoreOf rr P C ∧ scoreOf rr P C ≤ 1 := by
  have h := scoreAfter_eq_scoreOf rr P C []
  by_cases hne : P.take 63 = []
  · rw [(after_empty rr P [] [C] hne).1] at h
    rw [← Option.some.inj h]
    exact ⟨zero_le_one, le_rfl⟩
  · by_cases hsub : (toLower (P.take 63)).Sublist (toLower (candidateOf [C]))
    · by_cases hr : rawScore rr P [C] ≤ minScore / 2
      · rw [(after_rejected rr P [] [C] hne hsub hr).1] at h
        rw [← Option.some.inj h]
        exact ⟨le_rfl, zero_le_one⟩
      · rcases after_accepted rr P [] [C] hne hsub (not_le.1 hr) with
          ⟨_, h', _⟩ | ⟨_, h', _⟩
        · rw [h'] at h
          rw [← Option.some.inj h]
          exact ⟨le_rfl, zero_le_one⟩
        · rw [h'] at h
          have e := Option.some.inj h
          rw [← e]
          by_cases hl : (P.take 63).length = (candidateOf [C]).length
          · rw [if_pos hl]; exact ⟨zero_le_one, le_rfl⟩
          · rw [if_neg hl]
            exact clamped_score_bounds (rawScore rr P [C]) (NewMatcher rr P).scoreScale
              (le_of_lt (scoreScale_pos rr P hne))
    · rw [(after_nomatch rr P [] [C] hsub).1] at h
      rw [← Option.some.inj h]
      exact ⟨le_rfl, zero_le_one⟩

/-- A `Score` call on a matcher with any history returns the score of a fresh
matcher and leaves the compiled pattern alone. -/
theorem Score_eq_scoreOf (rr : List Nat → List RuneRole) (P C : List Nat) (m : Matcher)
    (hm : m.compiledAs (NewMatcher rr P)) :
    ∃ m', m.Score rr C = some (m', scoreOf rr P C) ∧ m'.compiledAs (NewMatcher rr P) := by
  obtain ⟨s, rs, hs⟩ := refObserve_some rr (NewMatcher rr P) [C]
    (NewMatcher_pattern_length_le rr P)
  have hs' := hs
  rw [← observe_eq rr m _ [C] hm] at hs
  obtain ⟨m', h1, _⟩ := observe_some rr m [C] s rs hs
  rw [← observe_eq rr (NewMatcher rr P) _ [C] (compiledAs_refl _)] at hs'
  obtain ⟨m'', h1', _⟩ := observe_some rr (NewMatcher rr P) [C] s rs hs'
  have e : scoreOf rr P C = s := by
    unfold scoreOf scoreAfter
    simp only [runCalls, Option.bind, h1']
    rfl
  refine ⟨m', ?_, compiledAs_trans _ _ _ (ScoreChunks_compiledAs rr m [C] _ h1) hm⟩
  rw [e]
  exact h1

/-- One round of the loop of `BestMatch`: the name replaces the best name exactly
when its effective score is above the best score so far. -/
theorem bestMatchLoop_cons (rr : List Nat → List RuneRole) (pattern : List Nat) (fuzz : Matcher)
    (best : List Nat) (highScore : ℚ) (name : List Nat) (rest : List (List Nat))
    (hm : fuzz.compiledAs (NewMatcher rr pattern)) (hh : 0 ≤ highScore) :
    ∃ fuzz', fuzz'.compiledAs (NewMatcher rr pattern) ∧
      bestMatchLoop rr pattern fuzz best highScore (name :: rest) =
        bestMatchLoop rr pattern fuzz'
          (if highScore < effectiveScore rr pattern name then name else best)
          (if highScore < effectiveScore rr pattern name then effectiveScore rr pattern name
            else highScore) rest := by
  obtain ⟨m', h1, hc⟩ := Score_eq_scoreOf rr pattern name fuzz hm
  obtain ⟨m2, h2, _⟩ := Score_eq_scoreOf rr name pattern (NewMatcher rr name) (compiledAs_refl _)
  have hb := scoreOf_bounds rr pattern name
  refine ⟨m', hc, ?_⟩
  rw [bestMatchLoop, h1]
  dsimp only
  unfold effectiveScore
  by_cases hgt : scoreOf rr pattern name > highScore
  · have hpos : 0 < scoreOf rr pattern name := lt_of_le_of_lt hh hgt
    rw [if_pos hgt, if_pos hpos, if_pos hgt, if_pos hgt]
  · rw [if_neg hgt]
    by_cases hz : scoreOf rr pattern name = 0
    · have hnp : ¬ 0 < scoreOf rr pattern name := by rw [hz]; exact lt_irrefl _
      rw [if_pos hz, h2, if_neg hnp]
      dsimp only
      by_cases hr : scoreOf rr name pattern > highScore
      · rw [if_pos hr, if_pos hr, if_pos hr]
      · rw [if_neg hr, if_neg hr, if_neg hr]
    · have hpos : 0 < scoreOf rr pattern name := lt_of_le_of_ne hb.1 (Ne.symm hz)
      rw [if_neg hz, if_pos hpos, if_neg hgt, if_neg hgt]

/-- The loop of `BestMatch` returns, with the earliest name whose effective score
is the highest one above the starting score, or with the starting name. -/
theorem bestMatchLoop_spec (rr : List Nat → List RuneRole) (pattern : List Nat)
    (names : List (List Nat)) :
    ∀ (fuzz : Matcher) (best : List Nat) (highScore : ℚ),
      fuzz.compiledAs (NewMatcher rr pattern) → 0 ≤ highScore →
      ∃ r, bestMatchLoop rr pattern fuzz best highScore names = some r ∧
        ((∀ n ∈ names, effectiveScore rr pattern n ≤ highScore) → r = best) ∧
        ((∃ n ∈ names, highScore < effectiveScore rr pattern n) →
          ∃ i, i < names.length ∧ names[i]? = some r ∧
            highScore < effectiveScore rr pattern r ∧
            (∀ n ∈ names, effectiveScore rr pattern n ≤ effectiveScore rr pattern r) ∧
            (∀ j n, j < i → names[j]? = some n →
              effectiveScore rr pattern n < effectiveScore rr pattern r)) := by
  induction names with
  | nil =>
    intro fuzz best highScore _ _
    refine ⟨best, rfl, fun _ => rfl, ?_⟩
    rintro ⟨n, hn, _⟩
    simp at hn
  | cons name rest ih =>
    intro fuzz best highScore hm hh
    obtain ⟨fuzz', hc, e⟩ := bestMatchLoop_cons rr pattern fuzz best highScore name rest hm hh
    rw [e]
    by_cases hgt : highScore < effectiveScore rr pattern name
    · rw [if_pos hgt, if_pos hgt]
      obtain ⟨r, hr, h1, h2⟩ := ih fuzz' name (effectiveScore rr pattern name) hc
        (le_trans hh (le_of_lt hgt))
      refine ⟨r, hr, ?_, ?_⟩
      · intro hall
        exact absurd (hall name (List.mem_cons_self _ _)) (not_le.2 hgt)
      · intro _
        by_cases hex : ∃ n ∈ rest, effectiveScore rr pattern name < effectiveScore rr pattern n
        · obtain ⟨i, hi, hget, hlt, hmax, hearly⟩ := h2 hex
          refine ⟨i + 1, by simp; omega, by simpa using hget, lt_trans hgt hlt, ?_, ?_⟩
          · intro n hn
            rcases List.mem_cons.1 hn with rfl | hn
            · exact le_of_lt hlt
            · exact hmax n hn
          · intro j n hj hjn
            cases j with
            | zero =>
              simp at hjn
              rw [← hjn]
              exact hlt
            | succ j =>
              simp at hjn
              exact hearly j n (by omega) hjn
        · have hall : ∀ n ∈ rest, effectiveScore rr pattern n ≤ effectiveScore rr pattern name := by
            intro n hn
            by_contra hc'
            exact hex ⟨n, hn, not_le.1 hc'⟩
          have hrn := h1 hall
          subst hrn
          refine ⟨0, by simp, by simp, hgt, ?_, ?_⟩
          · intro n hn
            rcases List.mem_cons.1 hn with rfl | hn
            · exact le_rfl
            · exact hall n hn
          · intro j n hj _
            omega
    · rw [if_neg hgt, if_neg hgt]
      obtain ⟨r, hr, h1, h2⟩ := ih fuzz' best highScore hc hh
      refine ⟨r, hr, ?_, ?_⟩
      · intro hall
        exact h1 (fun n hn => hall n (List.mem_cons_of_mem _ hn))
      · rintro ⟨n, hn, hlt⟩
        have hn' : n ∈ rest := by
          rcases List.mem_cons.1 hn with rfl | hn
          · exact absurd hlt hgt
          · exact hn
        obtain ⟨i, hi, hget, hlt', hmax, hearly⟩ := h2 ⟨n, hn', hlt⟩
        refine ⟨i + 1, by simp; omega, by simpa using hget, hlt', ?_, ?_⟩
        · intro n hn
          rcases List.mem_cons.1 hn with rfl | hn
          · exact le_trans (not_lt.1 hgt) (le_of_lt hlt')
          · exact hmax n hn
        · intro j n hj hjn
          cases j with
          | zero =>
            simp at hjn
            rw [← hjn]
            exact lt_of_le_of_lt (not_lt.1 hgt) hlt'
          | succ j =>
            simp at hjn
            exact hearly j n (by omega) hjn

theorem effectiveScore_le_one (rr : List Nat → List RuneRole) (pattern name : List Nat) :
    effectiveScore rr pattern name ≤ 1 := by
  unfold effectiveScore
  split_ifs
  · exact (scoreOf_bounds rr pattern name).2
  · exact (scoreOf_bounds rr name pattern).2

/-- `BestMatch` returns, with the empty string when no effective score is above 0
and otherwise with the earliest name of the highest effective score. -/
theorem BestMatch_spec (rr : List Nat → List RuneRole) (pattern : List Nat)
    (names : List (List Nat)) :
    ∃ best, BestMatch rr pattern names = some best ∧
      ((∀ n ∈ names, effectiveScore rr pattern n ≤ 0) → best = []) ∧
      ((∃ n ∈ names, 0 < effectiveScore rr pattern n) →
        ∃ i, i < names.length ∧ names[i]? = some best ∧
          0 < effectiveScore rr pattern best ∧
          (∀ n ∈ names, effectiveScore rr pattern n ≤ effectiveScore rr pattern best) ∧
          (∀ j n, j < i → names[j]? = some n →
            effectiveScore rr pattern n < effectiveScore rr pattern best)) :=
  bestMatchLoop_spec rr pattern names (NewMatcher rr pattern) [] 0 (compiledAs_refl _) le_rfl

/-- When the first name has the effective score 1, `BestMatch` returns it. -/
theorem BestMatch_first_of_one (rr : List Nat → List RuneRole) (pattern name : List Nat)
    (rest : List (List Nat)) (h : effectiveScore rr pattern name = 1) :
    BestMatch rr pattern (name :: rest) = some name := by
  obtain ⟨best, hb, _, h2⟩ := BestMatch_spec rr pattern (name :: rest)
  obtain ⟨i, hi, hget, hpos, hmax, hearly⟩ :=
    h2 ⟨name, List.mem_cons_self _ _, by rw [h]; exact zero_lt_one⟩
  have h1 : effectiveScore rr pattern best = 1 :=
    le_antisymm (effectiveScore_le_one rr pattern best)
      (by rw [← h]; exact hmax name (List.mem_cons_self _ _))
  have hi0 : i = 0 := by
    by_contra hne
    have := hearly 0 name (Nat.pos_of_ne_zero hne) (by simp)
    rw [h, h1] at this
    exact lt_irrefl _ this
  subst hi0
  simp at hget
  rw [hb, hget]

theorem scoreOf_self (rr : List Nat → List RuneRole) (P : List Nat) (hP : P ≠ [])
    (hlen : P.length ≤ 63) : scoreOf rr P P = 1 := by
  have h := exact_length_aux rr P P [] hP hlen rfl (List.Sublist.refl _)
    (fun t _ _ hc => by
      obtain ⟨h1, h2⟩ := hc
      rw [h1] at h2
      cases h2)
  rw [scoreAfter_eq_scoreOf] at h
  exact (Option.some.inj h)

theorem scoreOf_empty (rr : List Nat → List RuneRole) (C : List Nat) : scoreOf rr [] C = 1 := by
  have h := (after_empty rr [] [] [C] rfl).1
  rw [scoreAfter_eq_scoreOf] at h
  exact (Option.some.inj h)

theorem scoreOf_not_sublist (rr : List Nat → List RuneRole) (P C : List Nat)
    (h : ¬ (toLower (P.take 63)).Sublist (toLower (C.take 127))) : scoreOf rr P C = 0 := by
  have h' := (after_nomatch rr P [] [C] (by rw [candidateOf_single]; exact h)).1
  rw [scoreAfter_eq_scoreOf] at h'
  exact (Option.some.inj h')

theorem refObserve_congr_chunks (rr : List Nat → List RuneRole) (m0 : Matcher)
    (c1 c2 : List (List Nat)) (h : candidateOf c1 = candidateOf c2) :
    m0.refObserve rr c1 = m0.refObserve rr c2 := by
  unfold Matcher.refObserve
  rw [h]

/-- The ranges that `MatchedRanges` returns lie inside the truncated candidate. -/
theorem rangesAfter_le (rr : List Nat → List RuneRole) (P : List Nat)
    (hist : List (List (List Nat))) (chunks : List (List Nat)) (rs : List Nat)
    (h : rangesAfter rr P hist chunks = some rs) :
    ∀ x ∈ rs, x ≤ (candidateOf chunks).length := by
  have hnil : rangesAfter rr P hist chunks = some [] → ∀ x ∈ rs, x ≤ (candidateOf chunks).length := by
    intro h0
    rw [h0] at h
    rw [← Option.some.inj h]
    simp
  by_cases hne : P.take 63 = []
  · exact hnil (after_empty rr P hist chunks hne).2
  · by_cases hsub : (toLower (P.take 63)).Sublist (toLower (candidateOf chunks))
    · by_cases hr : rawScore rr P chunks ≤ minScore / 2
      · exact hnil (after_rejected rr P hist chunks hne hsub hr).2
      · rcases after_accepted rr P hist chunks hne hsub (not_le.1 hr) with
          ⟨_, _, h2⟩ | ⟨_, _, out, ho, _, _, hx⟩
        · exact hnil h2
        · rw [ho] at h
          rw [← Option.some.inj h]
          intro x hxm
          exact (hx x (List.mem_reverse.1 hxm)).2
    · exact hnil (after_nomatch rr P hist chunks hsub).2

/-! ### Dependence on the role classifier -/

theorem NewMatcher_congr_rr (rr rr' : List Nat → List RuneRole) (P : List Nat)
    (h : rr (P.take 63) = rr' (P.take 63)) : NewMatcher rr P = NewMatcher rr' P := by
  have e : (if P.length > MaxPatternSize then P.take MaxPatternSize else P) = P.take 63 :=
    NewMatcher_pattern rr P
  unfold NewMatcher
  dsimp only
  rw [e, h]

theorem refObserve_congr_rr (rr rr' : List Nat → List RuneRole) (m0 : Matcher)
    (chunks : List (List Nat)) (h : rr (candidateOf chunks) = rr' (candidateOf chunks)) :
    m0.refObserve rr chunks = m0.refObserve rr' chunks := by
  unfold Matcher.refObserve Matcher.scored
  dsimp only
  rw [h]

/-- A scoring call reads the role classifier at the truncated pattern and at the
truncated candidate only. -/
theorem after_congr_rr (rr rr' : List Nat → List RuneRole) (P : List Nat)
    (hist hist' : List (List (List Nat))) (chunks : List (List Nat))
    (hp : rr (P.take 63) = rr' (P.take 63))
    (hc : rr (candidateOf chunks) = rr' (candidateOf chunks)) :
    scoreAfter rr P hist chunks = scoreAfter rr' P hist' chunks ∧
      rangesAfter rr P hist chunks = rangesAfter rr' P hist' chunks := by
  obtain ⟨s, rs, h0, h1, h2⟩ := after_eq rr P hist chunks
  obtain ⟨s', rs', h0', h1', h2'⟩ := after_eq rr' P hist' chunks
  rw [← NewMatcher_congr_rr rr rr' P hp, ← refObserve_congr_rr rr rr' _ chunks hc, h0] at h0'
  cases h0'
  exact ⟨h1.trans h1'.symm, h2.trans h2'.symm⟩

theorem rawScore_congr_rr (rr rr' : List Nat → List RuneRole) (P : List Nat)
    (chunks : List (List Nat)) (hp : rr (P.take 63) = rr' (P.take 63))
    (hc : rr (candidateOf chunks) = rr' (candidateOf chunks)) :
    rawScore rr P chunks = rawScore rr' P chunks ∧ poorFlag rr P chunks = poorFlag rr' P chunks := by
  unfold rawScore poorFlag Matcher.prepared
  rw [NewMatcher_congr_rr rr rr' P hp, hc]
  exact ⟨rfl, rfl⟩

/-! ### The ranges of a candidate as long as the pattern -/

/-- After a call that matched, `MatchedRanges` returns what it returns on the
table of the recurrence. -/
theorem after_ranges_scored (rr : List Nat → List RuneRole) (P : List Nat)
    (hist : List (List (List Nat))) (chunks : List (List Nat)) (hne : P.take 63 ≠ [])
    (h : (toLower (P.take 63)).Sublist (toLower (candidateOf chunks)))
    (hr : minScore / 2 < rawScore rr P chunks) (hp : poorFlag rr P chunks = some false) :
    rangesAfter rr P hist chunks =
      ((NewMatcher rr P).scored rr (candidateOf chunks)).MatchedRanges := by
  obtain ⟨s, rs, h0, _, h2⟩ := after_eq rr P hist chunks
  rw [refObserve_match rr _ chunks (pattern_length_ne_zero rr P hne)
    (by rw [NewMatcher_patternLower, matchLoop_eq_nil_iff]; exact h),
    ← rawScore_eq, if_neg (not_le.2 hr), ← poorFlag_eq, hp] at h0
  dsimp only at h0
  cases hm : ((NewMatcher rr P).scored rr (candidateOf chunks)).MatchedRanges with
  | none => rw [hm] at h0; cases h0
  | some rs' =>
    rw [hm] at h0
    dsimp only at h0
    cases h0
    exact h2

/-- The walk of `MatchedRanges` down a real diagonal builds the single range of
the whole candidate. -/
theorem matchedRangesLoop_diag (rr : List Nat → List RuneRole) (m0 : Matcher)
    (candidate : List Nat) (n : Nat) (hn : n ≤ 127) (hn1 : 1 ≤ n)
    (hreal : ∀ i, i ≤ n → isReal
      (dpTable { m0 with roles := rr candidate } candidate (toLower candidate)) i i
      (if i = 0 then 0 else 1)) :
    ∀ i, i ≤ n → ∀ (k : Nat) (ret : List Nat), (1 ≤ i → k = 1) →
      ((ret = [] ∧ i = n) ∨ (ret = [n, i] ∧ i < n)) →
      matchedRangesLoop (m0.scored rr candidate) i (i : Int) k ret = some [n, 0] := by
  intro i
  induction i with
  | zero =>
    intro _ k ret _ hret
    rw [matchedRangesLoop]
    rcases hret with ⟨_, h⟩ | ⟨h, _⟩
    · omega
    · rw [h]
  | succ i ih =>
    intro hi k ret hk hret
    have hk1 : k = 1 := hk (by omega)
    subst hk1
    have hr := hreal (i + 1) hi
    rw [if_neg (by omega)] at hr
    have hp := dpTable_diag_prevK _ candidate (toLower candidate) i (by omega) hr
    rw [matchedRangesLoop, if_neg (by omega)]
    have hc : (m0.scored rr candidate).scores (i + 1) ((i + 1 : Nat) : Int).toNat 1 =
        dpTable { m0 with roles := rr candidate } candidate (toLower candidate) (i + 1) (i + 1) 1 := by
      rw [Int.toNat_ofNat]; rfl
    simp only [hc, hp]
    have hcast : ((i + 1 : Nat) : Int) - 1 = (i : Int) := by omega
    rw [if_pos trivial, hcast]
    apply ih (by omega)
    · intro h1; rw [if_neg (by omega)]
    · right
      rcases hret with ⟨h, hin⟩ | ⟨h, hin⟩
      · subst h
        subst hin
        exact ⟨by simp, by omega⟩
      · subst h
        exact ⟨by simp, by omega⟩

/-- A candidate equal to the pattern up to case, with every diagonal match
admitted, has the single matched range of the whole candidate. -/
theorem exact_length_ranges (rr : List Nat → List RuneRole) (P C : List Nat)
    (hist : List (List (List Nat))) (hP : P ≠ []) (hlen : P.length ≤ 63)
    (heq : P.length = C.length) (hsub : (toLower P).Sublist (toLower C))
    (hroles : ∀ t, 1 ≤ t → t < P.length →
      ¬ ((rr C).getD t RNone = RTail ∧ (rr P).getD t RNone = RHead)) :
    rangesAfter rr P hist [C] = some [0, C.length] := by
  have hPt : P.take 63 = P := List.take_of_length_le hlen
  have hC : candidateOf [C] = C := by
    rw [candidateOf_single, List.take_of_length_le (by omega)]
  have hlow : toLower P = toLower C :=
    hsub.eq_of_length (by rw [toLower_length, toLower_length]; exact heq)
  have hpl : (NewMatcher rr P).pattern.length = C.length := by
    rw [NewMatcher_pattern, hPt, heq]
  have hn1 : 1 ≤ C.length := by
    rw [← heq]
    exact Nat.pos_of_ne_zero (fun h => hP (List.length_eq_zero.1 h))
  have hreal := dpTable_diag_real { NewMatcher rr P with roles := rr C } C (toLower C) C.length
    (fun i hi => diag_admitted rr P C hlen hlow hroles i (by omega))
  have hrn := hreal C.length le_rfl
  rw [if_neg (by omega)] at hrn
  have hsk : isSent (dpTable { NewMatcher rr P with roles := rr C } C (toLower C))
      C.length C.length 0 := by
    obtain ⟨n', hn'⟩ : ∃ n', C.length = n' + 1 := ⟨C.length - 1, by omega⟩
    rw [hn']
    exact dpTable_diag_skip _ C (toLower C) n'
  have h0 : scoreVal.val (((NewMatcher rr P).scored rr C).scores C.length C.length 0) ≤
      minScore + 4 * (C.length : Int) := hsk
  have h1 : -(8 * (C.length : Int) + (C.length : Int)) ≤
      scoreVal.val (((NewMatcher rr P).scored rr C).scores C.length C.length 1) := hrn
  have hbest : ((NewMatcher rr P).scored rr C).bestK C.length C.length = 1 := by
    unfold Matcher.bestK
    rw [if_pos (by unfold minScore at h0; omega)]
  have hraw : minScore / 2 < rawScore rr P [C] := by
    rw [rawScore_eq, hC, hpl, hbest, minScore_half]
    omega
  have hpoor : poorFlag rr P [C] = some false := by
    rw [poorFlag_eq, hC]
    unfold Matcher.poorMatch
    split_ifs
    · rfl
    · have e1 : ((NewMatcher rr P).scored rr C).lastCandidateLen = C.length := rfl
      have e2 : ((NewMatcher rr P).scored rr C).pattern.length = C.length := hpl
      rw [e1, e2, hbest]
      exact poorMatchLoop_diag rr (NewMatcher rr P) C C.length (by omega) hreal C.length le_rfl 0
  rw [after_ranges_scored rr P hist [C] (take_ne_nil P hP) (by rw [hPt, hC]; exact hsub) hraw
    hpoor, hC]
  unfold Matcher.MatchedRanges
  have e1 : ((NewMatcher rr P).scored rr C).lastCandidateLen = C.length := rfl
  have e2 : ((NewMatcher rr P).scored rr C).pattern.length = C.length := hpl
  have e3 : ((NewMatcher rr P).scored rr C).lastCandidateMatched = true := rfl
  rw [e1, e2, e3, if_neg (by rintro (h | h) <;> first | omega | cases h)]
  dsimp only
  rw [if_neg (by rw [minScore_half]; omega), hbest,
    matchedRangesLoop_diag rr (NewMatcher rr P) C C.length (by omega) hn1 hreal C.length le_rfl 1
      [] (fun _ => rfl) (Or.inl ⟨rfl, rfl⟩)]
  rfl

/-! ### Alignments and the cells of the table -/

theorem matchCand_eq_takeGain (m : Matcher) (candidate : List Nat) (i j k : Nat)
    (b : Nat → scoreVal) :
    matchCand ((List.range candidate.length).foldl (segStep m.roles) (1, 0)).2 (i + 1)
        (m.roles.getD i RNone)
        (charScoreOf m candidate (i + 1) j (m.roles.getD i RNone)
          (ctxAt m.roles ((List.range candidate.length).foldl (segStep m.roles) (1, 0)).1
            (i + 1)).2) b k =
      scoreVal.val (b k) + takeGain m candidate (i + 1) j k := by
  unfold matchCand takeGain segmentsLeftAt lastSegStartOf
  simp only [Nat.add_sub_cancel]
  split_ifs <;> first | omega | (exfalso; tauto)

theorem dpTable_skip_eq (m : Matcher) (candidate candidateLower : List Nat) (i j : Nat) :
    dpTable m candidate candidateLower (i + 1) j 0 =
      score (scoreVal.val (dpTable m candidate candidateLower i j
        (if scoreVal.val (dpTable m candidate candidateLower i j 0) <
          scoreVal.val (dpTable m candidate candidateLower i j 1) then 1 else 0)) -
          skipCost m candidate (i + 1) j)
        (if scoreVal.val (dpTable m candidate candidateLower i j 0) <
          scoreVal.val (dpTable m candidate candidateLower i j 1) then 1 else 0) := by
  rw [dpTable_succ]
  unfold rowOf skipCell skipCost lastSegStartOf
  simp only [if_true, Nat.add_sub_cancel]
  by_cases hj : j ≠ m.pattern.length
  · by_cases hp : i + 1 = 1 ∨
        i = ((List.range candidate.length).foldl (segStep m.roles) (1, 0)).2
    · rw [if_pos hj, if_pos hp, if_pos (And.intro hj hp)]
    · rw [if_pos hj, if_neg hp, if_neg (fun h => hp (And.right h))]
  · rw [if_neg hj, if_neg (fun h => hj (And.left h)), sub_zero]

theorem dpTable_skip_ge (m : Matcher) (candidate candidateLower : List Nat) (i j k : Nat)
    (hk : k < 2) :
    scoreVal.val (dpTable m candidate candidateLower i j k) - skipCost m candidate (i + 1) j ≤
      scoreVal.val (dpTable m candidate candidateLower (i + 1) j 0) := by
  have hks : (if scoreVal.val (dpTable m candidate candidateLower i j 0) <
        scoreVal.val (dpTable m candidate candidateLower i j 1) then 1 else 0) < 2 := by
    split_ifs <;> omega
  rw [dpTable_skip_eq, val_score _ _ hks]
  have hk' : k = 0 ∨ k = 1 := by omega
  rcases hk' with rfl | rfl
  · split_ifs with h <;> omega
  · split_ifs with h <;> omega

theorem dpTable_take_cases (m : Matcher) (candidate candidateLower : List Nat) (i j : Nat) :
    dpTable m candidate candidateLower (i + 1) (j + 1) 1 = minScore * 2 ∨
      (¬ noMatch m candidateLower (i + 1) (j + 1) (m.roles.getD i RNone) ∧ ∃ k, k < 2 ∧
        dpTable m candidate candidateLower (i + 1) (j + 1) 1 =
          score (scoreVal.val (dpTable m candidate candidateLower i j k) +
            takeGain m candidate (i + 1) (j + 1) k) k) := by
  rw [dpTable_succ]
  unfold rowOf
  rw [if_neg (by omega)]
  rcases matchCell_cases m candidate candidateLower
    ((List.range candidate.length).foldl (segStep m.roles) (1, 0)).2 (i + 1) (j + 1)
    (m.roles.getD i RNone)
    (ctxAt m.roles ((List.range candidate.length).foldl (segStep m.roles) (1, 0)).1 (i + 1)).2
    (dpTable m candidate candidateLower i (j + 1 - 1)) with h | ⟨hn, k, hk, h⟩
  · left; exact h
  · right
    refine ⟨hn, k, hk, ?_⟩
    rw [h, matchCand_eq_takeGain]
    rfl

theorem dpTable_take_zero (m : Matcher) (candidate candidateLower : List Nat) (i : Nat) :
    dpTable m candidate candidateLower (i + 1) 0 1 = minScore * 2 := by
  rw [dpTable_succ]
  unfold rowOf matchCell
  rw [if_neg (by omega), if_pos (noMatch_zero _ _ _ _)]

theorem dpTable_take_ge (m : Matcher) (candidate candidateLower : List Nat) (i j k : Nat)
    (hk : k < 2) (hn : ¬ noMatch m candidateLower (i + 1) (j + 1) (m.roles.getD i RNone)) :
    scoreVal.val (dpTable m candidate candidateLower i j k) +
        takeGain m candidate (i + 1) (j + 1) k ≤
      scoreVal.val (dpTable m candidate candidateLower (i + 1) (j + 1) 1) := by
  rw [dpTable_succ]
  unfold rowOf
  rw [if_neg (by omega)]
  have h := matchCell_ge m candidate candidateLower
    ((List.range candidate.length).foldl (segStep m.roles) (1, 0)).2 (i + 1) (j + 1)
    (m.roles.getD i RNone)
    (ctxAt m.roles ((List.range candidate.length).foldl (segStep m.roles) (1, 0)).1 (i + 1)).2
    (dpTable m candidate candidateLower i (j + 1 - 1)) hn k hk
  rw [matchCand_eq_takeGain] at h
  exact h

/-- An admitted match step loses at most `8` on the first pattern byte and at
most `3` on every later one. -/
theorem takeGain_lower (m : Matcher) (candidate candidateLower : List Nat) (i j k : Nat)
    (hn : ¬ noMatch m candidateLower (i + 1) (j + 1) (m.roles.getD i RNone)) :
    -(if j = 0 then 8 else 3 : Int) ≤ takeGain m candidate (i + 1) (j + 1) k := by
  unfold noMatch at hn
  unfold takeGain charScoreOf
  simp only [Nat.add_sub_cancel] at hn ⊢
  by_cases hj : j = 0
  · subst hj
    rw [if_pos rfl]
    split_ifs <;> omega
  · rw [if_neg hj]
    have h1 : ¬ (m.roles.getD i RNone = RTail ∧ m.patternRoles.getD j RNone = RHead) := by
      rintro ⟨a, b⟩
      exact hn (Or.inr ⟨a, b, Or.inl (by omega)⟩)
    have h2 : ¬ (j + 1 = 1 ∧ m.roles.getD i RNone = RTail) := by
      rintro ⟨a, _⟩
      omega
    rw [if_neg h1, if_neg h2]
    split_ifs <;> omega

theorem skipCost_le (m : Matcher) (candidate : List Nat) (i j : Nat) :
    0 ≤ skipCost m candidate (i + 1) j ∧
      penaltyRows (lastSegStartOf m candidate) i + skipCost m candidate (i + 1) j ≤
        penaltyRows (lastSegStartOf m candidate) (i + 1) := by
  unfold skipCost penaltyRows
  simp only [Nat.add_sub_cancel]
  split_ifs <;> omega

theorem penaltyRows_mono (lastSegStart i : Nat) :
    penaltyRows lastSegStart i ≤ penaltyRows lastSegStart (i + 1) ∧
      0 ≤ penaltyRows lastSegStart i ∧ penaltyRows lastSegStart i ≤ 2 := by
  unfold penaltyRows
  split_ifs <;> omega

theorem alignFloor_succ (j : Nat) :
    alignFloor j + (if j = 0 then 8 else 3 : Int) = alignFloor (j + 1) := by
  unfold alignFloor
  by_cases h : j = 0
  · rw [if_pos h, if_pos h, if_neg (by omega)]
    subst h
    norm_num
  · rw [if_neg h, if_neg h, if_neg (by omega)]
    push_cast
    omega

/-- Every cell of the recurrence either derives from the sentinel or is at least
minus the most its steps can lose. -/
theorem dpTable_floor (m : Matcher) (candidate candidateLower : List Nat) (i j k : Nat)
    (hk : k < 2) :
    isSent (dpTable m candidate candidateLower) i j k ∨
      -(alignFloor j + penaltyRows (lastSegStartOf m candidate) i) ≤
        scoreVal.val (dpTable m candidate candidateLower i j k) := by
  induction i generalizing j k with
  | zero =>
    unfold isSent
    show scoreVal.val (if j = 0 ∧ k = 0 then score 0 0 else minScore * 2) ≤ _ ∨
      _ ≤ scoreVal.val (if j = 0 ∧ k = 0 then score 0 0 else minScore * 2)
    split_ifs with h
    · right
      rw [val_score 0 0 (by omega), h.1]
      unfold alignFloor penaltyRows
      simp
    · left; rw [val_sentinel]; omega
  | succ i ih =>
    have hk' : k = 0 ∨ k = 1 := by omega
    rcases hk' with rfl | rfl
    · have hks : (if scoreVal.val (dpTable m candidate candidateLower i j 0) <
            scoreVal.val (dpTable m candidate candidateLower i j 1) then 1 else 0) < 2 := by
        split_ifs <;> omega
      have hc := skipCost_le m candidate i j
      unfold isSent
      rw [dpTable_skip_eq, val_score _ _ hks]
      rcases ih j _ hks with h | h
      · left; unfold isSent at h; omega
      · right; omega
    · cases j with
      | zero =>
        left
        unfold isSent
        rw [dpTable_take_zero, val_sentinel]
        omega
      | succ j =>
        rcases dpTable_take_cases m candidate candidateLower i j with e | ⟨hn, k, hk, e⟩
        · left; unfold isSent; rw [e, val_sentinel]; omega
        · have hg := takeGain_lower m candidate candidateLower i j k hn
          have hf := alignFloor_succ j
          have hp := penaltyRows_mono (lastSegStartOf m candidate) i
          unfold isSent
          rw [e, val_score _ _ hk]
          rcases ih j k hk with h | h
          · left
            unfold isSent at h
            have hu : takeGain m candidate (i + 1) (j + 1) k ≤ 4 := by
              have hc := charScoreOf_bounds m candidate (i + 1) (j + 1)
                (m.roles.getD (i + 1 - 1) RNone) (segmentsLeftAt m candidate (i + 1))
              unfold takeGain
              split_ifs <;> omega
            push_cast
            omega
          · right; omega

theorem alignValue_snoc (m : Matcher) (candidate candidateLower : List Nat) (steps : List Bool)
    (t : Bool) :
    alignValue m candidate candidateLower (steps ++ [t]) =
      alignStep m candidate candidateLower (alignValue m candidate candidateLower steps) t := by
  unfold alignValue
  rw [List.foldl_append]
  rfl

theorem Admissible.start (m : Matcher) (candidate candidateLower : List Nat) :
    Admissible m candidate candidateLower 0 0 0 0 := ⟨[], rfl⟩

theorem Admissible.skip (m : Matcher) (candidate candidateLower : List Nat) (i j k : Nat)
    (v : Int) (h : Admissible m candidate candidateLower i j k v) :
    Admissible m candidate candidateLower (i + 1) j 0 (v - skipCost m candidate (i + 1) j) := by
  obtain ⟨steps, hs⟩ := h
  refine ⟨steps ++ [false], ?_⟩
  rw [alignValue_snoc, hs]
  rfl

theorem Admissible.take (m : Matcher) (candidate candidateLower : List Nat) (i j k : Nat)
    (v : Int) (h : Admissible m candidate candidateLower i j k v)
    (hn : ¬ noMatch m candidateLower (i + 1) (j + 1) (m.roles.getD i RNone)) :
    Admissible m candidate candidateLower (i + 1) (j + 1) 1
      (v + takeGain m candidate (i + 1) (j + 1) k) := by
  obtain ⟨steps, hs⟩ := h
  refine ⟨steps ++ [true], ?_⟩
  rw [alignValue_snoc, hs]
  unfold alignStep
  simp only [if_true]
  rw [if_neg hn]

/-- The value of a real cell is the value of an admissible alignment that ends
in that cell and state. -/
theorem Admissible.of_isReal (m : Matcher) (candidate candidateLower : List Nat) (i j k : Nat)
    (hk : k < 2) (hb : 12 * j + i < 10000)
    (h : isReal (dpTable m candidate candidateLower) i j k) :
    Admissible m candidate candidateLower i j k
      (scoreVal.val (dpTable m candidate candidateLower i j k)) := by
  induction i generalizing j k with
  | zero =>
    unfold isReal at h
    have e : dpTable m candidate candidateLower 0 j k =
        if j = 0 ∧ k = 0 then score 0 0 else minScore * 2 := rfl
    rw [e] at h ⊢
    by_cases hc : j = 0 ∧ k = 0
    · rw [if_pos hc, val_score 0 0 (by omega), hc.1, hc.2]
      exact Admissible.start m candidate candidateLower
    · rw [if_neg hc, val_sentinel] at h
      unfold minScore at h
      omega
  | succ i ih =>
    have hk' : k = 0 ∨ k = 1 := by omega
    rcases hk' with rfl | rfl
    · have hks : (if scoreVal.val (dpTable m candidate candidateLower i j 0) <
            scoreVal.val (dpTable m candidate candidateLower i j 1) then 1 else 0) < 2 := by
        split_ifs <;> omega
      have hp := isReal_pred_skip m candidate candidateLower i j (by omega) h
      rw [dpTable_skip_eq, prevK_score _ _ hks] at hp
      rw [dpTable_skip_eq, val_score _ _ hks]
      exact Admissible.skip m candidate candidateLower i j _ _ (ih j _ hks (by omega) hp)
    · cases j with
      | zero =>
        unfold isReal at h
        rw [dpTable_take_zero, val_sentinel] at h
        unfold minScore at h
        omega
      | succ j =>
        rcases dpTable_take_cases m candidate candidateLower i j with e | ⟨hn, k, hk, e⟩
        · unfold isReal at h
          rw [e, val_sentinel] at h
          unfold minScore at h
          push_cast at h
          omega
        · have hp := (isReal_pred_match m candidate candidateLower i (j + 1) (by omega) h).2
          rw [e, prevK_score _ _ hk] at hp
          rw [e, val_score _ _ hk]
          exact Admissible.take m candidate candidateLower i j k _
            (ih j k hk (by omega) hp) hn

/-- No admissible alignment is worth more than the cell it ends in, and none
loses more than its steps can lose. -/
theorem alignValue_le (m : Matcher) (candidate candidateLower : List Nat) (steps : List Bool) :
    ∀ (i j k : Nat) (v : Int), alignValue m candidate candidateLower steps = some (i, j, k, v) →
      k < 2 ∧ v ≤ scoreVal.val (dpTable m candidate candidateLower i j k) ∧
        -(alignFloor j + penaltyRows (lastSegStartOf m candidate) i) ≤ v := by
  induction steps using List.reverseRecOn with
  | nil =>
    intro i j k v h
    have e : alignValue m candidate candidateLower [] = some (0, 0, 0, 0) := rfl
    rw [e] at h
    simp only [Option.some.injEq, Prod.mk.injEq] at h
    obtain ⟨rfl, rfl, rfl, rfl⟩ := h
    refine ⟨by omega, ?_, ?_⟩
    · show (0 : Int) ≤ scoreVal.val (score 0 0)
      rw [val_score 0 0 (by omega)]
    · unfold alignFloor penaltyRows
      simp
  | append_singleton steps t ih =>
    intro i j k v h
    rw [alignValue_snoc] at h
    cases hs : alignValue m candidate candidateLower steps with
    | none =>
      rw [hs] at h
      cases h
    | some st =>
      obtain ⟨i0, j0, k0, v0⟩ := st
      obtain ⟨hk0, hv0, hf0⟩ := ih i0 j0 k0 v0 hs
      rw [hs] at h
      unfold alignStep at h
      cases t with
      | true =>
        simp only [if_true] at h
        by_cases hn : noMatch m candidateLower (i0 + 1) (j0 + 1) (m.roles.getD i0 RNone)
        · rw [if_pos hn] at h
          cases h
        · rw [if_neg hn] at h
          simp only [Option.some.injEq, Prod.mk.injEq] at h
          obtain ⟨rfl, rfl, rfl, rfl⟩ := h
          have hg := takeGain_lower m candidate candidateLower i0 j0 k0 hn
          have hf := alignFloor_succ j0
          have hp := penaltyRows_mono (lastSegStartOf m candidate) i0
          have hge := dpTable_take_ge m candidate candidateLower i0 j0 k0 hk0 hn
          exact ⟨by omega, by omega, by omega⟩
      | false =>
        simp only [Bool.false_eq_true, if_false, Option.some.injEq, Prod.mk.injEq] at h
        obtain ⟨rfl, rfl, rfl, rfl⟩ := h
        have hc := skipCost_le m candidate i0 j0
        have hge := dpTable_skip_ge m candidate candidateLower i0 j0 k0 hk0
        exact ⟨by omega, by omega, by omega⟩

/-! ### A candidate of one segment that starts with the pattern -/

theorem segFold_noSep (roles : List RuneRole) (n : Nat)
    (h : ∀ t, t < n → roles.getD t RNone ≠ RSep) :
    (List.range n).foldl (segStep roles) (1, 0) = (1, 0) := by
  induction n with
  | zero => rfl
  | succ n ih =>
    rw [List.range_succ, List.foldl_append, ih (fun t ht => h t (by omega))]
    show segStep roles (1, 0) n = (1, 0)
    unfold segStep
    rw [if_neg (h n (by omega))]

theorem ctxStep_snd_one (roles : List RuneRole) (st : Nat × Nat) (i : Nat) (h : st.2 = 1) :
    (ctxStep roles st i).2 = 1 := by
  unfold ctxStep
  simp only [h]
  split_ifs with h1 h2
  · rfl
  · omega
  · rfl

theorem ctxAt_one (roles : List RuneRole) (i : Nat) : (ctxAt roles 1 i).2 = 1 := by
  induction i with
  | zero => rfl
  | succ i ih =>
    unfold ctxAt at ih ⊢
    rw [List.range_succ, List.map_append, List.foldl_append]
    exact ctxStep_snd_one roles _ _ ih

theorem lastSegStartOf_noSep (m : Matcher) (candidate : List Nat)
    (h : ∀ t, t < candidate.length → m.roles.getD t RNone ≠ RSep) :
    lastSegStartOf m candidate = 0 := by
  unfold lastSegStartOf
  rw [segFold_noSep m.roles candidate.length h]

theorem segmentsLeftAt_noSep (m : Matcher) (candidate : List Nat)
    (h : ∀ t, t < candidate.length → m.roles.getD t RNone ≠ RSep) (i : Nat) :
    segmentsLeftAt m candidate i = 1 := by
  unfold segmentsLeftAt
  rw [segFold_noSep m.roles candidate.length h]
  exact ctxAt_one m.roles i

theorem takeGain_le (m : Matcher) (candidate : List Nat) (i j k : Nat) :
    takeGain m candidate i j k ≤ 4 := by
  have hc := charScoreOf_bounds m candidate i j (m.roles.getD (i - 1) RNone)
    (segmentsLeftAt m candidate i)
  unfold takeGain
  split_ifs <;> omega

theorem takeGain_le_two (m : Matcher) (candidate : List Nat) (i j : Nat) (h0 : i - 1 ≠ 0)
    (hs : i - 1 ≠ lastSegStartOf m candidate) : takeGain m candidate i j 0 ≤ 2 := by
  have hc := charScoreOf_bounds m candidate i j (m.roles.getD (i - 1) RNone)
    (segmentsLeftAt m candidate i)
  unfold takeGain
  rw [if_neg (by rintro (h | h | h) <;> omega)]
  split_ifs <;> omega

theorem skipCost_nonneg (m : Matcher) (candidate : List Nat) (i j : Nat) :
    0 ≤ skipCost m candidate i j := by
  unfold skipCost
  split_ifs <;> omega

/-- No cell in column `j` is above `4 * j`. -/
theorem dpTable_le (m : Matcher) (candidate candidateLower : List Nat) (i j k : Nat)
    (hk : k < 2) : scoreVal.val (dpTable m candidate candidateLower i j k) ≤ 4 * (j : Int) := by
  induction i generalizing j k with
  | zero =>
    show scoreVal.val (if j = 0 ∧ k = 0 then score 0 0 else minScore * 2) ≤ _
    split_ifs with h
    · rw [val_score 0 0 (by omega)]; omega
    · rw [val_sentinel]; unfold minScore; omega
  | succ i ih =>
    have hk' : k = 0 ∨ k = 1 := by omega
    rcases hk' with rfl | rfl
    · have hks : (if scoreVal.val (dpTable m candidate candidateLower i j 0) <
            scoreVal.val (dpTable m candidate candidateLower i j 1) then 1 else 0) < 2 := by
        split_ifs <;> omega
      have hc := skipCost_nonneg m candidate (i + 1) j
      have h := ih j _ hks
      rw [dpTable_skip_eq, val_score _ _ hks]
      omega
    · cases j with
      | zero =>
        rw [dpTable_take_zero, val_sentinel]
        unfold minScore
        omega
      | succ j =>
        rcases dpTable_take_cases m candidate candidateLower i j with e | ⟨_, k, hk, e⟩
        · rw [e, val_sentinel]; unfold minScore; omega
        · have h := ih j k hk
          have hg := takeGain_le m candidate (i + 1) (j + 1) k
          rw [e, val_score _ _ hk]
          push_cast
          omega

/-- In a candidate of one segment, a match state below the diagonal stays at
least 2 under `4 * j`. -/
theorem dpTable_off_diag (m : Matcher) (candidate candidateLower : List Nat)
    (hs : lastSegStartOf m candidate = 0) (i j : Nat) (hij : j < i) :
    scoreVal.val (dpTable m candidate candidateLower i j 1) ≤ 4 * (j : Int) - 2 := by
  induction i generalizing j with
  | zero => omega
  | succ i ih =>
    cases j with
    | zero =>
      rw [dpTable_take_zero, val_sentinel]
      unfold minScore
      omega
    | succ j =>
      rcases dpTable_take_cases m candidate candidateLower i j with e | ⟨_, k, hk, e⟩
      · rw [e, val_sentinel]; unfold minScore; omega
      · rw [e, val_score _ _ hk]
        have hk' : k = 0 ∨ k = 1 := by omega
        rcases hk' with rfl | rfl
        · have h := dpTable_le m candidate candidateLower i j 0 (by omega)
          have hg := takeGain_le_two m candidate (i + 1) (j + 1) (by omega)
            (by rw [hs]; omega)
          push_cast
          omega
        · have h := ih j (by omega)
          have hg := takeGain_le m candidate (i + 1) (j + 1) 1
          push_cast
          omega

/-- The diagonal of the table holds `4 * i` when every diagonal match is
admitted and gains the full 4. -/
theorem dpTable_diag_val (m : Matcher) (candidate candidateLower : List Nat) (n : Nat)
    (hadm : ∀ i, i < n → ¬ noMatch m candidateLower (i + 1) (i + 1) (m.roles.getD i RNone))
    (hgain : ∀ i, i < n → takeGain m candidate (i + 1) (i + 1) (if i = 0 then 0 else 1) = 4) :
    ∀ i, i ≤ n →
      scoreVal.val (dpTable m candidate candidateLower i i (if i = 0 then 0 else 1)) =
        4 * (i : Int) := by
  intro i
  induction i with
  | zero =>
    intro _
    show scoreVal.val (if 0 = 0 ∧ 0 = 0 then score 0 0 else minScore * 2) = _
    rw [if_pos ⟨rfl, rfl⟩, val_score 0 0 (by omega)]
    rfl
  | succ i ih =>
    intro hi
    have hprev := ih (by omega)
    have hk : (if i = 0 then 0 else 1) < 2 := by split_ifs <;> omega
    have hge := dpTable_take_ge m candidate candidateLower i i _ hk (hadm i (by omega))
    have hle := dpTable_le m candidate candidateLower (i + 1) (i + 1) 1 (by omega)
    rw [hgain i (by omega), hprev] at hge
    rw [if_neg (by omega)]
    push_cast at hle ⊢
    omega

/-- Below the end of the diagonal, in the last column, the skip states keep the
value of the diagonal; the first of them records the match state, the others
the skip state. -/
theorem dpTable_last_column (m : Matcher) (candidate candidateLower : List Nat)
    (hs : lastSegStartOf m candidate = 0) (hp : 1 ≤ m.pattern.length)
    (hb : m.pattern.length ≤ 63)
    (hd : scoreVal.val (dpTable m candidate candidateLower m.pattern.length m.pattern.length 1) =
      4 * (m.pattern.length : Int)) (d : Nat) :
    scoreVal.val (dpTable m candidate candidateLower (m.pattern.length + d + 1)
        m.pattern.length 0) = 4 * (m.pattern.length : Int) ∧
      scoreVal.prevK (dpTable m candidate candidateLower (m.pattern.length + d + 1)
        m.pattern.length 0) = if d = 0 then 1 else 0 := by
  have hcost : ∀ i, skipCost m candidate i m.pattern.length = 0 := by
    intro i
    unfold skipCost
    rw [if_neg (fun h => h.1 rfl)]
  induction d with
  | zero =>
    have h0 : isSent (dpTable m candidate candidateLower) m.pattern.length m.pattern.length 0 := by
      obtain ⟨n', hn'⟩ : ∃ n', m.pattern.length = n' + 1 :=
        ⟨m.pattern.length - 1, by omega⟩
      rw [hn']
      exact dpTable_diag_skip m candidate candidateLower n'
    unfold isSent minScore at h0
    have hlt : scoreVal.val (dpTable m candidate candidateLower m.pattern.length
          m.pattern.length 0) <
        scoreVal.val (dpTable m candidate candidateLower m.pattern.length
          m.pattern.length 1) := by
      omega
    rw [Nat.add_zero, dpTable_skip_eq, if_pos hlt, hcost, val_score _ _ (by omega),
      prevK_score _ _ (by omega), hd]
    exact ⟨by omega, rfl⟩
  | succ d ih =>
    have h1 := dpTable_off_diag m candidate candidateLower hs (m.pattern.length + d + 1)
      m.pattern.length (by omega)
    have hlt : ¬ scoreVal.val (dpTable m candidate candidateLower (m.pattern.length + d + 1)
          m.pattern.length 0) <
        scoreVal.val (dpTable m candidate candidateLower (m.pattern.length + d + 1)
          m.pattern.length 1) := by
      omega
    rw [show m.pattern.length + (d + 1) + 1 = (m.pattern.length + d + 1) + 1 from rfl,
      dpTable_skip_eq, if_neg hlt, hcost, val_score _ _ (by omega), prevK_score _ _ (by omega),
      ih.1, if_neg (by omega)]
    exact ⟨by omega, rfl⟩

/-- The walk of `poorMatch` up the last column and then down the diagonal reports
no poor match. -/
theorem poorMatchLoop_last_column (rr : List Nat → List RuneRole) (m0 : Matcher)
    (candidate : List Nat)
    (hcol : ∀ d, scoreVal.prevK (dpTable { m0 with roles := rr candidate } candidate
      (toLower candidate) (m0.pattern.length + d + 1) m0.pattern.length 0) =
        if d = 0 then 1 else 0)
    (hdiag : ∀ len, poorMatchLoop (m0.scored rr candidate) m0.pattern.length
      (m0.pattern.length : Int) 1 0 len = some false) :
    ∀ d len, poorMatchLoop (m0.scored rr candidate) (m0.pattern.length + d + 1)
      (m0.pattern.length : Int) 0 0 len = some false := by
  intro d
  induction d with
  | zero =>
    intro len
    have hc : (m0.scored rr candidate).scores (m0.pattern.length + 0 + 1)
        ((m0.pattern.length : Nat) : Int).toNat 0 =
        dpTable { m0 with roles := rr candidate } candidate (toLower candidate)
          (m0.pattern.length + 0 + 1) m0.pattern.length 0 := by
      rw [Int.toNat_ofNat]; rfl
    rw [poorMatchLoop, if_neg (by omega)]
    simp only [hc, hcol 0]
    rw [if_neg (by omega)]
    exact hdiag 0
  | succ d ih =>
    intro len
    have hc : (m0.scored rr candidate).scores (m0.pattern.length + (d + 1) + 1)
        ((m0.pattern.length : Nat) : Int).toNat 0 =
        dpTable { m0 with roles := rr candidate } candidate (toLower candidate)
          (m0.pattern.length + (d + 1) + 1) m0.pattern.length 0 := by
      rw [Int.toNat_ofNat]; rfl
    rw [poorMatchLoop, if_neg (by omega)]
    simp only [hc, hcol (d + 1)]
    rw [if_neg (by omega), if_neg (by omega)]
    exact ih 0

theorem getD_of_isPrefix (P C : List Nat) (hpre : P <+: C) (i : Nat) (hi : i < P.length) :
    (toLower C).getD i 0 = (toLower P).getD i 0 ∧ C.getD i 0 = P.getD i 0 := by
  obtain ⟨S, rfl⟩ := hpre
  unfold toLower
  rw [List.map_append, List.getD_append _ _ _ _ (by rw [List.length_map]; exact hi),
    List.getD_append _ _ _ _ hi]
  exact ⟨rfl, rfl⟩

/-- For a candidate that starts with the pattern, every diagonal match is
admitted unless a word-start pattern byte meets a tail candidate byte. -/
theorem prefix_admitted (rr : List Nat → List RuneRole) (P C : List Nat) (hlen : P.length ≤ 63)
    (hpre : P <+: C)
    (hroles : ∀ t, t < P.length →
      ¬ ((rr C).getD t RNone = RTail ∧ (rr P).getD t RNone = RHead)) :
    ∀ i, i < P.length →
      ¬ noMatch { NewMatcher rr P with roles := rr C } (toLower C) (i + 1) (i + 1)
        ((rr C).getD i RNone) := by
  intro i hi
  have hP : P.take 63 = P := List.take_of_length_le hlen
  have e1 : ({ NewMatcher rr P with roles := rr C } : Matcher).patternLower = toLower P := by
    show (NewMatcher rr P).patternLower = _
    rw [NewMatcher_patternLower, hP]
  have e2 : ({ NewMatcher rr P with roles := rr C } : Matcher).patternRoles = rr P := by
    show (NewMatcher rr P).patternRoles = _
    rw [NewMatcher_patternRoles, hP]
  unfold noMatch
  rw [e1, e2]
  simp only [Nat.add_sub_cancel]
  rintro ((h | h) | ⟨h1, h2, _⟩)
  · omega
  · exact h (getD_of_isPrefix P C hpre i hi).1
  · exact hroles i hi ⟨h1, h2⟩

/-- For a candidate of one segment that starts with the pattern, every diagonal
match gains the full 4 unless the first candidate byte is a tail or a word-start
pattern byte meets a tail candidate byte. -/
theorem prefix_gain (rr : List Nat → List RuneRole) (P C : List Nat) (hlen : P.length ≤ 63)
    (hpre : P <+: C)
    (hseg : ∀ t, t < C.length → (rr C).getD t RNone ≠ RSep)
    (hfirst : (rr C).getD 0 RNone ≠ RTail ∧ (rr C).getD 0 RNone ≠ RUCTail)
    (hroles : ∀ t, t < P.length →
      ¬ ((rr C).getD t RNone = RTail ∧ (rr P).getD t RNone = RHead)) :
    ∀ i, i < P.length →
      takeGain { NewMatcher rr P with roles := rr C } C (i + 1) (i + 1)
        (if i = 0 then 0 else 1) = 4 := by
  intro i hi
  have hP : P.take 63 = P := List.take_of_length_le hlen
  have e0 : ({ NewMatcher rr P with roles := rr C } : Matcher).pattern = P := by
    show (NewMatcher rr P).pattern = _
    rw [NewMatcher_pattern, hP]
  have e2 : ({ NewMatcher rr P with roles := rr C } : Matcher).patternRoles = rr P := by
    show (NewMatcher rr P).patternRoles = _
    rw [NewMatcher_patternRoles, hP]
  have hs := lastSegStartOf_noSep { NewMatcher rr P with roles := rr C } C hseg
  have hl := segmentsLeftAt_noSep { NewMatcher rr P with roles := rr C } C hseg (i + 1)
  have hb := (getD_of_isPrefix P C hpre i hi).2
  have hr := hroles i hi
  unfold takeGain charScoreOf
  simp only [Nat.add_sub_cancel]
  rw [hs, hl, e0, e2]
  simp only [le_refl, if_true, hb, true_or, if_neg hr]
  by_cases h0 : i = 0
  · subst h0
    rw [if_neg (fun h => hfirst.1 h.2), if_pos (Or.inr (Or.inl rfl)),
      if_neg (fun h => h.2.elim hfirst.1 hfirst.2)]
    rfl
  · rw [if_neg (fun h => h0 (by omega)), if_neg h0, if_pos (Or.inl rfl),
      if_neg (fun h => absurd h.1 (by omega))]
    rfl

/-- A candidate of one segment that starts with the pattern is scored `1`, unless
its first byte is a tail or a word-start pattern byte meets a tail candidate
byte. -/
theorem one_segment_scored (rr : List Nat → List RuneRole) (P C : List Nat)
    (hist : List (List (List Nat))) (hP : P ≠ []) (hlen : P.length ≤ 63)
    (hC : C.length ≤ 127) (hpre : P <+: C)
    (hseg : ∀ t, t < C.length → (rr C).getD t RNone ≠ RSep)
    (hfirst : (rr C).getD 0 RNone ≠ RTail ∧ (rr C).getD 0 RNone ≠ RUCTail)
    (hroles : ∀ t, t < P.length →
      ¬ ((rr C).getD t RNone = RTail ∧ (rr P).getD t RNone = RHead)) :
    scoreAfter rr P hist [C] =
      some (if P.length = C.length ∨ ¬ (P.length = 41 ∨ P.length = 47 ∨ P.length = 55 ∨
          P.length = 61) then 1 else 16777215 / 16777216) := by
  have hsub : (toLower P).Sublist (toLower C) := by
    unfold toLower
    exact hpre.sublist.map _
  by_cases heq : P.length = C.length
  · rw [if_pos (Or.inl heq)]
    exact exact_length_aux rr P C hist hP hlen heq hsub (fun t _ ht => hroles t ht)
  have hlt : P.length < C.length := lt_of_le_of_ne hpre.length_le heq
  have hPt : P.take 63 = P := List.take_of_length_le hlen
  have hCc : candidateOf [C] = C := by
    rw [candidateOf_single, List.take_of_length_le (by omega)]
  have hpl : (NewMatcher rr P).pattern.length = P.length := by
    rw [NewMatcher_pattern, hPt]
  have hp1 : 1 ≤ P.length := Nat.pos_of_ne_zero (fun h => hP (List.length_eq_zero.1 h))
  have hs := lastSegStartOf_noSep { NewMatcher rr P with roles := rr C } C hseg
  have hadm := prefix_admitted rr P C hlen hpre hroles
  have hgain := prefix_gain rr P C hlen hpre hseg hfirst hroles
  have hval := dpTable_diag_val { NewMatcher rr P with roles := rr C } C (toLower C) P.length
    hadm hgain
  have hreal := dpTable_diag_real { NewMatcher rr P with roles := rr C } C (toLower C) P.length
    hadm
  have hd := hval P.length le_rfl
  rw [if_neg (by omega)] at hd
  have hcol := dpTable_last_column { NewMatcher rr P with roles := rr C } C (toLower C) hs
    (by show 1 ≤ (NewMatcher rr P).pattern.length; omega)
    (by show (NewMatcher rr P).pattern.length ≤ 63; omega)
    (by
      show scoreVal.val (dpTable { NewMatcher rr P with roles := rr C } C (toLower C)
        (NewMatcher rr P).pattern.length (NewMatcher rr P).pattern.length 1) =
          4 * ((NewMatcher rr P).pattern.length : Int)
      rw [hpl]
      exact hd)
  have hcol' : ∀ d,
      scoreVal.val (dpTable { NewMatcher rr P with roles := rr C } C (toLower C)
        (P.length + d + 1) P.length 0) = 4 * (P.length : Int) ∧
      scoreVal.prevK (dpTable { NewMatcher rr P with roles := rr C } C (toLower C)
        (P.length + d + 1) P.length 0) = if d = 0 then 1 else 0 := by
    intro d
    have h := hcol d
    have e : ({ NewMatcher rr P with roles := rr C } : Matcher).pattern.length = P.length := hpl
    rw [e] at h
    exact h
  obtain ⟨d, hd'⟩ : ∃ d, C.length = P.length + d + 1 :=
    ⟨C.length - P.length - 1, by omega⟩
  have h0 : scoreVal.val (((NewMatcher rr P).scored rr C).scores C.length P.length 0) =
      4 * (P.length : Int) := by
    rw [hd']
    exact (hcol' d).1
  have h1 : scoreVal.val (((NewMatcher rr P).scored rr C).scores C.length P.length 1) ≤
      4 * (P.length : Int) - 2 :=
    dpTable_off_diag { NewMatcher rr P with roles := rr C } C (toLower C) hs C.length P.length hlt
  have hbest : ((NewMatcher rr P).scored rr C).bestK C.length P.length = 0 := by
    unfold Matcher.bestK
    rw [if_neg (by omega)]
  have hrawv : rawScore rr P [C] = 4 * (P.length : Int) := by
    rw [rawScore_eq, hCc, hpl, hbest, h0]
  have hraw : minScore / 2 < rawScore rr P [C] := by
    rw [hrawv, minScore_half]
    omega
  have hpoor : poorFlag rr P [C] = some false := by
    rw [poorFlag_eq, hCc]
    unfold Matcher.poorMatch
    split_ifs
    · rfl
    · have e1 : ((NewMatcher rr P).scored rr C).lastCandidateLen = C.length := rfl
      have e2 : ((NewMatcher rr P).scored rr C).pattern.length = P.length := hpl
      rw [e1, e2, hbest, hd']
      have hw := poorMatchLoop_last_column rr (NewMatcher rr P) C
        (by
          intro d
          rw [hpl]
          exact (hcol' d).2)
        (by
          intro len
          rw [hpl]
          exact poorMatchLoop_diag rr (NewMatcher rr P) C P.length (by omega) hreal P.length
            le_rfl len) d 0
      rw [hpl] at hw
      exact hw
  rcases after_accepted rr P hist [C] (take_ne_nil P hP)
    (by rw [hPt, hCc]; exact hsub) hraw with ⟨h, _, _⟩ | ⟨_, h, _⟩
  · rw [hpoor] at h; cases h
  · rw [h, hPt, hCc, if_neg heq, hrawv, if_neg (by omega), scoreScale_eq, hpl,
      if_pos (by omega), normalizedScore_perfect P.length hp1 hlen]
    by_cases hx : P.length = 41 ∨ P.length = 47 ∨ P.length = 55 ∨ P.length = 61
    · rw [if_pos hx, if_neg (fun h => h.elim heq (fun h => h hx))]
    · rw [if_neg hx, if_pos (Or.inr hx)]

set_option maxRecDepth 1000000 in
/-- A pattern of 41 bytes `a` against a candidate of 42 bytes `a`: the alignment
value is the highest one, 164, and the score is the `float32` just below 1. -/
theorem perfect_score_rounded :
    scoreAfter RuneRoles (List.replicate 41 97) [] [List.replicate 42 97] =
      some (16777215 / 16777216) := by
  rw [one_segment_scored RuneRoles (List.replicate 41 97) (List.replicate 42 97) []
    (by decide) (by decide) (by decide) ⟨[97], by decide⟩ (by decide!) (by decide!)
    (by decide!)]
  decide!

/-- The cells of the recurrence: outside the sentinel range they are at least
`-(8 + 3 * j + 2)`, and they are above the failure threshold exactly when an
admissible alignment ends in them, in which case they hold the value of one. -/
theorem dpTable_exposed (m : Matcher) (candidate candidateLower : List Nat) (i j k : Nat)
    (hi : i ≤ 127) (hj : j ≤ 63) (hk : k < 2) :
    (scoreVal.val (dpTable m candidate candidateLower i j k) < minScore / 2 ∨
        -(8 + 3 * (j : Int) + 2) ≤ scoreVal.val (dpTable m candidate candidateLower i j k)) ∧
      (minScore / 2 < scoreVal.val (dpTable m candidate candidateLower i j k) ↔
        ∃ v, Admissible m candidate candidateLower i j k v) ∧
      (minScore / 2 < scoreVal.val (dpTable m candidate candidateLower i j k) →
        Admissible m candidate candidateLower i j k
          (scoreVal.val (dpTable m candidate candidateLower i j k))) := by
  have hpr := penaltyRows_mono (lastSegStartOf m candidate) i
  have haf : alignFloor j ≤ 3 * (j : Int) + 5 := by
    unfold alignFloor
    split_ifs <;> omega
  have hreal : minScore / 2 < scoreVal.val (dpTable m candidate candidateLower i j k) →
      Admissible m candidate candidateLower i j k
        (scoreVal.val (dpTable m candidate candidateLower i j k)) := fun h =>
    Admissible.of_isReal m candidate candidateLower i j k hk (by omega)
      (isReal_of_gt m candidate candidateLower i j k hk (by omega) h)
  refine ⟨?_, ⟨fun h => ⟨_, hreal h⟩, ?_⟩, hreal⟩
  · rcases dpTable_floor m candidate candidateLower i j k hk with h | h
    · left
      unfold isSent at h
      rw [minScore_half]
      unfold minScore at h
      omega
    · right
      omega
  · rintro ⟨v, steps, hs⟩
    obtain ⟨_, h1, h2⟩ := alignValue_le m candidate candidateLower steps i j k v hs
    rw [minScore_half]
    omega

/-- A call of `ScoreChunks` that leaves `lastCandidateMatched` set, on a non-empty
pattern, went through `computeScore` and found its value above the threshold. -/
theorem ScoreChunks_matched_gt (rr : List Nat → List RuneRole) (m : Matcher)
    (chunks : List (List Nat)) (h : m.pattern.length ≠ 0) (m' : Matcher) (s : ℚ)
    (hs : m.ScoreChunks rr chunks = some (m', s)) (hm : m'.lastCandidateMatched = true) :
    minScore / 2 < ((m.prepared rr (candidateOf chunks)).computeScore (candidateOf chunks)
      (toLower (candidateOf chunks))).2 := by
  by_cases hl : matchLoop (toLower (candidateOf chunks)) m.patternLower = []
  · rw [ScoreChunks_match rr m chunks h hl] at hs
    by_contra hr
    rw [if_neg hr] at hs
    simp only [Option.some.injEq, Prod.mk.injEq] at hs
    rw [← hs.1] at hm
    cases hm
  · rw [ScoreChunks_nomatch rr m chunks h hl] at hs
    simp only [Option.some.injEq, Prod.mk.injEq] at hs
    rw [← hs.1] at hm
    cases hm

/-! ### The prefilter as a subsequence test -/

theorem match_eq_true_iff (rr : List Nat → List RuneRole) (m : Matcher)
    (candidate candidateLower : List Nat) :
    (m.match_ rr candidate candidateLower).2 = true ↔ m.patternLower.Sublist candidateLower := by
  rw [← matchLoop_eq_nil_iff]
  unfold Matcher.match_
  by_cases h : matchLoop candidateLower m.patternLower = []
  · rw [h]
    simp
  · have hl : (matchLoop candidateLower m.patternLower).length ≠ 0 := by
      rw [Ne, List.length_eq_zero]
      exact h
    rw [if_pos hl]
    simp [h]

/-! ### The segments of the candidate -/

theorem segFold_fst (roles : List RuneRole) (n : Nat) :
    ((List.range n).foldl (segStep roles) (1, 0)).1 = 1 + sepCount roles 0 n := by
  induction n with
  | zero => rfl
  | succ n ih =>
    rw [List.range_succ, List.foldl_append]
    show (segStep roles _ n).1 = _
    rw [segStep, sepCount]
    by_cases h : roles.getD n RNone = RSep
    · rw [if_pos h, if_pos (And.intro (Nat.zero_le _) h)]
      show ((List.range n).foldl (segStep roles) (1, 0)).1 + 1 = _
      rw [ih]
      omega
    · rw [if_neg h, if_neg (fun hc => h hc.2), ih]
      rfl

/-- The start of the last segment is the offset just after the last separator,
and `0` if there is none. -/
theorem segFold_snd (roles : List RuneRole) (n : Nat) :
    ((List.range n).foldl (segStep roles) (1, 0)).2 ≤ n ∧
      (((List.range n).foldl (segStep roles) (1, 0)).2 = 0 ∨
        roles.getD (((List.range n).foldl (segStep roles) (1, 0)).2 - 1) RNone = RSep) ∧
      ∀ t, ((List.range n).foldl (segStep roles) (1, 0)).2 ≤ t → t < n →
        roles.getD t RNone ≠ RSep := by
  induction n with
  | zero => exact ⟨le_rfl, Or.inl rfl, fun t _ ht => by omega⟩
  | succ n ih =>
    obtain ⟨h1, h2, h3⟩ := ih
    rw [List.range_succ, List.foldl_append]
    show (segStep roles _ n).2 ≤ _ ∧ ((segStep roles _ n).2 = 0 ∨
      roles.getD ((segStep roles _ n).2 - 1) RNone = RSep) ∧
      ∀ t, (segStep roles _ n).2 ≤ t → t < n + 1 → roles.getD t RNone ≠ RSep
    rw [segStep]
    by_cases h : roles.getD n RNone = RSep
    · rw [if_pos h]
      refine ⟨le_rfl, Or.inr ?_, fun t ht1 ht2 => ?_⟩
      · show roles.getD (n + 1 - 1) RNone = RSep
        rw [Nat.add_sub_cancel]
        exact h
      · have : n + 1 ≤ t := ht1
        omega
    · rw [if_neg h]
      refine ⟨by omega, h2, fun t ht1 ht2 => ?_⟩
      by_cases htn : t = n
      · rw [htn]; exact h
      · exact h3 t ht1 (by omega)

theorem sepCount_eq_zero_iff (roles : List RuneRole) (i n : Nat) :
    sepCount roles i n = 0 ↔ ∀ t, i ≤ t → t < n → roles.getD t RNone ≠ RSep := by
  induction n with
  | zero => exact ⟨fun _ t _ ht => by omega, fun _ => rfl⟩
  | succ n ih =>
    rw [sepCount]
    constructor
    · intro h t ht1 ht2
      have h0 : sepCount roles i n = 0 := by omega
      by_cases htn : t = n
      · subst htn
        intro hc
        rw [if_pos ⟨ht1, hc⟩] at h
        omega
      · exact ih.1 h0 t ht1 (by omega)
    · intro h
      rw [ih.2 (fun t ht1 ht2 => h t ht1 (by omega)),
        if_neg (fun hc => h n hc.1 (by omega) hc.2)]

theorem sepCount_succ_left (roles : List RuneRole) (i n : Nat) (h : i < n) :
    sepCount roles i n =
      (if roles.getD i RNone = RSep then 1 else 0) + sepCount roles (i + 1) n := by
  induction n with
  | zero => omega
  | succ n ih =>
    rw [sepCount, sepCount]
    by_cases hin : i = n
    · subst hin
      have e1 : sepCount roles i i = 0 :=
        (sepCount_eq_zero_iff roles i i).2 (fun t h1 h2 => by omega)
      have e2 : sepCount roles (i + 1) i = 0 :=
        (sepCount_eq_zero_iff roles (i + 1) i).2 (fun t h1 h2 => by omega)
      have hn : ¬ (i + 1 ≤ i ∧ roles.getD i RNone = RSep) := fun hc => by omega
      rw [e1, e2, if_neg hn]
      by_cases hs : roles.getD i RNone = RSep
      · rw [if_pos (And.intro le_rfl hs), if_pos hs]
      · have hn2 : ¬ (i ≤ i ∧ roles.getD i RNone = RSep) := fun hc => hs hc.2
        rw [if_neg hn2, if_neg hs]
    · rw [ih (by omega)]
      by_cases hs : roles.getD n RNone = RSep
      · have p1 : i ≤ n ∧ roles.getD n RNone = RSep := ⟨by omega, hs⟩
        have p2 : i + 1 ≤ n ∧ roles.getD n RNone = RSep := ⟨by omega, hs⟩
        rw [if_pos p1, if_pos p2]
        omega
      · have p1 : ¬ (i ≤ n ∧ roles.getD n RNone = RSep) := fun hc => hs hc.2
        have p2 : ¬ (i + 1 ≤ n ∧ roles.getD n RNone = RSep) := fun hc => hs hc.2
        rw [if_neg p1, if_neg p2]
        omega

/-- In row `i` the counter `segmentsLeft` is one more than the number of
separators that are still to come. -/
theorem ctxAt_snd (roles : List RuneRole) (n i : Nat) (hi : i ≤ n) :
    (ctxAt roles (1 + sepCount roles 0 n) i).2 = 1 + sepCount roles i n := by
  induction i with
  | zero => rfl
  | succ i ih =>
    have hprev := ih (by omega)
    have hstep := sepCount_succ_left roles i n (by omega)
    have hunf : ctxAt roles (1 + sepCount roles 0 n) (i + 1) =
        ctxStep roles (ctxAt roles (1 + sepCount roles 0 n) i) (i + 1) := by
      unfold ctxAt
      rw [List.range_succ, List.map_append, List.foldl_append]
      rfl
    rw [hunf, ctxStep]
    show (if roles.getD (i + 1 - 1) RNone = RHead then _ else _) = _
    rw [Nat.add_sub_cancel, hprev]
    by_cases hh : roles.getD i RNone = RHead
    · rw [if_pos hh]
      have hns : ¬ roles.getD i RNone = RSep := by rw [hh]; decide
      rw [if_neg hns] at hstep
      omega
    · rw [if_neg hh]
      by_cases hs : roles.getD i RNone = RSep
      · rw [if_pos hs] at hstep
        have p1 : roles.getD i RNone = RSep ∧ 1 + sepCount roles i n > 1 := ⟨hs, by omega⟩
        rw [if_pos p1]
        omega
      · rw [if_neg hs] at hstep
        have p1 : ¬ (roles.getD i RNone = RSep ∧ 1 + sepCount roles i n > 1) :=
          fun hc => hs hc.1
        rw [if_neg p1]
        omega

/-- The counter `segmentsLeft` is at most 1 in row `i` exactly when the last
segment starts at offset `i` or before: in the rows of the last segment and in
the row of the separator in front of it. -/
theorem segmentsLeftAt_le_one_iff (m : Matcher) (candidate : List Nat) (i : Nat)
    (hi : i ≤ candidate.length) :
    segmentsLeftAt m candidate i ≤ 1 ↔ lastSegStartOf m candidate ≤ i := by
  obtain ⟨h1, h2, h3⟩ := segFold_snd m.roles candidate.length
  unfold segmentsLeftAt lastSegStartOf
  rw [segFold_fst, ctxAt_snd m.roles candidate.length i hi]
  have hz := sepCount_eq_zero_iff m.roles i candidate.length
  constructor
  · intro h
    have h0 : sepCount m.roles i candidate.length = 0 := by omega
    by_contra hc
    rcases h2 with h2 | h2
    · omega
    · exact hz.1 h0 _ (by omega) (by omega) h2
  · intro h
    rw [hz.2 (fun t ht1 ht2 => h3 t (by omega) ht2)]

/-! ### The normalised score stays below the clamp -/

set_option maxRecDepth 1000000 in
theorem float32_one : float32 1 = 1 := by decide!

/-- The rounding of a value of at most 1 is at most 1. -/
theorem float32_le_one (q : ℚ) (h : q ≤ 1) : float32 q ≤ 1 := by
  rcases lt_trichotomy q 0 with hq | hq | hq
  · unfold float32
    rw [if_neg (ne_of_lt hq), if_neg (not_lt.2 (le_of_lt hq))]
    have hn : 0 < (-q).num := Rat.num_pos.2 (by linarith)
    have := roundSignificand_pos (-q).num.toNat q.den (by omega) q.den_pos
    linarith
  · rw [hq, float32_zero]
    exact zero_le_one
  · rcases eq_or_lt_of_le h with h1 | h1
    · rw [h1, float32_one]
    · obtain ⟨e, m, he1, _, hm, herr⟩ := float32_nearest q hq
      have he : e < 0 := by
        have h2 : (2 : ℚ) ^ e < (2 : ℚ) ^ (0 : Int) := by
          rw [zpow_zero]
          exact lt_of_le_of_lt he1 h1
        exact (zpow_lt_zpow_iff_right₀ (by norm_num : (1 : ℚ) < 2)).1 h2
      have hu : (0 : ℚ) < (2 : ℚ) ^ (e - 23) := by positivity
      have e1 : (2 : ℚ) ^ (e + 1) = 16777216 * (2 : ℚ) ^ (e - 23) := by
        rw [show e + 1 = (e - 23) + 24 by ring, zpow_add₀ (by norm_num : (2 : ℚ) ≠ 0)]
        norm_num
        ring
      have e2 : (2 : ℚ) ^ (e - 24) = 1 / 2 * (2 : ℚ) ^ (e - 23) := by
        rw [show e - 24 = (e - 23) + (-1) by ring, zpow_add₀ (by norm_num : (2 : ℚ) ≠ 0)]
        norm_num
        ring
      have hq2 : q < (2 : ℚ) ^ (e + 1) := by assumption
      have hb := (abs_le.1 herr).2
      have hlt : (m : ℚ) * (2 : ℚ) ^ (e - 23) < (16777216 + 1 / 2) * (2 : ℚ) ^ (e - 23) := by
        rw [← hm]
        rw [e1] at hq2
        rw [e2] at hb
        linarith
      have hm' : (m : ℚ) < 16777216 + 1 / 2 := lt_of_mul_lt_mul_right hlt (le_of_lt hu)
      have hm2 : m ≤ 16777216 := by
        by_contra hc
        have : (16777217 : ℚ) ≤ (m : ℚ) := by exact_mod_cast (by omega : 16777217 ≤ m)
        linarith
      have hm3 : (m : ℚ) ≤ 16777216 := by exact_mod_cast hm2
      have h3 : (2 : ℚ) ^ (e + 1) ≤ 1 :=
        zpow_le_one_of_nonpos₀ (by norm_num) (by omega)
      rw [hm]
      calc (m : ℚ) * (2 : ℚ) ^ (e - 23) ≤ 16777216 * (2 : ℚ) ^ (e - 23) :=
            mul_le_mul_of_nonneg_right hm3 (le_of_lt hu)
        _ = (2 : ℚ) ^ (e + 1) := e1.symm
        _ ≤ 1 := h3

set_option maxRecDepth 1000000 in
/-- The integers up to `4 * 63` are values of the format. -/
theorem float32_small (k : Nat) (h : k < 253) : float32 (k : ℚ) = (k : ℚ) := by
  revert k
  decide!

set_option maxRecDepth 1000000 in
/-- The scale of a pattern of `n` bytes, times the alignment values up to
`4 * n`: the products below the highest stay below 1 exactly, and the highest
is rounded to at most 1. -/
theorem scale_products (n : Nat) (h1 : 1 ≤ n) (h63 : n ≤ 63) :
    0 ≤ float32 (1 / float32 ((((4 * n : Nat) : Int)) : ℚ)) ∧
      (((4 * n - 1 : Nat)) : ℚ) * float32 (1 / float32 ((((4 * n : Nat) : Int)) : ℚ)) ≤ 1 ∧
      float32 ((((4 * n : Nat)) : ℚ) * float32 (1 / float32 ((((4 * n : Nat) : Int)) : ℚ))) ≤
        1 := by
  interval_cases n <;> decide!

/-- The product that `ScoreChunks` clamps is at most 1 already: for a pattern of
`n` bytes and an alignment value of at most `4 * n`. -/
theorem product_le_one (n : Nat) (h1 : 1 ≤ n) (h63 : n ≤ 63) (raw : Int)
    (hraw : raw ≤ 4 * (n : Int)) :
    float32 (float32 (((if raw < 0 then 0 else raw : Int)) : ℚ) *
      float32 (1 / float32 ((((4 * n : Nat) : Int)) : ℚ))) ≤ 1 := by
  obtain ⟨hs, hlow, htop⟩ := scale_products n h1 h63
  obtain ⟨r, hr⟩ : ∃ r : Nat, (if raw < 0 then 0 else raw : Int) = (r : Int) :=
    ⟨(if raw < 0 then 0 else raw : Int).toNat, by split_ifs <;> omega⟩
  have hr4 : r ≤ 4 * n := by
    split_ifs at hr <;> omega
  have hcast : (((if raw < 0 then 0 else raw : Int)) : ℚ) = (r : ℚ) := by
    rw [hr]
    norm_cast
  rw [hcast, float32_small r (by omega)]
  rcases Nat.eq_or_lt_of_le hr4 with he | hl
  · rw [he]
    exact htop
  · apply float32_le_one
    have h2 : (r : ℚ) ≤ ((4 * n - 1 : Nat) : ℚ) := by
      exact_mod_cast (by omega : r ≤ 4 * n - 1)
    calc (r : ℚ) * float32 (1 / float32 ((((4 * n : Nat) : Int)) : ℚ))
        ≤ ((4 * n - 1 : Nat) : ℚ) * float32 (1 / float32 ((((4 * n : Nat) : Int)) : ℚ)) :=
          mul_le_mul_of_nonneg_right h2 hs
      _ ≤ 1 := hlow

/-- The value that `computeScore` returns is at most `4` per pattern byte. -/
theorem computeScore_le (m : Matcher) (candidate candidateLower : List Nat) :
    (m.computeScore candidate candidateLower).2 ≤ 4 * (m.pattern.length : Int) := by
  rw [computeScore_snd, computeScore_scores m candidate candidateLower _ _ _ le_rfl le_rfl
    (bestK_lt _ _ _)]
  exact dpTable_le m candidate candidateLower _ _ _ (bestK_lt _ _ _)

/-! ### The walk of `MatchedRanges` in the order of its result -/

theorem pushRange_reverse (i : Nat) (ret : List Nat) :
    (if ret.length = 0 ∨ ret.getLast? ≠ some (i + 1) then ret ++ [i + 1, i]
      else ret.dropLast ++ [i]).reverse = pushRange i ret.reverse := by
  rcases List.eq_nil_or_concat ret with hnil | ⟨l, z, hz⟩
  · subst hnil
    rfl
  · subst hz
    rw [List.concat_eq_append, List.getLast?_concat, List.reverse_append]
    show _ = pushRange i (z :: l.reverse)
    rw [pushRange]
    by_cases hzi : z = i + 1
    · have hc : ¬ ((l ++ [z]).length = 0 ∨ some z ≠ some (i + 1)) := by
        rw [hzi]
        simp
      rw [if_neg hc, if_pos hzi, List.dropLast_concat, List.reverse_append]
      rfl
    · have hc : (l ++ [z]).length = 0 ∨ some z ≠ some (i + 1) :=
        Or.inr (fun h => hzi (Option.some.inj h))
      rw [if_pos hc, if_neg hzi, List.reverse_append, List.reverse_append]
      rfl

theorem matchedRangesLoop_reverse (m : Matcher) :
    ∀ (i : Nat) (j : Int) (k : Nat) (ret : List Nat),
      (matchedRangesLoop m i j k ret).map List.reverse = rangesWalk m i j k ret.reverse := by
  intro i
  induction i with
  | zero => intro j k ret; rfl
  | succ i ih =>
    intro j k ret
    rw [matchedRangesLoop, rangesWalk]
    by_cases hneg : j < 0
    · rw [if_pos hneg, if_pos hneg]
      rfl
    · rw [if_neg hneg, if_neg hneg]
      dsimp only
      by_cases hk : k = 1
      · rw [if_pos hk, if_pos hk, ih, pushRange_reverse]
      · rw [if_neg hk, if_neg hk, ih]

theorem rangeShape_mono (i : Nat) (asc : List Nat) (h : rangeShape (i + 1) asc) :
    rangeShape i asc := by
  match asc, h with
  | [], _ => exact trivial
  | b :: e :: _, h => exact ⟨by have := h.1; omega, h.2⟩

theorem rangeShape_head (i : Nat) (asc : List Nat) (h : rangeShape (i + 1) asc) :
    asc.head? ≠ some i := by
  match asc, h with
  | [], _ => simp
  | b :: e :: _, h =>
    have := h.1
    simp only [List.head?_cons, ne_eq, Option.some.injEq]
    omega

/-- The update at a matched row: the list then begins with a range from `i`, the
byte `i` is covered in addition, the ranges that were complete stay behind the
first range, and the first range is one byte longer than the open range was. -/
theorem pushRange_cases (i : Nat) (asc : List Nat) (h : rangeShape (i + 1) asc) :
    ∃ e rest, pushRange i asc = i :: e :: rest ∧ i < e ∧
      coveredOffsets (i :: e :: rest) = i :: coveredOffsets asc ∧
      closedRuns (i + 1) 1 asc = rest ∧ openLen (i + 1) asc + 1 = e - i := by
  match asc, h with
  | [], _ =>
    refine ⟨i + 1, [], rfl, by omega, ?_, rfl, ?_⟩
    · show List.range' i (i + 1 - i) ++ [] = [i]
      rw [Nat.add_sub_cancel_left]
      rfl
    · show 0 + 1 = i + 1 - i
      omega
  | b :: e :: rest, h =>
    obtain ⟨h1, h2⟩ := h
    by_cases hb : b = i + 1
    · subst hb
      refine ⟨e, rest, ?_, by omega, ?_, ?_, ?_⟩
      · rw [pushRange, if_pos rfl]
      · show List.range' i (e - i) ++ coveredOffsets rest =
          i :: (List.range' (i + 1) (e - (i + 1)) ++ coveredOffsets rest)
        have he : e - i = (e - (i + 1)) + 1 := by omega
        rw [he, List.range'_succ]
        rfl
      · unfold closedRuns
        rw [if_pos ⟨rfl, rfl⟩]
        rfl
      · show (if i + 1 = i + 1 then e - (i + 1) else 0) + 1 = e - i
        rw [if_pos rfl]
        omega
    · refine ⟨i + 1, b :: e :: rest, ?_, by omega, ?_, ?_, ?_⟩
      · rw [pushRange, if_neg hb]
      · show List.range' i (i + 1 - i) ++ coveredOffsets (b :: e :: rest) = _
        rw [Nat.add_sub_cancel_left]
        rfl
      · unfold closedRuns
        have hn : ¬ (1 = 1 ∧ (b :: e :: rest).head? = some (i + 1)) := by
          rintro ⟨_, hh⟩
          exact hb (Option.some.inj hh)
        rw [if_neg hn]
      · show (if b = i + 1 then e - b else 0) + 1 = i + 1 - i
        rw [if_neg hb]
        omega

theorem isReal_row_zero (m : Matcher) (candidate candidateLower : List Nat) (j k : Nat)
    (hj : j ≤ 63) (h : isReal (dpTable m candidate candidateLower) 0 j k) : j = 0 ∧ k = 0 := by
  unfold isReal at h
  by_contra hc
  have e : dpTable m candidate candidateLower 0 j k = minScore * 2 := by
    rw [dpTable]
    exact if_neg hc
  rw [e, val_sentinel] at h
  unfold minScore at h
  omega

/-- A real match state is written by an admitted match step. -/
theorem isReal_take (m : Matcher) (candidate candidateLower : List Nat) (i j : Nat)
    (hb : 12 * (j + 1) + i + 1 < 10000)
    (h : isReal (dpTable m candidate candidateLower) (i + 1) (j + 1) 1) :
    ¬ noMatch m candidateLower (i + 1) (j + 1) (m.roles.getD i RNone) := by
  rcases dpTable_take_cases m candidate candidateLower i j with e | ⟨hn, _⟩
  · unfold isReal at h
    rw [e, val_sentinel] at h
    unfold minScore at h
    omega
  · exact hn

/-! ### The bytes that the ranges cover -/

/-- Started in a real state of column `j`, the walk of `MatchedRanges` covers `j`
more bytes, in rows below the current one, and the `t`-th of them is admitted as
a match of the `t`-th pattern byte. -/
theorem rangesWalk_covered (m m0 : Matcher) (candidate candidateLower : List Nat)
    (hS : m.scores = dpTable m0 candidate candidateLower) :
    ∀ (i j k : Nat) (asc out : List Nat), i ≤ 127 → j ≤ 63 → k < 2 →
      isReal (dpTable m0 candidate candidateLower) i j k → rangeShape i asc →
      rangesWalk m i (j : Int) k asc = some out →
      ∃ cs : List Nat, coveredOffsets out = cs ++ coveredOffsets asc ∧ cs.length = j ∧
        cs.Pairwise (· < ·) ∧ (∀ x ∈ cs, x < i) ∧
        ∀ t, t < j → ¬ noMatch m0 candidateLower (cs.getD t 0 + 1) (t + 1)
          (m0.roles.getD (cs.getD t 0) RNone) := by
  intro i
  induction i with
  | zero =>
    intro j k asc out _ hj _ hreal _ h
    rw [rangesWalk] at h
    cases h
    obtain ⟨hj0, _⟩ := isReal_row_zero m0 candidate candidateLower j k hj hreal
    subst hj0
    exact ⟨[], rfl, rfl, List.Pairwise.nil, by simp, fun t ht => by omega⟩
  | succ i ih =>
    intro j k asc out hi hj hk hreal hshape h
    rw [rangesWalk, if_neg (by omega), Int.toNat_ofNat, hS] at h
    have hp := prevK_lt (dpTable m0 candidate candidateLower (i + 1) j k)
    have hk' : k = 0 ∨ k = 1 := by omega
    rcases hk' with rfl | rfl
    · have hr := isReal_pred_skip m0 candidate candidateLower i j (by omega) hreal
      rw [if_neg (by omega)] at h
      obtain ⟨cs, h1, h2, h3, h4, h5⟩ :=
        ih j _ asc out (by omega) hj hp hr (rangeShape_mono i asc hshape) h
      exact ⟨cs, h1, h2, h3, fun x hx => by have := h4 x hx; omega, h5⟩
    · obtain ⟨hj1, hr⟩ := isReal_pred_match m0 candidate candidateLower i j (by omega) hreal
      obtain ⟨j', rfl⟩ : ∃ j', j = j' + 1 := ⟨j - 1, by omega⟩
      have hnm := isReal_take m0 candidate candidateLower i j' (by omega) hreal
      have hcast : ((j' + 1 : Nat) : Int) - 1 = ((j' : Nat) : Int) := by push_cast; ring
      rw [if_pos rfl, hcast] at h
      obtain ⟨e, rest, hpush, hie, hcov, _, _⟩ := pushRange_cases i asc hshape
      have hshape' : rangeShape i (pushRange i asc) := by
        rw [hpush]
        exact ⟨le_rfl, hie⟩
      rw [Nat.add_sub_cancel] at hr
      obtain ⟨cs, h1, h2, h3, h4, h5⟩ :=
        ih j' _ (pushRange i asc) out (by omega) (by omega) hp hr hshape' h
      refine ⟨cs ++ [i], ?_, ?_, ?_, ?_, ?_⟩
      · rw [h1, hpush, hcov, List.append_assoc]
        rfl
      · rw [List.length_append, h2]
        rfl
      · rw [List.pairwise_append]
        refine ⟨h3, List.pairwise_singleton _ _, ?_⟩
        intro a ha b hb
        rw [List.mem_singleton] at hb
        rw [hb]
        exact h4 a ha
      · intro x hx
        rcases List.mem_append.1 hx with hx1 | hx1
        · have := h4 x hx1; omega
        · rw [List.mem_singleton] at hx1; omega
      · intro t ht
        by_cases htj : t < j'
        · have e1 : (cs ++ [i]).getD t 0 = cs.getD t 0 := by
            rw [List.getD_append _ _ _ _ (by rw [h2]; exact htj)]
          rw [e1]
          exact h5 t htj
        · have htj' : t = j' := by omega
          subst htj'
          have e1 : (cs ++ [i]).getD t 0 = i := by
            rw [List.getD_append_right _ _ _ _ (by rw [h2]), h2, Nat.sub_self]
            rfl
          rw [e1]
          exact hnm

/-! ### The runs that `poorMatch` counts -/

theorem shortTailRuns_cons (roles : List RuneRole) (b e : Nat) (rest : List Nat) :
    shortTailRuns roles (b :: e :: rest) =
      (if e - b < 3 ∧ roles.getD b RNone = RTail then 1 else 0) + shortTailRuns roles rest :=
  rfl

/-- The walk of `poorMatch` counts the ranges that the walk of `MatchedRanges`
builds: started in a real state with `counter` the number of counted ranges among
the complete ones and `len` the length of the open range, it returns whether more
than one range of the result is shorter than 3 bytes and begins on a `RTail`
byte. -/
theorem poorMatchLoop_counts (m m0 : Matcher) (candidate candidateLower : List Nat)
    (hS : m.scores = dpTable m0 candidate candidateLower) :
    ∀ (i j k : Nat) (asc out : List Nat) (counter len : Nat), i ≤ 127 → j ≤ 63 → k < 2 →
      isReal (dpTable m0 candidate candidateLower) i j k → rangeShape i asc →
      counter = shortTailRuns m.roles (closedRuns i k asc) →
      (k = 1 → len = openLen i asc) →
      rangesWalk m i (j : Int) k asc = some out →
      counter ≤ shortTailRuns m.roles out ∧
        (counter ≤ 1 → poorMatchLoop m i (j : Int) k counter len =
          some (decide (1 < shortTailRuns m.roles out))) := by
  intro i
  induction i with
  | zero =>
    intro j k asc out counter len _ hj _ hreal _ hcnt _ h
    rw [rangesWalk] at h
    cases h
    obtain ⟨_, hk0⟩ := isReal_row_zero m0 candidate candidateLower j k hj hreal
    subst hk0
    have hcl : closedRuns 0 0 asc = asc := by
      unfold closedRuns
      rw [if_neg (fun hc => absurd hc.1 (by decide))]
    rw [hcl] at hcnt
    refine ⟨by omega, fun h1 => ?_⟩
    rw [poorMatchLoop]
    have hd : ¬ 1 < shortTailRuns m.roles asc := by omega
    rw [decide_eq_false hd]
  | succ i ih =>
    intro j k asc out counter len hi hj hk hreal hshape hcnt hlen h
    rw [rangesWalk, if_neg (by omega), Int.toNat_ofNat, hS] at h
    have hc : m.scores (i + 1) ((j : Int)).toNat k =
        dpTable m0 candidate candidateLower (i + 1) j k := by
      rw [Int.toNat_ofNat, hS]
    have hp := prevK_lt (dpTable m0 candidate candidateLower (i + 1) j k)
    rw [poorMatchLoop, if_neg (by omega)]
    simp only [hc]
    have hk' : k = 0 ∨ k = 1 := by omega
    rcases hk' with rfl | rfl
    · have hr := isReal_pred_skip m0 candidate candidateLower i j (by omega) hreal
      rw [if_neg (by omega)] at h
      rw [if_neg (by omega)]
      have hcl0 : closedRuns (i + 1) 0 asc = asc := by
        unfold closedRuns
        rw [if_neg (fun hc => absurd hc.1 (by decide))]
      have hcl : closedRuns i (scoreVal.prevK (dpTable m0 candidate candidateLower (i + 1) j 0))
          asc = asc := by
        unfold closedRuns
        rw [if_neg (fun hc => rangeShape_head i asc hshape hc.2)]
      have hol : openLen i asc = 0 := by
        match asc, hshape with
        | [], _ => rfl
        | b :: e :: _, hs =>
          have := hs.1
          show (if b = i then e - b else 0) = 0
          rw [if_neg (by omega)]
      exact ih j _ asc out counter 0 (by omega) hj hp hr (rangeShape_mono i asc hshape)
        (by rw [hcl, hcnt, hcl0]) (fun _ => hol.symm) h
    · obtain ⟨hj1, hr⟩ := isReal_pred_match m0 candidate candidateLower i j (by omega) hreal
      have hcast : (j : Int) - 1 = ((j - 1 : Nat) : Int) := by omega
      rw [if_pos rfl, hcast] at h
      rw [if_pos rfl, hcast]
      obtain ⟨e, rest, hpush, hie, _, hclosed, hopen⟩ := pushRange_cases i asc hshape
      have hshape' : rangeShape i (pushRange i asc) := by
        rw [hpush]
        exact ⟨le_rfl, hie⟩
      rw [hclosed] at hcnt
      have hlen1 : len + 1 = e - i := by rw [hlen rfl]; exact hopen
      have hS' := shortTailRuns_cons m.roles i e rest
      have hol' : openLen i (pushRange i asc) = e - i := by
        rw [hpush]
        show (if i = i then e - i else 0) = e - i
        rw [if_pos rfl]
      have hcl1 : closedRuns i 1 (pushRange i asc) = rest := by
        rw [hpush]
        unfold closedRuns
        rw [if_pos ⟨rfl, rfl⟩]
        rfl
      have hcl0 : closedRuns i 0 (pushRange i asc) = i :: e :: rest := by
        rw [hpush]
        unfold closedRuns
        rw [if_neg (fun hc => absurd hc.1 (by decide))]
      have hk2 : scoreVal.prevK (dpTable m0 candidate candidateLower (i + 1) j 1) = 0 ∨
          scoreVal.prevK (dpTable m0 candidate candidateLower (i + 1) j 1) = 1 := by omega
      by_cases hcond : scoreVal.prevK (dpTable m0 candidate candidateLower (i + 1) j 1) = 0 ∧
          len + 1 < 3 ∧ m.roles.getD i RNone = RTail
      · rw [if_pos hcond]
        have hrun : shortTailRuns m.roles (i :: e :: rest) = counter + 1 := by
          rw [hS', if_pos ⟨by rw [← hlen1]; exact hcond.2.1, hcond.2.2⟩, hcnt]
          omega
        have hnext := ih (j - 1) _ (pushRange i asc) out (counter + 1) (len + 1) (by omega)
          (by omega) hp hr hshape' (by rw [hcond.1, hcl0, hrun])
          (fun h1 => by rw [hcond.1] at h1; exact absurd h1 (by decide)) h
        refine ⟨by have := hnext.1; omega, fun h1 => ?_⟩
        by_cases hgt : counter + 1 > 1
        · rw [if_pos hgt]
          have hd : 1 < shortTailRuns m.roles out := by have := hnext.1; omega
          rw [decide_eq_true hd]
        · rw [if_neg hgt]
          exact hnext.2 (by omega)
      · rw [if_neg hcond]
        have hnext := ih (j - 1) _ (pushRange i asc) out counter (len + 1) (by omega)
          (by omega) hp hr hshape'
          (by
            rcases hk2 with h0 | h1
            · rw [h0, hcl0, hS', hcnt]
              have hn : ¬ (e - i < 3 ∧ m.roles.getD i RNone = RTail) := by
                rintro ⟨ha, hb⟩
                exact hcond ⟨h0, by rw [hlen1]; exact ha, hb⟩
              rw [if_neg hn]
              omega
            · rw [h1, hcl1, hcnt])
          (fun _ => by rw [hol', hlen1]) h
        exact hnext

/-! ### Calls that leave the candidate matched -/

/-- A call of `ScoreChunks` that leaves `lastCandidateMatched` set, on a non-empty
pattern, passed the prefilter and was not flagged by `poorMatch`; the matcher is
left as `computeScore` left it. -/
theorem ScoreChunks_matched (rr : List Nat → List RuneRole) (m : Matcher)
    (chunks : List (List Nat)) (h : m.pattern.length ≠ 0) (m' : Matcher) (s : ℚ)
    (hs : m.ScoreChunks rr chunks = some (m', s)) (hm : m'.lastCandidateMatched = true) :
    matchLoop (toLower (candidateOf chunks)) m.patternLower = [] ∧
      ((m.prepared rr (candidateOf chunks)).computeScore (candidateOf chunks)
        (toLower (candidateOf chunks))).1.poorMatch = some false ∧
      m' = { ((m.prepared rr (candidateOf chunks)).computeScore (candidateOf chunks)
        (toLower (candidateOf chunks))).1 with lastCandidateMatched := true } := by
  by_cases hl : matchLoop (toLower (candidateOf chunks)) m.patternLower = []
  · rw [ScoreChunks_match rr m chunks h hl] at hs
    by_cases hgt : ((m.prepared rr (candidateOf chunks)).computeScore (candidateOf chunks)
        (toLower (candidateOf chunks))).2 > minScore / 2
    · rw [if_pos hgt] at hs
      cases hpm : ((m.prepared rr (candidateOf chunks)).computeScore (candidateOf chunks)
        (toLower (candidateOf chunks))).1.poorMatch with
      | none => rw [hpm] at hs; cases hs
      | some b =>
        rw [hpm] at hs
        cases b with
        | true =>
          simp only [Option.some.injEq, Prod.mk.injEq] at hs
          rw [← hs.1] at hm
          cases hm
        | false =>
          dsimp only at hs
          split_ifs at hs <;>
          · simp only [Option.some.injEq, Prod.mk.injEq] at hs
            exact ⟨hl, rfl, hs.1.symm⟩
    · rw [if_neg hgt] at hs
      simp only [Option.some.injEq, Prod.mk.injEq] at hs
      rw [← hs.1] at hm
      cases hm
  · rw [ScoreChunks_nomatch rr m chunks h hl] at hs
    simp only [Option.some.injEq, Prod.mk.injEq] at hs
    rw [← hs.1] at hm
    cases hm

/-- A call that leaves the candidate matched passed the prefilter, found an
alignment value above the threshold and was not flagged by `poorMatch`. -/
theorem matchedAfter_true (rr : List Nat → List RuneRole) (P : List Nat)
    (hist : List (List (List Nat))) (chunks : List (List Nat)) (hne : P.take 63 ≠ [])
    (h : matchedAfter rr P hist chunks = some true) :
    (toLower (P.take 63)).Sublist (toLower (candidateOf chunks)) ∧
      minScore / 2 < rawScore rr P chunks ∧ poorFlag rr P chunks = some false := by
  obtain ⟨m, hm, hc⟩ := runCalls_some rr (NewMatcher rr P) (NewMatcher_pattern_length_le rr P)
    hist (NewMatcher rr P) (compiledAs_refl _)
  unfold matchedAfter at h
  rw [hm] at h
  have h' : (m.ScoreChunks rr chunks).map (fun r => r.1.lastCandidateMatched) = some true := h
  cases hsc : m.ScoreChunks rr chunks with
  | none => rw [hsc] at h'; cases h'
  | some r =>
    rw [hsc] at h'
    have hflag : r.1.lastCandidateMatched = true := Option.some.inj h'
    have hpl : m.pattern.length ≠ 0 := by
      rw [hc.1]
      exact pattern_length_ne_zero rr P hne
    obtain ⟨h1, h2, _⟩ := ScoreChunks_matched rr m chunks hpl r.1 r.2 hsc hflag
    have hgt := ScoreChunks_matched_gt rr m chunks hpl r.1 r.2 hsc hflag
    refine ⟨?_, ?_, ?_⟩
    · rw [hc.2.1, NewMatcher_patternLower, matchLoop_eq_nil_iff] at h1
      exact h1
    · rw [rawScore_eq, ← computeScore_snd_eq rr m (NewMatcher rr P) (candidateOf chunks) hc]
      exact hgt
    · rw [poorFlag_eq, ← h2]
      exact (poorMatch_congr
        ((m.prepared rr (candidateOf chunks)).computeScore (candidateOf chunks)
          (toLower (candidateOf chunks))).1
        ((NewMatcher rr P).scored rr (candidateOf chunks)) hc.1 rfl rfl
        (observe_match_aux rr m (NewMatcher rr P) (candidateOf chunks) hc
          ((m.prepared rr (candidateOf chunks)).computeScore (candidateOf chunks)
            (toLower (candidateOf chunks))).1.lastCandidateMatched)).symm

theorem matchedAfter_of (rr : List Nat → List RuneRole) (P : List Nat)
    (hist : List (List (List Nat))) (chunks : List (List Nat)) (hne : P.take 63 ≠ [])
    (h : (toLower (P.take 63)).Sublist (toLower (candidateOf chunks)))
    (hr : minScore / 2 < rawScore rr P chunks) (hp : poorFlag rr P chunks = some false) :
    matchedAfter rr P hist chunks = some true := by
  obtain ⟨m, hm, hc⟩ := runCalls_some rr (NewMatcher rr P) (NewMatcher_pattern_length_le rr P)
    hist (NewMatcher rr P) (compiledAs_refl _)
  have hpl : m.pattern.length ≠ 0 := by
    rw [hc.1]
    exact pattern_length_ne_zero rr P hne
  have hl : matchLoop (toLower (candidateOf chunks)) m.patternLower = [] := by
    rw [hc.2.1, NewMatcher_patternLower, matchLoop_eq_nil_iff]
    exact h
  have hgt : ((m.prepared rr (candidateOf chunks)).computeScore (candidateOf chunks)
      (toLower (candidateOf chunks))).2 > minScore / 2 := by
    rw [computeScore_snd_eq rr m (NewMatcher rr P) (candidateOf chunks) hc, ← rawScore_eq]
    exact hr
  have hpm : ((m.prepared rr (candidateOf chunks)).computeScore (candidateOf chunks)
      (toLower (candidateOf chunks))).1.poorMatch = some false := by
    rw [← hp, poorFlag_eq]
    exact poorMatch_congr
      ((m.prepared rr (candidateOf chunks)).computeScore (candidateOf chunks)
        (toLower (candidateOf chunks))).1
      ((NewMatcher rr P).scored rr (candidateOf chunks)) hc.1 rfl rfl
      (observe_match_aux rr m (NewMatcher rr P) (candidateOf chunks) hc
        ((m.prepared rr (candidateOf chunks)).computeScore (candidateOf chunks)
          (toLower (candidateOf chunks))).1.lastCandidateMatched)
  unfold matchedAfter
  rw [hm]
  show (m.ScoreChunks rr chunks).map (fun r => r.1.lastCandidateMatched) = some true
  rw [ScoreChunks_match rr m chunks hpl hl, if_pos hgt, hpm]
  dsimp only
  split_ifs <;> rfl

/-- After a call whose alignment value is above the failure threshold,
`MatchedRanges` returns the result of the walk from the better final state. -/
theorem scored_MatchedRanges_walk (rr : List Nat → List RuneRole) (m0 : Matcher)
    (candidate : List Nat) (hne : m0.pattern.length ≠ 0)
    (h : minScore / 2 < scoreVal.val ((m0.scored rr candidate).scores candidate.length
      m0.pattern.length ((m0.scored rr candidate).bestK candidate.length m0.pattern.length))) :
    (m0.scored rr candidate).MatchedRanges =
      rangesWalk (m0.scored rr candidate) candidate.length (m0.pattern.length : Int)
        ((m0.scored rr candidate).bestK candidate.length m0.pattern.length) [] := by
  unfold Matcher.MatchedRanges
  have e1 : (m0.scored rr candidate).pattern = m0.pattern := rfl
  have e2 : (m0.scored rr candidate).lastCandidateMatched = true := rfl
  have e3 : (m0.scored rr candidate).lastCandidateLen = candidate.length := rfl
  rw [e1, e2, e3]
  rw [if_neg (by simp [hne])]
  dsimp only
  have hg : ¬ (scoreVal.val ((m0.scored rr candidate).scores candidate.length
      m0.pattern.length 0) < minScore / 2 ∧
      scoreVal.val ((m0.scored rr candidate).scores candidate.length
      m0.pattern.length 1) < minScore / 2) := by
    intro hg
    unfold Matcher.bestK at h
    split_ifs at h <;> omega
  rw [if_neg hg, matchedRangesLoop_reverse]
  rfl

theorem backtrackedRanges_eq (rr : List Nat → List RuneRole) (P : List Nat)
    (chunks : List (List Nat)) :
    backtrackedRanges rr P chunks =
      ((NewMatcher rr P).scored rr (candidateOf chunks)).MatchedRanges :=
  MatchedRanges_congr _ _ rfl rfl rfl
    (observe_match_aux rr (NewMatcher rr P) (NewMatcher rr P) (candidateOf chunks)
      (compiledAs_refl _) true)

theorem NewMatcher_patternShort_eq (rr : List Nat → List RuneRole) (P : List Nat) :
    (NewMatcher rr P).patternShort = (toLower (P.take 63)).take 3 := by
  have h : (if P.length > MaxPatternSize then P.take MaxPatternSize else P) = P.take 63 :=
    NewMatcher_pattern rr P
  unfold NewMatcher
  dsimp only
  rw [h]
  split_ifs with h3
  · rfl
  · have e : (toLower (P.take 63)).take 3 = toLower (P.take 63) :=
      List.take_of_length_le (by rw [toLower_length]; omega)
    rw [e]

theorem toLower_getD (C : List Nat) (c : Nat) (hc : c < C.length) :
    (toLower C).getD c 0 = (toLower [C.getD c 0]).getD 0 0 := by
  unfold toLower
  rw [List.getD_eq_getElem _ _ (by rw [List.length_map]; exact hc), List.getElem_map,
    List.getD_eq_getElem _ _ hc]
  rfl

theorem toLower_map_getD (C cs : List Nat) (h : ∀ c ∈ cs, c < C.length) :
    toLower (cs.map (fun c => C.getD c 0)) = cs.map (fun c => (toLower C).getD c 0) := by
  induction cs with
  | nil => rfl
  | cons c cs ih =>
    have h1 := toLower_getD C c (h c (List.mem_cons_self _ _))
    have h2 := ih (fun x hx => h x (List.mem_cons_of_mem _ hx))
    unfold toLower at h1 h2 ⊢
    rw [List.map_cons, List.map_cons, List.map_cons, h2, h1]
    rfl

/-! ### Index safety of `computeScore` -/

theorem foldlM_eq_some {α β : Type} (f : β → α → Option β) (g : β → α → β) (l : List α)
    (h : ∀ s, ∀ x ∈ l, f s x = some (g s x)) (s : β) :
    l.foldlM f s = some (l.foldl g s) := by
  induction l generalizing s with
  | nil => rfl
  | cons a l ih =>
    rw [List.foldlM_cons, h s a (List.mem_cons_self _ _)]
    exact ih (fun s x hx => h s x (List.mem_cons_of_mem _ hx)) _

theorem Table.at?_cast (t : Table) (i j k : Nat) (hi : i ≤ 127) (hj : j ≤ 63) (hk : k < 2) :
    t.at? (i : Int) (j : Int) k = some (t i j k) := by
  unfold Table.at? MaxInputSize MaxPatternSize
  rw [if_pos ⟨by omega, by omega, by omega, by omega, hk⟩, Int.toNat_ofNat, Int.toNat_ofNat]

theorem Table.at?_pred (t : Table) (i j k : Nat) (hi1 : 1 ≤ i) (hi : i ≤ 127) (hj : j ≤ 63)
    (hk : k < 2) : t.at? ((i : Int) - 1) (j : Int) k = some (t (i - 1) j k) := by
  unfold Table.at? MaxInputSize MaxPatternSize
  have e : ((i : Int) - 1).toNat = i - 1 := by omega
  rw [if_pos ⟨by omega, by omega, by omega, by omega, hk⟩, e, Int.toNat_ofNat]

theorem Table.at?_pred_pred (t : Table) (i j k : Nat) (hi1 : 1 ≤ i) (hi : i ≤ 127)
    (hj1 : 1 ≤ j) (hj : j ≤ 63) (hk : k < 2) :
    t.at? ((i : Int) - 1) ((j : Int) - 1) k = some (t (i - 1) (j - 1) k) := by
  unfold Table.at? MaxInputSize MaxPatternSize
  have e : ((i : Int) - 1).toNat = i - 1 := by omega
  have e' : ((j : Int) - 1).toNat = j - 1 := by omega
  rw [if_pos ⟨by omega, by omega, by omega, by omega, hk⟩, e, e']

theorem Table.put?_cast (t : Table) (i j k : Nat) (v : scoreVal) (hi : i ≤ 127) (hj : j ≤ 63)
    (hk : k < 2) : t.put? (i : Int) (j : Int) k v = some (t.set i j k v) := by
  unfold Table.put? MaxInputSize MaxPatternSize
  rw [if_pos ⟨by omega, by omega, by omega, by omega, hk⟩, Int.toNat_ofNat, Int.toNat_ofNat]

theorem elemAt?_cast {α : Type} (l : List α) (d : α) (i : Nat) (h : i < l.length) :
    elemAt? l (i : Int) = some (l.getD i d) := by
  unfold elemAt?
  rw [if_pos ⟨by omega, by omega⟩, Int.toNat_ofNat, List.getD_eq_getElem?_getD,
    List.get?_eq_getElem?, List.getElem?_eq_getElem h]
  rfl

theorem elemAt?_pred {α : Type} (l : List α) (d : α) (i : Nat) (h1 : 1 ≤ i)
    (h : i ≤ l.length) : elemAt? l ((i : Int) - 1) = some (l.getD (i - 1) d) := by
  have e : ((i : Int) - 1) = ((i - 1 : Nat) : Int) := by omega
  rw [e]
  exact elemAt?_cast l d (i - 1) (by omega)

theorem sliceFrom?_pred {α : Type} (l : List α) (i : Nat) (h1 : 1 ≤ i) (h : i ≤ l.length) :
    sliceFrom? l ((i : Int) - 1) = some (l.drop (i - 1)) := by
  unfold sliceFrom?
  have e : ((i : Int) - 1).toNat = i - 1 := by omega
  rw [if_pos ⟨by omega, by omega⟩, e]

theorem matchStepChecked_eq (lastSegStart i j : Nat) (role : RuneRole) (charScore : Int)
    (scores : Table) (k : Nat) (hi1 : 1 ≤ i) (hi : i ≤ 127) (hj1 : 1 ≤ j) (hj : j ≤ 63)
    (hk : k < 2) :
    matchStepChecked lastSegStart i j role charScore scores k =
      some (matchStep lastSegStart i j role charScore scores k) := by
  unfold matchStepChecked matchStep
  rw [Table.at?_pred_pred scores i j k hi1 hi hj1 hj hk, Option.some_bind,
    Table.at?_cast scores i j 1 hi hj (by omega), Option.some_bind]
  dsimp only
  split_ifs <;> first | rfl | exact Table.put?_cast scores i j 1 _ hi hj (by omega)

theorem headOnTailChecked_eq (m : Matcher) (candidateLower : List Nat) (i j : Nat)
    (role pRole : RuneRole) (hi1 : 1 ≤ i) (hi : i ≤ candidateLower.length) :
    headOnTailChecked m candidateLower i j role pRole =
      some (decide (role = RTail ∧ pRole = RHead ∧
        (j > 1 ∨ ¬ (m.patternShort.isPrefixOf (candidateLower.drop (i - 1)) = true)))) := by
  unfold headOnTailChecked
  by_cases h1 : role = RTail ∧ pRole = RHead
  · rw [if_pos h1]
    by_cases h2 : j > 1
    · rw [if_pos h2, decide_eq_true ⟨h1.1, h1.2, Or.inl h2⟩]
    · rw [if_neg h2, sliceFrom?_pred candidateLower i hi1 hi, Option.map_some']
      congr 1
      cases hb : m.patternShort.isPrefixOf (List.drop (i - 1) candidateLower)
      · exact (decide_eq_true ⟨h1.1, h1.2, Or.inr (by simp)⟩).symm
      · refine (decide_eq_false ?_).symm
        rintro ⟨_, _, h3 | h3⟩
        · exact h2 h3
        · exact h3 rfl
  · rw [if_neg h1]
    refine congrArg some (decide_eq_false ?_).symm
    rintro ⟨ha, hb, _⟩
    exact h1 ⟨ha, hb⟩

theorem cellStepChecked_eq (m : Matcher) (candidate candidateLower : List Nat)
    (lastSegStart i : Nat) (role : RuneRole) (segmentsLeft : Nat) (skipPenalty : Int)
    (scores : Table) (j : Nat) (hi1 : 1 ≤ i) (hi : i ≤ 127) (hic : i ≤ candidate.length)
    (hcl : candidateLower.length = candidate.length) (hj : j ≤ m.pattern.length)
    (hp : m.pattern.length ≤ 63) (hpl : m.patternLower.length = m.pattern.length)
    (hpr : m.patternRoles.length = m.pattern.length) :
    cellStepChecked m candidate candidateLower lastSegStart i role segmentsLeft skipPenalty
        scores j =
      some (cellStep m candidate candidateLower lastSegStart i role segmentsLeft skipPenalty
        scores j) := by
  have hj63 : j ≤ 63 := by omega
  have hks : ∀ a b : Int, (if a < b then 1 else 0) < 2 := by
    intro a b
    split_ifs <;> omega
  unfold cellStepChecked cellStep
  rw [Table.put?_cast scores i j 1 _ hi hj63 (by omega), Option.some_bind,
    Table.at?_pred _ i j 0 hi1 hi hj63 (by omega), Option.some_bind,
    Table.at?_pred _ i j 1 hi1 hi hj63 (by omega), Option.some_bind,
    Table.at?_pred _ i j _ hi1 hi hj63 (hks _ _), Option.some_bind,
    Table.put?_cast _ i j 0 _ hi hj63 (by omega), Option.some_bind]
  dsimp only
  by_cases hj0 : j = 0
  · rw [if_pos hj0, if_pos (Or.inl hj0)]
  · rw [if_neg hj0, elemAt?_pred candidateLower 0 i hi1 (by omega), Option.some_bind,
      elemAt?_pred m.patternLower 0 j (by omega) (by omega), Option.some_bind]
    by_cases hne : candidateLower.getD (i - 1) 0 ≠ m.patternLower.getD (j - 1) 0
    · rw [if_pos hne, if_pos (Or.inr hne)]
    · have hor : ¬ (j = 0 ∨ candidateLower.getD (i - 1) 0 ≠ m.patternLower.getD (j - 1) 0) := by
        rintro (h | h)
        · exact hj0 h
        · exact hne h
      rw [if_neg hne, if_neg hor, elemAt?_pred m.patternRoles RNone j (by omega) (by omega),
        Option.some_bind, headOnTailChecked_eq m candidateLower i j role _ hi1 (by omega),
        Option.some_bind]
      by_cases hrej : role = RTail ∧ m.patternRoles.getD (j - 1) RNone = RHead ∧
          (j > 1 ∨ ¬ (m.patternShort.isPrefixOf (candidateLower.drop (i - 1)) = true))
      · rw [if_pos (decide_eq_true hrej), if_pos hrej]
      · have hd : ¬ (decide (role = RTail ∧ m.patternRoles.getD (j - 1) RNone = RHead ∧
            (j > 1 ∨ ¬ (m.patternShort.isPrefixOf (candidateLower.drop (i - 1)) = true))) =
            true) := by
          rw [decide_eq_true_eq]
          exact hrej
        rw [if_neg hd, if_neg hrej, elemAt?_pred candidate 0 i hi1 hic, Option.some_bind,
          elemAt?_pred m.pattern 0 j (by omega) hj, Option.some_bind]
        exact foldlM_eq_some _ _ _
          (fun s k hk => matchStepChecked_eq lastSegStart i j role _ s k hi1 hi (by omega) hj63
            (List.mem_range.1 hk)) _

theorem rowStepChecked_eq (m : Matcher) (candidate candidateLower : List Nat)
    (lastSegStart : Nat) (st : Table × Nat × Nat) (i : Nat) (hi1 : 1 ≤ i)
    (hic : i ≤ candidate.length) (hc : candidate.length ≤ 127)
    (hcl : candidateLower.length = candidate.length) (hr : m.roles.length = candidate.length)
    (hp : m.pattern.length ≤ 63) (hpl : m.patternLower.length = m.pattern.length)
    (hpr : m.patternRoles.length = m.pattern.length) :
    rowStepChecked m candidate candidateLower lastSegStart st i =
      some (rowStep m candidate candidateLower lastSegStart st i) := by
  unfold rowStepChecked rowStep
  rw [elemAt?_pred m.roles RNone i hi1 (by omega), Option.some_bind]
  dsimp only
  rw [foldlM_eq_some _ _ _
    (fun s j hj => cellStepChecked_eq m candidate candidateLower lastSegStart i _ _ _ s j hi1
      (by omega) hic hcl (by have := List.mem_range.1 hj; omega) hp hpl hpr) _,
    Option.map_some']

theorem segStepChecked_eq (roles : List RuneRole) (st : Nat × Nat) (i : Nat)
    (hi : i < roles.length) : segStepChecked roles st i = some (segStep roles st i) := by
  unfold segStepChecked segStep
  rw [elemAt?_cast roles RNone i hi, Option.map_some']

theorem initRowChecked_eq (pattLen : Nat) (scores : Table) (hp : pattLen ≤ 63) :
    initRowChecked pattLen scores = some (initRow pattLen scores) := by
  unfold initRowChecked initRow
  have e0 : (0 : Int) = ((0 : Nat) : Int) := rfl
  rw [foldlM_eq_some _
    (fun t j => (t.set 0 j 0 (minScore * 2)).set 0 j 1 (minScore * 2)) _ (fun s j hj => by
      have hj' := List.mem_range.1 hj
      rw [e0, Table.put?_cast s 0 j 0 _ (by omega) (by omega) (by omega), Option.some_bind,
        Table.put?_cast _ 0 j 1 _ (by omega) (by omega) (by omega)]) _,
    Option.some_bind]
  exact Table.put?_cast _ 0 0 0 _ (by omega) (by omega) (by omega)

theorem bestKChecked_eq (m : Matcher) (i j : Nat) (hi : i ≤ 127) (hj : j ≤ 63) :
    m.bestKChecked (i : Int) (j : Int) = some (m.bestK i j) := by
  unfold Matcher.bestKChecked Matcher.bestK
  rw [Table.at?_cast _ i j 0 hi hj (by omega), Option.some_bind,
    Table.at?_cast _ i j 1 hi hj (by omega), Option.map_some']

/-- With a candidate of at most 127 bytes, a pattern of at most 63 bytes and
roles and lowercased forms as long as the byte sequences they belong to,
`computeScore` keeps every index in range: the checked function returns what
`computeScore` returns. -/
theorem computeScoreChecked_eq (m : Matcher) (candidate candidateLower : List Nat)
    (hc : candidate.length ≤ 127) (hcl : candidateLower.length = candidate.length)
    (hr : m.roles.length = candidate.length) (hp : m.pattern.length ≤ 63)
    (hpl : m.patternLower.length = m.pattern.length)
    (hpr : m.patternRoles.length = m.pattern.length) :
    m.computeScoreChecked candidate candidateLower =
      some (m.computeScore candidate candidateLower) := by
  unfold Matcher.computeScoreChecked Matcher.computeScore
  rw [initRowChecked_eq _ _ hp, Option.some_bind,
    foldlM_eq_some _ _ _ (fun s i hi => segStepChecked_eq m.roles s i
      (by have := List.mem_range.1 hi; omega)) _, Option.some_bind,
    foldlM_eq_some _ _ _ (fun s i hi => by
      obtain ⟨a, ha, rfl⟩ := List.mem_map.1 hi
      have := List.mem_range.1 ha
      exact rowStepChecked_eq m candidate candidateLower _ s (a + 1) (by omega) (by omega) hc
        hcl hr hp hpl hpr) _, Option.some_bind,
    bestKChecked_eq _ _ _ hc hp, Option.some_bind,
    Table.at?_cast _ _ _ _ hc hp (bestK_lt _ _ _), Option.map_some']

/-! ### Index safety of the two walks -/

/-- Started in a real state, the checked walk of `poorMatch` returns what the walk
returns; the column is not negative where it stops, and it is `0` if it stops in
row `0`. -/
theorem poorMatchLoopChecked_eq (m m0 : Matcher) (candidate candidateLower : List Nat)
    (I J : Nat)
    (hT : ∀ i j k, i ≤ I → j ≤ J → k < 2 →
      m.scores i j k = dpTable m0 candidate candidateLower i j k)
    (hI : I ≤ 127) (hJ : J ≤ 63) (hr : I ≤ m.roles.length) :
    ∀ (i j k counter len : Nat), i ≤ I → j ≤ J → k < 2 →
      isReal (dpTable m0 candidate candidateLower) i j k →
      ∃ (b : Bool) (i' : Nat) (j' : Int),
        poorMatchLoopChecked m i (j : Int) k counter len = some (b, i', j') ∧
        poorMatchLoop m i (j : Int) k counter len = some b ∧ 0 ≤ j' ∧ (i' = 0 → j' = 0) := by
  intro i
  induction i with
  | zero =>
    intro j k counter len _ hj _ hreal
    obtain ⟨hj0, _⟩ := isReal_row_zero m0 candidate candidateLower j k (by omega) hreal
    subst hj0
    exact ⟨false, 0, 0, rfl, rfl, le_rfl, fun _ => rfl⟩
  | succ i ih =>
    intro j k counter len hi hj hk hreal
    rw [poorMatchLoopChecked, poorMatchLoop, if_neg (show ¬ ((j : Int) < 0) by omega),
      Table.at?_cast m.scores (i + 1) j k (by omega) (by omega) hk, Option.some_bind,
      Int.toNat_ofNat, hT _ _ _ hi hj hk]
    dsimp only
    have hp := prevK_lt (dpTable m0 candidate candidateLower (i + 1) j k)
    have hk' : k = 0 ∨ k = 1 := by omega
    rcases hk' with rfl | rfl
    · have hreal' := isReal_pred_skip m0 candidate candidateLower i j (by omega) hreal
      rw [if_neg (by omega), if_neg (by omega)]
      exact ih j _ counter 0 (by omega) hj hp hreal'
    · obtain ⟨hj1, hreal'⟩ := isReal_pred_match m0 candidate candidateLower i j (by omega) hreal
      have hcast : (j : Int) - 1 = ((j - 1 : Nat) : Int) := by omega
      rw [if_pos rfl, if_pos rfl, hcast]
      by_cases hc1 : scoreVal.prevK (dpTable m0 candidate candidateLower (i + 1) j 1) = 0 ∧
          len + 1 < 3
      · rw [if_pos hc1, elemAt?_pred m.roles RNone (i + 1) (by omega) (by omega),
          Option.map_some', Option.some_bind, Nat.add_sub_cancel]
        by_cases hc2 : m.roles.getD i RNone = RTail
        · have hc4 : scoreVal.prevK (dpTable m0 candidate candidateLower (i + 1) j 1) = 0 ∧
              len + 1 < 3 ∧ m.roles.getD i RNone = RTail := ⟨hc1.1, hc1.2, hc2⟩
          rw [if_pos (decide_eq_true hc2), if_pos hc4]
          by_cases hc3 : counter + 1 > 1
          · rw [if_pos hc3, if_pos hc3]
            exact ⟨true, i + 1, j, rfl, rfl, by omega, fun h => by omega⟩
          · rw [if_neg hc3, if_neg hc3]
            exact ih (j - 1) _ _ _ (by omega) (by omega) hp hreal'
        · have hd : ¬ (decide (m.roles.getD i RNone = RTail) = true) := by
            rw [decide_eq_true_eq]
            exact hc2
          have hc4 : ¬ (scoreVal.prevK (dpTable m0 candidate candidateLower (i + 1) j 1) = 0 ∧
              len + 1 < 3 ∧ m.roles.getD i RNone = RTail) := fun h => hc2 h.2.2
          rw [if_neg hd, if_neg hc4]
          exact ih (j - 1) _ _ _ (by omega) (by omega) hp hreal'
      · have hc4 : ¬ (scoreVal.prevK (dpTable m0 candidate candidateLower (i + 1) j 1) = 0 ∧
            len + 1 < 3 ∧ m.roles.getD i RNone = RTail) := fun h => hc1 ⟨h.1, h.2.1⟩
        have hft : ¬ (false = true) := by decide
        rw [if_neg hc1, Option.some_bind, if_neg hft, if_neg hc4]
        exact ih (j - 1) _ _ _ (by omega) (by omega) hp hreal'

/-- Started in a real state, the checked walk of `MatchedRanges` returns what the
walk returns, and it stops in column `0`. -/
theorem matchedRangesLoopChecked_eq (m m0 : Matcher) (candidate candidateLower : List Nat)
    (I J : Nat)
    (hT : ∀ i j k, i ≤ I → j ≤ J → k < 2 →
      m.scores i j k = dpTable m0 candidate candidateLower i j k)
    (hI : I ≤ 127) (hJ : J ≤ 63) :
    ∀ (i j k : Nat) (ret : List Nat), i ≤ I → j ≤ J → k < 2 →
      isReal (dpTable m0 candidate candidateLower) i j k →
      ∃ out, matchedRangesLoopChecked m i (j : Int) k ret = some (out, 0) ∧
        matchedRangesLoop m i (j : Int) k ret = some out := by
  intro i
  induction i with
  | zero =>
    intro j k ret _ hj _ hreal
    obtain ⟨hj0, _⟩ := isReal_row_zero m0 candidate candidateLower j k (by omega) hreal
    subst hj0
    exact ⟨ret, rfl, rfl⟩
  | succ i ih =>
    intro j k ret hi hj hk hreal
    rw [matchedRangesLoopChecked, matchedRangesLoop, if_neg (show ¬ ((j : Int) < 0) by omega),
      Table.at?_cast m.scores (i + 1) j k (by omega) (by omega) hk, Option.some_bind,
      Int.toNat_ofNat, hT _ _ _ hi hj hk]
    dsimp only
    have hp := prevK_lt (dpTable m0 candidate candidateLower (i + 1) j k)
    have hk' : k = 0 ∨ k = 1 := by omega
    rcases hk' with rfl | rfl
    · have hreal' := isReal_pred_skip m0 candidate candidateLower i j (by omega) hreal
      rw [if_neg (by omega), if_neg (by omega)]
      exact ih j _ ret (by omega) hj hp hreal'
    · obtain ⟨hj1, hreal'⟩ := isReal_pred_match m0 candidate candidateLower i j (by omega) hreal
      have hcast : (j : Int) - 1 = ((j - 1 : Nat) : Int) := by omega
      rw [if_pos rfl, if_pos rfl, hcast]
      exact ih (j - 1) _ _ (by omega) (by omega) hp hreal'

/-! ### Index safety of a scoring call and of `MatchedRanges` -/

theorem runeRolesStep_length (isLast : Bool) (acc : List RuneRole × Nat × Nat) (b : Nat) :
    (runeRolesStep isLast acc b).1.length = acc.1.length + 1 := by
  obtain ⟨out, prev, prev2⟩ := acc
  unfold runeRolesStep
  dsimp only
  rw [List.length_cons]
  congr 1
  match out with
  | [] => rfl
  | [_] => rfl
  | r1 :: r2 :: rest =>
    dsimp only
    split_ifs <;> rfl

theorem runeRolesLoop_length (bs : List Nat) :
    ∀ acc : List RuneRole × Nat × Nat,
      (runeRolesLoop bs acc).length = acc.1.length + bs.length := by
  induction bs with
  | nil =>
    intro acc
    rw [runeRolesLoop, List.length_reverse]
    rfl
  | cons b rest ih =>
    intro acc
    rw [runeRolesLoop, ih, runeRolesStep_length, List.length_cons]
    omega

/-- The modelled role classifier is length-preserving. -/
theorem RuneRoles_length (candidate : List Nat) :
    (RuneRoles candidate).length = candidate.length := by
  unfold RuneRoles
  rw [runeRolesLoop_length]
  exact Nat.zero_add _

/-- On a table that holds the recurrence and a real final state, the checked
`poorMatch` returns what `poorMatch` returns, and its walk stops with a column
that is not negative, and that is `0` in row `0`. -/
theorem poorMatchChecked_eq (m m0 : Matcher) (candidate candidateLower : List Nat)
    (hT : ∀ i j k, i ≤ m.lastCandidateLen → j ≤ m.pattern.length → k < 2 →
      m.scores i j k = dpTable m0 candidate candidateLower i j k)
    (hI : m.lastCandidateLen ≤ 127) (hJ : m.pattern.length ≤ 63)
    (hr : m.lastCandidateLen ≤ m.roles.length)
    (hreal : isReal (dpTable m0 candidate candidateLower) m.lastCandidateLen m.pattern.length
      (m.bestK m.lastCandidateLen m.pattern.length)) :
    (∃ b0, m.poorMatchChecked = some b0 ∧ m.poorMatch = some b0) ∧
      ∃ (b : Bool) (i' : Nat) (j' : Int),
        poorMatchLoopChecked m m.lastCandidateLen (m.pattern.length : Int)
          (m.bestK m.lastCandidateLen m.pattern.length) 0 0 = some (b, i', j') ∧
        0 ≤ j' ∧ (i' = 0 → j' = 0) := by
  obtain ⟨b, i', j', h1, h2, h3, h4⟩ := poorMatchLoopChecked_eq m m0 candidate candidateLower
    m.lastCandidateLen m.pattern.length hT hI hJ hr m.lastCandidateLen m.pattern.length
    (m.bestK m.lastCandidateLen m.pattern.length) 0 0 le_rfl le_rfl (bestK_lt _ _ _) hreal
  refine ⟨?_, b, i', j', h1, h3, h4⟩
  unfold Matcher.poorMatchChecked Matcher.poorMatch
  split_ifs
  · exact ⟨false, rfl, rfl⟩
  · rw [bestKChecked_eq m _ _ hI hJ, Option.some_bind, h1, h2]
    exact ⟨b, rfl, rfl⟩

/-- On a table that holds the recurrence and a real final state, the checked
`MatchedRanges` returns what `MatchedRanges` returns, the sentinel guard is not
taken, and the walk stops in column `0`. -/
theorem MatchedRangesChecked_eq (m m0 : Matcher) (candidate candidateLower : List Nat)
    (hT : ∀ i j k, i ≤ m.lastCandidateLen → j ≤ m.pattern.length → k < 2 →
      m.scores i j k = dpTable m0 candidate candidateLower i j k)
    (hI : m.lastCandidateLen ≤ 127) (hJ : m.pattern.length ≤ 63)
    (hreal : isReal (dpTable m0 candidate candidateLower) m.lastCandidateLen m.pattern.length
      (m.bestK m.lastCandidateLen m.pattern.length)) :
    (∃ rs, m.MatchedRangesChecked = some rs ∧ m.MatchedRanges = some rs) ∧
      m.sentinelGuardChecked = some false ∧
      ∃ out, matchedRangesLoopChecked m m.lastCandidateLen (m.pattern.length : Int)
        (m.bestK m.lastCandidateLen m.pattern.length) [] = some (out, 0) := by
  obtain ⟨out, h1, h2⟩ := matchedRangesLoopChecked_eq m m0 candidate candidateLower
    m.lastCandidateLen m.pattern.length hT hI hJ m.lastCandidateLen m.pattern.length
    (m.bestK m.lastCandidateLen m.pattern.length) [] le_rfl le_rfl (bestK_lt _ _ _) hreal
  have hg : ¬ (scoreVal.val (m.scores m.lastCandidateLen m.pattern.length 0) < minScore / 2 ∧
      scoreVal.val (m.scores m.lastCandidateLen m.pattern.length 1) < minScore / 2) := by
    intro hg
    unfold isReal at hreal
    rw [← hT _ _ _ le_rfl le_rfl (bestK_lt _ _ _)] at hreal
    unfold Matcher.bestK at hreal
    rw [minScore_half] at hg
    split_ifs at hreal <;> omega
  have hguard : m.sentinelGuardChecked = some false := by
    unfold Matcher.sentinelGuardChecked
    rw [Table.at?_cast _ _ _ 0 hI hJ (by omega), Option.some_bind,
      Table.at?_cast _ _ _ 1 hI hJ (by omega), Option.map_some']
    by_cases h0 : scoreVal.val (m.scores m.lastCandidateLen m.pattern.length 0) < minScore / 2
    · rw [if_pos h0, decide_eq_false (fun h => hg ⟨h0, h⟩)]
    · rw [if_neg h0]
  refine ⟨?_, hguard, out, h1⟩
  unfold Matcher.MatchedRangesChecked Matcher.MatchedRanges
  dsimp only
  split_ifs with ha
  · exact ⟨[], rfl, rfl⟩
  · have hft : ¬ (false = true) := by decide
    rw [hguard, Option.some_bind, if_neg hft, bestKChecked_eq m _ _ hI hJ, Option.some_bind,
      h1, h2]
    exact ⟨out.reverse, rfl, rfl⟩

theorem MatchedRangesChecked_trivial (m : Matcher)
    (h : m.pattern.length = 0 ∨ m.lastCandidateMatched = false) :
    m.MatchedRangesChecked = some [] ∧ m.MatchedRanges = some [] := by
  unfold Matcher.MatchedRangesChecked Matcher.MatchedRanges
  rw [if_pos h, if_pos h]
  exact ⟨rfl, rfl⟩

theorem ScoreChunksChecked_empty (rr : List Nat → List RuneRole) (m : Matcher)
    (chunks : List (List Nat)) (h : m.pattern.length = 0) :
    m.ScoreChunksChecked rr chunks =
      some ({ m with lastCandidateLen := (candidateOf chunks).length }, 1) := by
  unfold Matcher.ScoreChunksChecked
  dsimp only
  rw [if_pos h]
  rfl

theorem ScoreChunksChecked_nomatch (rr : List Nat → List RuneRole) (m : Matcher)
    (chunks : List (List Nat)) (h : m.pattern.length ≠ 0)
    (hm : matchLoop (toLower (candidateOf chunks)) m.patternLower ≠ []) :
    m.ScoreChunksChecked rr chunks =
      some ({ m with lastCandidateLen := (candidateOf chunks).length
                     lastCandidateMatched := false }, 0) := by
  have hl : (matchLoop (toLower (candidateOf chunks)) m.patternLower).length ≠ 0 := by
    rw [Ne, List.length_eq_zero]; exact hm
  unfold Matcher.ScoreChunksChecked Matcher.match_
  dsimp only
  simp only [candidateOf_eq]
  rw [if_neg h]
  simp only [if_pos hl]
  rfl

theorem ScoreChunksChecked_match (rr : List Nat → List RuneRole) (m : Matcher)
    (chunks : List (List Nat)) (h : m.pattern.length ≠ 0)
    (hm : matchLoop (toLower (candidateOf chunks)) m.patternLower = []) :
    m.ScoreChunksChecked rr chunks =
      ((m.prepared rr (candidateOf chunks)).computeScoreChecked (candidateOf chunks)
        (toLower (candidateOf chunks))).bind fun c =>
      if c.2 > minScore / 2 then
        c.1.poorMatchChecked.bind fun poor =>
        if poor = true then some ({ c.1 with lastCandidateMatched := false }, 0)
        else if c.1.pattern.length = (candidateOf chunks).length then
          some ({ c.1 with lastCandidateMatched := true }, 1)
        else
          some ({ c.1 with lastCandidateMatched := true },
            normalizedScore (if c.2 < 0 then 0 else c.2) c.1.scoreScale)
      else some ({ c.1 with lastCandidateMatched := false }, 0) := by
  have hl : ¬ (matchLoop (toLower (candidateOf chunks)) m.patternLower).length ≠ 0 := by
    rw [hm]; simp
  unfold Matcher.ScoreChunksChecked Matcher.match_
  dsimp only
  simp only [candidateOf_eq]
  rw [if_neg h]
  simp only [if_neg hl]
  rfl

/-- The table that `computeScore` leaves holds a real final state when the value
it returns is above the threshold. -/
theorem computeScore_isReal (m : Matcher) (candidate candidateLower : List Nat)
    (hc : candidate.length ≤ 127) (hp : m.pattern.length ≤ 63)
    (h : minScore / 2 < (m.computeScore candidate candidateLower).2) :
    isReal (dpTable m candidate candidateLower) candidate.length m.pattern.length
      ((m.computeScore candidate candidateLower).1.bestK candidate.length m.pattern.length) := by
  rw [computeScore_snd, computeScore_scores m candidate candidateLower _ _ _ le_rfl le_rfl
    (bestK_lt _ _ _)] at h
  exact isReal_of_gt m candidate candidateLower _ _ _ (bestK_lt _ _ _) (by omega) h

/-! ## The claims -/

set_option maxRecDepth 1000000 in
/-- C1, counterexample. The pattern `b` is a subsequence of the candidate `ab`,
and `Score` returns 0: the only alignment starts in the middle of a word and has
the alignment value -7, which is clamped to 0. -/
theorem score_zero_iff_counterexample :
    ([98] : List Nat) ≠ [] ∧ scoreAfter RuneRoles [98] [] [[97, 98]] = some 0 ∧
      (toLower (List.take 63 [98])).Sublist (toLower (List.take 127 [97, 98])) ∧
      rawScore RuneRoles [98] [[97, 98]] = -7 := by
  decide!

/-- C1, as amended. For a non-empty pattern, `Score` returns 0 exactly when the
lowercased pattern (cut to 63 bytes) is not a subsequence of the lowercased
candidate (cut to 127 bytes), or the alignment value is at or below `minScore/2`,
or `poorMatch` flags the alignment, or the alignment value is at most 0 and the
candidate is not as long as the pattern. -/
theorem score_zero_iff (rr : List Nat → List RuneRole) (P C : List Nat)
    (hist : List (List (List Nat))) (hP : P ≠ []) :
    ∃ s, scoreAfter rr P hist [C] = some s ∧
      (s = 0 ↔
        (¬ (toLower (P.take 63)).Sublist (toLower (C.take 127)) ∨
          rawScore rr P [C] ≤ minScore / 2 ∨ poorFlag rr P [C] = some true ∨
          (rawScore rr P [C] ≤ 0 ∧ (P.take 63).length ≠ (C.take 127).length))) := by
  have hne := take_ne_nil P hP
  rw [← candidateOf_single]
  by_cases hsub : (toLower (P.take 63)).Sublist (toLower (candidateOf [C]))
  · by_cases hr : rawScore rr P [C] ≤ minScore / 2
    · exact ⟨0, (after_rejected rr P hist [C] hne hsub hr).1, fun _ => Or.inr (Or.inl hr),
        fun _ => rfl⟩
    · rcases after_accepted rr P hist [C] hne hsub (not_le.1 hr) with
        ⟨hp, h, _⟩ | ⟨hp, h, _⟩
      · exact ⟨0, h, fun _ => Or.inr (Or.inr (Or.inl hp)), fun _ => rfl⟩
      · refine ⟨_, h, ?_⟩
        by_cases hl : (P.take 63).length = (candidateOf [C]).length
        · rw [if_pos hl]
          constructor
          · intro h1; exact absurd h1 one_ne_zero
          · rintro (h1 | h1 | h1 | ⟨_, h1⟩)
            · exact (h1 hsub).elim
            · exact (hr h1).elim
            · rw [hp] at h1; cases h1
            · exact (h1 hl).elim
        · rw [if_neg hl, clamped_score_eq_zero _ _ (scoreScale_pos rr P hne)]
          constructor
          · intro h1; exact Or.inr (Or.inr (Or.inr ⟨h1, hl⟩))
          · rintro (h1 | h1 | h1 | ⟨h1, _⟩)
            · exact (h1 hsub).elim
            · exact (hr h1).elim
            · rw [hp] at h1; cases h1
            · exact h1
  · exact ⟨0, (after_nomatch rr P hist [C] hsub).1, fun _ => Or.inl hsub, fun _ => rfl⟩

/-- C1, witness of the amended claim at the pattern `b` and the candidate `ab`. -/
theorem score_zero_iff_witness :
    ([98] : List Nat) ≠ [] ∧
      ∃ s, scoreAfter RuneRoles [98] [] [[97, 98]] = some s ∧
        (s = 0 ↔
          (¬ (toLower (List.take 63 [98])).Sublist (toLower (List.take 127 [97, 98])) ∨
            rawScore RuneRoles [98] [[97, 98]] ≤ minScore / 2 ∨
            poorFlag RuneRoles [98] [[97, 98]] = some true ∨
            (rawScore RuneRoles [98] [[97, 98]] ≤ 0 ∧
              (List.take 63 [98]).length ≠ (List.take 127 [97, 98]).length))) :=
  ⟨by decide, score_zero_iff RuneRoles [98] [97, 98] [] (by decide)⟩

/-- C2. Every call of `ScoreChunks`, on a matcher for any pattern, after any
earlier calls and for any chunks, returns, and the score it returns lies in the
closed interval from 0 to 1. -/
theorem score_in_unit_interval (rr : List Nat → List RuneRole) (P : List Nat)
    (hist : List (List (List Nat))) (chunks : List (List Nat)) :
    ∃ s, scoreAfter rr P hist chunks = some s ∧ 0 ≤ s ∧ s ≤ 1 := by
  by_cases hne : P.take 63 = []
  · exact ⟨1, (after_empty rr P hist chunks hne).1, zero_le_one, le_rfl⟩
  · by_cases hsub : (toLower (P.take 63)).Sublist (toLower (candidateOf chunks))
    · by_cases hr : rawScore rr P chunks ≤ minScore / 2
      · exact ⟨0, (after_rejected rr P hist chunks hne hsub hr).1, le_rfl, zero_le_one⟩
      · rcases after_accepted rr P hist chunks hne hsub (not_le.1 hr) with
          ⟨_, h, _⟩ | ⟨_, h, _⟩
        · exact ⟨0, h, le_rfl, zero_le_one⟩
        · refine ⟨_, h, ?_⟩
          by_cases hl : (P.take 63).length = (candidateOf chunks).length
          · rw [if_pos hl]; exact ⟨zero_le_one, le_rfl⟩
          · rw [if_neg hl]
            exact clamped_score_bounds (rawScore rr P chunks) (NewMatcher rr P).scoreScale
              (le_of_lt (scoreScale_pos rr P hne))
    · exact ⟨0, (after_nomatch rr P hist chunks hsub).1, le_rfl, zero_le_one⟩

set_option maxRecDepth 1000000 in
/-- C3, counterexample. The pattern `aB` and the candidate `ab` have the same
length and are equal up to case, and `Score` returns 0: the word-start byte `B`
of the pattern meets the tail byte `b` of the candidate. -/
theorem exact_length_score_counterexample :
    ([97, 66] : List Nat) ≠ [] ∧ ([97, 66] : List Nat).length = ([97, 98] : List Nat).length ∧
      (toLower [97, 66]).Sublist (toLower [97, 98]) ∧
      scoreAfter RuneRoles [97, 66] [] [[97, 98]] = some 0 := by
  decide!

/-- C3, as amended. For a non-empty pattern of at most 63 bytes and a candidate
of the same length that equals it up to case, `Score` returns 1 if no byte after
the first has the word-start role in the pattern and the tail role in the
candidate, and `Score` returns 0 if some byte after the first does. -/
theorem exact_length_score (rr : List Nat → List RuneRole) (P C : List Nat)
    (hist : List (List (List Nat))) (hP : P ≠ []) (hlen : P.length ≤ 63)
    (heq : P.length = C.length) (hsub : (toLower P).Sublist (toLower C)) :
    ((∀ t, 1 ≤ t → t < P.length →
        ¬ ((rr C).getD t RNone = RTail ∧ (rr P).getD t RNone = RHead)) →
      scoreAfter rr P hist [C] = some 1) ∧
    ((∃ t, 1 ≤ t ∧ t < P.length ∧
        (rr C).getD t RNone = RTail ∧ (rr P).getD t RNone = RHead) →
      scoreAfter rr P hist [C] = some 0) :=
  ⟨exact_length_aux rr P C hist hP hlen heq hsub,
    exact_length_rejected rr P C hist hP hlen heq hsub⟩

/-- C3, witness of the amended claim at the pattern `ab` and the candidate `aB`:
no byte pairs a word-start pattern role with a tail candidate role, and the score
is 1. -/
theorem exact_length_score_witness :
    ([97, 98] : List Nat) ≠ [] ∧ ([97, 98] : List Nat).length ≤ 63 ∧
      ([97, 98] : List Nat).length = ([97, 66] : List Nat).length ∧
      (toLower [97, 98]).Sublist (toLower [97, 66]) ∧
      (∀ t, 1 ≤ t → t < ([97, 98] : List Nat).length →
        ¬ ((RuneRoles [97, 66]).getD t RNone = RTail ∧
          (RuneRoles [97, 98]).getD t RNone = RHead)) ∧
      scoreAfter RuneRoles [97, 98] [] [[97, 66]] = some 1 :=
  have hr : ∀ t, 1 ≤ t → t < ([97, 98] : List Nat).length →
      ¬ ((RuneRoles [97, 66]).getD t RNone = RTail ∧
        (RuneRoles [97, 98]).getD t RNone = RHead) := by
    intro t h1 h2
    have ht : t = 1 := by simp at h2; omega
    subst ht
    decide
  ⟨by decide, by decide, by decide, by decide, hr,
    (exact_length_score RuneRoles [97, 98] [97, 66] [] (by decide) (by decide) (by decide)
      (by decide)).1 hr⟩

/-- C4. If the lowercased pattern (cut to 63 bytes) is not a subsequence of the
lowercased candidate (cut to 127 bytes), `Score` returns 0 and the `MatchedRanges`
that follows returns an empty result, after any earlier calls on the matcher; so
a positive score implies that the pattern is a case-insensitive subsequence. -/
theorem score_zero_of_not_subsequence (rr : List Nat → List RuneRole) (P C : List Nat)
    (hist : List (List (List Nat)))
    (h : ¬ (toLower (P.take 63)).Sublist (toLower (C.take 127))) :
    scoreAfter rr P hist [C] = some 0 ∧ rangesAfter rr P hist [C] = some [] :=
  after_nomatch rr P hist [C] (by rw [candidateOf_single]; exact h)

/-- C4, witness at the pattern `abc` and the candidate `xyz`, after an earlier
call that matched. -/
theorem score_zero_of_not_subsequence_witness :
    ¬ (toLower (List.take 63 [97, 98, 99])).Sublist (toLower (List.take 127 [120, 121, 122])) ∧
      scoreAfter RuneRoles [97, 98, 99] [[[97, 98, 99]]] [[120, 121, 122]] = some 0 ∧
      rangesAfter RuneRoles [97, 98, 99] [[[97, 98, 99]]] [[120, 121, 122]] = some [] :=
  ⟨by decide,
    score_zero_of_not_subsequence RuneRoles [97, 98, 99] [120, 121, 122] [[[97, 98, 99]]]
      (by decide)⟩

/-- C5. For the empty pattern `ScoreChunks` returns exactly 1 for every list of
chunks, and the `MatchedRanges` that follows returns an empty result, after any
earlier calls on the matcher. -/
theorem empty_pattern_scores_one (rr : List Nat → List RuneRole)
    (hist : List (List (List Nat))) (chunks : List (List Nat)) :
    scoreAfter rr [] hist chunks = some 1 ∧ rangesAfter rr [] hist chunks = some [] :=
  after_empty rr [] hist chunks rfl

/-- C6. Scoring is independent of the history of the matcher: after any sequence
of earlier `ScoreChunks` calls, the score of a candidate and the `MatchedRanges`
that follow are those of a freshly constructed matcher, and both calls return. -/
theorem score_history_independent (rr : List Nat → List RuneRole) (P : List Nat)
    (hist : List (List (List Nat))) (chunks : List (List Nat)) :
    scoreAfter rr P hist chunks = scoreAfter rr P [] chunks ∧
      rangesAfter rr P hist chunks = rangesAfter rr P [] chunks ∧
      ∃ s rs, scoreAfter rr P hist chunks = some s ∧ rangesAfter rr P hist chunks = some rs := by
  obtain ⟨s, rs, h0, h1, h2⟩ := after_eq rr P hist chunks
  obtain ⟨s', rs', h0', h1', h2'⟩ := after_eq rr P [] chunks
  rw [h0] at h0'
  cases h0'
  exact ⟨h1.trans h1'.symm, h2.trans h2'.symm, s, rs, h1, h2⟩

/-- C7. After a `ScoreChunks` call that returned a score above 0, `MatchedRanges`
returns a flat list of even length whose entries are strictly ascending (so every
range is non-empty and no two ranges overlap or touch) and at most the length of
the truncated candidate. -/
theorem matched_ranges_shape (rr : List Nat → List RuneRole) (P : List Nat)
    (hist : List (List (List Nat))) (chunks : List (List Nat)) (s : ℚ)
    (hs : scoreAfter rr P hist chunks = some s) (hpos : 0 < s) :
    ∃ rs, rangesAfter rr P hist chunks = some rs ∧ rs.length % 2 = 0 ∧
      rs.Pairwise (· < ·) ∧ ∀ x ∈ rs, x ≤ (candidateOf chunks).length := by
  have hzero : scoreAfter rr P hist chunks = some 0 → False := by
    intro h0
    rw [h0] at hs
    cases hs
    exact lt_irrefl _ hpos
  by_cases hne : P.take 63 = []
  · exact ⟨[], (after_empty rr P hist chunks hne).2, rfl, List.Pairwise.nil, by simp⟩
  · by_cases hsub : (toLower (P.take 63)).Sublist (toLower (candidateOf chunks))
    · by_cases hr : rawScore rr P chunks ≤ minScore / 2
      · exact (hzero (after_rejected rr P hist chunks hne hsub hr).1).elim
      · rcases after_accepted rr P hist chunks hne hsub (not_le.1 hr) with
          ⟨_, h, _⟩ | ⟨_, _, out, ho, hp, hl, hx⟩
        · exact (hzero h).elim
        · refine ⟨out.reverse, ho, by rw [List.length_reverse]; exact hl, ?_, ?_⟩
          · rw [List.pairwise_reverse]; exact hp
          · intro x hxm
            exact (hx x (List.mem_reverse.1 hxm)).2
    · exact (hzero (after_nomatch rr P hist chunks hsub).1).elim

set_option maxRecDepth 1000000 in
/-- C7, witness at the pattern `fb` and the candidate `foo.bar`, which scores
`7/8` with the ranges `[0,1)` and `[4,5)`. -/
theorem matched_ranges_shape_witness :
    scoreAfter RuneRoles [102, 98] [] [[102, 111, 111, 46, 98, 97, 114]] = some (7 / 8) ∧
      (0 : ℚ) < 7 / 8 ∧
      ∃ rs, rangesAfter RuneRoles [102, 98] [] [[102, 111, 111, 46, 98, 97, 114]] = some rs ∧
        rs.length % 2 = 0 ∧ rs.Pairwise (· < ·) ∧
        ∀ x ∈ rs, x ≤ (candidateOf [[102, 111, 111, 46, 98, 97, 114]]).length :=
  ⟨by decide!, by norm_num,
    matched_ranges_shape RuneRoles [102, 98] [] [[102, 111, 111, 46, 98, 97, 114]] (7 / 8)
      (by decide!) (by norm_num)⟩

set_option maxRecDepth 1000000 in
/-- C8, the divergence at the pattern `b` and the candidate `ab`. The alignment
value is `-7`, above `minScore/2`, and `poorMatch` does not flag it, so
`ScoreChunks` sets `lastCandidateMatched` and then clamps the value: it returns
the score 0, and the `MatchedRanges` that follows returns the range `[1,2)`. -/
theorem zero_score_ranges_counterexample :
    rawScore RuneRoles [98] [[97, 98]] = -7 ∧
      poorFlag RuneRoles [98] [[97, 98]] = some false ∧
      scoreAfter RuneRoles [98] [] [[97, 98]] = some 0 ∧
      matchedAfter RuneRoles [98] [] [[97, 98]] = some true ∧
      rangesAfter RuneRoles [98] [] [[97, 98]] = some [1, 2] := by
  decide!

/-- C8, what the code does. For a non-empty pattern, after any earlier calls,
`ScoreChunks` and the `MatchedRanges` that follows it return, and whenever
`ScoreChunks` returns 0 the ranges are empty, except in one case: the call
matched (the prefilter passed, the alignment value is above `minScore/2` and
`poorMatch` did not flag it) with an alignment value of at most 0 on a candidate
that is not as long as the pattern. Then the score 0 is the clamped value and
`lastCandidateMatched` is set, so `MatchedRanges` walks the table. -/
theorem zero_score_ranges (rr : List Nat → List RuneRole) (P : List Nat)
    (hist : List (List (List Nat))) (chunks : List (List Nat)) (hP : P ≠ []) :
    ∃ s rs, scoreAfter rr P hist chunks = some s ∧ rangesAfter rr P hist chunks = some rs ∧
      (s = 0 → rs = [] ∨
        ((toLower (P.take 63)).Sublist (toLower (candidateOf chunks)) ∧
          minScore / 2 < rawScore rr P chunks ∧ poorFlag rr P chunks = some false ∧
          rawScore rr P chunks ≤ 0 ∧ (P.take 63).length ≠ (candidateOf chunks).length ∧
          matchedAfter rr P hist chunks = some true)) := by
  have hne := take_ne_nil P hP
  by_cases hsub : (toLower (P.take 63)).Sublist (toLower (candidateOf chunks))
  · by_cases hr : rawScore rr P chunks ≤ minScore / 2
    · obtain ⟨h1, h2⟩ := after_rejected rr P hist chunks hne hsub hr
      exact ⟨0, [], h1, h2, fun _ => Or.inl rfl⟩
    · rcases after_accepted rr P hist chunks hne hsub (not_le.1 hr) with
        ⟨_, h1, h2⟩ | ⟨hp, h, out, ho, _⟩
      · exact ⟨0, [], h1, h2, fun _ => Or.inl rfl⟩
      · refine ⟨_, out.reverse, h, ho, ?_⟩
        by_cases hl : (P.take 63).length = (candidateOf chunks).length
        · rw [if_pos hl]
          intro h1; exact absurd h1 one_ne_zero
        · rw [if_neg hl, clamped_score_eq_zero _ _ (scoreScale_pos rr P hne)]
          intro h1
          exact Or.inr ⟨hsub, not_le.1 hr, hp, h1, hl,
            matchedAfter_of rr P hist chunks hne hsub (not_le.1 hr) hp⟩
  · obtain ⟨h1, h2⟩ := after_nomatch rr P hist chunks hsub
    exact ⟨0, [], h1, h2, fun _ => Or.inl rfl⟩

/-- C8, witness at the pattern `b` and the candidate `ab`. -/
theorem zero_score_ranges_witness :
    ([98] : List Nat) ≠ [] ∧
      ∃ s rs, scoreAfter RuneRoles [98] [] [[97, 98]] = some s ∧
        rangesAfter RuneRoles [98] [] [[97, 98]] = some rs ∧
        (s = 0 → rs = [] ∨
          ((toLower (List.take 63 [98])).Sublist (toLower (candidateOf [[97, 98]])) ∧
            minScore / 2 < rawScore RuneRoles [98] [[97, 98]] ∧
            poorFlag RuneRoles [98] [[97, 98]] = some false ∧
            rawScore RuneRoles [98] [[97, 98]] ≤ 0 ∧
            (List.take 63 [98]).length ≠ (candidateOf [[97, 98]]).length ∧
            matchedAfter RuneRoles [98] [] [[97, 98]] = some true)) :=
  ⟨by decide, zero_score_ranges RuneRoles [98] [] [[97, 98]] (by decide)⟩

/-- C9. `MatchedRanges` returns an empty result whenever the pattern is empty or
the preceding `ScoreChunks` call did not match (the prefilter failed, the alignment
value was at or below `minScore/2`, or `poorMatch` flagged it), whatever the
earlier calls on the matcher returned. -/
theorem matched_ranges_empty_of_unmatched (rr : List Nat → List RuneRole) (P : List Nat)
    (hist : List (List (List Nat))) (chunks : List (List Nat))
    (h : P.take 63 = [] ∨ ¬ (toLower (P.take 63)).Sublist (toLower (candidateOf chunks)) ∨
      rawScore rr P chunks ≤ minScore / 2 ∨ poorFlag rr P chunks = some true) :
    rangesAfter rr P hist chunks = some [] := by
  by_cases hne : P.take 63 = []
  · exact (after_empty rr P hist chunks hne).2
  · by_cases hsub : (toLower (P.take 63)).Sublist (toLower (candidateOf chunks))
    · by_cases hr : rawScore rr P chunks ≤ minScore / 2
      · exact (after_rejected rr P hist chunks hne hsub hr).2
      · rcases after_accepted rr P hist chunks hne hsub (not_le.1 hr) with
          ⟨_, _, h2⟩ | ⟨hpf, _, _⟩
        · exact h2
        · rcases h with h | h | h | h
          · exact (hne h).elim
          · exact (h hsub).elim
          · exact (hr h).elim
          · rw [hpf] at h; cases h
    · exact (after_nomatch rr P hist chunks hsub).2

set_option maxRecDepth 1000000 in
/-- C9, witness at the pattern `abc`: after the call on `abc`, which matches, the
call on `axbxc` is flagged by `poorMatch` and `MatchedRanges` returns an empty
result. -/
theorem matched_ranges_empty_of_unmatched_witness :
    (List.take 63 [97, 98, 99] = [] ∨
      ¬ (toLower (List.take 63 [97, 98, 99])).Sublist
        (toLower (candidateOf [[97, 120, 98, 120, 99]])) ∨
      rawScore RuneRoles [97, 98, 99] [[97, 120, 98, 120, 99]] ≤ minScore / 2 ∨
      poorFlag RuneRoles [97, 98, 99] [[97, 120, 98, 120, 99]] = some true) ∧
      rangesAfter RuneRoles [97, 98, 99] [[[97, 98, 99]]] [[97, 120, 98, 120, 99]] = some [] :=
  have h : poorFlag RuneRoles [97, 98, 99] [[97, 120, 98, 120, 99]] = some true := by decide!
  ⟨Or.inr (Or.inr (Or.inr h)),
    matched_ranges_empty_of_unmatched RuneRoles [97, 98, 99] [[[97, 98, 99]]]
      [[97, 120, 98, 120, 99]] (Or.inr (Or.inr (Or.inr h)))⟩

/-- C10. A pattern behaves as its first 63 bytes: the matcher built from a
pattern is the matcher built from the prefix, so every score and every
`MatchedRanges` result is the same, after any earlier calls, and both return. -/
theorem pattern_truncation (rr : List Nat → List RuneRole) (P : List Nat)
    (hist : List (List (List Nat))) (chunks : List (List Nat)) :
    NewMatcher rr P = NewMatcher rr (P.take 63) ∧
      scoreAfter rr P hist chunks = scoreAfter rr (P.take 63) hist chunks ∧
      rangesAfter rr P hist chunks = rangesAfter rr (P.take 63) hist chunks ∧
      ∃ s rs, scoreAfter rr P hist chunks = some s ∧ rangesAfter rr P hist chunks = some rs := by
  obtain ⟨s, rs, _, h1, h2⟩ := after_eq rr P hist chunks
  refine ⟨(NewMatcher_take rr P).symm, ?_, ?_, s, rs, h1, h2⟩
  · unfold scoreAfter; rw [NewMatcher_take]
  · unfold rangesAfter; rw [NewMatcher_take]

/-- C11. A candidate behaves as its first 127 bytes: the score of a candidate and
the `MatchedRanges` that follow are those of its prefix of 127 bytes, after any
earlier calls; both calls return and every offset is at most 127. -/
theorem candidate_truncation (rr : List Nat → List RuneRole) (P C : List Nat)
    (hist : List (List (List Nat))) :
    scoreAfter rr P hist [C] = scoreAfter rr P hist [C.take 127] ∧
      rangesAfter rr P hist [C] = rangesAfter rr P hist [C.take 127] ∧
      ∃ s rs, scoreAfter rr P hist [C] = some s ∧ rangesAfter rr P hist [C] = some rs ∧
        ∀ x ∈ rs, x ≤ 127 := by
  have hc : candidateOf [C.take 127] = candidateOf [C] := by
    rw [candidateOf_single, candidateOf_single, List.take_take]
    simp
  obtain ⟨s, rs, h0, h1, h2⟩ := after_eq rr P hist [C]
  obtain ⟨s', rs', h0', h1', h2'⟩ := after_eq rr P hist [C.take 127]
  rw [refObserve_congr_chunks rr _ _ _ hc, h0] at h0'
  cases h0'
  refine ⟨h1.trans h1'.symm, h2.trans h2'.symm, s, rs, h1, h2, ?_⟩
  intro x hx
  exact le_trans (rangesAfter_le rr P hist [C] rs h2 x hx) (candidateOf_length_le [C])

/-- C12. `BestMatch` returns, and the name it returns is the earliest name of the
list that attains the highest effective score, where the effective score of a
name is its score against the pattern when that is above 0 and otherwise the
score of the pattern against the name; when no effective score is above 0 (in
particular for an empty list) it returns the empty string. -/
theorem bestMatch_earliest_maximum (rr : List Nat → List RuneRole) (pattern : List Nat)
    (names : List (List Nat)) :
    ∃ best, BestMatch rr pattern names = some best ∧
      ((∀ n ∈ names, effectiveScore rr pattern n ≤ 0) → best = []) ∧
      ((∃ n ∈ names, 0 < effectiveScore rr pattern n) →
        ∃ i, i < names.length ∧ names[i]? = some best ∧
          0 < effectiveScore rr pattern best ∧
          (∀ n ∈ names, effectiveScore rr pattern n ≤ effectiveScore rr pattern best) ∧
          (∀ j n, j < i → names[j]? = some n →
            effectiveScore rr pattern n < effectiveScore rr pattern best)) :=
  BestMatch_spec rr pattern names

set_option maxRecDepth 1000000 in
/-- C13, counterexample. The name `a` scores 0 against the pattern `ab`, and
`BestMatch` returns `a`: the pattern `ab` scores 1 against the name `a`. -/
theorem bestMatch_empty_counterexample :
    (∀ n ∈ [[97]], scoreOf RuneRoles [97, 98] n = 0) ∧
      BestMatch RuneRoles [97, 98] [[97]] = some [97] ∧
      scoreOf RuneRoles [97] [97, 98] = 1 := by
  decide!

/-- C13, as amended. `BestMatch` returns the empty string if no name has an
effective score above 0: every name scores 0 against the pattern and the pattern
scores 0 against every name. -/
theorem bestMatch_empty (rr : List Nat → List RuneRole) (pattern : List Nat)
    (names : List (List Nat))
    (h : ∀ n ∈ names, scoreOf rr pattern n = 0 ∧ scoreOf rr n pattern = 0) :
    BestMatch rr pattern names = some [] := by
  obtain ⟨best, hb, h1, _⟩ := BestMatch_spec rr pattern names
  rw [hb, h1 (fun n hn => by
    unfold effectiveScore
    rw [(h n hn).1, (h n hn).2]
    simp)]

set_option maxRecDepth 1000000 in
/-- C13, witness of the amended claim at the pattern `abc` and the names `xyz`
and `x`. -/
theorem bestMatch_empty_witness :
    (∀ n ∈ [[120, 121, 122], [120]],
      scoreOf RuneRoles [97, 98, 99] n = 0 ∧ scoreOf RuneRoles n [97, 98, 99] = 0) ∧
      BestMatch RuneRoles [97, 98, 99] [[120, 121, 122], [120]] = some [] :=
  ⟨by decide!, bestMatch_empty RuneRoles [97, 98, 99] [[120, 121, 122], [120]] (by decide!)⟩

set_option maxRecDepth 1000000 in
/-- C14, counterexample. With `a` a word start and every other byte a tail,
`Score("abc", "axbxc")` is 0 and the `MatchedRanges` that follows is empty. -/
theorem score_abc_axbxc_counterexample :
    RuneRoles [97, 98, 99] = [RHead, RTail, RTail] ∧
      RuneRoles [97, 120, 98, 120, 99] = [RHead, RTail, RTail, RTail, RTail] ∧
      scoreAfter RuneRoles [97, 98, 99] [] [[97, 120, 98, 120, 99]] = some 0 ∧
      rangesAfter RuneRoles [97, 98, 99] [] [[97, 120, 98, 120, 99]] = some [] := by
  decide!

set_option maxRecDepth 1000000 in
/-- C14, as amended. With `a` a word start and every other byte of the pattern
and of the candidate a tail, `Score("abc", "axbxc")` is 0 and the `MatchedRanges`
that follows returns an empty result: the alignment has the value 2 and
`poorMatch` flags it. -/
theorem score_abc_axbxc (rr : List Nat → List RuneRole) (hist : List (List (List Nat)))
    (hp : rr [97, 98, 99] = [RHead, RTail, RTail])
    (hc : rr [97, 120, 98, 120, 99] = [RHead, RTail, RTail, RTail, RTail]) :
    scoreAfter rr [97, 98, 99] hist [[97, 120, 98, 120, 99]] = some 0 ∧
      rangesAfter rr [97, 98, 99] hist [[97, 120, 98, 120, 99]] = some [] ∧
      rawScore rr [97, 98, 99] [[97, 120, 98, 120, 99]] = 2 ∧
      poorFlag rr [97, 98, 99] [[97, 120, 98, 120, 99]] = some true := by
  have hp' : rr (List.take 63 [97, 98, 99]) = RuneRoles (List.take 63 [97, 98, 99]) := by
    rw [show List.take 63 [97, 98, 99] = [97, 98, 99] from rfl, hp]; decide
  have hc' : rr (candidateOf [[97, 120, 98, 120, 99]]) =
      RuneRoles (candidateOf [[97, 120, 98, 120, 99]]) := by
    rw [show candidateOf [[97, 120, 98, 120, 99]] = [97, 120, 98, 120, 99] from by decide, hc]
    decide
  obtain ⟨h1, h2⟩ := after_congr_rr rr RuneRoles [97, 98, 99] hist [] _ hp' hc'
  obtain ⟨h3, h4⟩ := rawScore_congr_rr rr RuneRoles [97, 98, 99] _ hp' hc'
  rw [h1, h2, h3, h4]
  decide!

/-- C14, witness of the amended claim at the modelled role classifier. -/
theorem score_abc_axbxc_witness :
    RuneRoles [97, 98, 99] = [RHead, RTail, RTail] ∧
      RuneRoles [97, 120, 98, 120, 99] = [RHead, RTail, RTail, RTail, RTail] ∧
      scoreAfter RuneRoles [97, 98, 99] [[[97, 98, 99]]] [[97, 120, 98, 120, 99]] = some 0 ∧
      rangesAfter RuneRoles [97, 98, 99] [[[97, 98, 99]]] [[97, 120, 98, 120, 99]] = some [] ∧
      rawScore RuneRoles [97, 98, 99] [[97, 120, 98, 120, 99]] = 2 ∧
      poorFlag RuneRoles [97, 98, 99] [[97, 120, 98, 120, 99]] = some true :=
  ⟨by decide, by decide,
    score_abc_axbxc RuneRoles [[[97, 98, 99]]] (by decide) (by decide)⟩

set_option maxRecDepth 1000000 in
/-- C15. With the pattern roles head, tail, tail and the candidate roles head,
tail, tail, head, tail, tail, `Score("Foo", "fooBar")` is above 0 and below 1: the
alignment value is 11 of the 12 that a pattern of 3 bytes can reach, the match
of `F` on `f` earning no bonus for the case, and the score is the `float32`
product of 11 and the scale, `15379115 / 2 ^ 24` (about 0.9166667). -/
theorem score_Foo_fooBar (rr : List Nat → List RuneRole) (hist : List (List (List Nat)))
    (hp : rr [70, 111, 111] = [RHead, RTail, RTail])
    (hc : rr [102, 111, 111, 66, 97, 114] = [RHead, RTail, RTail, RHead, RTail, RTail]) :
    ∃ s, scoreAfter rr [70, 111, 111] hist [[102, 111, 111, 66, 97, 114]] = some s ∧
      0 < s ∧ s < 1 ∧ s = 15379115 / 16777216 ∧
      rawScore rr [70, 111, 111] [[102, 111, 111, 66, 97, 114]] = 11 := by
  have hp' : rr (List.take 63 [70, 111, 111]) = RuneRoles (List.take 63 [70, 111, 111]) := by
    rw [show List.take 63 [70, 111, 111] = [70, 111, 111] from rfl, hp]; decide
  have hc' : rr (candidateOf [[102, 111, 111, 66, 97, 114]]) =
      RuneRoles (candidateOf [[102, 111, 111, 66, 97, 114]]) := by
    rw [show candidateOf [[102, 111, 111, 66, 97, 114]] = [102, 111, 111, 66, 97, 114]
      from by decide, hc]
    decide
  obtain ⟨h1, _⟩ := after_congr_rr rr RuneRoles [70, 111, 111] hist [] _ hp' hc'
  obtain ⟨h3, _⟩ := rawScore_congr_rr rr RuneRoles [70, 111, 111] _ hp' hc'
  refine ⟨15379115 / 16777216, ?_, by norm_num, by norm_num, rfl, ?_⟩
  · rw [h1]; decide!
  · rw [h3]; decide!

/-- C15, witness at the modelled role classifier. -/
theorem score_Foo_fooBar_witness :
    RuneRoles [70, 111, 111] = [RHead, RTail, RTail] ∧
      RuneRoles [102, 111, 111, 66, 97, 114] = [RHead, RTail, RTail, RHead, RTail, RTail] ∧
      ∃ s, scoreAfter RuneRoles [70, 111, 111] [] [[102, 111, 111, 66, 97, 114]] = some s ∧
        0 < s ∧ s < 1 ∧ s = 15379115 / 16777216 ∧
        rawScore RuneRoles [70, 111, 111] [[102, 111, 111, 66, 97, 114]] = 11 :=
  ⟨by decide, by decide, score_Foo_fooBar RuneRoles [] (by decide) (by decide)⟩

/-- C16. `BestMatch("abc", ["abc", "axbxc", "xyz"])` is `abc` and
`Score("abc", "xyz")` is 0, for every role classifier. -/
theorem bestMatch_abc (rr : List Nat → List RuneRole) :
    BestMatch rr [97, 98, 99] [[97, 98, 99], [97, 120, 98, 120, 99], [120, 121, 122]] =
        some [97, 98, 99] ∧
      scoreAfter rr [97, 98, 99] [] [[120, 121, 122]] = some 0 := by
  constructor
  · apply BestMatch_first_of_one
    unfold effectiveScore
    rw [scoreOf_self rr [97, 98, 99] (by decide) (by decide)]
    simp
  · rw [scoreAfter_eq_scoreOf, scoreOf_not_sublist rr _ _ (by decide)]

/-- C17. For the empty pattern and a non-empty list of names, `BestMatch` returns
the first name; in particular `BestMatch("", ["b", "a"])` is `b`. -/
theorem bestMatch_empty_pattern (rr : List Nat → List RuneRole) (name : List Nat)
    (rest : List (List Nat)) :
    BestMatch rr [] (name :: rest) = some name ∧ BestMatch rr [] [[98], [97]] = some [98] := by
  have h : ∀ (n : List Nat) (r : List (List Nat)), BestMatch rr [] (n :: r) = some n := by
    intro n r
    apply BestMatch_first_of_one
    unfold effectiveScore
    rw [scoreOf_empty]
    simp
  exact ⟨h name rest, h _ _⟩

/-- C18. For every non-empty pattern of at most 63 bytes and every role
classifier, the pattern scored against itself has the score 1, and the
`MatchedRanges` that follows is the single range from 0 to the length of the
pattern; this holds after any earlier calls on the matcher. -/
theorem score_reflexive (rr : List Nat → List RuneRole) (P : List Nat)
    (hist : List (List (List Nat))) (hP : P ≠ []) (hlen : P.length ≤ 63) :
    scoreAfter rr P hist [P] = some 1 ∧ rangesAfter rr P hist [P] = some [0, P.length] :=
  ⟨exact_length_aux rr P P hist hP hlen rfl (List.Sublist.refl _)
      (fun t _ _ hc => by
        obtain ⟨h1, h2⟩ := hc
        rw [h1] at h2
        cases h2),
    exact_length_ranges rr P P hist hP hlen rfl (List.Sublist.refl _)
      (fun t _ _ hc => by
        obtain ⟨h1, h2⟩ := hc
        rw [h1] at h2
        cases h2)⟩

/-- C18, witness at the pattern `abc`, after an earlier call on `xyz`. -/
theorem score_reflexive_witness :
    ([97, 98, 99] : List Nat) ≠ [] ∧ ([97, 98, 99] : List Nat).length ≤ 63 ∧
      scoreAfter RuneRoles [97, 98, 99] [[[120, 121, 122]]] [[97, 98, 99]] = some 1 ∧
      rangesAfter RuneRoles [97, 98, 99] [[[120, 121, 122]]] [[97, 98, 99]] =
        some [0, ([97, 98, 99] : List Nat).length] :=
  ⟨by decide, by decide,
    score_reflexive RuneRoles [97, 98, 99] [[[120, 121, 122]]] (by decide) (by decide)⟩

set_option maxRecDepth 1000000 in
/-- C19, counterexample. The pattern `foo` is a prefix of the candidate `foo.bar`,
and `Score("foo", "foo.bar")` is `3/4`: the alignment value is 9 of 12, the bytes
before the separator earning no bonus for the last segment. -/
theorem prefix_score_counterexample :
    ([102, 111, 111] : List Nat) ≠ [] ∧ ([102, 111, 111] : List Nat).length ≤ 63 ∧
      ([102, 111, 111, 46, 98, 97, 114] : List Nat).length ≤ 127 ∧
      ([102, 111, 111] : List Nat) <+: [102, 111, 111, 46, 98, 97, 114] ∧
      scoreAfter RuneRoles [102, 111, 111] [] [[102, 111, 111, 46, 98, 97, 114]] =
        some (3 / 4) ∧
      rawScore RuneRoles [102, 111, 111] [[102, 111, 111, 46, 98, 97, 114]] = 9 := by
  refine ⟨by decide, by decide, by decide, ⟨[46, 98, 97, 114], rfl⟩, ?_, ?_⟩
  · decide!
  · decide!

/-- C19, as amended. For every non-empty pattern of at most 63 bytes that is an
exact prefix of a candidate of at most 127 bytes, the score is 1, after any
earlier calls, provided that the roles of the candidate hold no separator (the
candidate is one segment), that its first byte is not a tail, that no
word-start byte of the pattern meets a tail byte of the candidate, and that the
candidate is as long as the pattern or the length of the pattern is not one of
41, 47, 55 and 61 (for which the `float32` product of the highest alignment
value and the scale is rounded below 1). -/
theorem prefix_score (rr : List Nat → List RuneRole) (P C : List Nat)
    (hist : List (List (List Nat))) (hP : P ≠ []) (hlen : P.length ≤ 63)
    (hC : C.length ≤ 127) (hpre : P <+: C)
    (hseg : ∀ t, t < C.length → (rr C).getD t RNone ≠ RSep)
    (hfirst : (rr C).getD 0 RNone ≠ RTail ∧ (rr C).getD 0 RNone ≠ RUCTail)
    (hroles : ∀ t, t < P.length →
      ¬ ((rr C).getD t RNone = RTail ∧ (rr P).getD t RNone = RHead))
    (hround : P.length = C.length ∨
      ¬ (P.length = 41 ∨ P.length = 47 ∨ P.length = 55 ∨ P.length = 61)) :
    scoreAfter rr P hist [C] = some 1 := by
  rw [one_segment_scored rr P C hist hP hlen hC hpre hseg hfirst hroles, if_pos hround]

/-- C19, witness of the amended claim at the pattern `foo` and the candidate
`fooBar`, after an earlier call on `x`. -/
theorem prefix_score_witness :
    ([102, 111, 111] : List Nat) ≠ [] ∧ ([102, 111, 111] : List Nat).length ≤ 63 ∧
      ([102, 111, 111, 66, 97, 114] : List Nat).length ≤ 127 ∧
      ([102, 111, 111] : List Nat) <+: [102, 111, 111, 66, 97, 114] ∧
      (∀ t, t < ([102, 111, 111, 66, 97, 114] : List Nat).length →
        (RuneRoles [102, 111, 111, 66, 97, 114]).getD t RNone ≠ RSep) ∧
      ((RuneRoles [102, 111, 111, 66, 97, 114]).getD 0 RNone ≠ RTail ∧
        (RuneRoles [102, 111, 111, 66, 97, 114]).getD 0 RNone ≠ RUCTail) ∧
      (∀ t, t < ([102, 111, 111] : List Nat).length →
        ¬ ((RuneRoles [102, 111, 111, 66, 97, 114]).getD t RNone = RTail ∧
          (RuneRoles [102, 111, 111]).getD t RNone = RHead)) ∧
      (([102, 111, 111] : List Nat).length = ([102, 111, 111, 66, 97, 114] : List Nat).length ∨
        ¬ (([102, 111, 111] : List Nat).length = 41 ∨ ([102, 111, 111] : List Nat).length = 47 ∨
          ([102, 111, 111] : List Nat).length = 55 ∨
          ([102, 111, 111] : List Nat).length = 61)) ∧
      scoreAfter RuneRoles [102, 111, 111] [[[120]]] [[102, 111, 111, 66, 97, 114]] = some 1 :=
  ⟨by decide, by decide, by decide, ⟨[66, 97, 114], rfl⟩, by decide, by decide, by decide,
    by decide,
    prefix_score RuneRoles [102, 111, 111] [102, 111, 111, 66, 97, 114] [[[120]]] (by decide)
      (by decide) (by decide) ⟨[66, 97, 114], rfl⟩ (by decide) (by decide) (by decide)
      (by decide)⟩

/-- C20. The sentinel is never exposed. After `computeScore` ran for a candidate
(cut to 127 bytes) on a matcher in any state whose pattern has at most 63 bytes,
every cell `(i, j, k)` of the table with `i` up to the length of the candidate
and `j` up to the length of the pattern holds a value that is below
`minScore / 2` or at least `-(8 + 3 * len(P) + 2)`; the value is above
`minScore / 2` exactly when an admissible alignment of the first `j` pattern
bytes into the first `i` candidate bytes ends in state `k`, and it is then the
value of such an alignment. A call of `ScoreChunks` on a non-empty pattern that
leaves the candidate matched found the value of `computeScore` above
`minScore / 2`, and that value is the value of an admissible alignment of the
whole pattern into the whole candidate. -/
theorem sentinel_never_exposed (rr : List Nat → List RuneRole) (m : Matcher)
    (chunks : List (List Nat)) (hp : m.pattern.length ≤ 63) :
    (∀ i j k, i ≤ (candidateOf chunks).length → j ≤ m.pattern.length → k < 2 →
      (scoreVal.val (((m.prepared rr (candidateOf chunks)).computeScore (candidateOf chunks)
          (toLower (candidateOf chunks))).1.scores i j k) < minScore / 2 ∨
        -(8 + 3 * (m.pattern.length : Int) + 2) ≤
          scoreVal.val (((m.prepared rr (candidateOf chunks)).computeScore (candidateOf chunks)
            (toLower (candidateOf chunks))).1.scores i j k)) ∧
      (minScore / 2 <
          scoreVal.val (((m.prepared rr (candidateOf chunks)).computeScore (candidateOf chunks)
            (toLower (candidateOf chunks))).1.scores i j k) ↔
        ∃ v, Admissible (m.prepared rr (candidateOf chunks)) (candidateOf chunks)
          (toLower (candidateOf chunks)) i j k v) ∧
      (minScore / 2 <
          scoreVal.val (((m.prepared rr (candidateOf chunks)).computeScore (candidateOf chunks)
            (toLower (candidateOf chunks))).1.scores i j k) →
        Admissible (m.prepared rr (candidateOf chunks)) (candidateOf chunks)
          (toLower (candidateOf chunks)) i j k
          (scoreVal.val (((m.prepared rr (candidateOf chunks)).computeScore (candidateOf chunks)
            (toLower (candidateOf chunks))).1.scores i j k)))) ∧
    (∀ m' s, m.pattern.length ≠ 0 → m.ScoreChunks rr chunks = some (m', s) →
      m'.lastCandidateMatched = true →
      minScore / 2 < ((m.prepared rr (candidateOf chunks)).computeScore (candidateOf chunks)
        (toLower (candidateOf chunks))).2 ∧
      ∃ k, k < 2 ∧ Admissible (m.prepared rr (candidateOf chunks)) (candidateOf chunks)
        (toLower (candidateOf chunks)) (candidateOf chunks).length m.pattern.length k
        ((m.prepared rr (candidateOf chunks)).computeScore (candidateOf chunks)
          (toLower (candidateOf chunks))).2) := by
  have hc := candidateOf_length_le chunks
  have hpp : (m.prepared rr (candidateOf chunks)).pattern = m.pattern := rfl
  have cell : ∀ i j k, i ≤ (candidateOf chunks).length → j ≤ m.pattern.length → k < 2 →
      ((m.prepared rr (candidateOf chunks)).computeScore (candidateOf chunks)
        (toLower (candidateOf chunks))).1.scores i j k =
      dpTable (m.prepared rr (candidateOf chunks)) (candidateOf chunks)
        (toLower (candidateOf chunks)) i j k := fun i j k hi hj hk =>
    computeScore_scores _ _ _ i j k hi (by rw [hpp]; exact hj) hk
  constructor
  · intro i j k hi hj hk
    rw [cell i j k hi hj hk]
    obtain ⟨h1, h2, h3⟩ := dpTable_exposed (m.prepared rr (candidateOf chunks))
      (candidateOf chunks) (toLower (candidateOf chunks)) i j k (by omega) (by omega) hk
    refine ⟨?_, h2, h3⟩
    rcases h1 with h | h
    · left; exact h
    · right; omega
  · intro m' s hne hs hm
    have hgt := ScoreChunks_matched_gt rr m chunks hne m' s hs hm
    refine ⟨hgt, ?_⟩
    rw [computeScore_snd, hpp] at hgt ⊢
    have hk := bestK_lt ((m.prepared rr (candidateOf chunks)).computeScore (candidateOf chunks)
      (toLower (candidateOf chunks))).1 (candidateOf chunks).length m.pattern.length
    refine ⟨_, hk, ?_⟩
    rw [cell _ _ _ le_rfl le_rfl hk] at hgt ⊢
    exact (dpTable_exposed (m.prepared rr (candidateOf chunks)) (candidateOf chunks)
      (toLower (candidateOf chunks)) _ _ _ (by omega) (by omega) hk).2.2 hgt

/-- C20, witness at the pattern `a` and the candidate `ba`. -/
theorem sentinel_never_exposed_witness :
    (NewMatcher RuneRoles [97]).pattern.length ≤ 63 ∧
    (∀ i j k, i ≤ (candidateOf [[98, 97]]).length →
      j ≤ (NewMatcher RuneRoles [97]).pattern.length → k < 2 →
      (scoreVal.val ((((NewMatcher RuneRoles [97]).prepared RuneRoles
          (candidateOf [[98, 97]])).computeScore (candidateOf [[98, 97]])
          (toLower (candidateOf [[98, 97]]))).1.scores i j k) < minScore / 2 ∨
        -(8 + 3 * ((NewMatcher RuneRoles [97]).pattern.length : Int) + 2) ≤
          scoreVal.val ((((NewMatcher RuneRoles [97]).prepared RuneRoles
            (candidateOf [[98, 97]])).computeScore (candidateOf [[98, 97]])
            (toLower (candidateOf [[98, 97]]))).1.scores i j k)) ∧
      (minScore / 2 <
          scoreVal.val ((((NewMatcher RuneRoles [97]).prepared RuneRoles
            (candidateOf [[98, 97]])).computeScore (candidateOf [[98, 97]])
            (toLower (candidateOf [[98, 97]]))).1.scores i j k) ↔
        ∃ v, Admissible ((NewMatcher RuneRoles [97]).prepared RuneRoles (candidateOf [[98, 97]]))
          (candidateOf [[98, 97]]) (toLower (candidateOf [[98, 97]])) i j k v) ∧
      (minScore / 2 <
          scoreVal.val ((((NewMatcher RuneRoles [97]).prepared RuneRoles
            (candidateOf [[98, 97]])).computeScore (candidateOf [[98, 97]])
            (toLower (candidateOf [[98, 97]]))).1.scores i j k) →
        Admissible ((NewMatcher RuneRoles [97]).prepared RuneRoles (candidateOf [[98, 97]]))
          (candidateOf [[98, 97]]) (toLower (candidateOf [[98, 97]])) i j k
          (scoreVal.val ((((NewMatcher RuneRoles [97]).prepared RuneRoles
            (candidateOf [[98, 97]])).computeScore (candidateOf [[98, 97]])
            (toLower (candidateOf [[98, 97]]))).1.scores i j k)))) ∧
    (∀ m' s, (NewMatcher RuneRoles [97]).pattern.length ≠ 0 →
      (NewMatcher RuneRoles [97]).ScoreChunks RuneRoles [[98, 97]] = some (m', s) →
      m'.lastCandidateMatched = true →
      minScore / 2 < (((NewMatcher RuneRoles [97]).prepared RuneRoles
        (candidateOf [[98, 97]])).computeScore (candidateOf [[98, 97]])
        (toLower (candidateOf [[98, 97]]))).2 ∧
      ∃ k, k < 2 ∧
        Admissible ((NewMatcher RuneRoles [97]).prepared RuneRoles (candidateOf [[98, 97]]))
          (candidateOf [[98, 97]]) (toLower (candidateOf [[98, 97]]))
          (candidateOf [[98, 97]]).length (NewMatcher RuneRoles [97]).pattern.length k
          (((NewMatcher RuneRoles [97]).prepared RuneRoles
            (candidateOf [[98, 97]])).computeScore (candidateOf [[98, 97]])
            (toLower (candidateOf [[98, 97]]))).2) :=
  ⟨by decide,
    sentinel_never_exposed RuneRoles (NewMatcher RuneRoles [97]) [[98, 97]] (by decide)⟩

/-- C21. The prefilter is exact: `match` returns true exactly when a strictly
increasing sequence of indices of the lowercased candidate spells the lowercased
pattern, and it returns true for the empty pattern. -/
theorem match_exact (rr : List Nat → List RuneRole) (m : Matcher)
    (candidate candidateLower : List Nat) :
    ((m.match_ rr candidate candidateLower).2 = true ↔
      ∃ f : Fin m.patternLower.length → Fin candidateLower.length,
        StrictMono f ∧ ∀ k, candidateLower.get (f k) = m.patternLower.get k) ∧
      (m.patternLower = [] → (m.match_ rr candidate candidateLower).2 = true) := by
  constructor
  · rw [match_eq_true_iff, List.sublist_iff_exists_fin_orderEmbedding_get_eq]
    constructor
    · rintro ⟨f, hf⟩
      exact ⟨f, f.strictMono, fun k => (hf k).symm⟩
    · rintro ⟨f, hmono, hf⟩
      exact ⟨OrderEmbedding.ofStrictMono f hmono, fun k => (hf k).symm⟩
  · intro h
    rw [match_eq_true_iff, h]
    exact List.nil_sublist _

/-- C22. Optimality of the alignment table. After `computeScore` ran for a
candidate of at most 127 bytes on a matcher whose pattern has at most 63 bytes,
every cell `(i, j, k)` in range in which some admissible alignment of the first
`j` pattern bytes into the first `i` candidate bytes ends holds the greatest
value of these alignments, the value of an alignment being the sum of the gains
and costs that `computeScore` gives to its steps; and the value returned is the
greater of the values of the two states of the last cell. -/
theorem table_optimal (m : Matcher) (candidate candidateLower : List Nat)
    (hc : candidate.length ≤ 127) (hp : m.pattern.length ≤ 63) :
    (∀ i j k, i ≤ candidate.length → j ≤ m.pattern.length → k < 2 →
      (∃ v, Admissible m candidate candidateLower i j k v) →
      IsGreatest {v | Admissible m candidate candidateLower i j k v}
        (scoreVal.val ((m.computeScore candidate candidateLower).1.scores i j k))) ∧
      (m.computeScore candidate candidateLower).2 =
        max (scoreVal.val ((m.computeScore candidate candidateLower).1.scores
            candidate.length m.pattern.length 0))
          (scoreVal.val ((m.computeScore candidate candidateLower).1.scores
            candidate.length m.pattern.length 1)) := by
  constructor
  · intro i j k hi hj hk hex
    rw [computeScore_scores m candidate candidateLower i j k hi hj hk]
    obtain ⟨_, h2, h3⟩ := dpTable_exposed m candidate candidateLower i j k (by omega)
      (by omega) hk
    refine ⟨h3 (h2.2 hex), ?_⟩
    rintro v ⟨steps, hs⟩
    exact (alignValue_le m candidate candidateLower steps i j k v hs).2.1
  · rw [computeScore_snd]
    unfold Matcher.bestK
    split_ifs with h
    · exact (max_eq_right (le_of_lt h)).symm
    · exact (max_eq_left (not_lt.1 h)).symm

set_option maxRecDepth 1000000 in
/-- C22, witness at the pattern `a` and the candidate `ba`; the alignment that
skips `b` and takes `a` ends in the match state of the last cell with the value
`-7`. -/
theorem table_optimal_witness :
    ([98, 97] : List Nat).length ≤ 127 ∧
      ((NewMatcher RuneRoles [97]).prepared RuneRoles [98, 97]).pattern.length ≤ 63 ∧
      (∀ i j k, i ≤ ([98, 97] : List Nat).length →
        j ≤ ((NewMatcher RuneRoles [97]).prepared RuneRoles [98, 97]).pattern.length → k < 2 →
        (∃ v, Admissible ((NewMatcher RuneRoles [97]).prepared RuneRoles [98, 97])
          [98, 97] [98, 97] i j k v) →
        IsGreatest {v | Admissible ((NewMatcher RuneRoles [97]).prepared RuneRoles [98, 97])
            [98, 97] [98, 97] i j k v}
          (scoreVal.val ((((NewMatcher RuneRoles [97]).prepared RuneRoles [98, 97]).computeScore
            [98, 97] [98, 97]).1.scores i j k))) ∧
      (((NewMatcher RuneRoles [97]).prepared RuneRoles [98, 97]).computeScore
          [98, 97] [98, 97]).2 =
        max (scoreVal.val ((((NewMatcher RuneRoles [97]).prepared RuneRoles [98, 97]).computeScore
            [98, 97] [98, 97]).1.scores ([98, 97] : List Nat).length
            ((NewMatcher RuneRoles [97]).prepared RuneRoles [98, 97]).pattern.length 0))
          (scoreVal.val ((((NewMatcher RuneRoles [97]).prepared RuneRoles [98, 97]).computeScore
            [98, 97] [98, 97]).1.scores ([98, 97] : List Nat).length
            ((NewMatcher RuneRoles [97]).prepared RuneRoles [98, 97]).pattern.length 1)) ∧
      alignValue ((NewMatcher RuneRoles [97]).prepared RuneRoles [98, 97]) [98, 97] [98, 97]
        [false, true] = some (2, 1, 1, -7) :=
  ⟨by decide, by decide,
    (table_optimal ((NewMatcher RuneRoles [97]).prepared RuneRoles [98, 97]) [98, 97] [98, 97]
      (by decide) (by decide)).1,
    (table_optimal ((NewMatcher RuneRoles [97]).prepared RuneRoles [98, 97]) [98, 97] [98, 97]
      (by decide) (by decide)).2, by decide!⟩

/-- C23. Whenever `computeScore` found an alignment value above `minScore/2` (the
only case in which `ScoreChunks` calls `poorMatch`), `MatchedRanges` extracts a
list of ranges from the table, and `poorMatch` returns true exactly when the
pattern (cut to 63 bytes) has at least 2 bytes and more than one of these ranges
is shorter than 3 bytes and begins on a candidate byte of the role `RTail`; for
a pattern of fewer than 2 bytes it returns false. The entries of the list are
strictly ascending, so the ranges are the maximal runs of matched bytes. If the call passed the
prefilter and is not flagged, these ranges are what `MatchedRanges` returns after
it. -/
theorem poorMatch_counts_short_runs (rr : List Nat → List RuneRole) (P : List Nat)
    (chunks : List (List Nat)) (hr : minScore / 2 < rawScore rr P chunks) :
    ∃ rs, backtrackedRanges rr P chunks = some rs ∧ rs.Pairwise (· < ·) ∧
      poorFlag rr P chunks = some (decide (2 ≤ (P.take 63).length ∧
        1 < shortTailRuns (rr (candidateOf chunks)) rs)) ∧
      ((P.take 63).length < 2 → poorFlag rr P chunks = some false) ∧
      ∀ hist, (toLower (P.take 63)).Sublist (toLower (candidateOf chunks)) →
        poorFlag rr P chunks = some false → rangesAfter rr P hist chunks = some rs := by
  have hlen : (NewMatcher rr P).pattern.length = (P.take 63).length := by
    rw [NewMatcher_pattern]
  have hsmall : (P.take 63).length < 2 → poorFlag rr P chunks = some false := by
    intro h2
    rw [poorFlag_eq]
    unfold Matcher.poorMatch
    have h2' : ((NewMatcher rr P).scored rr (candidateOf chunks)).pattern.length < 2 := by
      show (NewMatcher rr P).pattern.length < 2
      rw [hlen]
      exact h2
    rw [if_pos h2']
  by_cases hne : P.take 63 = []
  · have h0 : (NewMatcher rr P).pattern.length = 0 := by rw [hlen, hne]; rfl
    refine ⟨[], ?_, List.Pairwise.nil, ?_, hsmall, ?_⟩
    · rw [backtrackedRanges_eq]
      exact MatchedRanges_empty_pattern _ h0
    · rw [hsmall (by rw [hne]; decide)]
      have hd : ¬ (2 ≤ (P.take 63).length ∧
          1 < shortTailRuns (rr (candidateOf chunks)) []) := by
        rw [hne]
        rintro ⟨h2, _⟩
        exact absurd h2 (by decide)
      rw [decide_eq_false hd]
    · intro hist _ _
      exact (after_empty rr P hist chunks hne).2
  · have h0 := pattern_length_ne_zero rr P hne
    have hr' := hr
    rw [rawScore_eq] at hr'
    obtain ⟨out, ho, hinv⟩ := scored_MatchedRanges_some rr (NewMatcher rr P) (candidateOf chunks)
      (NewMatcher_pattern_length_le rr P) (candidateOf_length_le chunks) h0 hr'
    have hw := scored_MatchedRanges_walk rr (NewMatcher rr P) (candidateOf chunks) h0 hr'
    rw [ho] at hw
    refine ⟨out.reverse, ?_, List.pairwise_reverse.2 hinv.1, ?_, hsmall, ?_⟩
    · rw [backtrackedRanges_eq]
      exact ho
    · by_cases h2 : (P.take 63).length < 2
      · rw [hsmall h2]
        have hd : ¬ (2 ≤ (P.take 63).length ∧
            1 < shortTailRuns (rr (candidateOf chunks)) out.reverse) := by
          rintro ⟨h3, _⟩
          omega
        rw [decide_eq_false hd]
      · have hcount := (poorMatchLoop_counts ((NewMatcher rr P).scored rr (candidateOf chunks))
          { NewMatcher rr P with roles := rr (candidateOf chunks) } (candidateOf chunks)
          (toLower (candidateOf chunks)) rfl (candidateOf chunks).length
          (NewMatcher rr P).pattern.length
          (((NewMatcher rr P).scored rr (candidateOf chunks)).bestK (candidateOf chunks).length
            (NewMatcher rr P).pattern.length) [] out.reverse 0 0
          (candidateOf_length_le chunks) (NewMatcher_pattern_length_le rr P) (bestK_lt _ _ _)
          (scored_isReal rr (NewMatcher rr P) (candidateOf chunks)
            (NewMatcher_pattern_length_le rr P) (candidateOf_length_le chunks) hr')
          trivial (by unfold closedRuns; split_ifs <;> rfl) (fun _ => rfl) hw.symm).2
          (by omega)
        rw [poorFlag_eq]
        unfold Matcher.poorMatch
        have h2' : ¬ ((NewMatcher rr P).scored rr (candidateOf chunks)).pattern.length < 2 := by
          show ¬ (NewMatcher rr P).pattern.length < 2
          rw [hlen]
          exact h2
        rw [if_neg h2']
        have e3 : ((NewMatcher rr P).scored rr (candidateOf chunks)).lastCandidateLen =
            (candidateOf chunks).length := rfl
        have e1 : ((NewMatcher rr P).scored rr (candidateOf chunks)).pattern =
            (NewMatcher rr P).pattern := rfl
        rw [e1, e3, hcount]
        have e4 : ((NewMatcher rr P).scored rr (candidateOf chunks)).roles =
            rr (candidateOf chunks) := rfl
        rw [e4]
        congr 1
        rw [decide_eq_decide]
        exact ⟨fun h => ⟨by omega, h⟩, fun h => h.2⟩
    · intro hist hsub hp
      rw [after_ranges_scored rr P hist chunks hne hsub hr hp]
      exact ho

set_option maxRecDepth 1000000 in
/-- C23, witness at the pattern `abc` and the candidate `axbxc`: the alignment
value is above the threshold, the ranges are `[0,1)`, `[2,3)` and `[4,5)`, two of
them begin on a `RTail` byte, and `poorMatch` returns true. -/
theorem poorMatch_counts_short_runs_witness :
    minScore / 2 < rawScore RuneRoles [97, 98, 99] [[97, 120, 98, 120, 99]] ∧
    backtrackedRanges RuneRoles [97, 98, 99] [[97, 120, 98, 120, 99]] =
      some [0, 1, 2, 3, 4, 5] ∧
    poorFlag RuneRoles [97, 98, 99] [[97, 120, 98, 120, 99]] = some true ∧
    ∃ rs, backtrackedRanges RuneRoles [97, 98, 99] [[97, 120, 98, 120, 99]] = some rs ∧
      rs.Pairwise (· < ·) ∧
      poorFlag RuneRoles [97, 98, 99] [[97, 120, 98, 120, 99]] =
        some (decide (2 ≤ (List.take 63 [97, 98, 99]).length ∧
          1 < shortTailRuns (RuneRoles (candidateOf [[97, 120, 98, 120, 99]])) rs)) ∧
      ((List.take 63 [97, 98, 99]).length < 2 →
        poorFlag RuneRoles [97, 98, 99] [[97, 120, 98, 120, 99]] = some false) ∧
      ∀ hist, (toLower (List.take 63 [97, 98, 99])).Sublist
          (toLower (candidateOf [[97, 120, 98, 120, 99]])) →
        poorFlag RuneRoles [97, 98, 99] [[97, 120, 98, 120, 99]] = some false →
        rangesAfter RuneRoles [97, 98, 99] hist [[97, 120, 98, 120, 99]] = some rs :=
  ⟨by decide!, by decide!, by decide!,
    poorMatch_counts_short_runs RuneRoles [97, 98, 99] [[97, 120, 98, 120, 99]] (by decide!)⟩

/-- C24. The extracted ranges explain the match. After a call of `ScoreChunks`,
on a matcher for a non-empty pattern with any history, that leaves the candidate
matched, `MatchedRanges` returns ranges that cover as many candidate bytes as the
pattern (cut to 63 bytes) has, at strictly ascending offsets inside the
candidate; the covered bytes, lowercased, spell the lowercased pattern; and where
a covered byte of the role `RTail` is aligned to a pattern byte of the role
`RHead`, that is the first pattern byte, and the lowercased candidate from that
offset begins with the first 3 bytes of the lowercased pattern (all of it if it
is shorter). -/
theorem ranges_explain_match (rr : List Nat → List RuneRole) (P : List Nat)
    (hist : List (List (List Nat))) (chunks : List (List Nat)) (hne : P.take 63 ≠ [])
    (hm : matchedAfter rr P hist chunks = some true) :
    ∃ rs, rangesAfter rr P hist chunks = some rs ∧
      (coveredOffsets rs).length = (P.take 63).length ∧
      (coveredOffsets rs).Pairwise (· < ·) ∧
      (∀ c ∈ coveredOffsets rs, c < (candidateOf chunks).length) ∧
      toLower ((coveredOffsets rs).map (fun c => (candidateOf chunks).getD c 0)) =
        toLower (P.take 63) ∧
      ∀ t, t < (P.take 63).length →
        (rr (candidateOf chunks)).getD ((coveredOffsets rs).getD t 0) RNone = RTail →
        (rr (P.take 63)).getD t RNone = RHead →
        t = 0 ∧ ((toLower (P.take 63)).take 3).isPrefixOf
          ((toLower (candidateOf chunks)).drop ((coveredOffsets rs).getD t 0)) = true := by
  obtain ⟨hsub, hr, hp⟩ := matchedAfter_true rr P hist chunks hne hm
  have h0 := pattern_length_ne_zero rr P hne
  have hlen : (NewMatcher rr P).pattern.length = (P.take 63).length := by
    rw [NewMatcher_pattern]
  have hr' := hr
  rw [rawScore_eq] at hr'
  obtain ⟨out, ho, _⟩ := scored_MatchedRanges_some rr (NewMatcher rr P) (candidateOf chunks)
    (NewMatcher_pattern_length_le rr P) (candidateOf_length_le chunks) h0 hr'
  have hw := scored_MatchedRanges_walk rr (NewMatcher rr P) (candidateOf chunks) h0 hr'
  rw [ho] at hw
  obtain ⟨cs, h1, h2, h3, h4, h5⟩ := rangesWalk_covered
    ((NewMatcher rr P).scored rr (candidateOf chunks))
    { NewMatcher rr P with roles := rr (candidateOf chunks) } (candidateOf chunks)
    (toLower (candidateOf chunks)) rfl (candidateOf chunks).length
    (NewMatcher rr P).pattern.length
    (((NewMatcher rr P).scored rr (candidateOf chunks)).bestK (candidateOf chunks).length
      (NewMatcher rr P).pattern.length) [] out.reverse
    (candidateOf_length_le chunks) (NewMatcher_pattern_length_le rr P) (bestK_lt _ _ _)
    (scored_isReal rr (NewMatcher rr P) (candidateOf chunks)
      (NewMatcher_pattern_length_le rr P) (candidateOf_length_le chunks) hr')
    trivial hw.symm
  have hcs : coveredOffsets out.reverse = cs := by
    rw [h1]
    exact List.append_nil cs
  rw [hlen] at h2 h5
  have key : ∀ t, t < (P.take 63).length →
      (toLower (candidateOf chunks)).getD (cs.getD t 0) 0 = (toLower (P.take 63)).getD t 0 ∧
      ((rr (candidateOf chunks)).getD (cs.getD t 0) RNone = RTail →
        (rr (P.take 63)).getD t RNone = RHead →
        t = 0 ∧ ((toLower (P.take 63)).take 3).isPrefixOf
          ((toLower (candidateOf chunks)).drop (cs.getD t 0)) = true) := by
    intro t ht
    have hn := h5 t ht
    unfold noMatch at hn
    have e1 : ({ NewMatcher rr P with roles := rr (candidateOf chunks) } : Matcher).patternLower =
        toLower (P.take 63) := NewMatcher_patternLower rr P
    have e2 : ({ NewMatcher rr P with roles := rr (candidateOf chunks) } : Matcher).patternRoles =
        rr (P.take 63) := NewMatcher_patternRoles rr P
    have e3 : ({ NewMatcher rr P with roles := rr (candidateOf chunks) } : Matcher).patternShort =
        (toLower (P.take 63)).take 3 := NewMatcher_patternShort_eq rr P
    have e4 : ({ NewMatcher rr P with roles := rr (candidateOf chunks) } : Matcher).roles =
        rr (candidateOf chunks) := rfl
    rw [e1, e2, e3, e4, Nat.add_sub_cancel, Nat.add_sub_cancel] at hn
    push_neg at hn
    refine ⟨hn.1.2, fun ht1 ht2 => ?_⟩
    have h6 := hn.2 ht1 ht2
    exact ⟨by omega, h6.2⟩
  refine ⟨out.reverse, ?_, ?_, ?_, ?_, ?_, ?_⟩
  · rw [after_ranges_scored rr P hist chunks hne hsub hr hp]
    exact ho
  · rw [hcs, h2]
  · rw [hcs]
    exact h3
  · rw [hcs]
    exact h4
  · rw [hcs, toLower_map_getD _ _ h4]
    apply List.ext_getElem
    · rw [List.length_map, h2, toLower_length]
    · intro t ht1 ht2
      rw [toLower_length] at ht2
      rw [List.getElem_map, ← List.getD_eq_getElem cs 0 (by rw [h2]; exact ht2),
        ← List.getD_eq_getElem (toLower (P.take 63)) 0 (by rw [toLower_length]; exact ht2)]
      exact (key t ht2).1
  · intro t ht
    rw [hcs]
    exact (key t ht).2

set_option maxRecDepth 1000000 in
/-- C24, witness at the pattern `fb` and the candidate `foo.bar`: the call leaves
the candidate matched and the ranges `[0,1)` and `[4,5)` cover the bytes `f` and
`b`. -/
theorem ranges_explain_match_witness :
    List.take 63 [102, 98] ≠ [] ∧
    matchedAfter RuneRoles [102, 98] [] [[102, 111, 111, 46, 98, 97, 114]] = some true ∧
    rangesAfter RuneRoles [102, 98] [] [[102, 111, 111, 46, 98, 97, 114]] = some [0, 1, 4, 5] ∧
    ∃ rs, rangesAfter RuneRoles [102, 98] [] [[102, 111, 111, 46, 98, 97, 114]] = some rs ∧
      (coveredOffsets rs).length = (List.take 63 [102, 98]).length ∧
      (coveredOffsets rs).Pairwise (· < ·) ∧
      (∀ c ∈ coveredOffsets rs,
        c < (candidateOf [[102, 111, 111, 46, 98, 97, 114]]).length) ∧
      toLower ((coveredOffsets rs).map
          (fun c => (candidateOf [[102, 111, 111, 46, 98, 97, 114]]).getD c 0)) =
        toLower (List.take 63 [102, 98]) ∧
      ∀ t, t < (List.take 63 [102, 98]).length →
        (RuneRoles (candidateOf [[102, 111, 111, 46, 98, 97, 114]])).getD
          ((coveredOffsets rs).getD t 0) RNone = RTail →
        (RuneRoles (List.take 63 [102, 98])).getD t RNone = RHead →
        t = 0 ∧ ((toLower (List.take 63 [102, 98])).take 3).isPrefixOf
          ((toLower (candidateOf [[102, 111, 111, 46, 98, 97, 114]])).drop
            ((coveredOffsets rs).getD t 0)) = true :=
  ⟨by decide, by decide!, by decide!,
    ranges_explain_match RuneRoles [102, 98] [] [[102, 111, 111, 46, 98, 97, 114]]
      (by decide) (by decide!)⟩

/-- C25. The last-segment bonus of `computeScore`. In the row of the candidate
byte at index `p` the character score of every cell contains the bonus `+1`
exactly when `lastSegStart ≤ p + 1`, where `lastSegStart` is the offset just
after the last separator-role byte (`0` if there is none): that is when
`p ≥ lastSegStart`, and also when `p` is the last separator-role byte itself,
which lies in front of the final segment. -/
theorem last_segment_bonus (m : Matcher) (candidate : List Nat) (p j : Nat)
    (hp : p < candidate.length) :
    charScoreOf m candidate (p + 1) j (m.roles.getD p RNone)
        (segmentsLeftAt m candidate (p + 1)) =
      charScoreOf m candidate (p + 1) j (m.roles.getD p RNone) 2 +
        (if lastSegStartOf m candidate ≤ p + 1 then 1 else 0) ∧
    (lastSegStartOf m candidate ≤ p + 1 ↔
      lastSegStartOf m candidate ≤ p ∨
        (p + 1 = lastSegStartOf m candidate ∧ m.roles.getD p RNone = RSep)) ∧
    (lastSegStartOf m candidate = 0 ∨
      m.roles.getD (lastSegStartOf m candidate - 1) RNone = RSep) ∧
    (∀ t, lastSegStartOf m candidate ≤ t → t < candidate.length →
      m.roles.getD t RNone ≠ RSep) := by
  have hiff := segmentsLeftAt_le_one_iff m candidate (p + 1) hp
  obtain ⟨h1, h2, h3⟩ := segFold_snd m.roles candidate.length
  refine ⟨?_, ?_, h2, h3⟩
  · unfold charScoreOf
    by_cases hb : lastSegStartOf m candidate ≤ p + 1
    · have hs : segmentsLeftAt m candidate (p + 1) ≤ 1 := hiff.2 hb
      have h2n : ¬ (2 ≤ 1) := by decide
      simp only [if_pos hs, if_pos hb, if_neg h2n]
      split_ifs <;> ring
    · have hs : ¬ segmentsLeftAt m candidate (p + 1) ≤ 1 := fun h => hb (hiff.1 h)
      have h2n : ¬ (2 ≤ 1) := by decide
      simp only [if_neg hs, if_neg hb, if_neg h2n]
      split_ifs <;> ring
  · constructor
    · intro h
      by_cases hq : lastSegStartOf m candidate ≤ p
      · exact Or.inl hq
      · have he : p + 1 = lastSegStartOf m candidate := by omega
        refine Or.inr ⟨he, ?_⟩
        rcases h2 with h2 | h2
        · exfalso
          have : lastSegStartOf m candidate = 0 := h2
          omega
        · have h2b : m.roles.getD (lastSegStartOf m candidate - 1) RNone = RSep := h2
          rw [← he, Nat.add_sub_cancel] at h2b
          exact h2b
    · rintro (h | ⟨h, _⟩) <;> omega

set_option maxRecDepth 1000000 in
/-- C25, witness at the pattern `.` and the candidate `a.b`, for the separator
at index `1`: the last segment starts at offset `2`, and the separator in front
of it receives the bonus. -/
theorem last_segment_bonus_witness :
    1 < [97, 46, 98].length ∧
    lastSegStartOf ((NewMatcher RuneRoles [46]).prepared RuneRoles [97, 46, 98])
      [97, 46, 98] = 2 ∧
    charScoreOf ((NewMatcher RuneRoles [46]).prepared RuneRoles [97, 46, 98])
        [97, 46, 98] 2 1 RSep
        (segmentsLeftAt ((NewMatcher RuneRoles [46]).prepared RuneRoles [97, 46, 98])
          [97, 46, 98] 2) =
      charScoreOf ((NewMatcher RuneRoles [46]).prepared RuneRoles [97, 46, 98])
        [97, 46, 98] 2 1 RSep 2 + 1 :=
  ⟨by decide, by decide!,
   (last_segment_bonus ((NewMatcher RuneRoles [46]).prepared RuneRoles [97, 46, 98])
      [97, 46, 98] 1 1 (by decide)).1⟩

set_option maxRecDepth 1000000 in
/-- C25, the divergence at the pattern `.` and the candidate `a.b`. The last
segment starts at offset `2`, so the separator at index `1` is not in it; still
`segmentsLeft` is `1` in its row, the match of the separator receives the bonus,
and the raw score is `1` and the score `1/4`, where they would be `0` without
the bonus. -/
theorem last_segment_bonus_at_separator :
    RuneRoles [97, 46, 98] = [RHead, RSep, RHead] ∧
    lastSegStartOf ((NewMatcher RuneRoles [46]).prepared RuneRoles [97, 46, 98])
      [97, 46, 98] = 2 ∧
    segmentsLeftAt ((NewMatcher RuneRoles [46]).prepared RuneRoles [97, 46, 98])
      [97, 46, 98] 2 = 1 ∧
    charScoreOf ((NewMatcher RuneRoles [46]).prepared RuneRoles [97, 46, 98])
      [97, 46, 98] 2 1 RSep 1 = 2 ∧
    charScoreOf ((NewMatcher RuneRoles [46]).prepared RuneRoles [97, 46, 98])
      [97, 46, 98] 2 1 RSep 2 = 1 ∧
    rawScore RuneRoles [46] [[97, 46, 98]] = 1 ∧
    rangesAfter RuneRoles [46] [] [[97, 46, 98]] = some [1, 2] ∧
    scoreAfter RuneRoles [46] [] [[97, 46, 98]] = some (1 / 4) := by
  decide!

/-- C26. Index safety. With a length-preserving role classifier, for every
pattern, every state of the matcher built for it (any earlier calls, any stale
table) and every list of chunks, `ScoreChunks` followed by `MatchedRanges`
performs no access out of range: the functions in which every index into the
table (rows `0..127`, columns `0..63`, two states), the candidate, the pattern
and the roles is checked return, and return what the functions without the
checks return. Whenever `computeScore` returns a value above `minScore/2` (the
case in which `poorMatch` runs), the walk of `poorMatch` stops with a column that
is not negative, and that is `0` if it stops in row `0`. Whenever the call
leaves `lastCandidateMatched` set on a non-empty pattern, the sentinel guard of
`MatchedRanges` is not taken and its walk stops in column `0`. -/
theorem index_safety (rr : List Nat → List RuneRole) (hrr : ∀ c, (rr c).length = c.length)
    (P : List Nat) (m : Matcher) (hm : m.compiledAs (NewMatcher rr P))
    (chunks : List (List Nat)) :
    ∃ (m' : Matcher) (s : ℚ) (rs : List Nat),
      m.ScoreChunksChecked rr chunks = some (m', s) ∧ m.ScoreChunks rr chunks = some (m', s) ∧
      m'.MatchedRangesChecked = some rs ∧ m'.MatchedRanges = some rs ∧
      (minScore / 2 < ((m.prepared rr (candidateOf chunks)).computeScore (candidateOf chunks)
          (toLower (candidateOf chunks))).2 →
        ∃ (b : Bool) (i' : Nat) (j' : Int),
          poorMatchLoopChecked
            ((m.prepared rr (candidateOf chunks)).computeScore (candidateOf chunks)
              (toLower (candidateOf chunks))).1
            (candidateOf chunks).length (m.pattern.length : Int)
            (((m.prepared rr (candidateOf chunks)).computeScore (candidateOf chunks)
              (toLower (candidateOf chunks))).1.bestK (candidateOf chunks).length
              m.pattern.length) 0 0 = some (b, i', j') ∧
          0 ≤ j' ∧ (i' = 0 → j' = 0)) ∧
      (m'.pattern.length ≠ 0 → m'.lastCandidateMatched = true →
        m'.sentinelGuardChecked = some false ∧
        ∃ out, matchedRangesLoopChecked m' m'.lastCandidateLen (m'.pattern.length : Int)
          (m'.bestK m'.lastCandidateLen m'.pattern.length) [] = some (out, 0)) := by
  have hp63 : m.pattern.length ≤ 63 := by
    rw [hm.1]
    exact NewMatcher_pattern_length_le rr P
  have hpl : m.patternLower.length = m.pattern.length := by
    rw [hm.1, hm.2.1, NewMatcher_patternLower, NewMatcher_pattern, toLower_length]
  have hpr : m.patternRoles.length = m.pattern.length := by
    rw [hm.1, hm.2.2.2.2.1, NewMatcher_patternRoles, NewMatcher_pattern, hrr]
  have hc := candidateOf_length_le chunks
  have hT : ∀ i j k, i ≤ (candidateOf chunks).length → j ≤ m.pattern.length → k < 2 →
      ((m.prepared rr (candidateOf chunks)).computeScore (candidateOf chunks)
        (toLower (candidateOf chunks))).1.scores i j k =
      dpTable (m.prepared rr (candidateOf chunks)) (candidateOf chunks)
        (toLower (candidateOf chunks)) i j k := fun i j k hi hj hk =>
    computeScore_scores _ _ _ i j k hi hj hk
  have hcs := computeScoreChecked_eq (m.prepared rr (candidateOf chunks)) (candidateOf chunks)
    (toLower (candidateOf chunks)) hc (toLower_length _) (hrr _) hp63 hpl hpr
  have hpoor : minScore / 2 < ((m.prepared rr (candidateOf chunks)).computeScore
      (candidateOf chunks) (toLower (candidateOf chunks))).2 →
      (∃ b0, ((m.prepared rr (candidateOf chunks)).computeScore (candidateOf chunks)
          (toLower (candidateOf chunks))).1.poorMatchChecked = some b0 ∧
        ((m.prepared rr (candidateOf chunks)).computeScore (candidateOf chunks)
          (toLower (candidateOf chunks))).1.poorMatch = some b0) ∧
      ∃ (b : Bool) (i' : Nat) (j' : Int),
        poorMatchLoopChecked
          ((m.prepared rr (candidateOf chunks)).computeScore (candidateOf chunks)
            (toLower (candidateOf chunks))).1
          (candidateOf chunks).length (m.pattern.length : Int)
          (((m.prepared rr (candidateOf chunks)).computeScore (candidateOf chunks)
            (toLower (candidateOf chunks))).1.bestK (candidateOf chunks).length
            m.pattern.length) 0 0 = some (b, i', j') ∧
        0 ≤ j' ∧ (i' = 0 → j' = 0) := fun hgt =>
    poorMatchChecked_eq
      ((m.prepared rr (candidateOf chunks)).computeScore (candidateOf chunks)
        (toLower (candidateOf chunks))).1
      (m.prepared rr (candidateOf chunks)) (candidateOf chunks) (toLower (candidateOf chunks))
      hT hc hp63 (le_of_eq (hrr _).symm)
      (computeScore_isReal _ _ _ hc hp63 hgt)
  have hranges : ∀ b : Bool, minScore / 2 < ((m.prepared rr (candidateOf chunks)).computeScore
      (candidateOf chunks) (toLower (candidateOf chunks))).2 →
      (∃ rs, ({ ((m.prepared rr (candidateOf chunks)).computeScore (candidateOf chunks)
          (toLower (candidateOf chunks))).1 with
            lastCandidateMatched := b } : Matcher).MatchedRangesChecked = some rs ∧
        ({ ((m.prepared rr (candidateOf chunks)).computeScore (candidateOf chunks)
          (toLower (candidateOf chunks))).1 with
            lastCandidateMatched := b } : Matcher).MatchedRanges = some rs) ∧
      ({ ((m.prepared rr (candidateOf chunks)).computeScore (candidateOf chunks)
          (toLower (candidateOf chunks))).1 with
            lastCandidateMatched := b } : Matcher).sentinelGuardChecked = some false ∧
      ∃ out, matchedRangesLoopChecked
        ({ ((m.prepared rr (candidateOf chunks)).computeScore (candidateOf chunks)
          (toLower (candidateOf chunks))).1 with lastCandidateMatched := b } : Matcher)
        (candidateOf chunks).length (m.pattern.length : Int)
        (((m.prepared rr (candidateOf chunks)).computeScore (candidateOf chunks)
          (toLower (candidateOf chunks))).1.bestK (candidateOf chunks).length
          m.pattern.length) [] = some (out, 0) := fun b hgt =>
    MatchedRangesChecked_eq
      ({ ((m.prepared rr (candidateOf chunks)).computeScore (candidateOf chunks)
        (toLower (candidateOf chunks))).1 with lastCandidateMatched := b } : Matcher)
      (m.prepared rr (candidateOf chunks)) (candidateOf chunks) (toLower (candidateOf chunks))
      hT hc hp63 (computeScore_isReal _ _ _ hc hp63 hgt)
  by_cases h0 : m.pattern.length = 0
  · obtain ⟨h1, h2⟩ := MatchedRangesChecked_trivial
      ({ m with lastCandidateLen := (candidateOf chunks).length } : Matcher) (Or.inl h0)
    exact ⟨_, _, [], ScoreChunksChecked_empty rr m chunks h0, ScoreChunks_empty rr m chunks h0,
      h1, h2, fun hgt => (hpoor hgt).2, fun hne _ => (hne h0).elim⟩
  · by_cases hl : matchLoop (toLower (candidateOf chunks)) m.patternLower = []
    · by_cases hgt : ((m.prepared rr (candidateOf chunks)).computeScore (candidateOf chunks)
          (toLower (candidateOf chunks))).2 > minScore / 2
      · obtain ⟨⟨b0, hb1, hb2⟩, hwalk⟩ := hpoor hgt
        have e1 := ScoreChunksChecked_match rr m chunks h0 hl
        have e2 := ScoreChunks_match rr m chunks h0 hl
        rw [hcs, Option.some_bind] at e1
        dsimp only at e1
        rw [if_pos hgt, hb1, Option.some_bind] at e1
        rw [if_pos hgt, hb2] at e2
        cases b0 with
        | true =>
          obtain ⟨h1, h2⟩ := MatchedRangesChecked_trivial
            ({ ((m.prepared rr (candidateOf chunks)).computeScore (candidateOf chunks)
              (toLower (candidateOf chunks))).1 with lastCandidateMatched := false } : Matcher)
            (Or.inr rfl)
          exact ⟨_, _, [], e1, e2, h1, h2, fun _ => hwalk, fun _ hf => by cases hf⟩
        | false =>
          obtain ⟨⟨rs, h1, h2⟩, h3, h4⟩ := hranges true hgt
          have hft : ¬ (false = true) := by decide
          rw [if_neg hft] at e1
          dsimp only at e2
          by_cases hlen : m.pattern.length = (candidateOf chunks).length
          · have hlen' : ((m.prepared rr (candidateOf chunks)).computeScore (candidateOf chunks)
                (toLower (candidateOf chunks))).1.pattern.length =
                (candidateOf chunks).length := hlen
            rw [if_pos hlen'] at e1
            rw [if_pos hlen] at e2
            exact ⟨_, _, rs, e1, e2, h1, h2, fun _ => hwalk, fun _ _ => ⟨h3, h4⟩⟩
          · have hlen' : ¬ ((m.prepared rr (candidateOf chunks)).computeScore
                (candidateOf chunks) (toLower (candidateOf chunks))).1.pattern.length =
                (candidateOf chunks).length := hlen
            rw [if_neg hlen'] at e1
            rw [if_neg hlen] at e2
            exact ⟨_, _, rs, e1, e2, h1, h2, fun _ => hwalk, fun _ _ => ⟨h3, h4⟩⟩
      · have e1 := ScoreChunksChecked_match rr m chunks h0 hl
        have e2 := ScoreChunks_match rr m chunks h0 hl
        rw [hcs, Option.some_bind] at e1
        dsimp only at e1
        rw [if_neg hgt] at e1 e2
        obtain ⟨h1, h2⟩ := MatchedRangesChecked_trivial
          ({ ((m.prepared rr (candidateOf chunks)).computeScore (candidateOf chunks)
            (toLower (candidateOf chunks))).1 with lastCandidateMatched := false } : Matcher)
          (Or.inr rfl)
        exact ⟨_, _, [], e1, e2, h1, h2, fun h => (hgt h).elim, fun _ hf => by cases hf⟩
    · obtain ⟨h1, h2⟩ := MatchedRangesChecked_trivial
        ({ m with lastCandidateLen := (candidateOf chunks).length
                  lastCandidateMatched := false } : Matcher) (Or.inr rfl)
      exact ⟨_, _, [], ScoreChunksChecked_nomatch rr m chunks h0 hl,
        ScoreChunks_nomatch rr m chunks h0 hl, h1, h2, fun hgt => (hpoor hgt).2,
        fun _ hf => by cases hf⟩

set_option maxRecDepth 1000000 in
/-- C26, witness at the modelled role classifier, the fresh matcher for the
pattern `fb` and the candidate `foo.bar`: the checked call returns the score
`7/8` and the checked `MatchedRanges` the ranges `[0,1)` and `[4,5)`. -/
theorem index_safety_witness :
    (∀ c, (RuneRoles c).length = c.length) ∧
    (NewMatcher RuneRoles [102, 98]).compiledAs (NewMatcher RuneRoles [102, 98]) ∧
    ((NewMatcher RuneRoles [102, 98]).ScoreChunksChecked RuneRoles
      [[102, 111, 111, 46, 98, 97, 114]]).map (fun r => r.2) = some (7 / 8) ∧
    ((NewMatcher RuneRoles [102, 98]).ScoreChunksChecked RuneRoles
      [[102, 111, 111, 46, 98, 97, 114]]).bind (fun r => r.1.MatchedRangesChecked) =
      some [0, 1, 4, 5] ∧
    ∃ (m' : Matcher) (s : ℚ) (rs : List Nat),
      (NewMatcher RuneRoles [102, 98]).ScoreChunksChecked RuneRoles
          [[102, 111, 111, 46, 98, 97, 114]] = some (m', s) ∧
      (NewMatcher RuneRoles [102, 98]).ScoreChunks RuneRoles
          [[102, 111, 111, 46, 98, 97, 114]] = some (m', s) ∧
      m'.MatchedRangesChecked = some rs ∧ m'.MatchedRanges = some rs ∧
      (minScore / 2 <
          (((NewMatcher RuneRoles [102, 98]).prepared RuneRoles
            (candidateOf [[102, 111, 111, 46, 98, 97, 114]])).computeScore
            (candidateOf [[102, 111, 111, 46, 98, 97, 114]])
            (toLower (candidateOf [[102, 111, 111, 46, 98, 97, 114]]))).2 →
        ∃ (b : Bool) (i' : Nat) (j' : Int),
          poorMatchLoopChecked
            (((NewMatcher RuneRoles [102, 98]).prepared RuneRoles
              (candidateOf [[102, 111, 111, 46, 98, 97, 114]])).computeScore
              (candidateOf [[102, 111, 111, 46, 98, 97, 114]])
              (toLower (candidateOf [[102, 111, 111, 46, 98, 97, 114]]))).1
            (candidateOf [[102, 111, 111, 46, 98, 97, 114]]).length
            ((NewMatcher RuneRoles [102, 98]).pattern.length : Int)
            ((((NewMatcher RuneRoles [102, 98]).prepared RuneRoles
              (candidateOf [[102, 111, 111, 46, 98, 97, 114]])).computeScore
              (candidateOf [[102, 111, 111, 46, 98, 97, 114]])
              (toLower (candidateOf [[102, 111, 111, 46, 98, 97, 114]]))).1.bestK
              (candidateOf [[102, 111, 111, 46, 98, 97, 114]]).length
              (NewMatcher RuneRoles [102, 98]).pattern.length) 0 0 = some (b, i', j') ∧
          0 ≤ j' ∧ (i' = 0 → j' = 0)) ∧
      (m'.pattern.length ≠ 0 → m'.lastCandidateMatched = true →
        m'.sentinelGuardChecked = some false ∧
        ∃ out, matchedRangesLoopChecked m' m'.lastCandidateLen (m'.pattern.length : Int)
          (m'.bestK m'.lastCandidateLen m'.pattern.length) [] = some (out, 0)) :=
  ⟨RuneRoles_length, compiledAs_refl _, by decide!, by decide!,
    index_safety RuneRoles RuneRoles_length [102, 98] (NewMatcher RuneRoles [102, 98])
      (compiledAs_refl _) [[102, 111, 111, 46, 98, 97, 114]]⟩

/-- C27. The raw alignment score never exceeds the normalisation bound: on a
matcher in any state that holds the compiled form of a non-empty pattern,
`computeScore` returns at most `4 * len(pattern)` for every candidate, and the
`float32` product of the clamped value and the scale is at most 1 before the
final `min`, which therefore leaves it unchanged. -/
theorem raw_score_bound (rr : List Nat → List RuneRole) (P : List Nat) (m : Matcher)
    (candidate candidateLower : List Nat) (hne : P.take 63 ≠ [])
    (hm : m.compiledAs (NewMatcher rr P)) :
    (m.computeScore candidate candidateLower).2 ≤ 4 * (m.pattern.length : Int) ∧
      float32 (float32 (((if (m.computeScore candidate candidateLower).2 < 0 then 0
        else (m.computeScore candidate candidateLower).2 : Int)) : ℚ) * m.scoreScale) ≤ 1 ∧
      normalizedScore (if (m.computeScore candidate candidateLower).2 < 0 then 0
          else (m.computeScore candidate candidateLower).2) m.scoreScale =
        float32 (float32 (((if (m.computeScore candidate candidateLower).2 < 0 then 0
          else (m.computeScore candidate candidateLower).2 : Int)) : ℚ) * m.scoreScale) := by
  have hle := computeScore_le m candidate candidateLower
  have hp : m.pattern.length = (NewMatcher rr P).pattern.length := by rw [hm.1]
  have hl : 0 < (NewMatcher rr P).pattern.length :=
    Nat.pos_of_ne_zero (pattern_length_ne_zero rr P hne)
  have h63 := NewMatcher_pattern_length_le rr P
  have hprod : float32 (float32 (((if (m.computeScore candidate candidateLower).2 < 0 then 0
      else (m.computeScore candidate candidateLower).2 : Int)) : ℚ) * m.scoreScale) ≤ 1 := by
    rw [hm.2.2.2.2.2, scoreScale_eq, if_pos hl]
    exact product_le_one _ hl h63 _ (by rw [← hp]; exact hle)
  refine ⟨hle, hprod, ?_⟩
  unfold normalizedScore
  exact min_eq_left hprod

/-- C27, witness at the pattern `a` and the candidate `ba`, on a fresh matcher. -/
theorem raw_score_bound_witness :
    List.take 63 [97] ≠ [] ∧ (NewMatcher RuneRoles [97]).compiledAs (NewMatcher RuneRoles [97]) ∧
      ((NewMatcher RuneRoles [97]).computeScore [98, 97] [98, 97]).2 ≤
        4 * ((NewMatcher RuneRoles [97]).pattern.length : Int) ∧
      float32 (float32 (((if ((NewMatcher RuneRoles [97]).computeScore [98, 97] [98, 97]).2 < 0
          then 0 else ((NewMatcher RuneRoles [97]).computeScore [98, 97] [98, 97]).2 : Int)) : ℚ) *
        (NewMatcher RuneRoles [97]).scoreScale) ≤ 1 ∧
      normalizedScore (if ((NewMatcher RuneRoles [97]).computeScore [98, 97] [98, 97]).2 < 0
          then 0 else ((NewMatcher RuneRoles [97]).computeScore [98, 97] [98, 97]).2)
          (NewMatcher RuneRoles [97]).scoreScale =
        float32 (float32 (((if ((NewMatcher RuneRoles [97]).computeScore [98, 97] [98, 97]).2 < 0
          then 0 else ((NewMatcher RuneRoles [97]).computeScore [98, 97] [98, 97]).2 : Int)) : ℚ) *
          (NewMatcher RuneRoles [97]).scoreScale) :=
  ⟨by decide, compiledAs_refl _,
    raw_score_bound RuneRoles [97] (NewMatcher RuneRoles [97]) [98, 97] [98, 97] (by decide)
      (compiledAs_refl _)⟩

/-- C28. The packed cell encoding round-trips: for every value between `-2 ^ 62`
and `2 ^ 62 - 1` and every predecessor bit, the shift and the addition of
`score` do not wrap around in a Go `int`, and `val` and `prevK` give back the
value and the bit; the initial cell `minScore << 1` decodes to `minScore` and
`0`. -/
theorem score_round_trip (val : Int) (prevK : Nat) (hk : prevK < 2) (hlo : -2 ^ 62 ≤ val)
    (hhi : val < 2 ^ 62) :
    wrapInt64 (wrapInt64 (val * 2) + (prevK : Int)) = score val prevK ∧
      scoreVal.val (score val prevK) = val ∧ scoreVal.prevK (score val prevK) = prevK ∧
      scoreVal.val (minScore * 2) = minScore ∧ scoreVal.prevK (minScore * 2) = 0 := by
  refine ⟨?_, val_score val prevK hk, prevK_score val prevK hk, val_sentinel, ?_⟩
  · unfold wrapInt64 score
    norm_num at hlo hhi ⊢
    omega
  · unfold scoreVal.prevK minScore
    decide

/-- C28, witness at the value `minScore` and the predecessor bit `1`. -/
theorem score_round_trip_witness :
    1 < 2 ∧ -2 ^ 62 ≤ minScore ∧ minScore < 2 ^ 62 ∧
      wrapInt64 (wrapInt64 (minScore * 2) + ((1 : Nat) : Int)) = score minScore 1 ∧
      scoreVal.val (score minScore 1) = minScore ∧ scoreVal.prevK (score minScore 1) = 1 ∧
      scoreVal.val (minScore * 2) = minScore ∧ scoreVal.prevK (minScore * 2) = 0 :=
  ⟨by decide, by decide, by decide,
    score_round_trip minScore 1 (by decide) (by decide) (by decide)⟩

end Fuzzy
